import Mathlib

/-!
# FlowBoxLayout: a shallow embedding of the planning pass and its min-size cache

The definitions below follow `FlowBoxLayout/FlowBoxLayout.h` and
`FlowBoxLayout/FlowBoxLayout.cpp`.

Modelling conventions.

* C++ `int` values are integers (`Int`).  The sums in which the planners add
  up the weights (`total_w`, `exp_weight_sum`), the cast `(int)` of a share
  computed in 64 bits, the sum `wantw` of the width probe and the counter
  `minsize_epoch` are modelled with an explicit 32-bit wrap-around
  (`wrapInt32`), as two's-complement hardware computes them: the weights reach
  these sums unbounded from above, `Expand` and `AddExpand` storing
  `max(1, w)`.  The remaining arithmetic of a planning pass (sizes, positions,
  gaps) is modelled on mathematical integers.
* C++ integer division truncates toward zero: it is `Int.tdiv` / `Int.tmod`.
* A `Ctrl*` is `Option Nat`: `none` is `nullptr`, `some c` is the address of a
  child control.  What the U++ toolkit answers for a child (`GetMinSize`,
  `IsShown`, `dynamic_cast<FlowBoxLayout*>`) is collected in `Env`.
* `Vector<Item> items` is a `List Item`; `items[i]` is `getItem items i`.
-/

namespace Upp

/-- The constant `INT_MAX` of `<limits.h>` for a 32-bit `int`. -/
def INT_MAX : Int := 2147483647

/-- The value of a 32-bit two's-complement `int` holding the integer `v`. -/
def wrapInt32 (v : Int) : Int := (v + 2147483648) % 4294967296 - 2147483648

/-- U++ `Size`: a pair `(cx, cy)`. -/
structure Size where
  cx : Int
  cy : Int
deriving DecidableEq, Repr, Inhabited

/-- U++ `Rect`: the four edges `(left, top, right, bottom)`; the default
constructor clears all four to `0`. -/
structure Rect where
  left : Int := 0
  top : Int := 0
  right : Int := 0
  bottom : Int := 0
deriving DecidableEq, Repr, Inhabited

/-- `Rect::GetWidth()`. -/
def Rect.GetWidth (r : Rect) : Int := r.right - r.left

/-- `Rect::GetHeight()`. -/
def Rect.GetHeight (r : Rect) : Int := r.bottom - r.top

/-- `Rect::GetSize()`. -/
def Rect.GetSize (r : Rect) : Size := ⟨r.GetWidth, r.GetHeight⟩

/-- `Rect::IsEmpty()`: no interior. -/
def Rect.IsEmpty (r : Rect) : Bool := decide (r.right ≤ r.left) || decide (r.bottom ≤ r.top)

/-- `RectC(x, y, cx, cy)`: the rectangle with origin `(x, y)` and size `(cx, cy)`. -/
def RectC (x y cx cy : Int) : Rect := ⟨x, y, x + cx, y + cy⟩

/-- `enum Direction { H, V }`. -/
inductive Direction where
  | H
  | V
deriving DecidableEq, Repr, Inhabited

/-- `enum Align { Auto, Stretch, Start, Center, End }`. -/
inductive Align where
  | Auto
  | Stretch
  | Start
  | Center
  | End
deriving DecidableEq, Repr, Inhabited

/-- `Item::TransientLayoutCache`, reset at the start of each `PreLayoutCalc`. -/
structure TransientLayoutCache where
  visible : Bool := false
  spacer : Bool := false
  breakMark : Bool := false
  rowOrCol : Int := -1
  cell : Rect := {}
  content : Rect := {}
deriving DecidableEq, Repr, Inhabited

/-- `FlowBoxLayout::Item` with the member initialisers of the header. -/
structure Item where
  c : Option Nat := none
  fixed : Int := -1
  expandingWeight : Int := 0
  fit : Bool := false
  is_break : Bool := false
  minw : Int := -1
  maxw : Int := 2048
  minh : Int := -1
  maxh : Int := INT_MAX
  align_self : Align := Align.Auto
  cachedMinSize : Size := ⟨0, 0⟩
  ms_epoch : Int := 0
  ms_valid : Bool := false
  cl : TransientLayoutCache := {}
deriving DecidableEq, Repr

instance : Inhabited Item := ⟨{}⟩

/-- The data members of `class FlowBoxLayout` with their initialisers. -/
structure FlowBoxLayout where
  items : List Item := []
  dir : Direction := Direction.V
  gap : Int := 0
  inset : Rect := ⟨0, 0, 0, 0⟩
  wrap : Bool := false
  wrap_auto_resize : Bool := false
  wrap_rows_expand : Bool := false
  used_w : Int := 0
  used_h : Int := 0
  layout_pause : Int := 0
  minsize_epoch : Int := 1
  plan_inner : Size := ⟨0, 0⟩
  plan_gen : Int := 0
  cur_gen : Int := 0
  align_items : Align := Align.Stretch
  fixed_column : Int := -1
  fixed_row : Int := -1
  debug : Bool := false
deriving Repr

/-- What the toolkit answers about the child controls during one call:
`GetMinSize c` is `c->GetMinSize()`, `IsShown c` is `c->IsShown()`, and
`flowChild c` is the object `dynamic_cast<FlowBoxLayout*>(c)` points to, when
the cast succeeds. -/
structure Env where
  GetMinSize : Nat → Size
  IsShown : Nat → Bool
  flowChild : Nat → Option FlowBoxLayout

/-- `items[i]`. -/
def getItem (items : List Item) (i : Nat) : Item := items.getD i default

/-- `FlowBoxLayout::ClampWith`: clamp that ignores a negative ("unset") bound. -/
def ClampWith (minv maxv v : Int) : Int :=
  let v := if minv ≥ 0 then max v minv else v
  if maxv ≥ 0 then min v maxv else v

/-! ## The min-size cache -/

/-- What one call of `GetCtrlMinSize` yields: the returned size, the item as the
call leaves it, and the number of calls of the child's `GetMinSize` it made. -/
structure MinSizeRead where
  size : Size
  item : Item
  queries : Nat

/-- `FlowBoxLayout::GetCtrlMinSize`. -/
def GetCtrlMinSize (env : Env) (minsize_epoch : Int) (it : Item) : MinSizeRead :=
  match it.c with
  | none => ⟨⟨0, 0⟩, it, 0⟩
  | some c =>
    if it.ms_valid = false ∨ it.ms_epoch ≠ minsize_epoch then
      let ms := env.GetMinSize c
      ⟨ms, { it with cachedMinSize := ms, ms_epoch := minsize_epoch, ms_valid := true }, 1⟩
    else
      ⟨it.cachedMinSize, it, 0⟩

/-- The loop of `FlowBoxLayout::InvalidateMinSize`: the first item bound to the
control `c` loses its validity flag. -/
def invalidateFirst (c : Nat) : List Item → List Item
  | [] => []
  | it :: rest =>
    if it.c = some c then { it with ms_valid := false } :: rest
    else it :: invalidateFirst c rest

/-- `FlowBoxLayout::InvalidateMinSize`. -/
def InvalidateMinSize (fb : FlowBoxLayout) (c : Nat) : FlowBoxLayout :=
  { fb with items := invalidateFirst c fb.items }

/-- `FlowBoxLayout::InvalidateAllMinSizes`: `++minsize_epoch` on a 32-bit
`int`, then the reset when the counter has reached `INT_MAX`. -/
def InvalidateAllMinSizes (fb : FlowBoxLayout) : FlowBoxLayout :=
  let e := wrapInt32 (fb.minsize_epoch + 1)
  if e = INT_MAX then
    { fb with minsize_epoch := 1,
              items := fb.items.map (fun it => { it with ms_valid := false }) }
  else
    { fb with minsize_epoch := e }

/-- A read of the min size of `items[i]` through `GetCtrlMinSize`, as the
planning passes perform it: the item is replaced by the one the call leaves. -/
def readMinSize (env : Env) (fb : FlowBoxLayout) (i : Nat) : FlowBoxLayout :=
  { fb with items := fb.items.set i (GetCtrlMinSize env fb.minsize_epoch (getItem fb.items i)).item }

/-! ## Planning: shared helpers -/

/-- The lambda `eff_align` of both planners: the item's own alignment unless
it is `Auto`, the container default otherwise. -/
def eff_align (fb : FlowBoxLayout) (it : Item) : Align :=
  if it.align_self ≠ Align.Auto then it.align_self else fb.align_items

/-- The first loop of `PreLayoutCalc`: every item gets a fresh
`TransientLayoutCache`. -/
def resetTransient (items : List Item) : List Item :=
  items.map (fun it => { it with cl := {} })

/-- The test of the "mark visible" loop of `PreLayoutCalc`: the item is a
break or a spacer (`semantic`), or its control is shown (`vis_ctrl`). -/
def participates (env : Env) (it : Item) : Bool :=
  let semantic := it.is_break || (it.c.isNone && !it.is_break)
  let vis_ctrl := match it.c with
    | some c => env.IsShown c
    | none => false
  vis_ctrl || semantic

/-- The body of the "mark visible" loop of `PreLayoutCalc` for one item. -/
def markItem (env : Env) (it : Item) : Item :=
  if participates env it then
    { it with cl := { it.cl with visible := true, spacer := it.c.isNone && !it.is_break } }
  else it

/-- The "mark visible" loop of `PreLayoutCalc`. -/
def markVisible (env : Env) (items : List Item) : List Item :=
  items.map (markItem env)

/-- The counter `visible_semantic` after the "mark visible" loop. -/
def visibleCount (env : Env) (items : List Item) : Nat :=
  (items.filter (participates env)).length

/-- The statements that compute a share in each of the three distribution
loops: `share = (int)((int64)remainder * weight / total);
if(share == 0 && rem > 0) share = 1; share = min(share, rem);`.  The product
and the quotient are 64-bit, which two `int` factors cannot overflow; the cast
`(int)` keeps the low 32 bits. -/
def shareOf (remainder weight total rem : Int) : Int :=
  let share := wrapInt32 (Int.tdiv (remainder * weight) total)
  let share := if share = 0 ∧ rem > 0 then 1 else share
  min share rem

/-- The statements that serve one weighted box entry in the distribution loops
of both planners: `rem -= share; nw = ClampWith(lo, hi, old + share);
consumed = nw - old; if(consumed < share) rem += (share - consumed);`.
Returns the new size and the pool after. -/
def serve (lo hi old share rem : Int) : Int × Int :=
  let rem1 := rem - share
  let nw := ClampWith lo hi (old + share)
  let consumed := nw - old
  (nw, if consumed < share then rem1 + (share - consumed) else rem1)

/-! ## Planning: vertical -/

/-- `struct VCell { int idx; int h; int wshare; }` of `LayoutVertical`. -/
structure VCell where
  idx : Nat
  h : Int
  wshare : Int
deriving DecidableEq, Repr

/-- The `it.fit` branch of `LayoutVertical`: the cached min height, raised to
the height a nested horizontal, wrapping, auto-resizing `FlowBoxLayout` child
wants at the available width.  `probe` is the child's `PreLayoutCalc`. -/
def fitHeight (env : Env) (probe : FlowBoxLayout → Rect → FlowBoxLayout)
    (inner_w : Int) (it : Item) (ms : Size) : Int :=
  match it.c with
  | none => ms.cy
  | some c =>
    match env.flowChild c with
    | none => ms.cy
    | some child =>
      if child.dir = Direction.H ∧ child.wrap = true ∧ child.wrap_auto_resize = true then
        let child_inner_w := max 0 (inner_w - child.inset.left - child.inset.right)
        let planned := probe child (RectC 0 0 child_inner_w INT_MAX)
        let wanth := planned.used_h + child.inset.top + child.inset.bottom
        max ms.cy wanth
      else ms.cy

/-- The body of the "build cells" loop of `LayoutVertical` for the item at
index `i`: the item as the body leaves it, and the cell it adds (none for an
item that does not participate). -/
def vItem (fb : FlowBoxLayout) (env : Env) (probe : FlowBoxLayout → Rect → FlowBoxLayout)
    (inner_w : Int) (i : Nat) (it : Item) : Item × Option VCell :=
  if it.cl.visible = false then (it, none)
  else if fb.fixed_row ≥ 0 then
    (it, some ⟨i, fb.fixed_row, 0⟩)
  else if it.is_break = true then
    let h := max fb.gap 0
    let wshare := if it.expandingWeight ≤ 0 then 1 else 0
    (it, some ⟨i, ClampWith it.minh it.maxh h, wshare⟩)
  else if it.cl.spacer = true then
    (it, some ⟨i, ClampWith it.minh it.maxh 0, max 1 it.expandingWeight⟩)
  else
    let rd := GetCtrlMinSize env fb.minsize_epoch it
    let ms := rd.size
    let h :=
      if it.fixed ≥ 0 then it.fixed
      else if it.fit = true then fitHeight env probe inner_w it ms
      else if it.expandingWeight > 0 then 0
      else ms.cy
    let wshare := if it.expandingWeight > 0 then max 1 it.expandingWeight else 0
    (rd.item, some ⟨i, ClampWith it.minh it.maxh h, wshare⟩)

/-- The "build cells" loop of `LayoutVertical`, from index `i` on: the items
as the loop leaves them and the cells in order.  The running sums
`base_sum_h` and `exp_weight_sum` of the loop are the sums of `h` and of
`wshare` over these cells. -/
def vBuild (fb : FlowBoxLayout) (env : Env) (probe : FlowBoxLayout → Rect → FlowBoxLayout)
    (inner_w : Int) : Nat → List Item → List Item × List VCell
  | _, [] => ([], [])
  | i, it :: rest =>
    let r := vItem fb env probe inner_w i it
    let t := vBuild fb env probe inner_w (i + 1) rest
    (r.1 :: t.1, r.2.toList ++ t.2)

/-- The first distribution loop of `LayoutVertical` (weighted shares of
`remainder`), started with the running pool `rem`; it stops (`break`) when the
pool is empty after a cell was served.  Returns the cells and the pool left. -/
def vDistribute (items : List Item) (remainder exp_weight_sum : Int) :
    Int → List VCell → List VCell × Int
  | rem, [] => ([], rem)
  | rem, c :: rest =>
    if c.wshare ≤ 0 then
      let t := vDistribute items remainder exp_weight_sum rem rest
      (c :: t.1, t.2)
    else
      let it := getItem items c.idx
      let s := serve it.minh it.maxh c.h (shareOf remainder c.wshare exp_weight_sum rem) rem
      if s.2 = 0 then ({ c with h := s.1 } :: rest, s.2)
      else
        let t := vDistribute items remainder exp_weight_sum s.2 rest
        ({ c with h := s.1 } :: t.1, t.2)

/-- The room of a cell in the second distribution loop of `LayoutVertical`:
`(it.maxh >= 0 ? it.maxh : INT_MAX) - cells[k].h`. -/
def roomOf (it : Item) (h : Int) : Int :=
  (if it.maxh ≥ 0 then it.maxh else INT_MAX) - h

/-- The second distribution loop of `LayoutVertical`: what is left in the pool
is handed, in order, to weighted cells that still have room below their max
cap; the loop ends when the pool is empty. -/
def vLeftover (items : List Item) : Int → List VCell → List VCell
  | _, [] => []
  | rem, c :: rest =>
    if rem > 0 then
      if c.wshare ≤ 0 ∨ roomOf (getItem items c.idx) c.h ≤ 0 then
        c :: vLeftover items rem rest
      else
        let take := min (roomOf (getItem items c.idx) c.h) rem
        { c with h := c.h + take } :: vLeftover items (rem - take) rest
    else c :: rest

/-- The "distribute remainder" block of `LayoutVertical`.  The build loop adds
the weights up in `int exp_weight_sum` (`exp_weight_sum += c.wshare`), a 32-bit
sum that wraps around: as addition modulo `2^32` commutes with wrapping, the
variable holds the wrapped sum of the weights. -/
def vDistributeAll (fb : FlowBoxLayout) (items : List Item) (inner_h : Int)
    (cells : List VCell) : List VCell :=
  let base_sum_h := (cells.map (fun c => c.h)).sum
  let exp_weight_sum := wrapInt32 (cells.map (fun c => c.wshare)).sum
  let gaps_total := max 0 ((cells.length : Int) - 1) * fb.gap
  let remainder := if fb.fixed_row ≥ 0 then 0 else max 0 (inner_h - (base_sum_h + gaps_total))
  if fb.fixed_row < 0 ∧ exp_weight_sum > 0 ∧ remainder > 0 then
    let d := vDistribute items remainder exp_weight_sum remainder cells
    if d.2 > 0 then vLeftover items d.2 d.1 else d.1
  else cells

/-- The loop state of the placement loop of `LayoutVertical`. -/
structure VPlace where
  items : List Item
  y : Int
  max_w : Int

/-- The body of the placement loop of `LayoutVertical` for the cell at
position `k`; `more` says whether `k + 1 < cells.GetCount()`. -/
def vPlaceCell (fb : FlowBoxLayout) (env : Env) (irc : Rect) (inner_w : Int)
    (k : Nat) (c : VCell) (more : Bool) (st : VPlace) : VPlace :=
  let it := getItem st.items c.idx
  let cell : Rect := ⟨irc.left, st.y, irc.right, st.y + c.h⟩
  let y2 := if more then st.y + c.h + fb.gap else st.y + c.h
  match it.c with
  | some _ =>
    let rd := GetCtrlMinSize env fb.minsize_epoch it
    let ms := rd.size
    let ha := eff_align fb it
    let natural_w := ClampWith it.minw it.maxw (if it.fixed ≥ 0 then it.fixed else ms.cx)
    let cw := if ha = Align.Stretch ∨ ha = Align.Auto then ClampWith it.minw it.maxw inner_w
              else min natural_w inner_w
    let cx := if ha = Align.Center ∧ cw < inner_w then irc.left + Int.tdiv (inner_w - cw) 2
              else if ha = Align.End ∧ cw < inner_w then irc.right - cw
              else irc.left
    let content : Rect := ⟨cx, st.y, cx + cw, st.y + c.h⟩
    let it2 := { rd.item with cl := { rd.item.cl with cell := cell, rowOrCol := (k : Int),
                                                       content := content } }
    ⟨st.items.set c.idx it2, y2, max st.max_w cw⟩
  | none =>
    let it2 := { it with cl := { it.cl with cell := cell, rowOrCol := (k : Int),
                                             content := ⟨0, 0, 0, 0⟩ } }
    ⟨st.items.set c.idx it2, y2, st.max_w⟩

/-- The placement loop of `LayoutVertical`, from position `k` on. -/
def vPlace (fb : FlowBoxLayout) (env : Env) (irc : Rect) (inner_w : Int) :
    Nat → List VCell → VPlace → VPlace
  | _, [], st => st
  | k, c :: rest, st =>
    vPlace fb env irc inner_w (k + 1) rest
      (vPlaceCell fb env irc inner_w k c (!rest.isEmpty) st)

/-- `FlowBoxLayout::LayoutVertical`. -/
def LayoutVertical (fb : FlowBoxLayout) (env : Env) (probe : FlowBoxLayout → Rect → FlowBoxLayout)
    (irc : Rect) (inner_w inner_h : Int) : FlowBoxLayout :=
  let b := vBuild fb env probe inner_w 0 fb.items
  let cells := vDistributeAll fb b.1 inner_h b.2
  let p := vPlace fb env irc inner_w 0 cells ⟨b.1, irc.top, 0⟩
  { fb with items := p.items, used_w := p.max_w, used_h := min inner_h (p.y - irc.top) }

/-! ## Planning: horizontal -/

/-- `struct RowCell` of `LayoutHorizontal`. -/
structure RowCell where
  idx : Nat
  is_ctrl : Bool := false
  w : Int := 0
  base_h : Int := 0
  hmin : Int := -1
  hmax : Int := INT_MAX
  self_align : Align := Align.Auto
deriving DecidableEq, Repr

/-- `struct GapExp { int idx; int weight; int minw; }` of `LayoutHorizontal`. -/
structure GapExp where
  idx : Nat
  weight : Int
  minw : Int
deriving DecidableEq, Repr

/-- One row of `LayoutHorizontal`: the entries `rows[r]` and `row_gap_exp[r]`
of the two parallel vectors, which always grow together. -/
structure Row where
  cells : List RowCell := []
  gaps : List GapExp := []
deriving DecidableEq, Repr

/-- The loop state of PASS 1 of `LayoutHorizontal`.  The vectors `rows` and
`row_gap_exp` are never empty: `top` is their last entry (`rows.Top()`,
`row_gap_exp.Top()`) and `done` holds the entries before it, so that
`rows.GetCount() - 1` is `done.length`. -/
structure HBuild where
  done : List Row := []
  top : Row := {}
  x_row : Int
  placed : Int := 0

/-- The rows of a PASS 1 state, in order. -/
def HBuild.rows (st : HBuild) : List Row := st.done ++ [st.top]

/-- The test `rows.Top().GetCount() > 0 || row_gap_exp.Top().GetCount() > 0`. -/
def HBuild.topHasContent (st : HBuild) : Bool :=
  decide (st.top.cells.length > 0) || decide (st.top.gaps.length > 0)

/-- The lambda `new_row` of `LayoutHorizontal`. -/
def HBuild.new_row (irc : Rect) (st : HBuild) : HBuild :=
  { done := st.done ++ [st.top], top := {}, x_row := irc.left, placed := 0 }

/-- The statements that end each cell-adding path of PASS 1:
`if(placed > 0) x_row += gap; rows.Top().Add(rc); x_row += rc.w; ++placed;`
(the width added to `x_row` is the one stored in the cell). -/
def HBuild.addCell (gap : Int) (rc : RowCell) (st : HBuild) : HBuild :=
  let x1 := if st.placed > 0 then st.x_row + gap else st.x_row
  { st with top := { st.top with cells := st.top.cells ++ [rc] },
            x_row := x1 + rc.w, placed := st.placed + 1 }

/-- The wrap test of the fixed-column paths of PASS 1: a new row is started when
the cell would end beyond the inner width and the current row has content. -/
def HBuild.wrapFixed (fb : FlowBoxLayout) (irc : Rect) (inner_w cell_w : Int)
    (st : HBuild) : HBuild :=
  if fb.wrap = true then
    let need := if st.placed = 0 then cell_w else (st.x_row - irc.left) + fb.gap + cell_w
    if need > inner_w ∧ st.topHasContent = true then st.new_row irc else st
  else st

/-- The `it.fit` branch of PASS 1: the cached min width, raised to the width a
nested vertical, wrapping, auto-resizing `FlowBoxLayout` child wants at the
available height.  `probe` is the child's `PreLayoutCalc`.  The sum `wantw` is
an `int` and wraps around. -/
def fitWidth (env : Env) (probe : FlowBoxLayout → Rect → FlowBoxLayout)
    (inner_h : Int) (it : Item) (ms : Size) : Int :=
  match it.c with
  | none => ms.cx
  | some c =>
    match env.flowChild c with
    | none => ms.cx
    | some child =>
      if child.dir = Direction.V ∧ child.wrap = true ∧ child.wrap_auto_resize = true then
        let child_inner_h := max 0 (inner_h - child.inset.top - child.inset.bottom)
        let planned := probe child (RectC 0 0 INT_MAX child_inner_h)
        let wantw := wrapInt32 (planned.used_w + child.inset.left + child.inset.right)
        max ms.cx wantw
      else ms.cx

/-- The body of the PASS 1 loop of `LayoutHorizontal` for the item at index
`i`: the item and the loop state as the body leaves them. -/
def hItem (fb : FlowBoxLayout) (env : Env) (probe : FlowBoxLayout → Rect → FlowBoxLayout)
    (irc : Rect) (inner_w inner_h : Int) (i : Nat) (it : Item) (st : HBuild) :
    Item × HBuild :=
  if it.cl.visible = false then (it, st)
  else if fb.wrap = true ∧ it.is_break = true then
    -- wrap + break = newline marker
    ({ it with cl := { it.cl with breakMark := true, rowOrCol := (st.done.length : Int) } },
     if st.topHasContent = true then st.new_row irc else st)
  else if fb.fixed_column ≥ 0 then
    -- fixed-column mode
    let cell_w := fb.fixed_column
    if fb.wrap = false ∧ it.is_break = true then
      let rc : RowCell := { idx := i, is_ctrl := false, w := cell_w, hmin := it.minh,
                            hmax := it.maxh, base_h := 0 }
      ({ it with cl := { it.cl with rowOrCol := (st.done.length : Int) } },
       st.addCell fb.gap rc)
    else if it.cl.spacer = true then
      let st1 := st.wrapFixed fb irc inner_w cell_w
      let rc : RowCell := { idx := i, is_ctrl := false, w := cell_w, hmin := it.minh,
                            hmax := it.maxh, base_h := 0 }
      ({ it with cl := { it.cl with rowOrCol := (st1.done.length : Int) } },
       st1.addCell fb.gap rc)
    else
      let rd := GetCtrlMinSize env fb.minsize_epoch it
      let st1 := st.wrapFixed fb irc inner_w cell_w
      let rc : RowCell := { idx := i, is_ctrl := true, w := cell_w, base_h := rd.size.cy,
                            hmin := it.minh, hmax := it.maxh, self_align := it.align_self }
      ({ rd.item with cl := { rd.item.cl with rowOrCol := (st1.done.length : Int) } },
       st1.addCell fb.gap rc)
  -- fluid mode
  else if fb.wrap = false ∧ it.is_break = true then
    ({ it with cl := { it.cl with rowOrCol := (st.done.length : Int) } },
     { st with top := { st.top with gaps := st.top.gaps ++ [⟨i, 1, max 0 fb.gap⟩] } })
  else if it.cl.spacer = true then
    ({ it with cl := { it.cl with rowOrCol := (st.done.length : Int) } },
     { st with top := { st.top with gaps := st.top.gaps ++ [⟨i, max 1 it.expandingWeight, 0⟩] } })
  else
    let rd := GetCtrlMinSize env fb.minsize_epoch it
    let ms := rd.size
    let base_w0 :=
      if it.fixed ≥ 0 then it.fixed
      else if it.fit = true then fitWidth env probe inner_h it ms
      else if it.expandingWeight > 0 then 0
      else ms.cx
    let base_w := ClampWith it.minw it.maxw base_w0
    let candidate := if st.placed = 0 then base_w else (st.x_row - irc.left) + fb.gap + base_w
    let st1 :=
      if fb.wrap = true ∧ base_w > 0 then
        if candidate > inner_w ∧ st.topHasContent = true then st.new_row irc else st
      else st
    let rc : RowCell := { idx := i, is_ctrl := true, w := base_w, base_h := ms.cy,
                          hmin := it.minh, hmax := it.maxh, self_align := it.align_self }
    ({ rd.item with cl := { rd.item.cl with rowOrCol := (st1.done.length : Int) } },
     st1.addCell fb.gap rc)

/-- PASS 1 of `LayoutHorizontal` (build rows), from index `i` on. -/
def hBuild (fb : FlowBoxLayout) (env : Env) (probe : FlowBoxLayout → Rect → FlowBoxLayout)
    (irc : Rect) (inner_w inner_h : Int) : Nat → List Item → HBuild → List Item × HBuild
  | _, [], st => ([], st)
  | i, it :: rest, st =>
    let r := hItem fb env probe irc inner_w inner_h i it st
    let t := hBuild fb env probe irc inner_w inner_h (i + 1) rest r.2
    (r.1 :: t.1, t.2)

/-- PASS 2A of `LayoutHorizontal`: the base height of one row. -/
def rowBaseHeight (fb : FlowBoxLayout) (inner_h : Int) (R : Row) : Int :=
  let row_h := R.cells.foldl (fun acc rc => max acc (ClampWith rc.hmin rc.hmax rc.base_h)) 0
  let row_h := if fb.fixed_row ≥ 0 then fb.fixed_row else row_h
  if fb.wrap = false ∧ (fb.align_items = Align.Stretch ∨ fb.align_items = Align.Auto)
  then inner_h else row_h

/-- The loop `row_h_final[r] += each + (r < rem ? 1 : 0)` of PASS 2B, from row
`r` on. -/
def addExtra (each rem : Int) : Nat → List Int → List Int
  | _, [] => []
  | r, h :: rest => (h + each + (if (r : Int) < rem then 1 else 0)) :: addExtra each rem (r + 1) rest

/-- PASS 2B of `LayoutHorizontal`: the final row heights from the base ones. -/
def rowHeightsFinal (fb : FlowBoxLayout) (inner_h : Int) (row_h_base : List Int) : List Int :=
  let measuring := inner_h > 100000000
  if fb.wrap = true ∧ fb.wrap_rows_expand = true ∧ ¬ measuring ∧ row_h_base.length > 0 then
    let base_total := row_h_base.sum + max 0 ((row_h_base.length : Int) - 1) * fb.gap
    let extra := max 0 (inner_h - base_total)
    if extra > 0 then
      let each := Int.tdiv extra (row_h_base.length : Int)
      let rem := Int.tmod extra (row_h_base.length : Int)
      addExtra each rem 0 row_h_base
    else row_h_base
  else row_h_base

/-- The "provisional width" of a row in PASS 2C: the cell widths with one gap
before every cell but the first, and one gap plus the base width for every
gap-expander. -/
def rowSumW (gap : Int) (R : Row) : Int :=
  (match R.cells with
   | [] => 0
   | rc :: rest => rc.w + (rest.map (fun c => gap + c.w)).sum)
  + (R.gaps.map (fun g => gap + g.minw)).sum

/-- The sum of the weights of a row in PASS 2C as an integer: `max(1, weight)`
for every cell of an item with a positive weight, and the weight of every
gap-expander. -/
def rowWeightSum (items : List Item) (R : Row) : Int :=
  (R.cells.map (fun rc =>
      let it := getItem items rc.idx
      if it.expandingWeight > 0 then max 1 it.expandingWeight else 0)).sum
  + (R.gaps.map (fun g => g.weight)).sum

/-- The total weight `total_w` of a row in PASS 2C.  The two loops add the
weights up in `int total_w` (`total_w += ...`), a 32-bit sum that wraps around:
as addition modulo `2^32` commutes with wrapping, the variable holds the
wrapped sum of the weights. -/
def rowTotalWeight (items : List Item) (R : Row) : Int :=
  wrapInt32 (rowWeightSum items R)

/-- The loop "controls first" of PASS 2C over the expanding cells of a row
(the cells listed in `exp_idx`, in row order), started with the running pool
`rem`; the loop ends when the pool is empty.  Returns the cells and the pool
left. -/
def hDistCtrls (items : List Item) (remainder total_w : Int) :
    Int → List RowCell → List RowCell × Int
  | rem, [] => ([], rem)
  | rem, rc :: rest =>
    if (getItem items rc.idx).expandingWeight > 0 then
      if rem > 0 then
        let it := getItem items rc.idx
        let s := serve it.minw it.maxw rc.w
                   (shareOf remainder (max 1 it.expandingWeight) total_w rem) rem
        let t := hDistCtrls items remainder total_w s.2 rest
        ({ rc with w := s.1 } :: t.1, t.2)
      else (rc :: rest, rem)
    else
      let t := hDistCtrls items remainder total_w rem rest
      (rc :: t.1, t.2)

/-- The loop "then gaps/spacers" of PASS 2C, started with the pool `rem`. -/
def hDistGaps (remainder total_w : Int) : Int → List GapExp → List GapExp × Int
  | rem, [] => ([], rem)
  | rem, g :: rest =>
    if rem > 0 then
      let share := shareOf remainder g.weight total_w rem
      let t := hDistGaps remainder total_w (rem - share) rest
      ({ g with minw := g.minw + share } :: t.1, t.2)
    else (g :: rest, rem)

/-- The block "distribute width" of PASS 2C for one row: the row with the
widths after distribution. -/
def hDistributeRow (fb : FlowBoxLayout) (items : List Item) (inner_w : Int) (R : Row) : Row :=
  let sum_w := rowSumW fb.gap R
  let remainder := max 0 (inner_w - sum_w)
  if fb.fixed_column < 0 ∧ remainder > 0 then
    let total_w := rowTotalWeight items R
    if total_w > 0 then
      let d := hDistCtrls items remainder total_w remainder R.cells
      let e := hDistGaps remainder total_w d.2 R.gaps
      { cells := d.1, gaps := e.1 }
    else R
  else R

/-- The loop state of the loop "place left→right" of PASS 2C. -/
structure HPlace where
  items : List Item
  x : Int
  placed_in_row : Int

/-- The body of the loop "place left→right" for one cell of row `r`, whose top
is `y` and whose height is `row_h`. -/
def hPlaceCell (fb : FlowBoxLayout) (env : Env) (r : Nat) (y row_h : Int)
    (rc : RowCell) (st : HPlace) : HPlace :=
  let x := if st.placed_in_row > 0 then st.x + fb.gap else st.x
  let it := getItem st.items rc.idx
  -- vertical (cross-axis)
  let ch0 := ClampWith rc.hmin rc.hmax rc.base_h
  let va := eff_align fb it
  let topy :=
    if va = Align.Center then y + Int.tdiv (row_h - ch0) 2
    else if va = Align.End then y + (row_h - ch0)
    else y
  let ch :=
    if va = Align.Center then ch0
    else if va = Align.End then ch0
    else if va = Align.Stretch ∨ va = Align.Auto then ClampWith rc.hmin rc.hmax row_h
    else ch0
  let cell : Rect := ⟨x, y, x + rc.w, y + row_h⟩
  match it.c with
  | some _ =>
    let avail_w := rc.w
    let rd := GetCtrlMinSize env fb.minsize_epoch it
    let ms := rd.size
    let natural_w0 :=
      if it.fixed ≥ 0 then it.fixed
      else if it.fit = true then ms.cx
      else if it.expandingWeight > 0 then avail_w
      else ms.cx
    let natural_w := ClampWith it.minw it.maxw natural_w0
    let ha := eff_align fb it
    let stretch := ha = Align.Stretch ∨ ha = Align.Auto ∨ it.expandingWeight > 0
    let cw := if stretch then avail_w else min natural_w avail_w
    let cx :=
      if stretch then x
      else if ha = Align.Center then x + Int.tdiv (avail_w - cw) 2
      else if ha = Align.End then x + (avail_w - cw)
      else x
    let content : Rect := ⟨cx, topy, cx + cw, topy + ch⟩
    let it2 := { rd.item with cl := { rd.item.cl with cell := cell, rowOrCol := (r : Int),
                                                       content := content } }
    ⟨st.items.set rc.idx it2, x + rc.w, st.placed_in_row + 1⟩
  | none =>
    let it2 := { it with cl := { it.cl with cell := cell, rowOrCol := (r : Int),
                                             content := ⟨0, 0, 0, 0⟩ } }
    ⟨st.items.set rc.idx it2, x + rc.w, st.placed_in_row + 1⟩

/-- The loop "place left→right" of PASS 2C over the cells of row `r`. -/
def hPlaceCells (fb : FlowBoxLayout) (env : Env) (r : Nat) (y row_h : Int) :
    List RowCell → HPlace → HPlace
  | [], st => st
  | rc :: rest, st => hPlaceCells fb env r y row_h rest (hPlaceCell fb env r y row_h rc st)

/-- The loop state of the row loop of PASS 2C. -/
structure HRows where
  items : List Item
  used_w : Int
  used_h : Int
  y : Int

/-- The body of the row loop of PASS 2C for row `r` of final height `row_h`;
`more` says whether `r + 1 < rows.GetCount()`. -/
def hRow (fb : FlowBoxLayout) (env : Env) (irc : Rect) (inner_w : Int)
    (r : Nat) (R : Row) (row_h : Int) (more : Bool) (st : HRows) : HRows :=
  let D := hDistributeRow fb st.items inner_w R
  let p := hPlaceCells fb env r st.y row_h D.cells ⟨st.items, irc.left, 0⟩
  { items := p.items,
    used_w := max st.used_w (p.x - irc.left),
    used_h := max st.used_h ((st.y - irc.top) + row_h),
    y := if more then st.y + row_h + fb.gap else st.y + row_h }

/-- The row loop of PASS 2C, from row `r` on, over the rows paired with their
final heights. -/
def hRows (fb : FlowBoxLayout) (env : Env) (irc : Rect) (inner_w : Int) :
    Nat → List (Row × Int) → HRows → HRows
  | _, [], st => st
  | r, (R, row_h) :: rest, st =>
    hRows fb env irc inner_w (r + 1) rest (hRow fb env irc inner_w r R row_h (!rest.isEmpty) st)

/-- `FlowBoxLayout::LayoutHorizontal`. -/
def LayoutHorizontal (fb : FlowBoxLayout) (env : Env)
    (probe : FlowBoxLayout → Rect → FlowBoxLayout)
    (irc : Rect) (inner_w inner_h : Int) : FlowBoxLayout :=
  let b := hBuild fb env probe irc inner_w inner_h 0 fb.items { x_row := irc.left }
  let rows := b.2.rows
  let row_h_base := rows.map (rowBaseHeight fb inner_h)
  let row_h_final := rowHeightsFinal fb inner_h row_h_base
  let p := hRows fb env irc inner_w 0 (rows.zip row_h_final) ⟨b.1, 0, 0, irc.top⟩
  { fb with items := p.items, used_w := p.used_w, used_h := p.used_h }

/-! ## Planning: entry points -/

/-- The statements of `PreLayoutCalc` before the test of `visible_semantic`:
`plan_inner` is set, the transient caches are reset, the used size is cleared
and the participating items are marked. -/
def planStart (env : Env) (fb : FlowBoxLayout) (irc : Rect) : FlowBoxLayout :=
  { fb with plan_inner := irc.GetSize, items := markVisible env (resetTransient fb.items),
            used_w := 0, used_h := 0 }

/-- `FlowBoxLayout::PreLayoutCalc`, with the `PreLayoutCalc` of nested
`FlowBoxLayout` children given as `probe`. -/
def PreLayoutCalcWith (probe : FlowBoxLayout → Rect → FlowBoxLayout) (env : Env)
    (fb : FlowBoxLayout) (irc : Rect) : FlowBoxLayout :=
  let inner_w := max 0 irc.GetWidth
  let inner_h := max 0 irc.GetHeight
  let fb1 := planStart env fb irc
  if visibleCount env fb.items = 0 then
    { fb1 with plan_gen := fb.cur_gen }
  else
    let fb2 := match fb.dir with
      | Direction.H => LayoutHorizontal fb1 env probe irc inner_w inner_h
      | Direction.V => LayoutVertical fb1 env probe irc inner_w inner_h
    { fb2 with plan_gen := fb.cur_gen }

/-- `FlowBoxLayout::PreLayoutCalc`.  The planners call the `PreLayoutCalc` of a
nested `FlowBoxLayout` child; `depth` bounds the nesting of such calls (a
nested call beyond it leaves the child as it is). -/
def PreLayoutCalc : Nat → Env → FlowBoxLayout → Rect → FlowBoxLayout
  | 0, env, fb, irc => PreLayoutCalcWith (fun child _ => child) env fb irc
  | depth + 1, env, fb, irc => PreLayoutCalcWith (PreLayoutCalc depth env) env fb irc

/-- `FlowBoxLayout::MeasureHeightForWidth`: the container after the probe pass
and the height returned. -/
def MeasureHeightForWidth (depth : Nat) (env : Env) (fb : FlowBoxLayout) (width : Int) :
    FlowBoxLayout × Int :=
  let irc := RectC 0 0 (max 0 (width - fb.inset.left - fb.inset.right)) INT_MAX
  let fb1 := PreLayoutCalc depth env fb irc
  (fb1, fb1.used_h + fb1.inset.top + fb1.inset.bottom)

/-! ## States of the min-size cache -/

/-- The states of the min-size cache reachable from a container whose items
were all freshly added (`minsize_epoch = 1`, every entry invalid with epoch
`0`), through `GetCtrlMinSize` on an item, `InvalidateMinSize` and
`InvalidateAllMinSizes`, and through the insertion of a further fresh item
(as `Add`, `AddExpand`, `AddFixed`, `AddFit`, `AddSpacer` and `AddBreak` do). -/
inductive CacheReachable : FlowBoxLayout → Prop
  | init (fb : FlowBoxLayout) :
      fb.minsize_epoch = 1 →
      (∀ it ∈ fb.items, it.ms_valid = false ∧ it.ms_epoch = 0) →
      CacheReachable fb
  | add (it : Item) (fb : FlowBoxLayout) :
      it.ms_valid = false →
      CacheReachable fb → CacheReachable { fb with items := fb.items ++ [it] }
  | read (env : Env) (i : Nat) (fb : FlowBoxLayout) :
      CacheReachable fb → CacheReachable (readMinSize env fb i)
  | invalidate (c : Nat) (fb : FlowBoxLayout) :
      CacheReachable fb → CacheReachable (InvalidateMinSize fb c)
  | invalidateAll (fb : FlowBoxLayout) :
      CacheReachable fb → CacheReachable (InvalidateAllMinSizes fb)

/-- A sequence of reads, each of some item under some answers of the toolkit. -/
def readMany (ops : List (Env × Nat)) (fb : FlowBoxLayout) : FlowBoxLayout :=
  ops.foldl (fun s op => readMinSize op.1 s op.2) fb

/-- The invariant of the cache: the epoch stays inside `[1, INT_MAX)` and no
valid entry carries an epoch beyond the current one. -/
def CacheInv (fb : FlowBoxLayout) : Prop :=
  1 ≤ fb.minsize_epoch ∧ fb.minsize_epoch < INT_MAX ∧
  ∀ it ∈ fb.items, it.ms_valid = true → it.ms_epoch ≤ fb.minsize_epoch

/-- The entry of item `i` is bound to control `c`, is current, and holds `v`. -/
def CurrentAt (i c : Nat) (v : Size) (s : FlowBoxLayout) : Prop :=
  (getItem s.items i).c = some c ∧ (getItem s.items i).ms_valid = true ∧
  (getItem s.items i).ms_epoch = s.minsize_epoch ∧ (getItem s.items i).cachedMinSize = v

/-! ## Sample data -/

/-- A toolkit in which every control is shown, reports the min size
`(100, 20)` and is not a `FlowBoxLayout`. -/
def sampleEnv : Env := ⟨fun _ => ⟨100, 20⟩, fun _ => true, fun _ => none⟩

/-- The item `AddFixed(c, px)` creates for `px ≥ 0`. -/
def fixedItem (c : Nat) (px : Int) : Item := { c := some c, fixed := px }

/-- The item `AddExpand(c, w)` creates for `w ≥ 1`. -/
def expandItem (c : Nat) (w : Int) : Item := { c := some c, expandingWeight := w }

/-- The item `AddFit(c)` creates. -/
def fitItem (c : Nat) : Item := { c := some c, fit := true }

/-- A nested probe that leaves the child as it is. -/
def noProbe : FlowBoxLayout → Rect → FlowBoxLayout := fun child _ => child

/-- A container with one box item that has been read once. -/
def sampleCacheState : FlowBoxLayout :=
  readMinSize sampleEnv { items := [expandItem 0 1] } 0

/-! ## Predicates used to state the claims -/

/-- The persistent, API-facing configuration of an item: the item with its
min-size cache and its transient layout cache reset. -/
def Item.cfg (it : Item) : Item :=
  { it with cachedMinSize := ⟨0, 0⟩, ms_epoch := 0, ms_valid := false, cl := {} }

/-- The item is bound to a control that is shown. -/
def shownBox (env : Env) (it : Item) : Prop :=
  ∃ c, it.c = some c ∧ env.IsShown c = true ∧ it.is_break = false

/-- Width and height of the rectangle are not negative. -/
def Rect.nonneg (r : Rect) : Prop := 0 ≤ r.GetWidth ∧ 0 ≤ r.GetHeight

/-- How the distribution loops of `LayoutVertical` may change a cell: index and
weight stay, a cell without weight keeps its height, and a height within the
max cap of its item stays within it. -/
def VCellStep (items : List Item) (c c2 : VCell) : Prop :=
  c2.idx = c.idx ∧ c2.wshare = c.wshare ∧ (c.wshare ≤ 0 → c2.h = c.h) ∧
  ((getItem items c.idx).maxh ≥ 0 → c.h ≤ (getItem items c.idx).maxh →
    c2.h ≤ (getItem items c.idx).maxh)

/-- A shown box item with default height caps that is either `Fixed(px)` (with
weight `0`, as `AddFixed` and `ItemRef::Fixed` leave it, and `px` a
non-negative `int`) or `Expand(wt)` (neither fixed nor fit). -/
def FixedOrExpandBox (env : Env) (wt : Int) (it : Item) : Prop :=
  shownBox env it ∧ it.minh = -1 ∧ it.maxh = INT_MAX ∧
  ((0 ≤ it.fixed ∧ it.fixed ≤ INT_MAX ∧ it.expandingWeight = 0) ∨
   (it.fixed < 0 ∧ it.fit = false ∧ it.expandingWeight = wt))

/-- The cells the build loop of `LayoutVertical` is expected to produce, from
index `i` on, for a list of `Fixed` and `Expand` box items: base height `px`
and weight `0` for a fixed item, base height `0` and its weight for an
expanding one. -/
def fixedExpandCells : Nat → List Item → List VCell
  | _, [] => []
  | i, it :: rest =>
    ⟨i, if it.expandingWeight > 0 then 0 else it.fixed,
        if it.expandingWeight > 0 then it.expandingWeight else 0⟩ :: fixedExpandCells (i + 1) rest

/-- The number of expanding items of a list. -/
def expandCount (items : List Item) : Int :=
  ((items.filter (fun it => decide (it.expandingWeight > 0))).length : Int)

/-- The sum of the fixed sizes of the non-expanding items of a list. -/
def fixedSum (items : List Item) : Int :=
  (items.map (fun it => if it.expandingWeight > 0 then 0 else it.fixed)).sum

/-- A `Fixed` or `Expand` box item as the "mark visible" loop leaves it. -/
def MarkedFixedOrExpand (wt : Int) (it : Item) : Prop :=
  it.cl.visible = true ∧ it.cl.spacer = false ∧ it.is_break = false ∧
  it.minh = -1 ∧ it.maxh = INT_MAX ∧
  ((0 ≤ it.fixed ∧ it.fixed ≤ INT_MAX ∧ it.expandingWeight = 0) ∨
   (it.fixed < 0 ∧ it.fit = false ∧ it.expandingWeight = wt))

/-- What the first two loops of `PreLayoutCalc` leave of a shown box item: a
fresh transient cache with the participation flag set. -/
def markedShown (it : Item) : Item :=
  { it with cl := { visible := true, spacer := false } }

/-- The column of the vertical scenario: `Expand(1)`, `Fixed(40)`, `Expand(1)`,
gap `0`. -/
def sampleColumn : FlowBoxLayout :=
  { dir := Direction.V, items := [expandItem 0 1, fixedItem 1 40, expandItem 2 1] }

/-- All cells of a list of rows, row after row. -/
def cellsOfRows : List Row → List RowCell
  | [] => []
  | R :: rest => R.cells ++ cellsOfRows rest

/-- What PASS 1 of `LayoutHorizontal` records in a cell about its item: the
index, the cross-axis caps and the min height read through the cache (`0` for
a cell without control); in fixed-column mode the width is the fixed column,
otherwise it is a base width clamped by the main-axis caps of the item. -/
def CellOf (fb : FlowBoxLayout) (env : Env) (i : Nat) (it : Item) (rc : RowCell) : Prop :=
  rc.idx = i ∧ rc.hmin = it.minh ∧ rc.hmax = it.maxh ∧
  (rc.base_h = 0 ∨ rc.base_h = (GetCtrlMinSize env fb.minsize_epoch it).size.cy) ∧
  (fb.fixed_column ≥ 0 → rc.w = fb.fixed_column) ∧
  (fb.fixed_column < 0 → ∃ b, rc.w = ClampWith it.minw it.maxw b ∧
    ((0 ≤ (GetCtrlMinSize env fb.minsize_epoch it).size.cx) → 0 ≤ b))

/-- How the distribution loop of PASS 2C may change a cell: only the width
changes; a width within the max cap of its item stays within it, and the cell
of an item without weight keeps its width. -/
def RowCellStep (items : List Item) (a b : RowCell) : Prop :=
  b.idx = a.idx ∧ b.is_ctrl = a.is_ctrl ∧ b.base_h = a.base_h ∧ b.hmin = a.hmin ∧
  b.hmax = a.hmax ∧ b.self_align = a.self_align ∧
  ((getItem items a.idx).maxw ≥ 0 → a.w ≤ (getItem items a.idx).maxw →
    b.w ≤ (getItem items a.idx).maxw) ∧
  ((getItem items a.idx).expandingWeight ≤ 0 → b.w = a.w)

/-- The cell of the item is not wider than the item's max width cap, if set. -/
def Item.widthCapped (it : Item) : Prop := it.maxw ≥ 0 → it.cl.cell.GetWidth ≤ it.maxw

/-- The cell of the item is not higher than the item's max height cap, if set. -/
def Item.heightCapped (it : Item) : Prop := it.maxh ≥ 0 → it.cl.cell.GetHeight ≤ it.maxh

/-- The row of the cap scenario: two `Expand(1)` box items, the first with max
width `50`, gap `0`, no wrapping. -/
def sampleCapRow : FlowBoxLayout :=
  { dir := Direction.H, items := [{ expandItem 0 1 with maxw := 50 }, expandItem 1 1] }

/-- The rows PASS 1 of `LayoutHorizontal` builds during `PreLayoutCalc` for the
inner rectangle `irc`. -/
def plannedRows (probe : FlowBoxLayout → Rect → FlowBoxLayout) (env : Env)
    (fb : FlowBoxLayout) (irc : Rect) : List Row :=
  (hBuild (planStart env fb irc) env probe irc (max 0 irc.GetWidth) (max 0 irc.GetHeight) 0
    (planStart env fb irc).items { x_row := irc.left }).2.rows

/-- The container of the wrap scenario: three `Fit` box items, gap `10`,
wrapping on. -/
def sampleFitRow : FlowBoxLayout :=
  { dir := Direction.H, wrap := true, gap := 10, items := [fitItem 0, fitItem 1, fitItem 2] }

/-- Two `Expand(1)` box items with default caps in a container of direction
`d`, gap `0`, no wrapping. -/
def sampleTwoExpand (d : Direction) : FlowBoxLayout :=
  { dir := d, items := [expandItem 0 1, expandItem 1 1] }

/-- Two `Expand(1)` box items in a container of direction `d`, the first with
the max cap `50` on both axes, gap `0`, no wrapping. -/
def sampleCapped (d : Direction) : FlowBoxLayout :=
  { dir := d, items := [{ expandItem 0 1 with maxw := 50, maxh := 50 }, expandItem 1 1] }

/-- One `Fixed(300)` box item in a container of direction `d`. -/
def sampleOverflow (d : Direction) : FlowBoxLayout :=
  { dir := d, items := [fixedItem 0 300] }

/-! ## The layout pass and the public API -/

/-- `FlowBoxLayout::PostLayoutCommit`: the calls `it.c->SetRect(it.cl.content)`
it issues, in item order, each as the control and the rectangle passed. -/
def PostLayoutCommit (fb : FlowBoxLayout) : List (Nat × Rect) :=
  fb.items.filterMap (fun it =>
    if it.cl.visible = false then none
    else match it.c with
      | some c => some (c, it.cl.content)
      | none => none)

/-- What one call of `Layout` (alone or at the end of a mutator) yields: the
container as the call leaves it, the `SetRect` calls issued, whether
`PreLayoutCalc` was run, and whether the body of `Layout` was entered (the call
was made and passed the test of `layout_pause`). -/
structure LayoutRun where
  fb : FlowBoxLayout
  setRects : List (Nat × Rect)
  planned : Bool
  ran : Bool

/-- The rectangle `irc` of `Layout`: `Rect rc = GetSize()` moved inwards by the
inset on each edge. -/
def innerRect (fb : FlowBoxLayout) (sz : Size) : Rect :=
  ⟨0 + fb.inset.left, 0 + fb.inset.top, sz.cx - fb.inset.right, sz.cy - fb.inset.bottom⟩

/-- `FlowBoxLayout::Layout`, for a container whose `GetSize()` is `sz`.  (The
closing `if(debug) Refresh();` only asks the toolkit for a repaint.) -/
def Layout (depth : Nat) (env : Env) (sz : Size) (fb : FlowBoxLayout) : LayoutRun :=
  if fb.layout_pause > 0 then ⟨fb, [], false, false⟩
  else
    let rc : Rect := ⟨0, 0, sz.cx, sz.cy⟩
    if rc.IsEmpty = true then ⟨{ fb with used_w := 0, used_h := 0 }, [], false, true⟩
    else
      let irc := innerRect fb sz
      if irc.IsEmpty = true then ⟨{ fb with used_w := 0, used_h := 0 }, [], false, true⟩
      else if fb.plan_inner ≠ irc.GetSize ∨ fb.plan_gen ≠ fb.cur_gen then
        let fb1 := PreLayoutCalc depth env fb irc
        ⟨fb1, PostLayoutCommit fb1, true, true⟩
      else ⟨fb, PostLayoutCommit fb, false, true⟩

/-- The statements `++cur_gen; if(layout_pause==0) Layout();` that end the
mutators of the public API. -/
def markDirty (depth : Nat) (env : Env) (sz : Size) (fb : FlowBoxLayout) : LayoutRun :=
  let fb1 := { fb with cur_gen := fb.cur_gen + 1 }
  if fb1.layout_pause = 0 then Layout depth env sz fb1 else ⟨fb1, [], false, false⟩

/-- `FlowBoxLayout::SetDirection`. -/
def SetDirection (depth : Nat) (env : Env) (sz : Size) (fb : FlowBoxLayout) (d : Direction) :
    LayoutRun :=
  markDirty depth env sz { fb with dir := d }

/-- `FlowBoxLayout::SetGap`. -/
def SetGap (depth : Nat) (env : Env) (sz : Size) (fb : FlowBoxLayout) (px : Int) : LayoutRun :=
  markDirty depth env sz { fb with gap := max 0 px }

/-- `FlowBoxLayout::SetInset(int l, int t, int r, int b)`; the overloads
`SetInset(wh)` and `SetInset(w, h)` are `SetInset wh wh wh wh` and
`SetInset w h w h`. -/
def SetInset (depth : Nat) (env : Env) (sz : Size) (fb : FlowBoxLayout) (l t r b : Int) :
    LayoutRun :=
  markDirty depth env sz { fb with inset := ⟨l, t, r, b⟩ }

/-- `FlowBoxLayout::SetWrap`. -/
def SetWrap (depth : Nat) (env : Env) (sz : Size) (fb : FlowBoxLayout) (enable : Bool) : LayoutRun :=
  markDirty depth env sz { fb with wrap := enable }

/-- `FlowBoxLayout::SetWrapAutoResize`: it stores the flag and returns. -/
def SetWrapAutoResize (fb : FlowBoxLayout) (enable : Bool) : LayoutRun :=
  ⟨{ fb with wrap_auto_resize := enable }, [], false, false⟩

/-- `FlowBoxLayout::SetWrapRowsExpand`. -/
def SetWrapRowsExpand (depth : Nat) (env : Env) (sz : Size) (fb : FlowBoxLayout) (enable : Bool) :
    LayoutRun :=
  markDirty depth env sz { fb with wrap_rows_expand := enable }

/-- `FlowBoxLayout::SetAlignItems`. -/
def SetAlignItems (depth : Nat) (env : Env) (sz : Size) (fb : FlowBoxLayout) (a : Align) :
    LayoutRun :=
  markDirty depth env sz { fb with align_items := a }

/-- `FlowBoxLayout::SetFixedColumn`. -/
def SetFixedColumn (depth : Nat) (env : Env) (sz : Size) (fb : FlowBoxLayout) (px : Int) :
    LayoutRun :=
  markDirty depth env sz { fb with fixed_column := if px ≥ 0 then px else -1 }

/-- `FlowBoxLayout::SetFixedRow`. -/
def SetFixedRow (depth : Nat) (env : Env) (sz : Size) (fb : FlowBoxLayout) (px : Int) :
    LayoutRun :=
  markDirty depth env sz { fb with fixed_row := if px ≥ 0 then px else -1 }

/-- The statements `items.Add(it); ++cur_gen; if(layout_pause==0) Layout();`
that end the insertion helpers; the `ItemRef` they return has the index
`items.GetCount() - 1`. -/
def addItem (depth : Nat) (env : Env) (sz : Size) (fb : FlowBoxLayout) (it : Item) : LayoutRun :=
  markDirty depth env sz { fb with items := fb.items ++ [it] }

/-- `FlowBoxLayout::Add`: a child with `Expand(1)`. -/
def Add (depth : Nat) (env : Env) (sz : Size) (fb : FlowBoxLayout) (c : Nat) : LayoutRun :=
  addItem depth env sz fb { c := some c, expandingWeight := 1 }

/-- `FlowBoxLayout::AddExpand`. -/
def AddExpand (depth : Nat) (env : Env) (sz : Size) (fb : FlowBoxLayout) (c : Nat) (w : Int) :
    LayoutRun :=
  addItem depth env sz fb { c := some c, expandingWeight := max 1 w }

/-- `FlowBoxLayout::AddFixed`. -/
def AddFixed (depth : Nat) (env : Env) (sz : Size) (fb : FlowBoxLayout) (c : Nat) (px : Int) :
    LayoutRun :=
  addItem depth env sz fb { c := some c, fixed := max 0 px }

/-- `FlowBoxLayout::AddFit`. -/
def AddFit (depth : Nat) (env : Env) (sz : Size) (fb : FlowBoxLayout) (c : Nat) : LayoutRun :=
  addItem depth env sz fb { c := some c, fit := true }

/-- `FlowBoxLayout::AddSpacer`. -/
def AddSpacer (depth : Nat) (env : Env) (sz : Size) (fb : FlowBoxLayout) (weight : Int) :
    LayoutRun :=
  addItem depth env sz fb { c := none, is_break := false, expandingWeight := max 1 weight }

/-- `FlowBoxLayout::AddBreak`. -/
def AddBreak (depth : Nat) (env : Env) (sz : Size) (fb : FlowBoxLayout)
    (spacer_expandingWeight : Int) : LayoutRun :=
  addItem depth env sz fb { is_break := true, expandingWeight := max 1 spacer_expandingWeight }

/-- `FlowBoxLayout::ClearItems`: the children are removed from the toolkit's
tree, the item list is cleared, the used size is zeroed and `Layout` is
called. -/
def ClearItems (depth : Nat) (env : Env) (sz : Size) (fb : FlowBoxLayout) : LayoutRun :=
  Layout depth env sz { fb with items := [], used_w := 0, used_h := 0 }

/-- The guarded element update of the `ItemRef` setters,
`if(ok()) f(owner->items[index])`, for a handle whose owner is the container
`fb`: `ok()` is then `index >= 0 && index < owner->items.GetCount()`. -/
def ItemRef.update (fb : FlowBoxLayout) (index : Int) (f : Item → Item) : FlowBoxLayout :=
  if 0 ≤ index ∧ index < (fb.items.length : Int) then
    { fb with items := fb.items.set index.toNat (f (getItem fb.items index.toNat)) }
  else fb

/-- `ItemRef::Expand`. -/
def ItemRef.Expand (depth : Nat) (env : Env) (sz : Size) (fb : FlowBoxLayout)
    (index w : Int) : LayoutRun :=
  markDirty depth env sz
    (ItemRef.update fb index (fun it => { it with expandingWeight := max 1 w }))

/-- `ItemRef::Fixed`. -/
def ItemRef.Fixed (depth : Nat) (env : Env) (sz : Size) (fb : FlowBoxLayout)
    (index px : Int) : LayoutRun :=
  markDirty depth env sz
    (ItemRef.update fb index
      (fun it => { it with fixed := max 0 px, expandingWeight := 0, fit := false }))

/-- `ItemRef::Fit`. -/
def ItemRef.Fit (depth : Nat) (env : Env) (sz : Size) (fb : FlowBoxLayout)
    (index : Int) : LayoutRun :=
  markDirty depth env sz
    (ItemRef.update fb index
      (fun it => { it with fit := true, fixed := -1, expandingWeight := 0 }))

/-- `ItemRef::MinMaxWidth`. -/
def ItemRef.MinMaxWidth (depth : Nat) (env : Env) (sz : Size) (fb : FlowBoxLayout)
    (index minw maxw : Int) : LayoutRun :=
  markDirty depth env sz
    (ItemRef.update fb index (fun it => { it with minw := minw, maxw := maxw }))

/-- `ItemRef::MinMaxHeight`. -/
def ItemRef.MinMaxHeight (depth : Nat) (env : Env) (sz : Size) (fb : FlowBoxLayout)
    (index minh maxh : Int) : LayoutRun :=
  markDirty depth env sz
    (ItemRef.update fb index (fun it => { it with minh := minh, maxh := maxh }))

/-- `ItemRef::AlignSelf`. -/
def ItemRef.AlignSelf (depth : Nat) (env : Env) (sz : Size) (fb : FlowBoxLayout)
    (index : Int) (a : Align) : LayoutRun :=
  markDirty depth env sz (ItemRef.update fb index (fun it => { it with align_self := a }))

/-- `FlowBoxLayout::PauseLayout`. -/
def PauseLayout (fb : FlowBoxLayout) : LayoutRun :=
  ⟨{ fb with layout_pause := fb.layout_pause + 1 }, [], false, false⟩

/-- `FlowBoxLayout::ResumeLayout`. -/
def ResumeLayout (depth : Nat) (env : Env) (sz : Size) (fb : FlowBoxLayout)
    (relayout : Bool) : LayoutRun :=
  let fb1 := if fb.layout_pause > 0 then { fb with layout_pause := fb.layout_pause - 1 } else fb
  if fb1.layout_pause = 0 ∧ relayout = true then Layout depth env sz fb1
  else ⟨fb1, [], false, false⟩

/-- `FlowBoxLayout::basePrimary`. -/
def basePrimary (it : Item) (ms : Size) (vertical : Bool) : Int :=
  if it.fixed ≥ 0 then it.fixed
  else if it.fit = true then (if vertical then ms.cy else ms.cx)
  else (if vertical then ms.cy else ms.cx)

/-- The running values `cross`, `main` and `visible` of the two loops of the
default computation of `GetMinSize`. -/
structure MinAcc where
  cross : Int := 0
  main : Int := 0
  visible : Int := 0

/-- The body of the loops of the default computation of `GetMinSize` for one
item: an item without a shown control is skipped; the min size is asked from
the control itself. -/
def minSizeItem (env : Env) (fb : FlowBoxLayout) (acc : MinAcc) (it : Item) : MinAcc :=
  match it.c with
  | none => acc
  | some c =>
    if env.IsShown c = false then acc
    else
      let ms := env.GetMinSize c
      match fb.dir with
      | Direction.V =>
        let add := ClampWith it.minh it.maxh (basePrimary it ms true)
        let add := if fb.fixed_row ≥ 0 then min add fb.fixed_row else add
        { cross := max acc.cross (ClampWith it.minw it.maxw ms.cx),
          main := acc.main + add, visible := acc.visible + 1 }
      | Direction.H =>
        let snapped := if fb.fixed_column ≥ 0 then fb.fixed_column else basePrimary it ms false
        let add := ClampWith it.minw it.maxw snapped
        { cross := max acc.cross (ClampWith it.minh it.maxh ms.cy),
          main := acc.main + add, visible := acc.visible + 1 }

/-- `FlowBoxLayout::GetMinSize`, for a container whose `GetSize()` is `sz`;
`dpi240` is the value of the toolkit's `DPI(240)`.  The method is `const` but
measures through `const_cast`: the container as the call leaves it is returned
with the size. -/
def GetMinSize (depth : Nat) (env : Env) (sz : Size) (dpi240 : Int) (fb : FlowBoxLayout) :
    FlowBoxLayout × Size :=
  if fb.dir = Direction.H ∧ fb.wrap = true ∧ fb.wrap_auto_resize = true then
    let eff_inner_w := sz.cx - fb.inset.left - fb.inset.right
    let eff_inner_w := if eff_inner_w ≤ 0 then fb.plan_inner.cx else eff_inner_w
    let eff_inner_w := if eff_inner_w ≤ 0 then dpi240 else eff_inner_w
    let m := MeasureHeightForWidth depth env fb eff_inner_w
    let h := if m.2 < 0 then 0 else m.2
    let baseline_w := max 1 sz.cx
    (m.1, ⟨baseline_w, h + fb.inset.top + fb.inset.bottom⟩)
  else
    let acc := fb.items.foldl (minSizeItem env fb) {}
    let main := if acc.visible > 1 then acc.main + (acc.visible - 1) * fb.gap else acc.main
    match fb.dir with
    | Direction.V => (fb, ⟨acc.cross + fb.inset.left + fb.inset.right,
                           main + fb.inset.top + fb.inset.bottom⟩)
    | Direction.H => (fb, ⟨main + fb.inset.left + fb.inset.right,
                           acc.cross + fb.inset.top + fb.inset.bottom⟩)

/-- The structural and configuration mutators of the public API, as data. -/
inductive Mutator where
  | Add (c : Nat)
  | AddExpand (c : Nat) (w : Int)
  | AddFixed (c : Nat) (px : Int)
  | AddFit (c : Nat)
  | AddSpacer (weight : Int)
  | AddBreak (weight : Int)
  | ClearItems
  | Expand (index w : Int)
  | Fixed (index px : Int)
  | Fit (index : Int)
  | MinMaxWidth (index minw maxw : Int)
  | MinMaxHeight (index minh maxh : Int)
  | AlignSelf (index : Int) (a : Align)
  | SetDirection (d : Direction)
  | SetGap (px : Int)
  | SetInset (l t r b : Int)
  | SetWrap (enable : Bool)
  | SetWrapAutoResize (enable : Bool)
  | SetWrapRowsExpand (enable : Bool)
  | SetAlignItems (a : Align)
  | SetFixedColumn (px : Int)
  | SetFixedRow (px : Int)
deriving DecidableEq, Repr

/-- The call of a mutator on a container whose `GetSize()` is `sz`. -/
def Mutator.apply (depth : Nat) (env : Env) (sz : Size) (fb : FlowBoxLayout) :
    Mutator → LayoutRun
  | .Add c => Upp.Add depth env sz fb c
  | .AddExpand c w => Upp.AddExpand depth env sz fb c w
  | .AddFixed c px => Upp.AddFixed depth env sz fb c px
  | .AddFit c => Upp.AddFit depth env sz fb c
  | .AddSpacer weight => Upp.AddSpacer depth env sz fb weight
  | .AddBreak weight => Upp.AddBreak depth env sz fb weight
  | .ClearItems => Upp.ClearItems depth env sz fb
  | .Expand index w => ItemRef.Expand depth env sz fb index w
  | .Fixed index px => ItemRef.Fixed depth env sz fb index px
  | .Fit index => ItemRef.Fit depth env sz fb index
  | .MinMaxWidth index minw maxw => ItemRef.MinMaxWidth depth env sz fb index minw maxw
  | .MinMaxHeight index minh maxh => ItemRef.MinMaxHeight depth env sz fb index minh maxh
  | .AlignSelf index a => ItemRef.AlignSelf depth env sz fb index a
  | .SetDirection d => Upp.SetDirection depth env sz fb d
  | .SetGap px => Upp.SetGap depth env sz fb px
  | .SetInset l t r b => Upp.SetInset depth env sz fb l t r b
  | .SetWrap enable => Upp.SetWrap depth env sz fb enable
  | .SetWrapAutoResize enable => Upp.SetWrapAutoResize fb enable
  | .SetWrapRowsExpand enable => Upp.SetWrapRowsExpand depth env sz fb enable
  | .SetAlignItems a => Upp.SetAlignItems depth env sz fb a
  | .SetFixedColumn px => Upp.SetFixedColumn depth env sz fb px
  | .SetFixedRow px => Upp.SetFixedRow depth env sz fb px

/-- A call of the batching API, of a mutator, or of `Layout`, as data. -/
inductive Call where
  | PauseLayout
  | ResumeLayout (relayout : Bool)
  | mutate (m : Mutator)
  | Layout
deriving DecidableEq, Repr

/-- The call on a container whose `GetSize()` is `sz`. -/
def Call.apply (depth : Nat) (env : Env) (sz : Size) (fb : FlowBoxLayout) : Call → LayoutRun
  | .PauseLayout => Upp.PauseLayout fb
  | .ResumeLayout relayout => Upp.ResumeLayout depth env sz fb relayout
  | .mutate m => m.apply depth env sz fb
  | .Layout => Upp.Layout depth env sz fb

/-- A sequence of calls: the container it leaves and the number of times the
body of `Layout` was entered. -/
def runCalls (depth : Nat) (env : Env) (sz : Size) :
    List Call → FlowBoxLayout → FlowBoxLayout × Nat
  | [], fb => (fb, 0)
  | c :: rest, fb =>
    let r := c.apply depth env sz fb
    let t := runCalls depth env sz rest r.fb
    (t.1, (if r.ran then 1 else 0) + t.2)

/-- The calls made inside a batch, read at pause depth `p`: the calls are
properly nested when every `ResumeLayout` among them closes a `PauseLayout`
made inside the batch (the depth stays above `1`) and the depth is back at `1`
at the end, so that the batch is closed by one more `ResumeLayout`.  Mutators
and calls of `Layout` may stand anywhere. -/
def nestedInside : Int → List Call → Bool
  | p, [] => decide (p = 1)
  | p, Call.PauseLayout :: rest => nestedInside (p + 1) rest
  | p, Call.ResumeLayout _ :: rest => decide (1 < p) && nestedInside (p - 1) rest
  | p, Call.mutate _ :: rest => nestedInside p rest
  | p, Call.Layout :: rest => nestedInside p rest

/-- The sample column after a `Layout` at size `100 × 200` and a
`PauseLayout`: layout is paused and the plan is current. -/
def pausedColumn : FlowBoxLayout :=
  (PauseLayout (Layout 0 sampleEnv ⟨100, 200⟩ sampleColumn).fb).fb

/-- The number of sizing-mode indicators that hold for an item, among
`fixed >= 0`, `fit` and `expandingWeight > 0`. -/
def modeCount (it : Item) : Nat :=
  (if it.fixed ≥ 0 then 1 else 0) + (if it.fit = true then 1 else 0)
    + (if it.expandingWeight > 0 then 1 else 0)

/-- The indicators of `Fixed` and of `Fit` do not hold together. -/
def fixedFitExclusive (it : Item) : Prop := ¬ (it.fixed ≥ 0 ∧ it.fit = true)

/-- The cells the build loop of `LayoutVertical` produces during
`PreLayoutCalc` for the inner rectangle `irc`. -/
def plannedColumn (probe : FlowBoxLayout → Rect → FlowBoxLayout) (env : Env)
    (fb : FlowBoxLayout) (irc : Rect) : List VCell :=
  (vBuild (planStart env fb irc) env probe (max 0 irc.GetWidth) 0 (planStart env fb irc).items).2

/-- The two flags the "mark visible" loop of `PreLayoutCalc` sets are the same
in both items, and an item that does not participate is the same item. -/
def SameFlags (a b : Item) : Prop :=
  b.cl.visible = a.cl.visible ∧ b.cl.spacer = a.cl.spacer ∧ (a.cl.visible = false → b = a)

/-- Every cell and every gap-expander of the rows refers to an item index with
the property `P`. -/
def RowsIdx (P : Nat → Prop) (rows : List Row) : Prop :=
  ∀ R ∈ rows, (∀ rc ∈ R.cells, P rc.idx) ∧ (∀ g ∈ R.gaps, P g.idx)

/-- A toolkit like `sampleEnv` in which control `1` is hidden. -/
def sampleEnvHidden : Env := ⟨fun _ => ⟨100, 20⟩, fun c => decide (c ≠ 1), fun _ => none⟩

/-- A container with a shown box, a hidden box (control `1`), a spacer and a
break, in direction `d`. -/
def sampleMixed (d : Direction) : FlowBoxLayout :=
  { dir := d,
    items := [expandItem 0 1, fixedItem 1 40, { expandingWeight := 1 },
              { is_break := true, expandingWeight := 1 }] }

/-- One `Expand(1)` box item with the default caps in a container of direction
`d`, no wrapping. -/
def sampleOneExpand (d : Direction) : FlowBoxLayout :=
  { dir := d, items := [expandItem 0 1] }

/-- The container of the wrap scenario (three `Fit` box items, gap `10`,
wrapping on) with auto-resize on. -/
def sampleAutoRow : FlowBoxLayout := { sampleFitRow with wrap_auto_resize := true }

/-- A horizontal, wrapping, auto-resizing container with an inset of `10` on
every side and two `Fit` box items, gap `0`. -/
def sampleInsetRow : FlowBoxLayout :=
  { dir := Direction.H, wrap := true, wrap_auto_resize := true, inset := ⟨10, 10, 10, 10⟩,
    items := [fitItem 0, fitItem 1] }

/-- A toolkit like `sampleEnv` in which control `9` is the container
`sampleInsetRow`. -/
def sampleEnvNested : Env :=
  ⟨fun _ => ⟨100, 20⟩, fun _ => true, fun c => if c = 9 then some sampleInsetRow else none⟩

/-- The container `sampleAutoRow` after a `Layout` at size `250 × 200` followed
by a `Layout` at the empty size `0 × 0`. -/
def sampleAfterEmpty : FlowBoxLayout :=
  (Layout 0 sampleEnv ⟨0, 0⟩ (Layout 0 sampleEnv ⟨250, 200⟩ sampleAutoRow).fb).fb

/-! ## Placement, cell by cell -/

/-- The item the body of the loop "place left→right" writes back for the cell
`rc` of row `r`, when the left edge of the cell is `x` and the item found at
`rc.idx` is `it`. -/
def placedItem (fb : FlowBoxLayout) (env : Env) (r : Nat) (y row_h : Int)
    (rc : RowCell) (x : Int) (it : Item) : Item :=
  getItem (hPlaceCell fb env r y row_h { rc with idx := 0 } ⟨[it], x, 0⟩).items 0

/-- The left edge of the cell at position `k` of a row whose first cell starts
at `x0`: every cell before it takes its width and one gap. -/
def cellLeft (gap x0 : Int) (cells : List RowCell) (k : Nat) : Int :=
  x0 + ((cells.take k).map (fun c => c.w + gap)).sum

/-- The top edge of row `q` when the first row starts at `y0`: every row before
it takes its height and one gap. -/
def rowTop (gap y0 : Int) (heights : List Int) (q : Nat) : Int :=
  y0 + ((heights.take q).map (fun h => h + gap)).sum

/-- The item the body of the placement loop of `LayoutVertical` writes back for
the cell `c` at position `k`, when the top edge of the cell is `y` and the item
found at `c.idx` is `it`. -/
def vPlacedItem (fb : FlowBoxLayout) (env : Env) (irc : Rect) (inner_w : Int)
    (k : Nat) (c : VCell) (y : Int) (it : Item) : Item :=
  getItem (vPlaceCell fb env irc inner_w k { c with idx := 0 } false ⟨[it], y, 0⟩).items 0

/-- The top edge of the cell at position `k` of the column when the first cell
starts at `y0`. -/
def cellTop (gap y0 : Int) (cells : List VCell) (k : Nat) : Int :=
  y0 + ((cells.take k).map (fun c => c.h + gap)).sum

/-- The items as PASS 1 of `LayoutHorizontal` leaves them during
`PreLayoutCalc` for the inner rectangle `irc`. -/
def plannedItems (probe : FlowBoxLayout → Rect → FlowBoxLayout) (env : Env)
    (fb : FlowBoxLayout) (irc : Rect) : List Item :=
  (hBuild (planStart env fb irc) env probe irc (max 0 irc.GetWidth) (max 0 irc.GetHeight) 0
    (planStart env fb irc).items { x_row := irc.left }).1

/-- The base row heights of PASS 2A during `PreLayoutCalc`. -/
def baseRowHeights (probe : FlowBoxLayout → Rect → FlowBoxLayout) (env : Env)
    (fb : FlowBoxLayout) (irc : Rect) : List Int :=
  (plannedRows probe env fb irc).map (rowBaseHeight fb (max 0 irc.GetHeight))

/-- The final row heights of PASS 2B during `PreLayoutCalc`. -/
def finalRowHeights (probe : FlowBoxLayout → Rect → FlowBoxLayout) (env : Env)
    (fb : FlowBoxLayout) (irc : Rect) : List Int :=
  rowHeightsFinal fb (max 0 irc.GetHeight) (baseRowHeights probe env fb irc)

/-- The rows of PASS 1 with the widths PASS 2C distributes. -/
def distributedRows (probe : FlowBoxLayout → Rect → FlowBoxLayout) (env : Env)
    (fb : FlowBoxLayout) (irc : Rect) : List Row :=
  (plannedRows probe env fb irc).map
    (hDistributeRow fb (plannedItems probe env fb irc) (max 0 irc.GetWidth))

/-- The items as the build loop of `LayoutVertical` leaves them during
`PreLayoutCalc` for the inner rectangle `irc`. -/
def plannedColumnItems (probe : FlowBoxLayout → Rect → FlowBoxLayout) (env : Env)
    (fb : FlowBoxLayout) (irc : Rect) : List Item :=
  (vBuild (planStart env fb irc) env probe (max 0 irc.GetWidth) 0 (planStart env fb irc).items).1

/-- The cells of the column with the heights the "distribute remainder" block of
`LayoutVertical` leaves. -/
def distributedColumn (probe : FlowBoxLayout → Rect → FlowBoxLayout) (env : Env)
    (fb : FlowBoxLayout) (irc : Rect) : List VCell :=
  vDistributeAll fb (plannedColumnItems probe env fb irc) (max 0 irc.GetHeight)
    (plannedColumn probe env fb irc)

/-! ## Contiguity of the cells -/

/-- The cell rectangles of the items with the given indices, in order. -/
def cellRects (items : List Item) (idxs : List Nat) : List Rect :=
  idxs.map (fun i => (getItem items i).cl.cell)

/-- The rectangles follow each other from left to right: the first one starts
at `x`, and each following one starts at the right edge of the one before it
plus `gap`. -/
def ChainX (gap : Int) : Int → List Rect → Prop
  | _, [] => True
  | x, c :: rest => c.left = x ∧ ChainX gap (c.right + gap) rest

/-- The rectangles follow each other from top to bottom: the first one starts
at `y`, and each following one starts at the bottom edge of the one before it
plus `gap`. -/
def ChainY (gap : Int) : Int → List Rect → Prop
  | _, [] => True
  | y, c :: rest => c.top = y ∧ ChainY gap (c.bottom + gap) rest

/-- The rows, each given by the rectangles of its cells and its height, are
stacked from top to bottom: every cell of the first row spans from `y` to `y`
plus the height of the row, and the next row starts at the top of this row
plus its height plus `gap`. -/
def RowsStacked (gap : Int) : Int → List (List Rect × Int) → Prop
  | _, [] => True
  | y, (cells, h) :: rest =>
    (∀ c ∈ cells, c.top = y ∧ c.bottom = y + h) ∧ RowsStacked gap (y + h + gap) rest

/-- The two rectangles have no point in common: one of them ends before the
other one starts, horizontally or vertically. -/
def Rect.NoOverlap (a b : Rect) : Prop :=
  a.right ≤ b.left ∨ b.right ≤ a.left ∨ a.bottom ≤ b.top ∨ b.bottom ≤ a.top

/-- The loop state of PASS 1 of `LayoutHorizontal` during `PreLayoutCalc` for
the inner rectangle `irc`, before the item at index `m` is looked at. -/
def pass1State (probe : FlowBoxLayout → Rect → FlowBoxLayout) (env : Env)
    (fb : FlowBoxLayout) (irc : Rect) (m : Nat) : HBuild :=
  (hBuild (planStart env fb irc) env probe irc (max 0 irc.GetWidth) (max 0 irc.GetHeight) 0
    ((planStart env fb irc).items.take m) { x_row := irc.left }).2

/-! ## Further predicates and sample data -/

/-- Every stored pixel value that the configuration calls validate is
non-negative or the unset sentinel: the gap is not negative, the fixed column
and the fixed row are `-1` or not negative, and every item has a fixed size of
`-1` or not negative and a weight of `0` (unset) or at least `1`. -/
def ConfigValid (fb : FlowBoxLayout) : Prop :=
  0 ≤ fb.gap ∧ (fb.fixed_column = -1 ∨ 0 ≤ fb.fixed_column) ∧
  (fb.fixed_row = -1 ∨ 0 ≤ fb.fixed_row) ∧
  ∀ j, ((getItem fb.items j).fixed = -1 ∨ 0 ≤ (getItem fb.items j).fixed) ∧
       ((getItem fb.items j).expandingWeight = 0 ∨ 1 ≤ (getItem fb.items j).expandingWeight)

/-- A row is empty: it has no cell and no gap-expander. -/
def Row.isEmpty (R : Row) : Bool := R.cells.isEmpty && R.gaps.isEmpty

/-- The column `AddFixed(c0, 40); middle; AddFixed(c1, 40)` with gap `10`,
built through the public API inside one batch and laid out at size
`100 × 200`. -/
def sampleStack (middle : Mutator) : FlowBoxLayout :=
  (runCalls 0 sampleEnv ⟨100, 200⟩
    [Call.PauseLayout, Call.mutate (Mutator.SetDirection Direction.V),
     Call.mutate (Mutator.SetGap 10), Call.mutate (Mutator.AddFixed 0 40),
     Call.mutate middle, Call.mutate (Mutator.AddFixed 1 40),
     Call.ResumeLayout true] {}).1

/-- The container `AddFit(c0); AddSpacer(); AddFit(c1)` in direction `d`, with
wrap off, no fixed column and gap `0`, built through the public API inside one
batch and laid out at size `sz`. -/
def sampleSpacerBetween (d : Direction) (sz : Size) : FlowBoxLayout :=
  (runCalls 0 sampleEnv sz
    [Call.PauseLayout, Call.mutate (Mutator.SetDirection d),
     Call.mutate (Mutator.AddFit 0), Call.mutate (Mutator.AddSpacer 1),
     Call.mutate (Mutator.AddFit 1), Call.ResumeLayout true] {}).1

/-- A horizontal, wrapping container whose list begins with two breaks and has
two more breaks between its two `Fit` boxes. -/
def sampleBreaks : FlowBoxLayout :=
  { dir := Direction.H, wrap := true,
    items := [{ is_break := true, expandingWeight := 1 },
              { is_break := true, expandingWeight := 1 }, fitItem 0,
              { is_break := true, expandingWeight := 1 },
              { is_break := true, expandingWeight := 1 }, fitItem 1] }

/-- The item `b` is the item `a`, possibly with its validity flag `ms_valid`
cleared; every other field, the transient layout cache included, is the
same. -/
def validityCleared (a b : Item) : Prop := b = a ∨ b = { a with ms_valid := false }

/-- The sample column after a `Layout` at size `100 × 200`. -/
def laidOutColumn : FlowBoxLayout := (Layout 0 sampleEnv ⟨100, 200⟩ sampleColumn).fb

/-- A toolkit in which every control is shown and reports the min size
`(300, 90)`. -/
def sampleEnvGrown : Env := ⟨fun _ => ⟨300, 90⟩, fun _ => true, fun _ => none⟩

/-- A box item in pure Expand mode: bound to a control, not a break, `fixed`
unset, `fit` off, a positive weight, and a min width cap that is unset or
`0`. -/
def PureExpand (it : Item) : Prop :=
  it.c.isSome = true ∧ it.is_break = false ∧ it.fixed < 0 ∧ it.fit = false ∧
  it.expandingWeight > 0 ∧ it.minw ≤ 0

instance (it : Item) : Decidable (PureExpand it) := by
  unfold PureExpand
  infer_instance

/-- A horizontal, wrapping container filled through `Add(c0); Add(c1);
Add(c2)` inside one batch and laid out at size `50 × 100`. -/
def sampleAddOnly : FlowBoxLayout :=
  (runCalls 0 sampleEnv ⟨50, 100⟩
    [Call.PauseLayout, Call.mutate (Mutator.SetDirection Direction.H),
     Call.mutate (Mutator.SetWrap true), Call.mutate (Mutator.Add 0),
     Call.mutate (Mutator.Add 1), Call.mutate (Mutator.Add 2),
     Call.ResumeLayout true] {}).1

/-- The extent of a column of cells: the heights and one gap between
neighbours, `base_sum_h + gaps_total` of `LayoutVertical`. -/
def columnExtent (gap : Int) (cells : List VCell) : Int :=
  (cells.map (fun c => c.h)).sum + max 0 ((cells.length : Int) - 1) * gap

/-- The extent of the cells of a row: the widths and one gap between
neighbours, as the loop "place left→right" advances `x`. -/
def rowCellsExtent (gap : Int) (cells : List RowCell) : Int :=
  match cells with
  | [] => 0
  | rc :: rest => rc.w + (rest.map (fun c => gap + c.w)).sum

/-- The room the weighted cells of a column have to grow: for each cell with a
positive weight the `room` of the second distribution loop of `LayoutVertical`
(`(it.maxh >= 0 ? it.maxh : INT_MAX) - h`), where it is positive. -/
def totalRoom (items : List Item) (cells : List VCell) : Int :=
  (cells.map (fun c =>
    if c.wshare > 0 then max 0 (roomOf (getItem items c.idx) c.h) else 0)).sum

/-- No gap-expander of the rows of a PASS 1 state has a negative base width or
a weight below `1`. -/
def HBuild.gapsValid (st : HBuild) : Prop :=
  ∀ R ∈ st.rows, ∀ g ∈ R.gaps, 0 ≤ g.minw ∧ 1 ≤ g.weight

/-- A box item in `Expand` mode with the weight `wt` and the default height
caps (`MinMaxHeight(-1, INT_MAX)`). -/
def ExpandBoxDefault (wt : Int) (it : Item) : Prop :=
  it.c.isSome = true ∧ it.is_break = false ∧ it.fixed < 0 ∧ it.fit = false ∧
  it.expandingWeight = wt ∧ it.minh = -1 ∧ it.maxh = INT_MAX

instance (wt : Int) (it : Item) : Decidable (ExpandBoxDefault wt it) := by
  unfold ExpandBoxDefault; infer_instance

/-- The number of cells of a column with a positive weight. -/
def weightedCount (cells : List VCell) : Int :=
  ((cells.filter (fun c => decide (c.wshare > 0))).length : Int)

/-- The share of the remainder `R` that the weighted cell with `rank` weighted
cells before it receives when `n` cells of one weight share it: `R / n` each
and the leftover `R % n` on top for the first, or, when `R < n`, one unit for
each of the first `R`. -/
def equalShare (R n rank : Int) : Int :=
  if n ≤ R then R / n + (if rank = 0 then R % n else 0)
  else if rank < R then 1 else 0

/-- The column in which every weighted cell has the height `equalShare`, the
first cell of the list having `rank` weighted cells before it. -/
def equalShareCells (R n : Int) : Int → List VCell → List VCell
  | _, [] => []
  | rank, c :: rest =>
    if c.wshare > 0 then
      { c with h := equalShare R n rank } :: equalShareCells R n (rank + 1) rest
    else c :: equalShareCells R n rank rest

/-- Three `Expand(1)` box items with the default caps in a vertical container,
gap `0`. -/
def sampleThreeExpand : FlowBoxLayout :=
  { dir := Direction.V, items := [expandItem 0 1, expandItem 1 1, expandItem 2 1] }

/-- The column `AddExpand(c0, w); AddFixed(c1, 40); AddExpand(c2, w)` built
through the public API in a vertical container with gap `0`, laid out at
`100 × 200`. -/
def sampleWeightedColumn (w : Int) : FlowBoxLayout :=
  (runCalls 0 sampleEnv ⟨100, 200⟩
    [Call.PauseLayout, Call.mutate (Mutator.SetDirection Direction.V),
     Call.mutate (Mutator.AddExpand 0 w), Call.mutate (Mutator.AddFixed 1 40),
     Call.mutate (Mutator.AddExpand 2 w), Call.ResumeLayout true] {}).1

/-- The row `AddExpand(c0, w); AddExpand(c1, w); AddExpand(c2, 3)` built
through the public API in a horizontal container with wrap off and gap `0`,
laid out at `300 × 100`; with `floored` set, the first two items get
`MinMaxWidth(0, 2048)`. -/
def sampleWeightedRow (w : Int) (floored : Bool) : FlowBoxLayout :=
  (runCalls 0 sampleEnv ⟨300, 100⟩
    ([Call.PauseLayout, Call.mutate (Mutator.SetDirection Direction.H),
      Call.mutate (Mutator.AddExpand 0 w), Call.mutate (Mutator.AddExpand 1 w),
      Call.mutate (Mutator.AddExpand 2 3)]
     ++ (if floored = true then [Call.mutate (Mutator.MinMaxWidth 0 0 2048),
                                Call.mutate (Mutator.MinMaxWidth 1 0 2048)] else [])
     ++ [Call.ResumeLayout true]) {}).1

/-! # Theorems -/

/-! ## The min-size cache: lemmas -/

theorem mem_set_cases {α : Type} (l : List α) (i : Nat) (a x : α) (h : x ∈ l.set i a) :
    x = a ∨ x ∈ l := by
  induction l generalizing i with
  | nil => simp at h
  | cons b t ih =>
    cases i with
    | zero =>
      simp only [List.set_cons_zero, List.mem_cons] at h
      rcases h with h | h
      · exact Or.inl h
      · exact Or.inr (List.mem_cons_of_mem _ h)
    | succ n =>
      simp only [List.set_cons_succ, List.mem_cons] at h
      rcases h with h | h
      · exact Or.inr (by simp [h])
      · rcases ih n h with h | h
        · exact Or.inl h
        · exact Or.inr (List.mem_cons_of_mem _ h)

theorem getItem_mem_or_default (items : List Item) (i : Nat) :
    getItem items i ∈ items ∨ getItem items i = default := by
  unfold getItem
  by_cases h : i < items.length
  · left
    rw [List.getD_eq_getElem _ _ h]
    exact List.getElem_mem h
  · right
    exact List.getD_eq_default _ _ (by omega)

theorem GetCtrlMinSize_item_valid (env : Env) (e : Int) (it : Item) :
    (GetCtrlMinSize env e it).item.ms_epoch = e ∨
      ((GetCtrlMinSize env e it).item = it) := by
  unfold GetCtrlMinSize at *
  cases hc : it.c with
  | none => simp
  | some c =>
    simp only [hc]
    split
    · left; rfl
    · right; rfl

theorem mem_invalidateFirst (c : Nat) (items : List Item) (x : Item)
    (h : x ∈ invalidateFirst c items) :
    x ∈ items ∨ x.ms_valid = false := by
  induction items with
  | nil => simp [invalidateFirst] at h
  | cons a t ih =>
    unfold invalidateFirst at h
    split at h
    · simp only [List.mem_cons] at h
      rcases h with h | h
      · right; rw [h]
      · left; exact List.mem_cons_of_mem _ h
    · simp only [List.mem_cons] at h
      rcases h with h | h
      · left; simp [h]
      · rcases ih h with h | h
        · left; exact List.mem_cons_of_mem _ h
        · right; exact h

theorem wrapInt32_succ (e : Int) (h1 : 1 ≤ e) (h2 : e < INT_MAX) : wrapInt32 (e + 1) = e + 1 := by
  unfold wrapInt32
  unfold INT_MAX at h2
  omega

theorem CacheInv_invalidateAll (fb : FlowBoxLayout) (h : CacheInv fb) :
    CacheInv (InvalidateAllMinSizes fb) := by
  obtain ⟨h1, h2, h3⟩ := h
  unfold InvalidateAllMinSizes
  simp only [wrapInt32_succ _ h1 h2]
  split
  · refine ⟨by simp, by simp [INT_MAX], ?_⟩
    intro it hit hv
    simp only [List.mem_map] at hit
    obtain ⟨a, _, rfl⟩ := hit
    simp at hv
  · rename_i hne
    refine ⟨by simp; omega, by simp; omega, ?_⟩
    intro it hit hv
    have := h3 it hit hv
    simp; omega

theorem CacheInv_of_reachable (fb : FlowBoxLayout) (h : CacheReachable fb) : CacheInv fb := by
  induction h with
  | init fb he hi =>
    refine ⟨by omega, by rw [he]; decide, ?_⟩
    intro it hit hv
    rw [(hi it hit).1] at hv
    cases hv
  | add a fb ha _ ih =>
    obtain ⟨h1, h2, h3⟩ := ih
    refine ⟨h1, h2, ?_⟩
    intro it hit hv
    simp only [List.mem_append, List.mem_singleton] at hit
    rcases hit with h | h
    · exact h3 it h hv
    · rw [h, ha] at hv; cases hv
  | read env i fb _ ih =>
    obtain ⟨h1, h2, h3⟩ := ih
    refine ⟨h1, h2, ?_⟩
    intro it hit hv
    simp only [readMinSize] at hit ⊢
    rcases mem_set_cases _ _ _ _ hit with h | h
    · subst h
      rcases GetCtrlMinSize_item_valid env fb.minsize_epoch (getItem fb.items i) with h | h
      · omega
      · rw [h] at hv ⊢
        rcases getItem_mem_or_default fb.items i with hm | hd
        · exact h3 _ hm hv
        · rw [hd] at hv; cases hv
    · exact h3 it h hv
  | invalidate c fb _ ih =>
    obtain ⟨h1, h2, h3⟩ := ih
    refine ⟨h1, h2, ?_⟩
    intro it hit hv
    simp only [InvalidateMinSize] at hit ⊢
    rcases mem_invalidateFirst c _ _ hit with h | h
    · exact h3 it h hv
    · rw [h] at hv; cases hv
  | invalidateAll fb _ ih => exact CacheInv_invalidateAll fb ih

/-- After `InvalidateAllMinSizes` on a state satisfying the invariant no item
is current. -/
theorem stale_after_invalidateAll (fb : FlowBoxLayout) (h : CacheInv fb) :
    ∀ it ∈ (InvalidateAllMinSizes fb).items,
      it.ms_valid = false ∨ it.ms_epoch ≠ (InvalidateAllMinSizes fb).minsize_epoch := by
  obtain ⟨h1, h2, h3⟩ := h
  unfold InvalidateAllMinSizes
  simp only [wrapInt32_succ _ h1 h2]
  split
  · intro it hit
    simp only [List.mem_map] at hit
    obtain ⟨a, _, rfl⟩ := hit
    left; rfl
  · intro it hit
    simp only at hit ⊢
    cases hv : it.ms_valid with
    | false => left; rfl
    | true =>
      right
      have := h3 it hit hv
      omega

theorem getItem_set_eq (l : List Item) (i : Nat) (a : Item) (h : i < l.length) :
    getItem (l.set i a) i = a := by
  unfold getItem
  rw [List.getD_eq_getElem _ _ (by simpa using h)]
  simp

theorem getItem_set_ne (l : List Item) (i j : Nat) (a : Item) (h : j ≠ i) :
    getItem (l.set j a) i = getItem l i := by
  unfold getItem
  simp [List.getD_eq_getElem?_getD, List.getElem?_set_ne h]

theorem getItem_default_of_le (l : List Item) (i : Nat) (h : l.length ≤ i) :
    getItem l i = default := by
  unfold getItem
  exact List.getD_eq_default _ _ h

theorem getItem_lt_of_c (l : List Item) (i c : Nat) (h : (getItem l i).c = some c) :
    i < l.length := by
  by_contra hn
  rw [getItem_default_of_le l i (by omega)] at h
  cases h

theorem GetCtrlMinSize_current (env : Env) (e : Int) (it : Item) (c : Nat)
    (hc : it.c = some c) (hv : it.ms_valid = true) (he : it.ms_epoch = e) :
    GetCtrlMinSize env e it = ⟨it.cachedMinSize, it, 0⟩ := by
  unfold GetCtrlMinSize
  simp [hc, hv, he]

theorem GetCtrlMinSize_stale (env : Env) (e : Int) (it : Item) (c : Nat)
    (hc : it.c = some c) (hs : it.ms_valid = false ∨ it.ms_epoch ≠ e) :
    GetCtrlMinSize env e it =
      ⟨env.GetMinSize c,
       { it with cachedMinSize := env.GetMinSize c, ms_epoch := e, ms_valid := true }, 1⟩ := by
  unfold GetCtrlMinSize
  simp only [hc]
  rw [if_pos hs]

theorem GetCtrlMinSize_none (env : Env) (e : Int) (it : Item) (hc : it.c = none) :
    GetCtrlMinSize env e it = ⟨⟨0, 0⟩, it, 0⟩ := by
  unfold GetCtrlMinSize
  simp [hc]

theorem CurrentAt_read (i c : Nat) (v : Size) (s : FlowBoxLayout) (env : Env) (j : Nat)
    (h : CurrentAt i c v s) : CurrentAt i c v (readMinSize env s j) := by
  obtain ⟨hc, hv, he, hs⟩ := h
  by_cases hj : j = i
  · subst hj
    have hlt := getItem_lt_of_c _ _ _ hc
    unfold CurrentAt readMinSize
    simp only [getItem_set_eq _ _ _ hlt]
    rw [GetCtrlMinSize_current env _ _ c hc hv he]
    exact ⟨hc, hv, he, hs⟩
  · unfold CurrentAt readMinSize
    simp only [getItem_set_ne _ _ _ _ hj]
    exact ⟨hc, hv, he, hs⟩

theorem CurrentAt_readMany (i c : Nat) (v : Size) (ops : List (Env × Nat)) :
    ∀ s : FlowBoxLayout, CurrentAt i c v s →
      CurrentAt i c v (ops.foldl (fun s op => readMinSize op.1 s op.2) s) := by
  induction ops with
  | nil => intro s h; exact h
  | cons op rest ih =>
    intro s h
    simp only [List.foldl_cons]
    exact ih _ (CurrentAt_read i c v s op.1 op.2 h)

/-! ## The min-size cache: claims -/

theorem readMany_epoch (ops : List (Env × Nat)) :
    ∀ s : FlowBoxLayout, (readMany ops s).minsize_epoch = s.minsize_epoch := by
  induction ops with
  | nil => intro s; rfl
  | cons op rest ih =>
    intro s
    unfold readMany at ih ⊢
    simp only [List.foldl_cons]
    rw [ih]
    rfl

theorem readMany_other (i : Nat) (ops : List (Env × Nat)) (h : ∀ op ∈ ops, op.2 ≠ i) :
    ∀ s : FlowBoxLayout, getItem (readMany ops s).items i = getItem s.items i := by
  induction ops with
  | nil => intro s; rfl
  | cons op rest ih =>
    intro s
    have ih2 := ih (fun o ho => h o (List.mem_cons_of_mem _ ho))
    unfold readMany at ih2 ⊢
    simp only [List.foldl_cons]
    rw [ih2]
    unfold readMinSize
    exact getItem_set_ne _ _ _ _ (h op (List.mem_cons_self _ _))

/-- C9 (min-size cache correctness), counting the calls of the box's
`GetMinSize` made by `GetCtrlMinSize`.  An item without a box returns `(0,0)`
without a query and is left as it was.  In a reachable state of the cache,
after `InvalidateAllMinSizes` and any reads of other items, the first read of a
box item makes exactly one query and returns and stores the value the box
reports at that moment; all further reads of that item, with reads of any
items in between and whatever the boxes report by then, make no query, return
the stored value and leave the item as it is. -/
theorem C9_min_size_cache_correct (fb : FlowBoxLayout) (h : CacheReachable fb) :
    (∀ (env : Env) (e : Int) (it : Item), it.c = none →
        GetCtrlMinSize env e it = ⟨⟨0, 0⟩, it, 0⟩) ∧
    (∀ (env : Env) (i c : Nat) (pre : List (Env × Nat)) (s1 : FlowBoxLayout),
        (∀ op ∈ pre, op.2 ≠ i) →
        (getItem (InvalidateAllMinSizes fb).items i).c = some c →
        s1 = readMany pre (InvalidateAllMinSizes fb) →
        (GetCtrlMinSize env s1.minsize_epoch (getItem s1.items i)).queries = 1 ∧
        (GetCtrlMinSize env s1.minsize_epoch (getItem s1.items i)).size = env.GetMinSize c ∧
        (GetCtrlMinSize env s1.minsize_epoch (getItem s1.items i)).item.cachedMinSize
          = env.GetMinSize c ∧
        ∀ (ops : List (Env × Nat)) (env2 : Env) (s2 : FlowBoxLayout),
          s2 = readMany ops (readMinSize env s1 i) →
          (GetCtrlMinSize env2 s2.minsize_epoch (getItem s2.items i)).queries = 0 ∧
          (GetCtrlMinSize env2 s2.minsize_epoch (getItem s2.items i)).size = env.GetMinSize c ∧
          (GetCtrlMinSize env2 s2.minsize_epoch (getItem s2.items i)).item
            = getItem s2.items i) := by
  refine ⟨fun env e it hc => GetCtrlMinSize_none env e it hc, ?_⟩
  intro env i c pre s1 hpre hc hs1
  have hinv := CacheInv_of_reachable fb h
  have hmem : getItem (InvalidateAllMinSizes fb).items i ∈ (InvalidateAllMinSizes fb).items := by
    rcases getItem_mem_or_default (InvalidateAllMinSizes fb).items i with hm | hd
    · exact hm
    · rw [hd] at hc; cases hc
  have hstale := stale_after_invalidateAll fb hinv _ hmem
  have hitem : getItem s1.items i = getItem (InvalidateAllMinSizes fb).items i := by
    rw [hs1]; exact readMany_other i pre hpre _
  have hepoch : s1.minsize_epoch = (InvalidateAllMinSizes fb).minsize_epoch := by
    rw [hs1]; exact readMany_epoch pre _
  have hc1 : (getItem s1.items i).c = some c := by rw [hitem]; exact hc
  have hlt := getItem_lt_of_c _ _ _ hc1
  have hread := GetCtrlMinSize_stale env s1.minsize_epoch (getItem s1.items i) c hc1
    (by rw [hitem, hepoch]; exact hstale)
  refine ⟨by rw [hread], by rw [hread], by rw [hread], ?_⟩
  intro ops env2 s2 hs2
  have hcur : CurrentAt i c (env.GetMinSize c) (readMinSize env s1 i) := by
    unfold CurrentAt readMinSize
    simp only [getItem_set_eq _ _ _ hlt]
    rw [hread]
    exact ⟨hc1, rfl, rfl, rfl⟩
  obtain ⟨h1, h2, h3, h4⟩ := CurrentAt_readMany i c _ ops _ hcur
  have hr2 := GetCtrlMinSize_current env2 _ _ c h1 h2 h3
  rw [hs2]
  unfold readMany
  rw [hr2]
  exact ⟨rfl, h4, rfl⟩

theorem sampleCacheState_reachable : CacheReachable sampleCacheState :=
  CacheReachable.read sampleEnv 0 _
    (CacheReachable.init _ rfl (by intro it hit; simp [expandItem] at hit; subst hit; exact ⟨rfl, rfl⟩))

/-- Witness for C9: a container with one box item, read once. -/
theorem C9_min_size_cache_correct_witness :
    CacheReachable sampleCacheState ∧
    (GetCtrlMinSize sampleEnv (InvalidateAllMinSizes sampleCacheState).minsize_epoch
        (getItem (InvalidateAllMinSizes sampleCacheState).items 0)).queries = 1 :=
  ⟨sampleCacheState_reachable,
   ((C9_min_size_cache_correct sampleCacheState sampleCacheState_reachable).2
      sampleEnv 0 0 [] _ (by simp) rfl rfl).1⟩

/-- C10 (invalidate-all leaves no item current).  In every state reachable from
freshly added items through `GetCtrlMinSize`, `InvalidateMinSize` and
`InvalidateAllMinSizes` (and the insertion of fresh items), the epoch lies in
`[1, INT_MAX)` (the 32-bit counter never overflows), right after `InvalidateAllMinSizes` every item is invalid or
carries an epoch different from the current one, and on the call where the
incremented counter reaches `INT_MAX` the epoch is reset to `1` and every item
is invalid. -/
theorem C10_invalidate_all_leaves_no_item_current (fb : FlowBoxLayout)
    (h : CacheReachable fb) :
    (1 ≤ fb.minsize_epoch ∧ fb.minsize_epoch < INT_MAX) ∧
    (∀ it ∈ (InvalidateAllMinSizes fb).items,
        it.ms_valid = false ∨ it.ms_epoch ≠ (InvalidateAllMinSizes fb).minsize_epoch) ∧
    (fb.minsize_epoch + 1 = INT_MAX →
        (InvalidateAllMinSizes fb).minsize_epoch = 1 ∧
        ∀ it ∈ (InvalidateAllMinSizes fb).items, it.ms_valid = false) := by
  have hinv := CacheInv_of_reachable fb h
  refine ⟨⟨hinv.1, hinv.2.1⟩, stale_after_invalidateAll fb hinv, ?_⟩
  intro he
  have hw : wrapInt32 (fb.minsize_epoch + 1) = INT_MAX := by
    rw [wrapInt32_succ _ hinv.1 hinv.2.1, he]
  have hfb : InvalidateAllMinSizes fb =
      { fb with minsize_epoch := 1,
                items := fb.items.map (fun it => { it with ms_valid := false }) } := by
    unfold InvalidateAllMinSizes
    simp only [hw, if_true]
  rw [hfb]
  refine ⟨rfl, ?_⟩
  intro it hit
  simp only [List.mem_map] at hit
  obtain ⟨a, _, rfl⟩ := hit
  rfl

/-- Witness for C10: a container with one box item, read once. -/
theorem C10_invalidate_all_leaves_no_item_current_witness :
    CacheReachable sampleCacheState ∧
    ∀ it ∈ (InvalidateAllMinSizes sampleCacheState).items,
        it.ms_valid = false ∨ it.ms_epoch ≠ (InvalidateAllMinSizes sampleCacheState).minsize_epoch :=
  ⟨sampleCacheState_reachable,
   (C10_invalidate_all_leaves_no_item_current sampleCacheState sampleCacheState_reachable).2.1⟩

/-! ## General lemmas -/

theorem ClampWith_le_max (minv maxv v : Int) (h : 0 ≤ maxv) : ClampWith minv maxv v ≤ maxv := by
  unfold ClampWith
  simp only [ge_iff_le, h, if_true]
  exact min_le_right _ _

theorem ClampWith_unset (maxv v : Int) (h : v ≤ maxv) : ClampWith (-1) maxv v = v := by
  unfold ClampWith
  simp only [ge_iff_le]
  split <;> split <;> omega

theorem getItem_set (l : List Item) (i j : Nat) (a : Item) :
    getItem (l.set j a) i = if j = i ∧ i < l.length then a else getItem l i := by
  by_cases h : j = i
  · subst h
    by_cases hl : j < l.length
    · simp [hl, getItem_set_eq _ _ _ hl]
    · simp only [hl, and_false, if_false]
      rw [getItem_default_of_le _ _ (by simp; omega), getItem_default_of_le _ _ (by omega)]
  · simp [h, getItem_set_ne _ _ _ _ h]

theorem forall_getItem_set (P : Item → Prop) (l : List Item) (j : Nat) (a : Item)
    (hl : ∀ i, P (getItem l i)) (ha : P a) : ∀ i, P (getItem (l.set j a) i) := by
  intro i
  rw [getItem_set]
  split
  · exact ha
  · exact hl i

theorem GetCtrlMinSize_cfg (env : Env) (e : Int) (it : Item) :
    (GetCtrlMinSize env e it).item.cfg = it.cfg := by
  unfold GetCtrlMinSize
  split
  · rfl
  · split <;> rfl

theorem GetCtrlMinSize_cl (env : Env) (e : Int) (it : Item) :
    (GetCtrlMinSize env e it).item.cl = it.cl := by
  unfold GetCtrlMinSize
  split
  · rfl
  · split <;> rfl

theorem cfg_fields (a b : Item) (h : a.cfg = b.cfg) :
    a.c = b.c ∧ a.fixed = b.fixed ∧ a.expandingWeight = b.expandingWeight ∧ a.fit = b.fit ∧
    a.is_break = b.is_break ∧ a.minw = b.minw ∧ a.maxw = b.maxw ∧ a.minh = b.minh ∧
    a.maxh = b.maxh ∧ a.align_self = b.align_self := by
  have h1 := congrArg Item.c h
  have h2 := congrArg Item.fixed h
  have h3 := congrArg Item.expandingWeight h
  have h4 := congrArg Item.fit h
  have h5 := congrArg Item.is_break h
  have h6 := congrArg Item.minw h
  have h7 := congrArg Item.maxw h
  have h8 := congrArg Item.minh h
  have h9 := congrArg Item.maxh h
  have h10 := congrArg Item.align_self h
  exact ⟨h1, h2, h3, h4, h5, h6, h7, h8, h9, h10⟩

theorem cfg_set_cl (it : Item) (cl : TransientLayoutCache) : ({ it with cl := cl } : Item).cfg = it.cfg := rfl

/-- Index-wise equality of configurations. -/
theorem getItem_cfg_set (l : List Item) (j : Nat) (a : Item) (h : a.cfg = (getItem l j).cfg) :
    ∀ i, (getItem (l.set j a) i).cfg = (getItem l i).cfg := by
  intro i
  rw [getItem_set]
  split
  · rename_i hh; rw [h, hh.1]
  · rfl

/-! ## Vertical planner: lemmas -/

theorem vItem_cfg (fb : FlowBoxLayout) (env : Env) (probe : FlowBoxLayout → Rect → FlowBoxLayout)
    (inner_w : Int) (i : Nat) (it : Item) :
    (vItem fb env probe inner_w i it).1.cfg = it.cfg ∧
    (vItem fb env probe inner_w i it).1.cl = it.cl := by
  unfold vItem
  split
  · exact ⟨rfl, rfl⟩
  · split
    · exact ⟨rfl, rfl⟩
    · split
      · exact ⟨rfl, rfl⟩
      · split
        · exact ⟨rfl, rfl⟩
        · exact ⟨GetCtrlMinSize_cfg _ _ _, GetCtrlMinSize_cl _ _ _⟩

/-- Every cell built by the loop comes from the loop body on its own item. -/
theorem vBuild_cell_origin (fb : FlowBoxLayout) (env : Env)
    (probe : FlowBoxLayout → Rect → FlowBoxLayout) (inner_w : Int) (items : List Item) :
    ∀ (i : Nat) (c : VCell), c ∈ (vBuild fb env probe inner_w i items).2 →
      ∃ j, j < items.length ∧ c.idx = i + j ∧
        (vItem fb env probe inner_w (i + j) (getItem items j)).2 = some c := by
  induction items with
  | nil => intro i c h; simp [vBuild] at h
  | cons it rest ih =>
    intro i c h
    simp only [vBuild, List.mem_append, Option.mem_toList, Option.mem_def] at h
    rcases h with h | h
    · refine ⟨0, by simp, ?_, ?_⟩
      · have : c.idx = i := by
          unfold vItem at h
          split at h
          · cases h
          · split at h
            · cases h; rfl
            · split at h
              · cases h; rfl
              · split at h
                · cases h; rfl
                · cases h; rfl
        simpa using this
      · simpa [getItem] using h
    · obtain ⟨j, hj, hidx, hcell⟩ := ih (i + 1) c h
      refine ⟨j + 1, by simp; omega, by omega, ?_⟩
      have e : i + (j + 1) = i + 1 + j := by omega
      rw [e]
      simpa [getItem] using hcell

theorem vBuild_items_length (fb : FlowBoxLayout) (env : Env)
    (probe : FlowBoxLayout → Rect → FlowBoxLayout) (inner_w : Int) (items : List Item) :
    ∀ (i : Nat), (vBuild fb env probe inner_w i items).1.length = items.length := by
  induction items with
  | nil => intro i; rfl
  | cons it rest ih => intro i; simp [vBuild, ih]

/-- Item-wise description of the items after the build loop. -/
theorem vBuild_getItem (fb : FlowBoxLayout) (env : Env)
    (probe : FlowBoxLayout → Rect → FlowBoxLayout) (inner_w : Int) (items : List Item) :
    ∀ (i j : Nat), j < items.length →
      getItem (vBuild fb env probe inner_w i items).1 j
        = (vItem fb env probe inner_w (i + j) (getItem items j)).1 := by
  induction items with
  | nil => intro i j h; simp at h
  | cons it rest ih =>
    intro i j h
    cases j with
    | zero => simp [vBuild, getItem]
    | succ n =>
      have hn : n < rest.length := by simpa using h
      have := ih (i + 1) n hn
      have e : i + (n + 1) = i + 1 + n := by omega
      rw [e]
      simpa [vBuild, getItem] using this

theorem VCellStep_refl (items : List Item) (c : VCell) : VCellStep items c c :=
  ⟨rfl, rfl, fun _ => rfl, fun _ h => h⟩

theorem VCellStep_trans (items : List Item) (a b c : VCell)
    (h1 : VCellStep items a b) (h2 : VCellStep items b c) : VCellStep items a c := by
  obtain ⟨a1, a2, a3, a5⟩ := h1
  obtain ⟨b1, b2, b3, b5⟩ := h2
  refine ⟨by rw [b1, a1], by rw [b2, a2], ?_, ?_⟩
  · intro h
    rw [b3 (by rw [a2]; exact h), a3 h]
  · intro hm hle
    rw [a1] at b5
    exact b5 hm (a5 hm hle)

theorem forall₂_refl_of {α : Type} (R : α → α → Prop) (h : ∀ a, R a a) (l : List α) :
    List.Forall₂ R l l := by
  induction l with
  | nil => exact List.Forall₂.nil
  | cons a t ih => exact List.Forall₂.cons (h a) ih

theorem forall₂_trans_of {α : Type} (R : α → α → Prop)
    (h : ∀ a b c, R a b → R b c → R a c) :
    ∀ (l1 l2 l3 : List α), List.Forall₂ R l1 l2 → List.Forall₂ R l2 l3 → List.Forall₂ R l1 l3 := by
  intro l1 l2 l3 h12
  induction h12 generalizing l3 with
  | nil => intro h23; cases h23; exact List.Forall₂.nil
  | cons hab _ ih =>
    intro h23
    cases h23 with
    | cons hbc ht => exact List.Forall₂.cons (h _ _ _ hab hbc) (ih _ ht)

theorem tdiv_nonneg_of (a b : Int) (ha : 0 ≤ a) (hb : 0 ≤ b) : 0 ≤ Int.tdiv a b := by
  rw [Int.tdiv_eq_ediv ha hb]
  exact Int.ediv_nonneg ha hb

/-- A value in the range of a 32-bit `int` is kept by the wrap-around. -/
theorem wrapInt32_of_range (v : Int) (h1 : -2147483648 ≤ v) (h2 : v ≤ INT_MAX) :
    wrapInt32 v = v := by
  unfold wrapInt32
  unfold INT_MAX at h2
  omega

/-- A share never exceeds the pool. -/
theorem shareOf_le (remainder weight total rem : Int) :
    shareOf remainder weight total rem ≤ rem := by
  unfold shareOf
  exact min_le_right _ _

/-- The quotient of a share lies between `0` and the remainder when the weight
is part of the total. -/
theorem share_quotient_bounds (remainder weight total : Int)
    (hr : 0 ≤ remainder) (hw : 0 ≤ weight) (hwt : weight ≤ total) :
    0 ≤ Int.tdiv (remainder * weight) total ∧ Int.tdiv (remainder * weight) total ≤ remainder := by
  have ht : 0 ≤ total := le_trans hw hwt
  refine ⟨tdiv_nonneg_of _ _ (Int.mul_nonneg hr hw) ht, ?_⟩
  rw [Int.tdiv_eq_ediv (Int.mul_nonneg hr hw) ht]
  by_cases h0 : total = 0
  · rw [h0, Int.ediv_zero]; exact hr
  · exact Int.ediv_le_of_le_mul (by omega) (Int.mul_le_mul_of_nonneg_left hwt hr)

/-- With a remainder that an `int` holds and a weight that is part of the
total, the cast of the quotient changes nothing. -/
theorem share_quotient_wrap (remainder weight total : Int)
    (hr : 0 ≤ remainder) (hr2 : remainder ≤ INT_MAX) (hw : 0 ≤ weight) (hwt : weight ≤ total) :
    wrapInt32 (Int.tdiv (remainder * weight) total) = Int.tdiv (remainder * weight) total := by
  have h := share_quotient_bounds remainder weight total hr hw hwt
  exact wrapInt32_of_range _ (by omega) (by omega)

/-- With a remainder that an `int` holds and a weight that is part of the
total, a share is never negative and never exceeds the pool. -/
theorem shareOf_bounds (remainder weight total rem : Int)
    (hr : 0 ≤ remainder) (hr2 : remainder ≤ INT_MAX) (hw : 0 ≤ weight) (hwt : weight ≤ total)
    (hrem : 0 ≤ rem) :
    0 ≤ shareOf remainder weight total rem ∧ shareOf remainder weight total rem ≤ rem := by
  have h0 := (share_quotient_bounds remainder weight total hr hw hwt).1
  unfold shareOf
  simp only
  rw [share_quotient_wrap remainder weight total hr hr2 hw hwt]
  generalize Int.tdiv (remainder * weight) total = s at h0 ⊢
  by_cases hc : s = 0 ∧ rem > 0
  · rw [if_pos hc]; omega
  · rw [if_neg hc]; omega

/-- Serving an entry: the new size is the clamped sum, and the pool stays
non-negative when the share does not exceed it. -/
theorem serve_fst (lo hi old share rem : Int) :
    (serve lo hi old share rem).1 = ClampWith lo hi (old + share) := rfl

theorem serve_snd_nonneg (lo hi old share rem : Int) (h2 : share ≤ rem) :
    0 ≤ (serve lo hi old share rem).2 := by
  unfold serve
  simp only
  by_cases hc : ClampWith lo hi (old + share) - old < share
  · rw [if_pos hc]; omega
  · rw [if_neg hc]; omega

theorem vDistribute_step (items : List Item) (remainder ews : Int) :
    ∀ (cells : List VCell) (rem : Int), 0 ≤ rem →
      List.Forall₂ (VCellStep items) cells (vDistribute items remainder ews rem cells).1 ∧
      0 ≤ (vDistribute items remainder ews rem cells).2 := by
  intro cells
  induction cells with
  | nil => intro rem h; exact ⟨List.Forall₂.nil, h⟩
  | cons c rest ih =>
    intro rem hrem
    unfold vDistribute
    by_cases hws : c.wshare ≤ 0
    · rw [if_pos hws]
      exact ⟨List.Forall₂.cons (VCellStep_refl _ _) (ih rem hrem).1, (ih rem hrem).2⟩
    · rw [if_neg hws]
      simp only
      have hb := shareOf_le remainder c.wshare ews rem
      have hstep : VCellStep items c
          { c with h := (serve (getItem items c.idx).minh (getItem items c.idx).maxh c.h
                          (shareOf remainder c.wshare ews rem) rem).1 } := by
        rw [serve_fst]
        refine ⟨rfl, rfl, fun h => absurd h hws, ?_⟩
        intro hm _
        exact ClampWith_le_max _ _ _ hm
      have hrem2 := serve_snd_nonneg (getItem items c.idx).minh (getItem items c.idx).maxh c.h
        _ rem hb
      by_cases hz : (serve (getItem items c.idx).minh (getItem items c.idx).maxh c.h
                          (shareOf remainder c.wshare ews rem) rem).2 = 0
      · rw [if_pos hz]
        exact ⟨List.Forall₂.cons hstep (forall₂_refl_of _ (VCellStep_refl items) rest), hrem2⟩
      · rw [if_neg hz]
        exact ⟨List.Forall₂.cons hstep (ih _ hrem2).1, (ih _ hrem2).2⟩

theorem vLeftover_step (items : List Item) :
    ∀ (cells : List VCell) (rem : Int),
      List.Forall₂ (VCellStep items) cells (vLeftover items rem cells) := by
  intro cells
  induction cells with
  | nil => intro rem; exact List.Forall₂.nil
  | cons c rest ih =>
    intro rem
    unfold vLeftover
    by_cases hrem : rem > 0
    · rw [if_pos hrem]
      by_cases hs : c.wshare ≤ 0 ∨ roomOf (getItem items c.idx) c.h ≤ 0
      · rw [if_pos hs]
        exact List.Forall₂.cons (VCellStep_refl _ _) (ih rem)
      · rw [if_neg hs]
        refine List.Forall₂.cons ?_ (ih _)
        have hroom : 0 < roomOf (getItem items c.idx) c.h := by omega
        refine ⟨rfl, rfl, fun h => absurd (Or.inl h) hs, ?_⟩
        intro hm _
        show c.h + min (roomOf (getItem items c.idx) c.h) rem ≤ _
        have h1 : min (roomOf (getItem items c.idx) c.h) rem
            ≤ roomOf (getItem items c.idx) c.h := min_le_left _ _
        have h2 : roomOf (getItem items c.idx) c.h = (getItem items c.idx).maxh - c.h := by
          unfold roomOf; rw [if_pos hm]
        omega
    · rw [if_neg hrem]
      exact forall₂_refl_of _ (VCellStep_refl items) _

theorem vDistributeAll_step (fb : FlowBoxLayout) (items : List Item) (inner_h : Int)
    (cells : List VCell) :
    List.Forall₂ (VCellStep items) cells (vDistributeAll fb items inner_h cells) := by
  unfold vDistributeAll
  simp only
  generalize (if fb.fixed_row ≥ 0 then (0 : Int) else
    max 0 (inner_h - ((cells.map (fun c => c.h)).sum + max 0 ((cells.length : Int) - 1) * fb.gap)))
    = remainder
  generalize wrapInt32 (cells.map (fun c => c.wshare)).sum = ews
  by_cases h : fb.fixed_row < 0 ∧ ews > 0 ∧ remainder > 0
  · rw [if_pos h]
    obtain ⟨_, _, hrem⟩ := h
    have hd := vDistribute_step items remainder ews cells _ (le_of_lt hrem)
    by_cases h2 : (vDistribute items remainder ews remainder cells).2 > 0
    · rw [if_pos h2]
      exact forall₂_trans_of _ (VCellStep_trans items) _ _ _ hd.1 (vLeftover_step items _ _)
    · rw [if_neg h2]
      exact hd.1
  · rw [if_neg h]
    exact forall₂_refl_of _ (VCellStep_refl items) _

/-- The placement of one cell replaces the item of the cell by an item with
the same configuration whose cell rectangle spans the inner width and has the
height of the cell. -/
theorem vPlaceCell_spec (fb : FlowBoxLayout) (env : Env) (irc : Rect) (inner_w : Int)
    (k : Nat) (c : VCell) (more : Bool) (st : VPlace) :
    ∃ it2, (vPlaceCell fb env irc inner_w k c more st).items = st.items.set c.idx it2 ∧
      it2.cfg = (getItem st.items c.idx).cfg ∧
      it2.cl.cell = ⟨irc.left, st.y, irc.right, st.y + c.h⟩ ∧
      it2.cl.rowOrCol = (k : Int) ∧
      it2.cl.visible = (getItem st.items c.idx).cl.visible := by
  unfold vPlaceCell
  simp only
  split
  · refine ⟨_, rfl, ?_, rfl, rfl, ?_⟩
    · exact GetCtrlMinSize_cfg _ _ _
    · show (GetCtrlMinSize env fb.minsize_epoch (getItem st.items c.idx)).item.cl.visible = _
      rw [GetCtrlMinSize_cl]
  · exact ⟨_, rfl, rfl, rfl, rfl, rfl⟩

theorem vPlaceCell_y (fb : FlowBoxLayout) (env : Env) (irc : Rect) (inner_w : Int)
    (k : Nat) (c : VCell) (more : Bool) (st : VPlace) :
    (vPlaceCell fb env irc inner_w k c more st).y
      = if more then st.y + c.h + fb.gap else st.y + c.h := by
  unfold vPlaceCell
  simp only
  split <;> rfl

theorem vPlaceCell_cfg (fb : FlowBoxLayout) (env : Env) (irc : Rect) (inner_w : Int)
    (k : Nat) (c : VCell) (more : Bool) (st : VPlace) :
    ∀ j, (getItem (vPlaceCell fb env irc inner_w k c more st).items j).cfg
      = (getItem st.items j).cfg := by
  obtain ⟨it2, h1, h2, _⟩ := vPlaceCell_spec fb env irc inner_w k c more st
  rw [h1]
  exact getItem_cfg_set _ _ _ h2

theorem vPlaceCell_length (fb : FlowBoxLayout) (env : Env) (irc : Rect) (inner_w : Int)
    (k : Nat) (c : VCell) (more : Bool) (st : VPlace) :
    (vPlaceCell fb env irc inner_w k c more st).items.length = st.items.length := by
  obtain ⟨it2, h1, _⟩ := vPlaceCell_spec fb env irc inner_w k c more st
  rw [h1]; simp

/-- Invariant of the placement loop of `LayoutVertical`: an item property `P`
that each placement step maintains, given a property `Q` of the cell and the
configuration of its item, holds for every item after the loop. -/
theorem vPlace_inv (fb : FlowBoxLayout) (env : Env) (irc : Rect) (inner_w : Int)
    (P : Item → Prop) (Q : VCell → Item → Prop)
    (hQ : ∀ c a b, a.cfg = b.cfg → Q c a → Q c b)
    (hstep : ∀ k c more st, (∀ j, P (getItem st.items j)) → Q c (getItem st.items c.idx) →
      ∀ j, P (getItem (vPlaceCell fb env irc inner_w k c more st).items j)) :
    ∀ (cells : List VCell) (k : Nat) (st : VPlace),
      (∀ j, P (getItem st.items j)) → (∀ c ∈ cells, Q c (getItem st.items c.idx)) →
      ∀ j, P (getItem (vPlace fb env irc inner_w k cells st).items j) := by
  intro cells
  induction cells with
  | nil => intro k st hP _; exact hP
  | cons c rest ih =>
    intro k st hP hQc
    unfold vPlace
    apply ih
    · exact hstep k c _ st hP (hQc c (List.mem_cons_self _ _))
    · intro c2 hc2
      exact hQ c2 _ _ (vPlaceCell_cfg fb env irc inner_w k c _ st c2.idx).symm
        (hQc c2 (List.mem_cons_of_mem _ hc2))

theorem vPlace_cfg (fb : FlowBoxLayout) (env : Env) (irc : Rect) (inner_w : Int) :
    ∀ (cells : List VCell) (k : Nat) (st : VPlace) (j : Nat),
      (getItem (vPlace fb env irc inner_w k cells st).items j).cfg = (getItem st.items j).cfg := by
  intro cells
  induction cells with
  | nil => intro k st j; rfl
  | cons c rest ih =>
    intro k st j
    unfold vPlace
    rw [ih, vPlaceCell_cfg]

theorem vPlace_length (fb : FlowBoxLayout) (env : Env) (irc : Rect) (inner_w : Int) :
    ∀ (cells : List VCell) (k : Nat) (st : VPlace),
      (vPlace fb env irc inner_w k cells st).items.length = st.items.length := by
  intro cells
  induction cells with
  | nil => intro k st; rfl
  | cons c rest ih =>
    intro k st
    unfold vPlace
    rw [ih, vPlaceCell_length]

/-- Items that are not the item of any cell are left alone by the placement
loop. -/
theorem vPlace_other (fb : FlowBoxLayout) (env : Env) (irc : Rect) (inner_w : Int) :
    ∀ (cells : List VCell) (k : Nat) (st : VPlace) (j : Nat),
      (∀ c ∈ cells, c.idx ≠ j) →
      getItem (vPlace fb env irc inner_w k cells st).items j = getItem st.items j := by
  intro cells
  induction cells with
  | nil => intro k st j _; rfl
  | cons c rest ih =>
    intro k st j h
    unfold vPlace
    rw [ih _ _ _ (fun c2 hc2 => h c2 (List.mem_cons_of_mem _ hc2))]
    obtain ⟨it2, h1, _⟩ := vPlaceCell_spec fb env irc inner_w k c (!rest.isEmpty) st
    rw [h1, getItem_set_ne _ _ _ _ (h c (List.mem_cons_self _ _))]

/-- With pairwise different item indices, every cell's item ends the placement
loop with a cell rectangle of exactly the height of the cell. -/
theorem vPlace_cell_height (fb : FlowBoxLayout) (env : Env) (irc : Rect) (inner_w : Int) :
    ∀ (cells : List VCell) (k : Nat) (st : VPlace),
      (cells.map (fun c => c.idx)).Nodup → (∀ c ∈ cells, c.idx < st.items.length) →
      ∀ c ∈ cells,
        (getItem (vPlace fb env irc inner_w k cells st).items c.idx).cl.cell.GetHeight = c.h := by
  intro cells
  induction cells with
  | nil => intro k st _ _ c hc; simp at hc
  | cons c0 rest ih =>
    intro k st hnd hlt c hc
    simp only [List.map_cons, List.nodup_cons, List.mem_map, not_exists, not_and] at hnd
    unfold vPlace
    rcases List.mem_cons.mp hc with h | h
    · subst h
      rw [vPlace_other _ _ _ _ _ _ _ _ (fun c2 hc2 => hnd.1 c2 hc2)]
      obtain ⟨it2, h1, _, h3, _⟩ := vPlaceCell_spec fb env irc inner_w k c (!rest.isEmpty) st
      rw [h1, getItem_set_eq _ _ _ (hlt c (List.mem_cons_self _ _)), h3]
      simp [Rect.GetHeight]
    · apply ih _ _ hnd.2 _ c h
      intro c2 hc2
      rw [vPlaceCell_length]
      exact hlt c2 (List.mem_cons_of_mem _ hc2)

theorem forall₂_mem_left {α : Type} (R : α → α → Prop) :
    ∀ (l1 l2 : List α), List.Forall₂ R l1 l2 → ∀ a ∈ l1, ∃ b ∈ l2, R a b := by
  intro l1 l2 h
  induction h with
  | nil => intro a ha; simp at ha
  | cons hab _ ih =>
    intro a ha
    rcases List.mem_cons.mp ha with h | h
    · subst h; exact ⟨_, List.mem_cons_self _ _, hab⟩
    · obtain ⟨b, hb, hr⟩ := ih a h
      exact ⟨b, List.mem_cons_of_mem _ hb, hr⟩

theorem forall₂_mem_right {α : Type} (R : α → α → Prop) :
    ∀ (l1 l2 : List α), List.Forall₂ R l1 l2 → ∀ b ∈ l2, ∃ a ∈ l1, R a b := by
  intro l1 l2 h
  induction h with
  | nil => intro a ha; simp at ha
  | cons hab _ ih =>
    intro b hb
    rcases List.mem_cons.mp hb with h | h
    · subst h; exact ⟨_, List.mem_cons_self _ _, hab⟩
    · obtain ⟨a, ha, hr⟩ := ih b h
      exact ⟨a, List.mem_cons_of_mem _ ha, hr⟩

theorem forall₂_map_eq {α β : Type} (R : α → α → Prop) (f : α → β)
    (hf : ∀ a b, R a b → f b = f a) :
    ∀ (l1 l2 : List α), List.Forall₂ R l1 l2 → l2.map f = l1.map f := by
  intro l1 l2 h
  induction h with
  | nil => rfl
  | cons hab _ ih => simp [hf _ _ hab, ih]

/-! ## Vertical even split -/

/-- What the "mark visible" loop leaves for a shown box item. -/
theorem markItem_shown (env : Env) (it : Item) (h : shownBox env it) :
    markItem env { it with cl := {} }
      = { it with cl := { visible := true, spacer := false } } := by
  obtain ⟨c, hc, hs, hb⟩ := h
  unfold markItem participates
  simp [hc, hs, hb]

theorem getItem_map (f : Item → Item) (l : List Item) (i : Nat) (h : i < l.length) :
    getItem (l.map f) i = f (getItem l i) := by
  unfold getItem
  rw [List.getD_eq_getElem _ _ (by simpa using h), List.getD_eq_getElem _ _ h]
  simp

theorem fixedExpandCells_mem (items : List Item) :
    ∀ (i0 j : Nat), j < items.length →
      (⟨i0 + j, if (getItem items j).expandingWeight > 0 then 0 else (getItem items j).fixed,
        if (getItem items j).expandingWeight > 0 then (getItem items j).expandingWeight else 0⟩
        : VCell) ∈ fixedExpandCells i0 items := by
  induction items with
  | nil => intro i0 j h; simp at h
  | cons it rest ih =>
    intro i0 j h
    cases j with
    | zero => simp [fixedExpandCells, getItem]
    | succ n =>
      have hn : n < rest.length := by simpa using h
      have := ih (i0 + 1) n hn
      have e : i0 + (n + 1) = i0 + 1 + n := by omega
      rw [e]
      unfold fixedExpandCells
      exact List.mem_cons_of_mem _ (by simpa [getItem] using this)

theorem fixedExpandCells_idx (items : List Item) :
    ∀ (i0 : Nat), (fixedExpandCells i0 items).map (fun c => c.idx) = List.range' i0 items.length := by
  induction items with
  | nil => intro i0; rfl
  | cons it rest ih => intro i0; simp [fixedExpandCells, ih, List.range'_succ]

theorem fixedExpandCells_length (items : List Item) :
    ∀ (i0 : Nat), (fixedExpandCells i0 items).length = items.length := by
  induction items with
  | nil => intro i0; rfl
  | cons it rest ih => intro i0; simp [fixedExpandCells, ih]

theorem fixedExpandCells_sum_h (items : List Item) :
    ∀ (i0 : Nat), ((fixedExpandCells i0 items).map (fun c => c.h)).sum = fixedSum items := by
  induction items with
  | nil => intro i0; rfl
  | cons it rest ih =>
    intro i0
    have := ih (i0 + 1)
    simp only [fixedExpandCells, List.map_cons, List.sum_cons, fixedSum] at this ⊢
    rw [this]

theorem fixedExpandCells_sum_w (wt : Int) (hwt : 0 < wt) (items : List Item)
    (h : ∀ it ∈ items, it.expandingWeight = 0 ∨ it.expandingWeight = wt) :
    ∀ (i0 : Nat), ((fixedExpandCells i0 items).map (fun c => c.wshare)).sum
      = expandCount items * wt := by
  induction items with
  | nil => intro i0; simp [fixedExpandCells, expandCount]
  | cons it rest ih =>
    intro i0
    have hrest := ih (fun a ha => h a (List.mem_cons_of_mem _ ha)) (i0 + 1)
    simp only [fixedExpandCells, List.map_cons, List.sum_cons, expandCount] at hrest ⊢
    rw [hrest]
    rcases h it (List.mem_cons_self _ _) with h0 | h1
    · simp [List.filter_cons, h0]
    · have : it.expandingWeight > 0 := by omega
      simp only [List.filter_cons, this, decide_True, if_true, List.length_cons]
      rw [h1]
      push_cast
      ring

theorem vItem_fixedExpand (fb : FlowBoxLayout) (env : Env)
    (probe : FlowBoxLayout → Rect → FlowBoxLayout) (inner_w wt : Int) (i : Nat) (it : Item)
    (hrow : fb.fixed_row < 0) (hwt : 0 < wt)
    (hv : it.cl.visible = true) (hs : it.cl.spacer = false) (hb : it.is_break = false)
    (hmin : it.minh = -1) (hmax : it.maxh = INT_MAX)
    (hk : (0 ≤ it.fixed ∧ it.fixed ≤ INT_MAX ∧ it.expandingWeight = 0) ∨
          (it.fixed < 0 ∧ it.fit = false ∧ it.expandingWeight = wt)) :
    (vItem fb env probe inner_w i it).2
      = some ⟨i, if it.expandingWeight > 0 then 0 else it.fixed,
                 if it.expandingWeight > 0 then it.expandingWeight else 0⟩ := by
  unfold vItem
  have hrow2 : ¬ fb.fixed_row ≥ 0 := by omega
  simp only [hv, hs, hb, hrow2, if_false, Bool.true_eq_false, Bool.false_eq_true, hmin, hmax]
  rcases hk with ⟨h1, h2, h3⟩ | ⟨h1, h2, h3⟩
  · have hw : ¬ it.expandingWeight > 0 := by omega
    have hf : it.fixed ≥ 0 := h1
    simp only [hf, hw, if_true, if_false]
    rw [ClampWith_unset _ _ h2]
  · have hw : it.expandingWeight > 0 := by omega
    have hf : ¬ it.fixed ≥ 0 := by omega
    simp only [hf, hw, h2, if_true, if_false, Bool.false_eq_true]
    rw [ClampWith_unset _ _ (by decide)]
    have : max 1 it.expandingWeight = it.expandingWeight := by omega
    rw [this]

theorem vBuild_fixedExpand (fb : FlowBoxLayout) (env : Env)
    (probe : FlowBoxLayout → Rect → FlowBoxLayout) (inner_w wt : Int)
    (hrow : fb.fixed_row < 0) (hwt : 0 < wt) (items : List Item)
    (h : ∀ it ∈ items, it.cl.visible = true ∧ it.cl.spacer = false ∧ it.is_break = false ∧
      it.minh = -1 ∧ it.maxh = INT_MAX ∧
      ((0 ≤ it.fixed ∧ it.fixed ≤ INT_MAX ∧ it.expandingWeight = 0) ∨
       (it.fixed < 0 ∧ it.fit = false ∧ it.expandingWeight = wt))) :
    ∀ i0, (vBuild fb env probe inner_w i0 items).2 = fixedExpandCells i0 items := by
  induction items with
  | nil => intro i0; rfl
  | cons it rest ih =>
    intro i0
    obtain ⟨h1, h2, h3, h4, h5, h6⟩ := h it (List.mem_cons_self _ _)
    unfold vBuild fixedExpandCells
    simp only
    rw [vItem_fixedExpand fb env probe inner_w wt i0 it hrow hwt h1 h2 h3 h4 h5 h6,
      ih (fun a ha => h a (List.mem_cons_of_mem _ ha)) (i0 + 1)]
    rfl

/-- The expected outcome of the first distribution loop when the pool divides
evenly: every weighted cell gets the height `q`. -/
theorem vDistribute_even (items : List Item) (remainder ews wt q : Int)
    (hwt : 0 < wt) (hq1 : 1 ≤ q) (hq2 : q ≤ INT_MAX) (hews : 0 < ews)
    (hrq : remainder * wt = ews * q) :
    ∀ (cells : List VCell) (rem : Int),
      (∀ c ∈ cells, c.wshare = 0 ∨ (c.wshare = wt ∧ c.h = 0 ∧
          (getItem items c.idx).minh = -1 ∧ (getItem items c.idx).maxh = INT_MAX)) →
      rem * wt = (cells.map (fun c => c.wshare)).sum * q →
      vDistribute items remainder ews rem cells
        = (cells.map (fun c => if c.wshare > 0 then { c with h := q } else c), 0) := by
  intro cells
  induction cells with
  | nil =>
    intro rem _ hr
    simp only [List.map_nil, List.sum_nil, zero_mul] at hr
    have : rem = 0 := by
      rcases Int.mul_eq_zero.mp hr with h | h
      · exact h
      · omega
    simp [vDistribute, this]
  | cons c rest ih =>
    intro rem hc hr
    have hrest : ∀ c ∈ rest, c.wshare = 0 ∨ (c.wshare = wt ∧ c.h = 0 ∧
          (getItem items c.idx).minh = -1 ∧ (getItem items c.idx).maxh = INT_MAX) :=
      fun a ha => hc a (List.mem_cons_of_mem _ ha)
    have hsum_nonneg : ∀ (l : List VCell), (∀ c ∈ l, c.wshare = 0 ∨ (c.wshare = wt ∧ c.h = 0 ∧
          (getItem items c.idx).minh = -1 ∧ (getItem items c.idx).maxh = INT_MAX)) →
          0 ≤ (l.map (fun c => c.wshare)).sum := by
      intro l hl
      apply List.sum_nonneg
      intro x hx
      simp only [List.mem_map] at hx
      obtain ⟨a, ha, rfl⟩ := hx
      rcases hl a ha with h | h
      · omega
      · omega
    simp only [List.map_cons, List.sum_cons] at hr
    unfold vDistribute
    rcases hc c (List.mem_cons_self _ _) with h0 | ⟨hw, hh, hmin, hmax⟩
    · have hle : c.wshare ≤ 0 := by omega
      have hng : ¬ c.wshare > 0 := by omega
      rw [if_pos hle]
      rw [h0, zero_add] at hr
      rw [ih rem hrest hr]
      simp [hng]
    · have hle : ¬ c.wshare ≤ 0 := by omega
      have hpos : c.wshare > 0 := by omega
      rw [if_neg hle]
      simp only
      have hS := hsum_nonneg rest hrest
      -- the share is `q`
      have hdiv : Int.tdiv (remainder * c.wshare) ews = q := by
        rw [hw, hrq, Int.tdiv_eq_ediv (by positivity) (le_of_lt hews)]
        exact Int.mul_ediv_cancel_left q (by omega)
      have hremq : q ≤ rem := by
        have h1 : rem * wt = wt * q + (rest.map (fun c => c.wshare)).sum * q := by
          rw [hr, hw]; ring
        have h2 : 0 ≤ (rest.map (fun c => c.wshare)).sum * q := Int.mul_nonneg hS (by omega)
        by_contra hcon
        have h3 : rem * wt < q * wt := by
          apply Int.mul_lt_mul_of_pos_right (by omega) hwt
        nlinarith
      have hshare : shareOf remainder c.wshare ews rem = q := by
        unfold shareOf
        simp only [hdiv]
        rw [wrapInt32_of_range q (by omega) hq2]
        have : ¬ (q = 0 ∧ rem > 0) := by omega
        rw [if_neg this]
        omega
      have hserve : serve (getItem items c.idx).minh (getItem items c.idx).maxh c.h q rem
          = (q, rem - q) := by
        unfold serve
        simp only [hmin, hmax, hh, zero_add, ClampWith_unset _ _ hq2]
        simp
      rw [hshare, hserve]
      simp only
      have hr2 : (rem - q) * wt = (rest.map (fun c => c.wshare)).sum * q := by
        have h1 : rem * wt = wt * q + (rest.map (fun c => c.wshare)).sum * q := by
          rw [hr, hw]; ring
        linarith [h1]
      by_cases hz : rem - q = 0
      · rw [if_pos hz]
        -- no weighted cell is left
        have hS0 : (rest.map (fun c => c.wshare)).sum = 0 := by
          rw [hz, zero_mul] at hr2
          rcases Int.mul_eq_zero.mp hr2.symm with h | h
          · exact h
          · omega
        have hall : ∀ a ∈ rest, ¬ a.wshare > 0 := by
          intro a ha hpos
          have hle : a.wshare ≤ (rest.map (fun c => c.wshare)).sum := by
            apply List.single_le_sum
            · intro x hx
              simp only [List.mem_map] at hx
              obtain ⟨b, hb, rfl⟩ := hx
              rcases hrest b hb with h | h <;> omega
            · exact List.mem_map_of_mem _ ha
          omega
        have hmap : rest.map (fun c => if c.wshare > 0 then { c with h := q } else c) = rest := by
          conv_rhs => rw [← List.map_id rest]
          apply List.map_congr_left
          intro a ha
          simp [hall a ha]
        simp [hpos, hmap, hz]
      · rw [if_neg hz]
        rw [ih (rem - q) hrest hr2]
        simp [hpos]

theorem fixedSum_nonneg (wt : Int) (items : List Item)
    (h : ∀ it ∈ items, MarkedFixedOrExpand wt it) (hwt : 0 < wt) : 0 ≤ fixedSum items := by
  unfold fixedSum
  apply List.sum_nonneg
  intro x hx
  simp only [List.mem_map] at hx
  obtain ⟨a, ha, rfl⟩ := hx
  obtain ⟨_, _, _, _, _, h6⟩ := h a ha
  rcases h6 with ⟨h1, _, h3⟩ | ⟨_, _, h3⟩
  · simp [h3, h1]
  · have : a.expandingWeight > 0 := by omega
    simp [this]

theorem fixedExpandCells_origin (items : List Item) :
    ∀ (i0 : Nat) (c : VCell), c ∈ fixedExpandCells i0 items →
      ∃ j, j < items.length ∧
        c = ⟨i0 + j, if (getItem items j).expandingWeight > 0 then 0 else (getItem items j).fixed,
          if (getItem items j).expandingWeight > 0 then (getItem items j).expandingWeight else 0⟩ := by
  induction items with
  | nil => intro i0 c h; simp [fixedExpandCells] at h
  | cons it rest ih =>
    intro i0 c h
    unfold fixedExpandCells at h
    rcases List.mem_cons.mp h with h | h
    · exact ⟨0, by simp, by simpa [getItem] using h⟩
    · obtain ⟨j, hj, hc⟩ := ih (i0 + 1) c h
      refine ⟨j + 1, by simp; omega, ?_⟩
      have e : i0 + (j + 1) = i0 + 1 + j := by omega
      rw [e]
      simpa [getItem] using hc

theorem fixedExpandCells_wshare_nonneg (items : List Item) :
    ∀ (i0 : Nat) (c : VCell), c ∈ fixedExpandCells i0 items → 0 ≤ c.wshare := by
  intro i0 c hc
  obtain ⟨j, hj, rfl⟩ := fixedExpandCells_origin items i0 c hc
  simp only
  split <;> omega

theorem fixedExpandCells_caps (wt : Int) (hwt : 0 < wt) (items : List Item)
    (h : ∀ it ∈ items, MarkedFixedOrExpand wt it) (items2 : List Item)
    (hcfg : ∀ j, j < items.length → (getItem items2 j).cfg = (getItem items j).cfg) :
    ∀ c ∈ fixedExpandCells 0 items, c.wshare = 0 ∨ (c.wshare = wt ∧ c.h = 0 ∧
      (getItem items2 c.idx).minh = -1 ∧ (getItem items2 c.idx).maxh = INT_MAX) := by
  intro c hc
  obtain ⟨j, hj, rfl⟩ := fixedExpandCells_origin items 0 c hc
  simp only [zero_add]
  have hm : getItem items j ∈ items := by
    unfold getItem
    rw [List.getD_eq_getElem _ _ hj]
    exact List.getElem_mem hj
  obtain ⟨_, _, _, h4, h5, h6⟩ := h _ hm
  obtain ⟨_, _, _, _, _, _, _, e8, e9, _⟩ := cfg_fields _ _ (hcfg j hj)
  rcases h6 with ⟨_, _, h3⟩ | ⟨_, _, h3⟩
  · left
    simp [h3]
  · right
    have : (getItem items j).expandingWeight > 0 := by omega
    exact ⟨by simpa [this] using h3, by simp [this], by rw [e8, h4], by rw [e9, h5]⟩

theorem LayoutVertical_fixedExpand (fb : FlowBoxLayout) (env : Env)
    (probe : FlowBoxLayout → Rect → FlowBoxLayout) (irc : Rect) (inner_w inner_h wt : Int)
    (hrow : fb.fixed_row < 0) (hgap : 0 ≤ fb.gap) (hwt : 0 < wt) (hH : inner_h ≤ INT_MAX)
    (hitems : ∀ it ∈ fb.items, MarkedFixedOrExpand wt it)
    (hsum : expandCount fb.items * wt ≤ INT_MAX)
    (i : Nat) (hi : i < fb.items.length) :
    ((getItem fb.items i).expandingWeight = 0 →
      (getItem (LayoutVertical fb env probe irc inner_w inner_h).items i).cl.cell.GetHeight
        = (getItem fb.items i).fixed) ∧
    ((getItem fb.items i).expandingWeight > 0 →
      0 ≤ inner_h - (fixedSum fb.items + ((fb.items.length : Int) - 1) * fb.gap) →
      expandCount fb.items ∣ inner_h - (fixedSum fb.items + ((fb.items.length : Int) - 1) * fb.gap) →
      (getItem (LayoutVertical fb env probe irc inner_w inner_h).items i).cl.cell.GetHeight
        = (inner_h - (fixedSum fb.items + ((fb.items.length : Int) - 1) * fb.gap))
            / expandCount fb.items) := by
  -- the cells built
  have hC : (vBuild fb env probe inner_w 0 fb.items).2 = fixedExpandCells 0 fb.items :=
    vBuild_fixedExpand fb env probe inner_w wt hrow hwt fb.items hitems 0
  have hlen : (vBuild fb env probe inner_w 0 fb.items).1.length = fb.items.length :=
    vBuild_items_length fb env probe inner_w fb.items 0
  have hcfg : ∀ j, j < fb.items.length →
      (getItem (vBuild fb env probe inner_w 0 fb.items).1 j).cfg = (getItem fb.items j).cfg := by
    intro j hj
    rw [vBuild_getItem fb env probe inner_w fb.items 0 j hj]
    exact (vItem_cfg fb env probe inner_w _ _).1
  have hweights : ∀ it ∈ fb.items, it.expandingWeight = 0 ∨ it.expandingWeight = wt := by
    intro it hit
    obtain ⟨_, _, _, _, _, h6⟩ := hitems it hit
    rcases h6 with ⟨_, _, h3⟩ | ⟨_, _, h3⟩
    · exact Or.inl h3
    · exact Or.inr h3
  have hmemi := fixedExpandCells_mem fb.items 0 i hi
  rw [zero_add] at hmemi
  have hidxC := fixedExpandCells_idx fb.items 0
  -- the cells after distribution
  have hstep := vDistributeAll_step fb (vBuild fb env probe inner_w 0 fb.items).1 inner_h
    (fixedExpandCells 0 fb.items)
  have hidx : (vDistributeAll fb (vBuild fb env probe inner_w 0 fb.items).1 inner_h
      (fixedExpandCells 0 fb.items)).map (fun c => c.idx) = List.range' 0 fb.items.length := by
    rw [← hidxC]
    exact forall₂_map_eq _ (fun c => c.idx) (fun a b h => h.1) _ _ hstep
  have hnd : ((vDistributeAll fb (vBuild fb env probe inner_w 0 fb.items).1 inner_h
      (fixedExpandCells 0 fb.items)).map (fun c => c.idx)).Nodup := by
    rw [hidx]; exact List.nodup_range' _ _
  have hlt : ∀ c ∈ vDistributeAll fb (vBuild fb env probe inner_w 0 fb.items).1 inner_h
      (fixedExpandCells 0 fb.items),
      c.idx < (vBuild fb env probe inner_w 0 fb.items).1.length := by
    intro c hc
    have : c.idx ∈ List.range' 0 fb.items.length := by
      rw [← hidx]; exact List.mem_map_of_mem _ hc
    rw [hlen]
    simp [List.mem_range'] at this
    omega
  have hplace := vPlace_cell_height fb env irc inner_w
    (vDistributeAll fb (vBuild fb env probe inner_w 0 fb.items).1 inner_h
      (fixedExpandCells 0 fb.items)) 0
    ⟨(vBuild fb env probe inner_w 0 fb.items).1, irc.top, 0⟩ hnd hlt
  have hfinal : (LayoutVertical fb env probe irc inner_w inner_h).items
      = (vPlace fb env irc inner_w 0
          (vDistributeAll fb (vBuild fb env probe inner_w 0 fb.items).1 inner_h
            (fixedExpandCells 0 fb.items))
          ⟨(vBuild fb env probe inner_w 0 fb.items).1, irc.top, 0⟩).items := by
    unfold LayoutVertical
    simp only [hC]
  rw [hfinal]
  constructor
  · intro hw0
    have hng : ¬ (getItem fb.items i).expandingWeight > 0 := by omega
    simp only [hng, if_false] at hmemi
    obtain ⟨c2, hc2, hs⟩ := forall₂_mem_left _ _ _ hstep _ hmemi
    have h := hplace c2 hc2
    rw [hs.1] at h
    rw [h, hs.2.2.1 (le_refl _)]
  · intro hpos hR hdvd
    simp only [hpos, if_true] at hmemi
    have hwi : (getItem fb.items i).expandingWeight = wt := by
      rcases getItem_mem_or_default fb.items i with hm | hd
      · rcases hweights _ hm with h | h
        · omega
        · exact h
      · rw [hd] at hpos; exact absurd hpos (by decide)
    rw [hwi] at hmemi
    have hsumh := fixedExpandCells_sum_h fb.items 0
    have hsumw := fixedExpandCells_sum_w wt hwt fb.items hweights 0
    have hlenC := fixedExpandCells_length fb.items 0
    have hNpos : (1 : Int) ≤ (fb.items.length : Int) := by omega
    have hnpos : 0 < expandCount fb.items := by
      have hle : wt ≤ ((fixedExpandCells 0 fb.items).map (fun c => c.wshare)).sum := by
        have := List.single_le_sum (l := (fixedExpandCells 0 fb.items).map (fun c => c.wshare))
          (by
            intro x hx
            simp only [List.mem_map] at hx
            obtain ⟨b, hb, rfl⟩ := hx
            have hb2 := fixedExpandCells_wshare_nonneg fb.items 0 b hb
            exact hb2) wt (List.mem_map_of_mem (fun c => c.wshare) hmemi)
        exact this
      rw [hsumw] at hle
      by_contra hcon
      have : expandCount fb.items * wt ≤ 0 := Int.mul_nonpos_of_nonpos_of_nonneg (by omega) (by omega)
      omega
    generalize hRdef : inner_h - (fixedSum fb.items + ((fb.items.length : Int) - 1) * fb.gap) = R
      at hR hdvd ⊢
    have hrem : (if fb.fixed_row ≥ 0 then (0 : Int) else
        max 0 (inner_h - (((fixedExpandCells 0 fb.items).map (fun c => c.h)).sum
          + max 0 (((fixedExpandCells 0 fb.items).length : Int) - 1) * fb.gap))) = R := by
      have : ¬ fb.fixed_row ≥ 0 := by omega
      rw [if_neg this, hsumh, hlenC, max_eq_right (by omega : (0:Int) ≤ (fb.items.length : Int) - 1),
        hRdef]
      omega
    by_cases hR0 : R = 0
    · -- nothing to distribute
      have hD : vDistributeAll fb (vBuild fb env probe inner_w 0 fb.items).1 inner_h
          (fixedExpandCells 0 fb.items) = fixedExpandCells 0 fb.items := by
        unfold vDistributeAll
        simp only [hrem, hR0]
        simp
      rw [hD] at hplace
      have h := hplace _ hmemi
      simp only at h
      rw [hD, h, hR0]
      simp
    · have hRpos : 0 < R := by omega
      obtain ⟨q, hq⟩ := hdvd
      have hqpos : 1 ≤ q := by
        by_contra hcon
        have : expandCount fb.items * q ≤ 0 :=
          Int.mul_nonpos_of_nonneg_of_nonpos (by omega) (by omega)
        omega
      have hRq : R / expandCount fb.items = q := by
        rw [hq]; exact Int.mul_ediv_cancel_left q (by omega)
      have hqle : q ≤ INT_MAX := by
        have h1 : q ≤ R := by
          rw [hq]
          have : 1 * q ≤ expandCount fb.items * q :=
            Int.mul_le_mul_of_nonneg_right (by omega) (by omega)
          omega
        have h2 := fixedSum_nonneg wt fb.items hitems hwt
        have h3 : 0 ≤ ((fb.items.length : Int) - 1) * fb.gap := Int.mul_nonneg (by omega) hgap
        omega
      have hews : 0 < expandCount fb.items * wt := Int.mul_pos hnpos hwt
      have hcaps : ∀ c ∈ fixedExpandCells 0 fb.items, c.wshare = 0 ∨ (c.wshare = wt ∧ c.h = 0 ∧
          (getItem (vBuild fb env probe inner_w 0 fb.items).1 c.idx).minh = -1 ∧
          (getItem (vBuild fb env probe inner_w 0 fb.items).1 c.idx).maxh = INT_MAX) := by
        intro c hc
        exact fixedExpandCells_caps wt hwt fb.items hitems
          (vBuild fb env probe inner_w 0 fb.items).1 hcfg c hc
      have heven := vDistribute_even (vBuild fb env probe inner_w 0 fb.items).1 R
        (expandCount fb.items * wt) wt q hwt hqpos hqle hews (by rw [hq]; ring)
        (fixedExpandCells 0 fb.items) R hcaps (by rw [hsumw, hq]; ring)
      have hD : vDistributeAll fb (vBuild fb env probe inner_w 0 fb.items).1 inner_h
          (fixedExpandCells 0 fb.items)
          = (fixedExpandCells 0 fb.items).map
              (fun c => if c.wshare > 0 then { c with h := q } else c) := by
        unfold vDistributeAll
        simp only [hrem, hsumw, wrapInt32_of_range _ (by omega : -2147483648 ≤ expandCount fb.items * wt) hsum,
          heven]
        have hc : fb.fixed_row < 0 ∧ expandCount fb.items * wt > 0 ∧ R > 0 := ⟨hrow, hews, hRpos⟩
        rw [if_pos hc]
        simp
      rw [hD] at hplace
      have hm2 : ({ idx := i, h := q, wshare := wt } : VCell) ∈
          (fixedExpandCells 0 fb.items).map
              (fun c => if c.wshare > 0 then { c with h := q } else c) := by
        refine List.mem_map.mpr ⟨_, hmemi, ?_⟩
        simp [hwt]
      have h := hplace _ hm2
      simp only at h
      rw [hD, h, hRq]

theorem markVisible_shown (env : Env) (items : List Item) (h : ∀ it ∈ items, shownBox env it) :
    markVisible env (resetTransient items)
      = items.map markedShown := by
  unfold markVisible resetTransient
  rw [List.map_map]
  apply List.map_congr_left
  intro it hit
  exact markItem_shown env it (h it hit)

theorem visibleCount_shown (env : Env) (items : List Item) (h : ∀ it ∈ items, shownBox env it) :
    visibleCount env items = items.length := by
  unfold visibleCount
  rw [List.filter_eq_self.mpr]
  intro it hit
  obtain ⟨c, hc, hs, hb⟩ := h it hit
  unfold participates
  simp [hc, hs]

theorem fixedSum_map (f : Item → Item) (items : List Item)
    (hf : ∀ it, (f it).expandingWeight = it.expandingWeight ∧ (f it).fixed = it.fixed) :
    fixedSum (items.map f) = fixedSum items := by
  unfold fixedSum
  rw [List.map_map]
  congr 1
  apply List.map_congr_left
  intro it _
  simp [(hf it).1, (hf it).2]

theorem expandCount_map (f : Item → Item) (items : List Item)
    (hf : ∀ it, (f it).expandingWeight = it.expandingWeight) :
    expandCount (items.map f) = expandCount items := by
  unfold expandCount
  rw [List.filter_map, List.length_map]
  congr 3
  funext it
  simp [hf it]

/-- The vertical even split while the sum of the weights is one that an `int`
holds.  In vertical mode without fixed-row override, for a column of shown box
items with default height caps, each either `Fixed(px)` or `Expand` with one
common weight `wt`, in any order (gap and sizes being non-negative 32-bit
values), with `n · wt ≤ INT_MAX` for the number `n` of expanding items: each
fixed item gets cell height exactly `px`, and when
`R = inner height - (sum of fixed heights + inter-cell gaps)` is non-negative
and divisible by `n`, every expanding item gets cell height exactly `R / n`. -/
theorem vertical_even_split_in_range (fb : FlowBoxLayout) (env : Env)
    (probe : FlowBoxLayout → Rect → FlowBoxLayout) (irc : Rect) (wt : Int)
    (hdir : fb.dir = Direction.V) (hrow : fb.fixed_row < 0) (hgap : 0 ≤ fb.gap)
    (hwt : 0 < wt) (hH : irc.GetHeight ≤ INT_MAX)
    (hitems : ∀ it ∈ fb.items, FixedOrExpandBox env wt it)
    (hsum : expandCount fb.items * wt ≤ INT_MAX)
    (i : Nat) (hi : i < fb.items.length) :
    ((getItem fb.items i).expandingWeight = 0 →
      (getItem (PreLayoutCalcWith probe env fb irc).items i).cl.cell.GetHeight
        = (getItem fb.items i).fixed) ∧
    ((getItem fb.items i).expandingWeight > 0 →
      0 ≤ max 0 irc.GetHeight
            - (fixedSum fb.items + ((fb.items.length : Int) - 1) * fb.gap) →
      expandCount fb.items ∣ max 0 irc.GetHeight
            - (fixedSum fb.items + ((fb.items.length : Int) - 1) * fb.gap) →
      (getItem (PreLayoutCalcWith probe env fb irc).items i).cl.cell.GetHeight
        = (max 0 irc.GetHeight
            - (fixedSum fb.items + ((fb.items.length : Int) - 1) * fb.gap))
          / expandCount fb.items) := by
  have hshown : ∀ it ∈ fb.items, shownBox env it := fun it hit => (hitems it hit).1
  have hmark := markVisible_shown env fb.items hshown
  have hcount := visibleCount_shown env fb.items hshown
  have hne : ¬ visibleCount env fb.items = 0 := by omega
  -- the container handed to `LayoutVertical`
  have hstart : (planStart env fb irc).items = fb.items.map markedShown := hmark
  have hitems1 : (PreLayoutCalcWith probe env fb irc).items
      = (LayoutVertical (planStart env fb irc) env probe irc
          (max 0 irc.GetWidth) (max 0 irc.GetHeight)).items := by
    unfold PreLayoutCalcWith
    simp only [hne, if_false, hdir]
  rw [hitems1]
  have hmarked : ∀ it ∈ (planStart env fb irc).items, MarkedFixedOrExpand wt it := by
    intro it hit
    rw [hstart] at hit
    simp only [List.mem_map] at hit
    obtain ⟨a, ha, rfl⟩ := hit
    obtain ⟨⟨c, hc, hs, hb⟩, h2, h3, h4⟩ := hitems a ha
    exact ⟨rfl, rfl, hb, h2, h3, h4⟩
  have hH2 : max 0 irc.GetHeight ≤ INT_MAX := by
    have : (0 : Int) ≤ INT_MAX := by decide
    omega
  have key := LayoutVertical_fixedExpand (planStart env fb irc)
    env probe irc (max 0 irc.GetWidth) (max 0 irc.GetHeight) wt hrow hgap hwt hH2 hmarked
    (by rw [hstart, expandCount_map markedShown _ (fun it => rfl)]; exact hsum) i
    (by rw [hstart]; simpa using hi)
  rw [hstart] at key
  simp only [List.length_map] at key
  rw [fixedSum_map markedShown _ (fun it => ⟨rfl, rfl⟩),
    expandCount_map markedShown _ (fun it => rfl), getItem_map markedShown _ _ hi] at key
  exact key

/-! ## Horizontal planner: lemmas -/

theorem cellsOfRows_append (a b : List Row) :
    cellsOfRows (a ++ b) = cellsOfRows a ++ cellsOfRows b := by
  induction a with
  | nil => rfl
  | cons R t ih => simp [cellsOfRows, ih]

theorem cellsOfRows_rows (st : HBuild) :
    cellsOfRows st.rows = cellsOfRows st.done ++ st.top.cells := by
  unfold HBuild.rows
  rw [cellsOfRows_append]
  simp [cellsOfRows]

theorem cells_new_row (irc : Rect) (st : HBuild) :
    cellsOfRows (st.new_row irc).rows = cellsOfRows st.rows := by
  rw [cellsOfRows_rows, cellsOfRows_rows]
  simp [HBuild.new_row, cellsOfRows_append, cellsOfRows]

theorem cells_addCell (gap : Int) (rc : RowCell) (st : HBuild) :
    cellsOfRows (st.addCell gap rc).rows = cellsOfRows st.rows ++ [rc] := by
  rw [cellsOfRows_rows, cellsOfRows_rows]
  simp [HBuild.addCell]

theorem cells_maybe_new_row (irc : Rect) (st : HBuild) (p : Prop) [Decidable p] :
    cellsOfRows (if p then st.new_row irc else st).rows = cellsOfRows st.rows := by
  split
  · exact cells_new_row irc st
  · rfl

theorem cells_wrapFixed (fb : FlowBoxLayout) (irc : Rect) (inner_w cell_w : Int) (st : HBuild) :
    cellsOfRows (st.wrapFixed fb irc inner_w cell_w).rows = cellsOfRows st.rows := by
  unfold HBuild.wrapFixed
  by_cases h : fb.wrap = true
  · rw [if_pos h]
    exact cells_maybe_new_row irc st _
  · rw [if_neg h]

theorem cells_addGap (g : GapExp) (st : HBuild) :
    cellsOfRows ({ st with top := { st.top with gaps := st.top.gaps ++ [g] } } : HBuild).rows
      = cellsOfRows st.rows := by
  rw [cellsOfRows_rows, cellsOfRows_rows]

theorem fitWidth_ge (env : Env) (probe : FlowBoxLayout → Rect → FlowBoxLayout)
    (inner_h : Int) (it : Item) (ms : Size) : ms.cx ≤ fitWidth env probe inner_h it ms := by
  unfold fitWidth
  split
  · exact le_refl _
  · split
    · exact le_refl _
    · split
      · exact le_max_left _ _
      · exact le_refl _

theorem hItem_cfg (fb : FlowBoxLayout) (env : Env) (probe : FlowBoxLayout → Rect → FlowBoxLayout)
    (irc : Rect) (inner_w inner_h : Int) (i : Nat) (it : Item) (st : HBuild) :
    (hItem fb env probe irc inner_w inner_h i it st).1.cfg = it.cfg := by
  unfold hItem
  split_ifs <;> first | rfl | exact GetCtrlMinSize_cfg _ _ _

theorem cells_wrapFluid (irc : Rect) (st : HBuild) (p q : Prop)
    [Decidable p] [Decidable q] :
    cellsOfRows (if p then (if q then st.new_row irc else st) else st).rows
      = cellsOfRows st.rows := by
  by_cases hp : p
  · rw [if_pos hp]; exact cells_maybe_new_row irc st q
  · rw [if_neg hp]

/-- The cells PASS 1 adds for one item: none or one, and a cell added records
its item as `CellOf` says. -/
theorem hItem_cells (fb : FlowBoxLayout) (env : Env)
    (probe : FlowBoxLayout → Rect → FlowBoxLayout)
    (irc : Rect) (inner_w inner_h : Int) (i : Nat) (it : Item) (st : HBuild) :
    ∃ l, cellsOfRows (hItem fb env probe irc inner_w inner_h i it st).2.rows
          = cellsOfRows st.rows ++ l ∧
      ∀ rc ∈ l, CellOf fb env i it rc := by
  unfold hItem
  by_cases hv : it.cl.visible = false
  · rw [if_pos hv]; exact ⟨[], by simp, by simp⟩
  rw [if_neg hv]
  by_cases hwb : fb.wrap = true ∧ it.is_break = true
  · rw [if_pos hwb]
    exact ⟨[], by simpa using cells_maybe_new_row irc st _, by simp⟩
  rw [if_neg hwb]
  by_cases hfc : fb.fixed_column ≥ 0
  · rw [if_pos hfc]
    have hnfc : ¬ fb.fixed_column < 0 := by omega
    simp only
    by_cases hnb : fb.wrap = false ∧ it.is_break = true
    · rw [if_pos hnb]
      refine ⟨[_], cells_addCell _ _ _, ?_⟩
      intro rc hrc
      rw [List.mem_singleton] at hrc
      subst hrc
      exact ⟨rfl, rfl, rfl, Or.inl rfl, fun _ => rfl, fun h => absurd h hnfc⟩
    rw [if_neg hnb]
    by_cases hsp : it.cl.spacer = true
    · rw [if_pos hsp]
      refine ⟨[_], by rw [cells_addCell, cells_wrapFixed], ?_⟩
      intro rc hrc
      rw [List.mem_singleton] at hrc
      subst hrc
      exact ⟨rfl, rfl, rfl, Or.inl rfl, fun _ => rfl, fun h => absurd h hnfc⟩
    rw [if_neg hsp]
    refine ⟨[_], by rw [cells_addCell, cells_wrapFixed], ?_⟩
    intro rc hrc
    rw [List.mem_singleton] at hrc
    subst hrc
    exact ⟨rfl, rfl, rfl, Or.inr rfl, fun _ => rfl, fun h => absurd h hnfc⟩
  rw [if_neg hfc]
  by_cases hnb : fb.wrap = false ∧ it.is_break = true
  · rw [if_pos hnb]
    exact ⟨[], by simpa using cells_addGap _ st, by simp⟩
  rw [if_neg hnb]
  by_cases hsp : it.cl.spacer = true
  · rw [if_pos hsp]
    exact ⟨[], by simpa using cells_addGap _ st, by simp⟩
  rw [if_neg hsp]
  simp only
  refine ⟨[_], by rw [cells_addCell, cells_wrapFluid], ?_⟩
  intro rc hrc
  rw [List.mem_singleton] at hrc
  subst hrc
  refine ⟨rfl, rfl, rfl, Or.inr rfl, fun h => absurd h hfc, fun _ => ⟨_, rfl, ?_⟩⟩
  intro hms
  by_cases h1 : it.fixed ≥ 0
  · rw [if_pos h1]; exact h1
  rw [if_neg h1]
  by_cases h2 : it.fit = true
  · rw [if_pos h2]
    exact le_trans hms (fitWidth_ge _ _ _ _ _)
  rw [if_neg h2]
  by_cases h3 : it.expandingWeight > 0
  · rw [if_pos h3]
  rw [if_neg h3]
  exact hms

theorem getItem_cons_zero (it : Item) (rest : List Item) : getItem (it :: rest) 0 = it := rfl

theorem getItem_cons_succ (it : Item) (rest : List Item) (j : Nat) :
    getItem (it :: rest) (j + 1) = getItem rest j := rfl

theorem hBuild_items_length (fb : FlowBoxLayout) (env : Env)
    (probe : FlowBoxLayout → Rect → FlowBoxLayout) (irc : Rect) (inner_w inner_h : Int)
    (items : List Item) :
    ∀ (i : Nat) (st : HBuild),
      (hBuild fb env probe irc inner_w inner_h i items st).1.length = items.length := by
  induction items with
  | nil => intro i st; rfl
  | cons it rest ih => intro i st; simp [hBuild, ih]

/-- PASS 1 leaves the configuration of every item as it was. -/
theorem hBuild_cfg (fb : FlowBoxLayout) (env : Env)
    (probe : FlowBoxLayout → Rect → FlowBoxLayout) (irc : Rect) (inner_w inner_h : Int)
    (items : List Item) :
    ∀ (i : Nat) (st : HBuild) (j : Nat),
      (getItem (hBuild fb env probe irc inner_w inner_h i items st).1 j).cfg
        = (getItem items j).cfg := by
  induction items with
  | nil => intro i st j; rfl
  | cons it rest ih =>
    intro i st j
    unfold hBuild
    cases j with
    | zero => simp only [getItem_cons_zero]; exact hItem_cfg _ _ _ _ _ _ _ _ _
    | succ n => simp only [getItem_cons_succ]; exact ih _ _ n

/-- A property of single items that the body of PASS 1 maintains holds for all
items after PASS 1. -/
theorem hBuild_forall (fb : FlowBoxLayout) (env : Env)
    (probe : FlowBoxLayout → Rect → FlowBoxLayout) (irc : Rect) (inner_w inner_h : Int)
    (P : Item → Prop)
    (hstep : ∀ i it st, P it → P (hItem fb env probe irc inner_w inner_h i it st).1)
    (items : List Item) :
    ∀ (i : Nat) (st : HBuild), (∀ j, P (getItem items j)) →
      ∀ j, P (getItem (hBuild fb env probe irc inner_w inner_h i items st).1 j) := by
  induction items with
  | nil => intro i st h j; exact h j
  | cons it rest ih =>
    intro i st h j
    unfold hBuild
    cases j with
    | zero => simp only [getItem_cons_zero]; exact hstep _ _ _ (h 0)
    | succ n =>
      simp only [getItem_cons_succ]
      exact ih _ _ (fun k => h (k + 1)) n

/-- Every cell of the rows PASS 1 builds was there before or records the item
at its index. -/
theorem hBuild_cells (fb : FlowBoxLayout) (env : Env)
    (probe : FlowBoxLayout → Rect → FlowBoxLayout) (irc : Rect) (inner_w inner_h : Int)
    (items : List Item) :
    ∀ (i : Nat) (st : HBuild) (rc : RowCell),
      rc ∈ cellsOfRows (hBuild fb env probe irc inner_w inner_h i items st).2.rows →
      rc ∈ cellsOfRows st.rows ∨
        ∃ j, j < items.length ∧ CellOf fb env (i + j) (getItem items j) rc := by
  induction items with
  | nil => intro i st rc h; exact Or.inl h
  | cons it rest ih =>
    intro i st rc h
    unfold hBuild at h
    rcases ih (i + 1) _ rc h with h1 | ⟨j, hj, hc⟩
    · obtain ⟨l, hl, hcell⟩ := hItem_cells fb env probe irc inner_w inner_h i it st
      rw [hl, List.mem_append] at h1
      rcases h1 with h1 | h1
      · exact Or.inl h1
      · exact Or.inr ⟨0, by simp, by simpa using hcell rc h1⟩
    · refine Or.inr ⟨j + 1, by simp; omega, ?_⟩
      have e : i + (j + 1) = i + 1 + j := by omega
      rw [e]
      exact hc

theorem RowCellStep_refl (items : List Item) (a : RowCell) : RowCellStep items a a :=
  ⟨rfl, rfl, rfl, rfl, rfl, rfl, fun _ h => h, fun _ => rfl⟩

theorem hDistCtrls_step (items : List Item) (remainder total_w : Int) :
    ∀ (cells : List RowCell) (rem : Int), 0 ≤ rem →
      List.Forall₂ (RowCellStep items) cells (hDistCtrls items remainder total_w rem cells).1 ∧
      0 ≤ (hDistCtrls items remainder total_w rem cells).2 := by
  intro cells
  induction cells with
  | nil => intro rem h; exact ⟨List.Forall₂.nil, h⟩
  | cons rc rest ih =>
    intro rem hrem
    unfold hDistCtrls
    by_cases hw : (getItem items rc.idx).expandingWeight > 0
    · rw [if_pos hw]
      by_cases hp : rem > 0
      · rw [if_pos hp]
        simp only
        have hb := shareOf_le remainder (max 1 (getItem items rc.idx).expandingWeight)
          total_w rem
        have hrem2 := serve_snd_nonneg (getItem items rc.idx).minw (getItem items rc.idx).maxw
          rc.w _ rem hb
        refine ⟨List.Forall₂.cons ?_ (ih _ hrem2).1, (ih _ hrem2).2⟩
        rw [serve_fst]
        refine ⟨rfl, rfl, rfl, rfl, rfl, rfl, ?_, fun h => absurd hw (by omega)⟩
        intro hm _
        exact ClampWith_le_max _ _ _ hm
      · rw [if_neg hp]
        exact ⟨forall₂_refl_of _ (RowCellStep_refl items) _, hrem⟩
    · rw [if_neg hw]
      exact ⟨List.Forall₂.cons (RowCellStep_refl _ _) (ih rem hrem).1, (ih rem hrem).2⟩

theorem hDistributeRow_step (fb : FlowBoxLayout) (items : List Item) (inner_w : Int) (R : Row) :
    List.Forall₂ (RowCellStep items) R.cells (hDistributeRow fb items inner_w R).cells := by
  unfold hDistributeRow
  simp only
  by_cases h : fb.fixed_column < 0 ∧ max 0 (inner_w - rowSumW fb.gap R) > 0
  · rw [if_pos h]
    by_cases h2 : rowTotalWeight items R > 0
    · rw [if_pos h2]
      exact (hDistCtrls_step items _ _ R.cells _ (le_of_lt h.2)).1
    · rw [if_neg h2]
      exact forall₂_refl_of _ (RowCellStep_refl items) _
  · rw [if_neg h]
    exact forall₂_refl_of _ (RowCellStep_refl items) _

/-- The placement of one cell replaces the item of the cell by an item with
the same configuration whose cell rectangle has the width of the cell and the
height of the row. -/
theorem hPlaceCell_spec (fb : FlowBoxLayout) (env : Env) (r : Nat) (y row_h : Int)
    (rc : RowCell) (st : HPlace) :
    ∃ it2, (hPlaceCell fb env r y row_h rc st).items = st.items.set rc.idx it2 ∧
      it2.cfg = (getItem st.items rc.idx).cfg ∧
      it2.cl.cell.GetWidth = rc.w ∧ it2.cl.cell.GetHeight = row_h ∧
      it2.cl.cell.top = y ∧
      it2.cl.rowOrCol = (r : Int) ∧
      it2.cl.visible = (getItem st.items rc.idx).cl.visible ∧
      it2.cl.spacer = (getItem st.items rc.idx).cl.spacer ∧
      it2.cl.breakMark = (getItem st.items rc.idx).cl.breakMark := by
  unfold hPlaceCell
  simp only
  split
  · refine ⟨_, rfl, ?_, ?_, ?_, rfl, rfl, ?_, ?_, ?_⟩
    · exact GetCtrlMinSize_cfg _ _ _
    · simp [Rect.GetWidth]
    · simp [Rect.GetHeight]
    · show (GetCtrlMinSize env fb.minsize_epoch (getItem st.items rc.idx)).item.cl.visible = _
      rw [GetCtrlMinSize_cl]
    · show (GetCtrlMinSize env fb.minsize_epoch (getItem st.items rc.idx)).item.cl.spacer = _
      rw [GetCtrlMinSize_cl]
    · show (GetCtrlMinSize env fb.minsize_epoch (getItem st.items rc.idx)).item.cl.breakMark = _
      rw [GetCtrlMinSize_cl]
  · refine ⟨_, rfl, rfl, ?_, ?_, rfl, rfl, rfl, rfl, rfl⟩
    · simp [Rect.GetWidth]
    · simp [Rect.GetHeight]

theorem hPlaceCell_cfg (fb : FlowBoxLayout) (env : Env) (r : Nat) (y row_h : Int)
    (rc : RowCell) (st : HPlace) :
    ∀ j, (getItem (hPlaceCell fb env r y row_h rc st).items j).cfg = (getItem st.items j).cfg := by
  obtain ⟨it2, h1, h2, _⟩ := hPlaceCell_spec fb env r y row_h rc st
  rw [h1]
  exact getItem_cfg_set _ _ _ h2

theorem hPlaceCell_length (fb : FlowBoxLayout) (env : Env) (r : Nat) (y row_h : Int)
    (rc : RowCell) (st : HPlace) :
    (hPlaceCell fb env r y row_h rc st).items.length = st.items.length := by
  obtain ⟨it2, h1, _⟩ := hPlaceCell_spec fb env r y row_h rc st
  rw [h1]; simp

theorem hPlaceCells_cfg (fb : FlowBoxLayout) (env : Env) (r : Nat) (y row_h : Int) :
    ∀ (cells : List RowCell) (st : HPlace) (j : Nat),
      (getItem (hPlaceCells fb env r y row_h cells st).items j).cfg = (getItem st.items j).cfg := by
  intro cells
  induction cells with
  | nil => intro st j; rfl
  | cons rc rest ih =>
    intro st j
    unfold hPlaceCells
    rw [ih, hPlaceCell_cfg]

/-- Invariant of the loop "place left→right": an item property `P` that each
placement step maintains, given a property `Q` of the cell and the
configuration of its item, holds for every item after the loop. -/
theorem hPlaceCells_inv (fb : FlowBoxLayout) (env : Env) (r : Nat) (y row_h : Int)
    (P : Item → Prop) (Q : RowCell → Item → Prop)
    (hQ : ∀ rc a b, a.cfg = b.cfg → Q rc a → Q rc b)
    (hstep : ∀ rc st, (∀ j, P (getItem st.items j)) → Q rc (getItem st.items rc.idx) →
      ∀ j, P (getItem (hPlaceCell fb env r y row_h rc st).items j)) :
    ∀ (cells : List RowCell) (st : HPlace),
      (∀ j, P (getItem st.items j)) → (∀ rc ∈ cells, Q rc (getItem st.items rc.idx)) →
      ∀ j, P (getItem (hPlaceCells fb env r y row_h cells st).items j) := by
  intro cells
  induction cells with
  | nil => intro st hP _; exact hP
  | cons rc rest ih =>
    intro st hP hQc
    unfold hPlaceCells
    apply ih
    · exact hstep rc st hP (hQc rc (List.mem_cons_self _ _))
    · intro rc2 h2
      exact hQ rc2 _ _ (hPlaceCell_cfg fb env r y row_h rc st rc2.idx).symm
        (hQc rc2 (List.mem_cons_of_mem _ h2))

theorem hRow_cfg (fb : FlowBoxLayout) (env : Env) (irc : Rect) (inner_w : Int)
    (r : Nat) (R : Row) (row_h : Int) (more : Bool) (st : HRows) (j : Nat) :
    (getItem (hRow fb env irc inner_w r R row_h more st).items j).cfg
      = (getItem st.items j).cfg := by
  unfold hRow
  simp only
  rw [hPlaceCells_cfg]

/-- Invariant of the row loop of PASS 2C: an item property `P` that each
placement step maintains, given a property `Q` of the cell and the
configuration of its item that the width distribution maintains, and a
property `H` of the row height, holds for every item after the loop. -/
theorem hRows_inv (fb : FlowBoxLayout) (env : Env) (irc : Rect) (inner_w : Int)
    (P : Item → Prop) (Q : RowCell → Item → Prop) (H : Int → Prop)
    (hQ : ∀ rc a b, a.cfg = b.cfg → Q rc a → Q rc b)
    (hdist : ∀ items a b, RowCellStep items a b → Q a (getItem items a.idx) →
      Q b (getItem items b.idx))
    (hstep : ∀ r y row_h rc st, H row_h → (∀ j, P (getItem st.items j)) →
      Q rc (getItem st.items rc.idx) →
      ∀ j, P (getItem (hPlaceCell fb env r y row_h rc st).items j)) :
    ∀ (rows : List (Row × Int)) (r : Nat) (st : HRows),
      (∀ j, P (getItem st.items j)) →
      (∀ p ∈ rows, H p.2 ∧ ∀ rc ∈ p.1.cells, Q rc (getItem st.items rc.idx)) →
      ∀ j, P (getItem (hRows fb env irc inner_w r rows st).items j) := by
  intro rows
  induction rows with
  | nil => intro r st hP _; exact hP
  | cons p rest ih =>
    intro r st hP hrows
    obtain ⟨R, row_h⟩ := p
    unfold hRows
    apply ih
    · unfold hRow
      simp only
      have hp := hrows (R, row_h) (List.mem_cons_self _ _)
      apply hPlaceCells_inv fb env r st.y row_h P Q hQ
        (fun rc st2 => hstep r st.y row_h rc st2 hp.1)
      · exact hP
      · intro rc hrc
        obtain ⟨a, ha, hs⟩ := forall₂_mem_right _ _ _ (hDistributeRow_step fb st.items inner_w R) rc hrc
        exact hdist st.items a rc hs (hp.2 a ha)
    · intro p2 hp2
      have h2 := hrows p2 (List.mem_cons_of_mem _ hp2)
      refine ⟨h2.1, ?_⟩
      intro rc hrc
      exact hQ rc _ _ (hRow_cfg fb env irc inner_w r R row_h _ st rc.idx).symm (h2.2 rc hrc)

theorem hItem_cl_rects (fb : FlowBoxLayout) (env : Env)
    (probe : FlowBoxLayout → Rect → FlowBoxLayout)
    (irc : Rect) (inner_w inner_h : Int) (i : Nat) (it : Item) (st : HBuild) :
    (hItem fb env probe irc inner_w inner_h i it st).1.cl.cell = it.cl.cell ∧
    (hItem fb env probe irc inner_w inner_h i it st).1.cl.content = it.cl.content := by
  unfold hItem
  split_ifs <;> first
    | exact ⟨rfl, rfl⟩
    | exact ⟨(congrArg TransientLayoutCache.cell (GetCtrlMinSize_cl env fb.minsize_epoch it) :
          (GetCtrlMinSize env fb.minsize_epoch it).item.cl.cell = it.cl.cell),
        (congrArg TransientLayoutCache.content (GetCtrlMinSize_cl env fb.minsize_epoch it) :
          (GetCtrlMinSize env fb.minsize_epoch it).item.cl.content = it.cl.content)⟩

theorem hRows_cfg (fb : FlowBoxLayout) (env : Env) (irc : Rect) (inner_w : Int) :
    ∀ (rows : List (Row × Int)) (r : Nat) (st : HRows) (j : Nat),
      (getItem (hRows fb env irc inner_w r rows st).items j).cfg = (getItem st.items j).cfg := by
  intro rows
  induction rows with
  | nil => intro r st j; rfl
  | cons p rest ih =>
    intro r st j
    obtain ⟨R, row_h⟩ := p
    unfold hRows
    rw [ih, hRow_cfg]

theorem mem_cellsOfRows (rows : List Row) (R : Row) (rc : RowCell)
    (hR : R ∈ rows) (hrc : rc ∈ R.cells) : rc ∈ cellsOfRows rows := by
  induction rows with
  | nil => simp at hR
  | cons R0 rest ih =>
    unfold cellsOfRows
    rcases List.mem_cons.mp hR with h | h
    · subst h; exact List.mem_append_left _ hrc
    · exact List.mem_append_right _ (ih h)

/-- What the first two loops of `PreLayoutCalc` leave of each item: the
configuration and the min-size cache as they were, and cleared rectangles. -/
theorem getItem_marked (env : Env) (items : List Item) (j : Nat) :
    (getItem (markVisible env (resetTransient items)) j).cfg = (getItem items j).cfg ∧
    (getItem (markVisible env (resetTransient items)) j).cachedMinSize
      = (getItem items j).cachedMinSize ∧
    (getItem (markVisible env (resetTransient items)) j).cl.cell = {} ∧
    (getItem (markVisible env (resetTransient items)) j).cl.content = {} ∧
    (getItem (markVisible env (resetTransient items)) j).cl.rowOrCol = -1 := by
  unfold markVisible resetTransient
  rw [List.map_map]
  by_cases h : j < items.length
  · rw [getItem_map _ _ _ h]
    simp only [Function.comp]
    unfold markItem
    split <;> exact ⟨rfl, rfl, rfl, rfl, rfl⟩
  · rw [getItem_default_of_le _ _ (by simp; omega), getItem_default_of_le _ _ (by omega)]
    exact ⟨rfl, rfl, rfl, rfl, rfl⟩

theorem vItem_cell_cap (fb : FlowBoxLayout) (env : Env)
    (probe : FlowBoxLayout → Rect → FlowBoxLayout) (inner_w : Int) (i : Nat) (it : Item)
    (c : VCell) (hrow : fb.fixed_row < 0) (h : (vItem fb env probe inner_w i it).2 = some c)
    (hm : it.maxh ≥ 0) : c.h ≤ it.maxh := by
  have hrow2 : ¬ fb.fixed_row ≥ 0 := by omega
  unfold vItem at h
  by_cases hv : it.cl.visible = false
  · rw [if_pos hv] at h; cases h
  rw [if_neg hv, if_neg hrow2] at h
  by_cases hb : it.is_break = true
  · rw [if_pos hb] at h
    cases h
    exact ClampWith_le_max _ _ _ hm
  rw [if_neg hb] at h
  by_cases hs : it.cl.spacer = true
  · rw [if_pos hs] at h
    cases h
    exact ClampWith_le_max _ _ _ hm
  rw [if_neg hs] at h
  cases h
  exact ClampWith_le_max _ _ _ hm

/-! ## Cap dominance -/

theorem LayoutHorizontal_cap (fb : FlowBoxLayout) (env : Env)
    (probe : FlowBoxLayout → Rect → FlowBoxLayout) (irc : Rect) (inner_w inner_h : Int)
    (hfc : fb.fixed_column < 0)
    (hinit : ∀ j, (getItem fb.items j).cl.cell = {}) :
    ∀ j, (getItem (LayoutHorizontal fb env probe irc inner_w inner_h).items j).widthCapped := by
  unfold LayoutHorizontal
  simp only
  apply hRows_inv fb env irc inner_w
    Item.widthCapped
    (fun rc it => it.maxw ≥ 0 → rc.w ≤ it.maxw) (fun _ => True)
  · intro rc a b hab hq hm
    obtain ⟨_, _, _, _, _, _, e7, _⟩ := cfg_fields _ _ hab
    rw [← e7] at hm ⊢
    exact hq hm
  · intro items a b hs hq hm
    rw [hs.1] at hm ⊢
    exact hs.2.2.2.2.2.2.1 hm (hq hm)
  · intro r y row_h rc st _ hP hq
    obtain ⟨it2, h1, h2, h3, _⟩ := hPlaceCell_spec fb env r y row_h rc st
    rw [h1]
    apply forall_getItem_set Item.widthCapped _ _ _ hP
    intro hm
    obtain ⟨_, _, _, _, _, _, e7, _⟩ := cfg_fields _ _ h2
    rw [h3, e7]
    rw [e7] at hm
    exact hq hm
  · intro j hm
    have : (getItem (hBuild fb env probe irc inner_w inner_h 0 fb.items
        { x_row := irc.left }).1 j).cl.cell = {} := by
      apply hBuild_forall fb env probe irc inner_w inner_h (fun it => it.cl.cell = {})
      · intro i it st h
        rw [(hItem_cl_rects fb env probe irc inner_w inner_h i it st).1]
        exact h
      · exact hinit
    rw [this]
    simpa [Rect.GetWidth] using hm
  · intro p hp
    refine ⟨trivial, ?_⟩
    intro rc hrc hm
    have hR : p.1 ∈ (hBuild fb env probe irc inner_w inner_h 0 fb.items
        { x_row := irc.left }).2.rows := (List.of_mem_zip hp).1
    have hmem := mem_cellsOfRows _ _ _ hR hrc
    rcases hBuild_cells fb env probe irc inner_w inner_h fb.items 0 _ rc hmem with h | ⟨j, _, hc⟩
    · simp [HBuild.rows, cellsOfRows] at h
    · obtain ⟨hi, _, _, _, _, hw⟩ := hc
      obtain ⟨b, hb, _⟩ := hw hfc
      rw [zero_add] at hi
      have hcfg := hBuild_cfg fb env probe irc inner_w inner_h fb.items 0
        { x_row := irc.left } rc.idx
      obtain ⟨_, _, _, _, _, _, e7, _⟩ := cfg_fields _ _ hcfg
      rw [e7] at hm ⊢
      subst hi
      rw [hb]
      exact ClampWith_le_max _ _ _ hm

theorem LayoutVertical_cap (fb : FlowBoxLayout) (env : Env)
    (probe : FlowBoxLayout → Rect → FlowBoxLayout) (irc : Rect) (inner_w inner_h : Int)
    (hfr : fb.fixed_row < 0)
    (hinit : ∀ j, (getItem fb.items j).cl.cell = {}) :
    ∀ j, (getItem (LayoutVertical fb env probe irc inner_w inner_h).items j).heightCapped := by
  unfold LayoutVertical
  simp only
  have hcfgB : ∀ j, (getItem (vBuild fb env probe inner_w 0 fb.items).1 j).cfg
      = (getItem fb.items j).cfg ∧
      (getItem (vBuild fb env probe inner_w 0 fb.items).1 j).cl = (getItem fb.items j).cl := by
    intro j
    by_cases hj : j < fb.items.length
    · rw [vBuild_getItem fb env probe inner_w fb.items 0 j hj]
      exact vItem_cfg fb env probe inner_w _ _
    · rw [getItem_default_of_le _ _ (by rw [vBuild_items_length]; omega),
        getItem_default_of_le _ _ (by omega)]
      exact ⟨rfl, rfl⟩
  apply vPlace_inv fb env irc inner_w
    Item.heightCapped
    (fun c it => it.maxh ≥ 0 → c.h ≤ it.maxh)
  · intro c a b hab hq hm
    obtain ⟨_, _, _, _, _, _, _, _, e9, _⟩ := cfg_fields _ _ hab
    rw [← e9] at hm ⊢
    exact hq hm
  · intro k c more st hP hq
    obtain ⟨it2, h1, h2, h3, _⟩ := vPlaceCell_spec fb env irc inner_w k c more st
    rw [h1]
    apply forall_getItem_set Item.heightCapped _ _ _ hP
    intro hm
    obtain ⟨_, _, _, _, _, _, _, _, e9, _⟩ := cfg_fields _ _ h2
    rw [h3, e9]
    rw [e9] at hm
    have := hq hm
    simp only [Rect.GetHeight]
    omega
  · intro j hm
    rw [(hcfgB j).2, hinit j]
    obtain ⟨_, _, _, _, _, _, _, _, e9, _⟩ := cfg_fields _ _ (hcfgB j).1
    simpa [Rect.GetHeight] using hm
  · intro c2 hc2 hm
    obtain ⟨c, hc, hs⟩ := forall₂_mem_right _ _ _
      (vDistributeAll_step fb (vBuild fb env probe inner_w 0 fb.items).1 inner_h
        (vBuild fb env probe inner_w 0 fb.items).2) c2 hc2
    obtain ⟨j, hj, hidx, hcell⟩ := vBuild_cell_origin fb env probe inner_w fb.items 0 c hc
    rw [zero_add] at hidx hcell
    rw [hs.1] at hm ⊢
    apply hs.2.2.2 hm
    obtain ⟨_, _, _, _, _, _, _, _, e9, _⟩ := cfg_fields _ _ (hcfgB c.idx).1
    rw [e9] at hm ⊢
    rw [hidx] at hm ⊢
    exact vItem_cell_cap fb env probe inner_w j _ c hfr hcell hm

theorem LayoutHorizontal_cfg (fb : FlowBoxLayout) (env : Env)
    (probe : FlowBoxLayout → Rect → FlowBoxLayout) (irc : Rect) (inner_w inner_h : Int) (j : Nat) :
    (getItem (LayoutHorizontal fb env probe irc inner_w inner_h).items j).cfg
      = (getItem fb.items j).cfg := by
  unfold LayoutHorizontal
  simp only
  rw [hRows_cfg, hBuild_cfg]

theorem LayoutVertical_cfg (fb : FlowBoxLayout) (env : Env)
    (probe : FlowBoxLayout → Rect → FlowBoxLayout) (irc : Rect) (inner_w inner_h : Int) (j : Nat) :
    (getItem (LayoutVertical fb env probe irc inner_w inner_h).items j).cfg
      = (getItem fb.items j).cfg := by
  unfold LayoutVertical
  simp only
  rw [vPlace_cfg]
  by_cases hj : j < fb.items.length
  · rw [vBuild_getItem fb env probe inner_w fb.items 0 j hj]
    exact (vItem_cfg fb env probe inner_w _ _).1
  · rw [getItem_default_of_le _ _ (by rw [vBuild_items_length]; omega),
      getItem_default_of_le _ _ (by omega)]

/-- A planning pass leaves the configuration of every item as it was. -/
theorem PreLayoutCalcWith_cfg (probe : FlowBoxLayout → Rect → FlowBoxLayout) (env : Env)
    (fb : FlowBoxLayout) (irc : Rect) (j : Nat) :
    (getItem (PreLayoutCalcWith probe env fb irc).items j).cfg = (getItem fb.items j).cfg := by
  have hm : (getItem (planStart env fb irc).items j).cfg = (getItem fb.items j).cfg :=
    (getItem_marked env fb.items j).1
  unfold PreLayoutCalcWith
  simp only
  by_cases h0 : visibleCount env fb.items = 0
  · rw [if_pos h0]
    exact hm
  · rw [if_neg h0]
    cases hd : fb.dir with
    | H =>
      simp only
      rw [LayoutHorizontal_cfg]
      exact hm
    | V =>
      simp only
      rw [LayoutVertical_cfg]
      exact hm

/-- C3 (cap dominance).  When no fixed-column (horizontal) or fixed-row
(vertical) override is active, every item whose main-axis max cap is set
(`maxw ≥ 0` in horizontal mode, `maxh ≥ 0` in vertical mode) ends a planning
pass with a main-axis cell size that does not exceed the cap, whatever the
remainder, the weights and the position of the item. -/
theorem C3_cap_dominance (probe : FlowBoxLayout → Rect → FlowBoxLayout) (env : Env)
    (fb : FlowBoxLayout) (irc : Rect) (j : Nat) :
    (fb.dir = Direction.H → fb.fixed_column < 0 → 0 ≤ (getItem fb.items j).maxw →
      (getItem (PreLayoutCalcWith probe env fb irc).items j).cl.cell.GetWidth
        ≤ (getItem fb.items j).maxw) ∧
    (fb.dir = Direction.V → fb.fixed_row < 0 → 0 ≤ (getItem fb.items j).maxh →
      (getItem (PreLayoutCalcWith probe env fb irc).items j).cl.cell.GetHeight
        ≤ (getItem fb.items j).maxh) := by
  have hcfg := PreLayoutCalcWith_cfg probe env fb irc j
  obtain ⟨_, _, _, _, _, _, e7, _, e9, _⟩ := cfg_fields _ _ hcfg
  have hmk : ∀ k, (getItem (planStart env fb irc).items k).cl.cell = {} :=
    fun k => (getItem_marked env fb.items k).2.2.1
  constructor
  · intro hd hfc hm
    rw [← e7] at hm ⊢
    revert hm
    show (getItem (PreLayoutCalcWith probe env fb irc).items j).widthCapped
    unfold PreLayoutCalcWith
    simp only
    by_cases h0 : visibleCount env fb.items = 0
    · rw [if_pos h0]
      intro hm
      show (getItem (planStart env fb irc).items j).cl.cell.GetWidth ≤ _
      rw [hmk j]
      simpa [Rect.GetWidth] using hm
    · rw [if_neg h0, hd]
      exact LayoutHorizontal_cap (planStart env fb irc) env probe irc _ _ hfc hmk j
  · intro hd hfr hm
    rw [← e9] at hm ⊢
    revert hm
    show (getItem (PreLayoutCalcWith probe env fb irc).items j).heightCapped
    unfold PreLayoutCalcWith
    simp only
    by_cases h0 : visibleCount env fb.items = 0
    · rw [if_pos h0]
      intro hm
      show (getItem (planStart env fb irc).items j).cl.cell.GetHeight ≤ _
      rw [hmk j]
      simpa [Rect.GetHeight] using hm
    · rw [if_neg h0, hd]
      exact LayoutVertical_cap (planStart env fb irc) env probe irc _ _ hfr hmk j

/-- Witness for C3: an `Expand` item with max width `50` in a row of inner
width `200` does not exceed `50`. -/
theorem C3_cap_dominance_witness :
    sampleCapRow.dir = Direction.H ∧ sampleCapRow.fixed_column < 0 ∧
    0 ≤ (getItem sampleCapRow.items 0).maxw ∧
    (getItem (PreLayoutCalcWith noProbe sampleEnv sampleCapRow (RectC 0 0 200 100)).items 0
      ).cl.cell.GetWidth ≤ 50 :=
  ⟨rfl, by decide, by decide,
   (C3_cap_dominance noProbe sampleEnv sampleCapRow (RectC 0 0 200 100) 0).1 rfl
     (by decide) (by decide)⟩

/-! ## Row heights that are not negative -/

theorem foldl_max_ge (f : RowCell → Int) :
    ∀ (l : List RowCell) (acc : Int), acc ≤ l.foldl (fun a rc => max a (f rc)) acc := by
  intro l
  induction l with
  | nil => intro acc; exact le_refl _
  | cons rc rest ih =>
    intro acc
    simp only [List.foldl_cons]
    exact le_trans (le_max_left _ _) (ih _)

theorem rowBaseHeight_nonneg (fb : FlowBoxLayout) (inner_h : Int) (R : Row)
    (hih : 0 ≤ inner_h) : 0 ≤ rowBaseHeight fb inner_h R := by
  unfold rowBaseHeight
  simp only
  have h0 := foldl_max_ge (fun rc => ClampWith rc.hmin rc.hmax rc.base_h) R.cells 0
  split_ifs <;> omega

theorem addExtra_nonneg (each rem : Int) (he : 0 ≤ each) :
    ∀ (l : List Int) (r : Nat), (∀ h ∈ l, 0 ≤ h) → ∀ h ∈ addExtra each rem r l, 0 ≤ h := by
  intro l
  induction l with
  | nil => intro r _ h hh; simp [addExtra] at hh
  | cons a rest ih =>
    intro r hl h hh
    unfold addExtra at hh
    rcases List.mem_cons.mp hh with h1 | h1
    · have := hl a (List.mem_cons_self _ _)
      rw [h1]
      split_ifs <;> omega
    · exact ih (r + 1) (fun x hx => hl x (List.mem_cons_of_mem _ hx)) h h1

theorem rowHeightsFinal_nonneg (fb : FlowBoxLayout) (inner_h : Int) (base : List Int)
    (hb : ∀ h ∈ base, 0 ≤ h) : ∀ h ∈ rowHeightsFinal fb inner_h base, 0 ≤ h := by
  unfold rowHeightsFinal
  simp only
  split_ifs with h1 h2
  · apply addExtra_nonneg _ _ _ _ _ hb
    exact tdiv_nonneg_of _ _ (le_of_lt h2) (by omega)
  · exact hb
  · exact hb

/-! ## Used height of wrapped rows -/

theorem hRow_used (fb : FlowBoxLayout) (env : Env) (irc : Rect) (inner_w : Int)
    (r : Nat) (R : Row) (row_h : Int) (more : Bool) (st : HRows) :
    (hRow fb env irc inner_w r R row_h more st).used_h
        = max st.used_h ((st.y - irc.top) + row_h) ∧
    (hRow fb env irc inner_w r R row_h more st).y
        = if more then st.y + row_h + fb.gap else st.y + row_h := by
  unfold hRow
  exact ⟨rfl, rfl⟩

theorem hBuild_invisible (fb : FlowBoxLayout) (env : Env)
    (probe : FlowBoxLayout → Rect → FlowBoxLayout) (irc : Rect) (inner_w inner_h : Int)
    (items : List Item) (h : ∀ it ∈ items, it.cl.visible = false) :
    ∀ (i : Nat) (st : HBuild),
      hBuild fb env probe irc inner_w inner_h i items st = (items, st) := by
  induction items with
  | nil => intro i st; rfl
  | cons it rest ih =>
    intro i st
    have hit : hItem fb env probe irc inner_w inner_h i it st = (it, st) := by
      unfold hItem
      rw [if_pos (h it (List.mem_cons_self _ _))]
    unfold hBuild
    simp only [hit, ih (fun a ha => h a (List.mem_cons_of_mem _ ha))]

theorem participates_reset (env : Env) (it : Item) :
    participates env { it with cl := {} } = participates env it := rfl

theorem marked_invisible (env : Env) (items : List Item) (h : visibleCount env items = 0) :
    ∀ it ∈ markVisible env (resetTransient items), it.cl.visible = false := by
  intro it hit
  unfold markVisible resetTransient at hit
  simp only [List.map_map, List.mem_map, Function.comp] at hit
  obtain ⟨a, ha, rfl⟩ := hit
  unfold visibleCount at h
  have hf : items.filter (participates env) = [] := List.length_eq_zero.mp h
  have hp : participates env a = false := by
    by_contra hc
    have : a ∈ items.filter (participates env) := List.mem_filter.mpr ⟨ha, by simpa using hc⟩
    rw [hf] at this
    simp at this
  unfold markItem
  rw [participates_reset, hp]
  simp

/-- The item at index `i` after the first two loops of `PreLayoutCalc`. -/
theorem getItem_markVisible (env : Env) (items : List Item) (i : Nat) (hi : i < items.length) :
    getItem (markVisible env (resetTransient items)) i
      = markItem env { getItem items i with cl := {} } := by
  unfold markVisible resetTransient
  rw [getItem_map _ _ _ (by simpa using hi), getItem_map _ _ _ hi]

/-- C2 at its failing input: a non-wrapping horizontal row of two `Expand(1)`
box items with default caps, gap `0`, in inner width `3` (base widths `0`,
total weight `2`, no cap binds).  The shares are `⌊3·1/2⌋ = 1` each, the
remaining unit is not handed out: the final cell widths are `1` and `1`, their
sum `2` is not the inner width `3`, and the used width is `2`.  The vertical
planner, whose second loop hands out what is left, yields `2` and `1` for the
same column in inner height `3`. -/
theorem C2_horizontal_remainder_lost :
    (PreLayoutCalc 0 sampleEnv (sampleTwoExpand Direction.H) (RectC 0 0 3 100)).items.map
      (fun it => it.cl.cell.GetWidth) = [1, 1] ∧
    (PreLayoutCalc 0 sampleEnv (sampleTwoExpand Direction.H) (RectC 0 0 3 100)).used_w = 2 ∧
    ((PreLayoutCalc 0 sampleEnv (sampleTwoExpand Direction.H) (RectC 0 0 3 100)).items.map
      (fun it => it.cl.cell.GetWidth)).sum ≠ (RectC 0 0 3 100).GetWidth ∧
    (PreLayoutCalc 0 sampleEnv (sampleTwoExpand Direction.V) (RectC 0 0 100 3)).items.map
      (fun it => it.cl.cell.GetHeight) = [2, 1] := by
  decide

/-- C4 at its failing input: two `Expand(1)` box items, the first with max
width `50`, inner width `200`, gap `0`.  The first item is offered `100` and
takes `50`; the `50` it leaves go back to the pool, but the second item is
still offered `⌊200·1/2⌋ = 100` only: the final widths are `50` and `100`, not
`50` and `150`, and the used width is `150`.  The vertical planner yields `50`
and `150` for the same column in inner height `200`. -/
theorem C4_horizontal_cap_share_lost :
    (PreLayoutCalc 0 sampleEnv (sampleCapped Direction.H) (RectC 0 0 200 100)).items.map
      (fun it => it.cl.cell.GetWidth) = [50, 100] ∧
    (PreLayoutCalc 0 sampleEnv (sampleCapped Direction.H) (RectC 0 0 200 100)).used_w = 150 ∧
    (PreLayoutCalc 0 sampleEnv (sampleCapped Direction.V) (RectC 0 0 100 200)).items.map
      (fun it => it.cl.cell.GetHeight) = [50, 150] := by
  decide

/-- C7 at its failing input: a vertical container with one `Fixed(300)` box
item in an inner rectangle of height `200`.  The cell is `300` high, so the
extent consumed is `300`, but the used height is `min(inner_h, 300) = 200`.
The horizontal planner reports the extent unclamped: the same item in an inner
rectangle of width `200` gives the used width `300`. -/
theorem C7_vertical_used_height_clamped :
    (PreLayoutCalc 0 sampleEnv (sampleOverflow Direction.V) (RectC 0 0 100 200)).items.map
      (fun it => it.cl.cell.GetHeight) = [300] ∧
    (PreLayoutCalc 0 sampleEnv (sampleOverflow Direction.V) (RectC 0 0 100 200)).used_h = 200 ∧
    (PreLayoutCalc 0 sampleEnv (sampleOverflow Direction.H) (RectC 0 0 200 100)).used_w = 300 := by
  decide

/-! ## Wrap threshold -/

/-- What `PreLayoutCalc` leaves of the container configuration and what it
records in the plan guard. -/
theorem PreLayoutCalcWith_frame (probe : FlowBoxLayout → Rect → FlowBoxLayout) (env : Env)
    (fb : FlowBoxLayout) (irc : Rect) :
    (PreLayoutCalcWith probe env fb irc).plan_inner = irc.GetSize ∧
    (PreLayoutCalcWith probe env fb irc).plan_gen = fb.cur_gen ∧
    (PreLayoutCalcWith probe env fb irc).cur_gen = fb.cur_gen ∧
    (PreLayoutCalcWith probe env fb irc).layout_pause = fb.layout_pause ∧
    (PreLayoutCalcWith probe env fb irc).inset = fb.inset ∧
    (PreLayoutCalcWith probe env fb irc).minsize_epoch = fb.minsize_epoch := by
  unfold PreLayoutCalcWith
  by_cases h : visibleCount env fb.items = 0
  · simp [h, planStart]
  · cases hd : fb.dir <;> simp [h, hd, planStart, LayoutHorizontal, LayoutVertical]

theorem PreLayoutCalc_frame (depth : Nat) (env : Env) (fb : FlowBoxLayout) (irc : Rect) :
    (PreLayoutCalc depth env fb irc).plan_inner = irc.GetSize ∧
    (PreLayoutCalc depth env fb irc).plan_gen = fb.cur_gen ∧
    (PreLayoutCalc depth env fb irc).cur_gen = fb.cur_gen ∧
    (PreLayoutCalc depth env fb irc).layout_pause = fb.layout_pause ∧
    (PreLayoutCalc depth env fb irc).inset = fb.inset ∧
    (PreLayoutCalc depth env fb irc).minsize_epoch = fb.minsize_epoch := by
  cases depth <;> exact PreLayoutCalcWith_frame _ env fb irc

/-- A paused `Layout` returns at once. -/
theorem Layout_paused (depth : Nat) (env : Env) (sz : Size) (fb : FlowBoxLayout)
    (h : fb.layout_pause > 0) : Layout depth env sz fb = ⟨fb, [], false, false⟩ := by
  unfold Layout; rw [if_pos h]

/-- The four ways a call of `Layout` can end. -/
theorem Layout_cases (depth : Nat) (env : Env) (sz : Size) (fb : FlowBoxLayout) :
    Layout depth env sz fb = ⟨fb, [], false, false⟩ ∨
    Layout depth env sz fb = ⟨{ fb with used_w := 0, used_h := 0 }, [], false, true⟩ ∨
    Layout depth env sz fb
      = ⟨PreLayoutCalc depth env fb (innerRect fb sz),
         PostLayoutCommit (PreLayoutCalc depth env fb (innerRect fb sz)), true, true⟩ ∨
    Layout depth env sz fb = ⟨fb, PostLayoutCommit fb, false, true⟩ := by
  unfold Layout
  by_cases h1 : fb.layout_pause > 0
  · rw [if_pos h1]; exact Or.inl rfl
  rw [if_neg h1]
  by_cases h2 : (⟨0, 0, sz.cx, sz.cy⟩ : Rect).IsEmpty = true
  · rw [if_pos h2]; exact Or.inr (Or.inl rfl)
  rw [if_neg h2]
  by_cases h3 : (innerRect fb sz).IsEmpty = true
  · rw [if_pos h3]; exact Or.inr (Or.inl rfl)
  rw [if_neg h3]
  by_cases h4 : fb.plan_inner ≠ (innerRect fb sz).GetSize ∨ fb.plan_gen ≠ fb.cur_gen
  · rw [if_pos h4]; exact Or.inr (Or.inr (Or.inl rfl))
  · rw [if_neg h4]; exact Or.inr (Or.inr (Or.inr rfl))

/-- `Layout` does not touch the pause counter, the generation or the inset. -/
theorem Layout_frame (depth : Nat) (env : Env) (sz : Size) (fb : FlowBoxLayout) :
    (Layout depth env sz fb).fb.layout_pause = fb.layout_pause ∧
    (Layout depth env sz fb).fb.cur_gen = fb.cur_gen ∧
    (Layout depth env sz fb).fb.inset = fb.inset := by
  unfold Layout
  by_cases h1 : fb.layout_pause > 0
  · rw [if_pos h1]; exact ⟨rfl, rfl, rfl⟩
  rw [if_neg h1]
  by_cases h2 : (⟨0, 0, sz.cx, sz.cy⟩ : Rect).IsEmpty = true
  · rw [if_pos h2]; exact ⟨rfl, rfl, rfl⟩
  rw [if_neg h2]
  by_cases h3 : (innerRect fb sz).IsEmpty = true
  · rw [if_pos h3]; exact ⟨rfl, rfl, rfl⟩
  rw [if_neg h3]
  by_cases h4 : fb.plan_inner ≠ (innerRect fb sz).GetSize ∨ fb.plan_gen ≠ fb.cur_gen
  · rw [if_pos h4]
    obtain ⟨-, -, a, b, c, -⟩ := PreLayoutCalc_frame depth env fb (innerRect fb sz)
    exact ⟨b, a, c⟩
  · rw [if_neg h4]; exact ⟨rfl, rfl, rfl⟩

/-- After a `Layout` that got past its two tests of the geometry, the plan
guard holds for the size it ran at. -/
theorem Layout_guard (depth : Nat) (env : Env) (sz : Size) (fb : FlowBoxLayout)
    (h1 : ¬ fb.layout_pause > 0) (h2 : ¬ (⟨0, 0, sz.cx, sz.cy⟩ : Rect).IsEmpty = true)
    (h3 : ¬ (innerRect fb sz).IsEmpty = true) :
    (Layout depth env sz fb).fb.plan_inner = (innerRect fb sz).GetSize ∧
    (Layout depth env sz fb).fb.plan_gen = (Layout depth env sz fb).fb.cur_gen ∧
    (Layout depth env sz fb).setRects = PostLayoutCommit (Layout depth env sz fb).fb := by
  unfold Layout
  rw [if_neg h1, if_neg h2, if_neg h3]
  by_cases h4 : fb.plan_inner ≠ (innerRect fb sz).GetSize ∨ fb.plan_gen ≠ fb.cur_gen
  · rw [if_pos h4]
    obtain ⟨a, b, c, -⟩ := PreLayoutCalc_frame depth env fb (innerRect fb sz)
    exact ⟨a, by rw [b, c], rfl⟩
  · rw [if_neg h4]
    simp only [not_or, not_not] at h4
    exact ⟨h4.1, h4.2, rfl⟩

/-- A `Layout` that finds its plan guard satisfied commits the plan it has. -/
theorem Layout_current (depth : Nat) (env : Env) (sz : Size) (fb : FlowBoxLayout)
    (h1 : ¬ fb.layout_pause > 0) (h2 : ¬ (⟨0, 0, sz.cx, sz.cy⟩ : Rect).IsEmpty = true)
    (h3 : ¬ (innerRect fb sz).IsEmpty = true)
    (hg1 : fb.plan_inner = (innerRect fb sz).GetSize) (hg2 : fb.plan_gen = fb.cur_gen) :
    Layout depth env sz fb = ⟨fb, PostLayoutCommit fb, false, true⟩ := by
  unfold Layout
  rw [if_neg h1, if_neg h2, if_neg h3, if_neg]
  simp only [not_or, not_not]
  exact ⟨hg1, hg2⟩

/-- A `Layout` that finds its plan guard violated plans anew. -/
theorem Layout_stale (depth : Nat) (env : Env) (sz : Size) (fb : FlowBoxLayout)
    (h1 : ¬ fb.layout_pause > 0) (h2 : ¬ (⟨0, 0, sz.cx, sz.cy⟩ : Rect).IsEmpty = true)
    (h3 : ¬ (innerRect fb sz).IsEmpty = true)
    (hg : fb.plan_inner ≠ (innerRect fb sz).GetSize ∨ fb.plan_gen ≠ fb.cur_gen) :
    Layout depth env sz fb
      = ⟨PreLayoutCalc depth env fb (innerRect fb sz),
         PostLayoutCommit (PreLayoutCalc depth env fb (innerRect fb sz)), true, true⟩ := by
  unfold Layout
  rw [if_neg h1, if_neg h2, if_neg h3, if_pos hg]

/-- The two tests of the geometry in `Layout`, in terms of widths and heights. -/
theorem not_empty_iff (fb : FlowBoxLayout) (sz : Size) :
    (¬ (⟨0, 0, sz.cx, sz.cy⟩ : Rect).IsEmpty = true ∧ ¬ (innerRect fb sz).IsEmpty = true) ↔
    (0 < sz.cx ∧ 0 < sz.cy ∧ 0 < (innerRect fb sz).GetWidth ∧ 0 < (innerRect fb sz).GetHeight) := by
  simp [Rect.IsEmpty, Rect.GetWidth, Rect.GetHeight]
  omega

/-! ## Plan idempotence and degenerate geometry -/

/-- C13 (plan idempotence and determinism).  A second `Layout` at the same size
right after a first one does not run `PreLayoutCalc`, leaves the container
(used size, every item with its transient cell and content rectangle) exactly
as the first call left it, and issues the same `SetRect` calls; and when the
first call was not paused and size and inner rectangle are not empty, the plan
guard holds after it: `plan_inner` is the inner size and `plan_gen` is
`cur_gen`. -/
theorem C13_plan_idempotence (depth : Nat) (env : Env) (sz : Size) (fb : FlowBoxLayout) :
    (Layout depth env sz (Layout depth env sz fb).fb).planned = false ∧
    (Layout depth env sz (Layout depth env sz fb).fb).fb = (Layout depth env sz fb).fb ∧
    (Layout depth env sz (Layout depth env sz fb).fb).setRects
      = (Layout depth env sz fb).setRects ∧
    (fb.layout_pause ≤ 0 → 0 < sz.cx → 0 < sz.cy →
      0 < (innerRect fb sz).GetWidth → 0 < (innerRect fb sz).GetHeight →
      (Layout depth env sz fb).fb.plan_inner = (innerRect fb sz).GetSize ∧
      (Layout depth env sz fb).fb.plan_gen = (Layout depth env sz fb).fb.cur_gen ∧
      (Layout depth env sz fb).ran = true) := by
  by_cases h1 : fb.layout_pause > 0
  · have e : Layout depth env sz fb = ⟨fb, [], false, false⟩ := Layout_paused depth env sz fb h1
    rw [e]; simp only [e]
    refine ⟨trivial, trivial, trivial, ?_⟩
    intro h; omega
  by_cases h2 : (⟨0, 0, sz.cx, sz.cy⟩ : Rect).IsEmpty = true
  · have e : Layout depth env sz fb = ⟨{ fb with used_w := 0, used_h := 0 }, [], false, true⟩ := by
      unfold Layout; rw [if_neg h1, if_pos h2]
    have e2 : Layout depth env sz { fb with used_w := 0, used_h := 0 }
        = ⟨{ fb with used_w := 0, used_h := 0 }, [], false, true⟩ := by
      unfold Layout; rw [if_neg h1, if_pos h2]
    rw [e]; simp only [e2]
    refine ⟨trivial, trivial, trivial, ?_⟩
    intro _ hx hy
    simp [Rect.IsEmpty] at h2
    omega
  by_cases h3 : (innerRect fb sz).IsEmpty = true
  · have e : Layout depth env sz fb = ⟨{ fb with used_w := 0, used_h := 0 }, [], false, true⟩ := by
      unfold Layout; rw [if_neg h1, if_neg h2, if_pos h3]
    have e2 : Layout depth env sz { fb with used_w := 0, used_h := 0 }
        = ⟨{ fb with used_w := 0, used_h := 0 }, [], false, true⟩ := by
      unfold Layout; rw [if_neg h1, if_neg h2]
      have : innerRect { fb with used_w := 0, used_h := 0 } sz = innerRect fb sz := rfl
      rw [this, if_pos h3]
    rw [e]; simp only [e2]
    refine ⟨trivial, trivial, trivial, ?_⟩
    intro _ _ _ hw hh
    simp [Rect.IsEmpty, Rect.GetWidth, Rect.GetHeight] at h3 hw hh
    omega
  obtain ⟨g1, g2, g3⟩ := Layout_guard depth env sz fb h1 h2 h3
  obtain ⟨f1, f2, f3⟩ := Layout_frame depth env sz fb
  have hin : innerRect (Layout depth env sz fb).fb sz = innerRect fb sz := by
    unfold innerRect; rw [f3]
  have hran : (Layout depth env sz fb).ran = true := by
    unfold Layout; rw [if_neg h1, if_neg h2, if_neg h3]
    by_cases h4 : fb.plan_inner ≠ (innerRect fb sz).GetSize ∨ fb.plan_gen ≠ fb.cur_gen
    · rw [if_pos h4]
    · rw [if_neg h4]
  have e2 : Layout depth env sz (Layout depth env sz fb).fb
      = ⟨(Layout depth env sz fb).fb, PostLayoutCommit (Layout depth env sz fb).fb, false, true⟩ :=
    Layout_current depth env sz _ (by rw [f1]; exact h1) h2 (by rw [hin]; exact h3)
      (by rw [hin]; exact g1) g2
  rw [e2]
  exact ⟨rfl, rfl, g3.symm, fun _ _ _ _ _ => ⟨g1, g2, hran⟩⟩

/-- Witness for C13: the sample column laid out twice at size `100 × 200`; the
first call plans, the second does not. -/
theorem C13_plan_idempotence_witness :
    (Layout 0 sampleEnv ⟨100, 200⟩ sampleColumn).planned = true ∧
    (Layout 0 sampleEnv ⟨100, 200⟩ (Layout 0 sampleEnv ⟨100, 200⟩ sampleColumn).fb).planned
      = false ∧
    (Layout 0 sampleEnv ⟨100, 200⟩ sampleColumn).fb.plan_inner = ⟨100, 200⟩ ∧
    (Layout 0 sampleEnv ⟨100, 200⟩ sampleColumn).setRects
      = [(0, ⟨0, 0, 100, 80⟩), (1, ⟨0, 80, 100, 120⟩), (2, ⟨0, 120, 100, 200⟩)] :=
  ⟨by decide, (C13_plan_idempotence 0 sampleEnv ⟨100, 200⟩ sampleColumn).1, by decide, by decide⟩

/-- C17 (degenerate geometry yields an empty plan).  When `Layout` runs, not
paused, for a container whose size has a zero or negative width or height, or
whose rectangle has a zero or negative width or height once the inset is taken
off, it returns the container with `used_w = used_h = 0` and everything else
as it was, without running `PreLayoutCalc` and without a `SetRect`. -/
theorem C17_degenerate_geometry (depth : Nat) (env : Env) (sz : Size) (fb : FlowBoxLayout)
    (hp : fb.layout_pause ≤ 0)
    (hdeg : sz.cx ≤ 0 ∨ sz.cy ≤ 0 ∨
      (innerRect fb sz).GetWidth ≤ 0 ∨ (innerRect fb sz).GetHeight ≤ 0) :
    Layout depth env sz fb = ⟨{ fb with used_w := 0, used_h := 0 }, [], false, true⟩ ∧
    (Layout depth env sz fb).fb.used_w = 0 ∧ (Layout depth env sz fb).fb.used_h = 0 ∧
    (Layout depth env sz fb).planned = false ∧ (Layout depth env sz fb).setRects = [] := by
  have h1 : ¬ fb.layout_pause > 0 := by omega
  have e : Layout depth env sz fb = ⟨{ fb with used_w := 0, used_h := 0 }, [], false, true⟩ := by
    unfold Layout; rw [if_neg h1]
    by_cases h2 : (⟨0, 0, sz.cx, sz.cy⟩ : Rect).IsEmpty = true
    · rw [if_pos h2]
    · rw [if_neg h2]
      have h3 : (innerRect fb sz).IsEmpty = true := by
        simp [Rect.IsEmpty, Rect.GetWidth, Rect.GetHeight] at h2 hdeg ⊢
        omega
      rw [if_pos h3]
  rw [e]
  exact ⟨rfl, rfl, rfl, rfl, rfl⟩

/-- Witness for C17: the sample column with an inset of `60` on every side at
size `100 × 200`: the inner rectangle has width `-20`. -/
theorem C17_degenerate_geometry_witness :
    (Layout 0 sampleEnv ⟨100, 200⟩ { sampleColumn with inset := ⟨60, 60, 60, 60⟩ }).fb.used_w = 0 ∧
    (Layout 0 sampleEnv ⟨100, 200⟩ { sampleColumn with inset := ⟨60, 60, 60, 60⟩ }).fb.used_h = 0 ∧
    (Layout 0 sampleEnv ⟨100, 200⟩ { sampleColumn with inset := ⟨60, 60, 60, 60⟩ }).planned
      = false ∧
    (Layout 0 sampleEnv ⟨100, 200⟩ { sampleColumn with inset := ⟨60, 60, 60, 60⟩ }).setRects = [] :=
  (C17_degenerate_geometry 0 sampleEnv ⟨100, 200⟩ { sampleColumn with inset := ⟨60, 60, 60, 60⟩ }
    (by decide) (by decide)).2

/-! ## Mutators, pause and resume -/

/-- While layout is paused, the tail of a mutator only bumps the generation. -/
theorem markDirty_paused (depth : Nat) (env : Env) (sz : Size) (fb : FlowBoxLayout)
    (h : fb.layout_pause > 0) :
    markDirty depth env sz fb = ⟨{ fb with cur_gen := fb.cur_gen + 1 }, [], false, false⟩ := by
  unfold markDirty
  have : ¬ (fb.layout_pause = 0) := by omega
  simp only [this, if_false]

theorem ItemRef_update_frame (fb : FlowBoxLayout) (index : Int) (f : Item → Item) :
    (ItemRef.update fb index f).layout_pause = fb.layout_pause ∧
    (ItemRef.update fb index f).cur_gen = fb.cur_gen ∧
    (ItemRef.update fb index f).plan_gen = fb.plan_gen := by
  unfold ItemRef.update
  split_ifs <;> exact ⟨rfl, rfl, rfl⟩

/-- What a mutator other than `ClearItems` and `SetWrapAutoResize` does to the
plan guard while layout is paused. -/
theorem Mutator_apply_paused (depth : Nat) (env : Env) (sz : Size) (fb : FlowBoxLayout)
    (m : Mutator) (hp : fb.layout_pause > 0)
    (h1 : m ≠ Mutator.ClearItems) (h2 : ∀ e, m ≠ Mutator.SetWrapAutoResize e) :
    (m.apply depth env sz fb).fb.cur_gen = fb.cur_gen + 1 ∧
    (m.apply depth env sz fb).fb.plan_gen = fb.plan_gen ∧
    (m.apply depth env sz fb).fb.layout_pause = fb.layout_pause := by
  cases m
  case ClearItems => exact absurd rfl h1
  case SetWrapAutoResize e => exact absurd rfl (h2 e)
  all_goals
    have hne : ¬ (fb.layout_pause = 0) := by omega
    simp [Mutator.apply, Upp.Add, Upp.AddExpand, Upp.AddFixed, Upp.AddFit, Upp.AddSpacer,
      Upp.AddBreak, addItem, ItemRef.Expand, ItemRef.Fixed, ItemRef.Fit, ItemRef.MinMaxWidth,
      ItemRef.MinMaxHeight, ItemRef.AlignSelf, Upp.SetDirection, Upp.SetGap, Upp.SetInset,
      Upp.SetWrap, Upp.SetWrapRowsExpand, Upp.SetAlignItems, Upp.SetFixedColumn, Upp.SetFixedRow,
      markDirty, ItemRef_update_frame, hne]

/-- `ResumeLayout(true)` on a container paused once ends the pause and calls
`Layout`. -/
theorem ResumeLayout_last (depth : Nat) (env : Env) (sz : Size) (fb : FlowBoxLayout)
    (hp : fb.layout_pause = 1) :
    ResumeLayout depth env sz fb true = Layout depth env sz { fb with layout_pause := 0 } := by
  unfold ResumeLayout
  have h0 : fb.layout_pause > 0 := by omega
  rw [if_pos h0]
  have e : fb.layout_pause - 1 = 0 := by omega
  simp only [e, and_self, if_true]

/-- `ResumeLayout(true)` on a container paused once, with a stale plan and a
size that is not degenerate, runs `PreLayoutCalc`. -/
theorem ResumeLayout_stale (depth : Nat) (env : Env) (sz : Size) (fb : FlowBoxLayout)
    (hp : fb.layout_pause = 1) (hg : fb.plan_gen ≠ fb.cur_gen)
    (hx : 0 < sz.cx) (hy : 0 < sz.cy)
    (hw : 0 < (innerRect fb sz).GetWidth) (hh : 0 < (innerRect fb sz).GetHeight) :
    (ResumeLayout depth env sz fb true).planned = true := by
  rw [ResumeLayout_last depth env sz fb hp]
  have hne := (not_empty_iff { fb with layout_pause := 0 } sz).2 ⟨hx, hy, hw, hh⟩
  rw [Layout_stale depth env sz _ (by simp) hne.1 hne.2 (Or.inr hg)]

/-- C14, amended (every mutation but two marks the plan stale).  Each mutator
other than `ClearItems` and `SetWrapAutoResize`, called while layout is paused
on a container whose plan is current, bumps `cur_gen` and leaves `plan_gen`, so
that the two differ; it runs no planning itself, and the `ResumeLayout(true)`
that ends the pause then runs `PreLayoutCalc` at every size that is not
degenerate. -/
theorem C14_mutators_mark_plan_stale (depth : Nat) (env : Env) (sz : Size)
    (fb : FlowBoxLayout) (m : Mutator)
    (hp : fb.layout_pause > 0) (hcur : fb.plan_gen = fb.cur_gen)
    (h1 : m ≠ Mutator.ClearItems) (h2 : ∀ e, m ≠ Mutator.SetWrapAutoResize e) :
    (m.apply depth env sz fb).fb.cur_gen = fb.cur_gen + 1 ∧
    (m.apply depth env sz fb).fb.plan_gen = fb.plan_gen ∧
    (m.apply depth env sz fb).fb.cur_gen ≠ (m.apply depth env sz fb).fb.plan_gen ∧
    (∀ sz2 : Size, fb.layout_pause = 1 → 0 < sz2.cx → 0 < sz2.cy →
      0 < (innerRect (m.apply depth env sz fb).fb sz2).GetWidth →
      0 < (innerRect (m.apply depth env sz fb).fb sz2).GetHeight →
      (ResumeLayout depth env sz2 (m.apply depth env sz fb).fb true).planned = true) := by
  obtain ⟨a, b, c⟩ := Mutator_apply_paused depth env sz fb m hp h1 h2
  have hne : (m.apply depth env sz fb).fb.cur_gen ≠ (m.apply depth env sz fb).fb.plan_gen := by
    rw [a, b, hcur]; omega
  refine ⟨a, b, hne, ?_⟩
  intro sz2 hp1 hx hy hw hh
  exact ResumeLayout_stale depth env sz2 _ (by rw [c]; exact hp1) (Ne.symm hne) hx hy hw hh

/-- Witness for C14: `SetGap(5)` on the paused sample column. -/
theorem C14_mutators_mark_plan_stale_witness :
    pausedColumn.layout_pause > 0 ∧ pausedColumn.plan_gen = pausedColumn.cur_gen ∧
    ((Mutator.SetGap 5).apply 0 sampleEnv ⟨100, 200⟩ pausedColumn).fb.cur_gen
      ≠ ((Mutator.SetGap 5).apply 0 sampleEnv ⟨100, 200⟩ pausedColumn).fb.plan_gen :=
  ⟨by decide, by decide,
   (C14_mutators_mark_plan_stale 0 sampleEnv ⟨100, 200⟩ pausedColumn (Mutator.SetGap 5)
      (by decide) (by decide) (by decide) (fun e => by cases e <;> decide)).2.2.1⟩

/-- C14 as stated fails for `SetWrapAutoResize` and `ClearItems`: called on the
paused sample column, whose plan is current, each leaves `cur_gen` equal to
`plan_gen`, and the `ResumeLayout(true)` that follows enters `Layout` without
running `PreLayoutCalc`. -/
theorem C14_mutators_mark_plan_stale_counterexample :
    pausedColumn.layout_pause > 0 ∧ pausedColumn.plan_gen = pausedColumn.cur_gen ∧
    ((Mutator.SetWrapAutoResize true).apply 0 sampleEnv ⟨100, 200⟩ pausedColumn).fb.cur_gen
      = ((Mutator.SetWrapAutoResize true).apply 0 sampleEnv ⟨100, 200⟩ pausedColumn).fb.plan_gen ∧
    (Mutator.ClearItems.apply 0 sampleEnv ⟨100, 200⟩ pausedColumn).fb.cur_gen
      = (Mutator.ClearItems.apply 0 sampleEnv ⟨100, 200⟩ pausedColumn).fb.plan_gen ∧
    (ResumeLayout 0 sampleEnv ⟨100, 200⟩
      ((Mutator.SetWrapAutoResize true).apply 0 sampleEnv ⟨100, 200⟩ pausedColumn).fb true).ran
      = true ∧
    (ResumeLayout 0 sampleEnv ⟨100, 200⟩
      ((Mutator.SetWrapAutoResize true).apply 0 sampleEnv ⟨100, 200⟩ pausedColumn).fb true).planned
      = false ∧
    (ResumeLayout 0 sampleEnv ⟨100, 200⟩
      (Mutator.ClearItems.apply 0 sampleEnv ⟨100, 200⟩ pausedColumn).fb true).planned = false ∧
    ¬ (∀ m : Mutator, (m.apply 0 sampleEnv ⟨100, 200⟩ pausedColumn).fb.cur_gen
        ≠ (m.apply 0 sampleEnv ⟨100, 200⟩ pausedColumn).fb.plan_gen) := by
  refine ⟨by decide, by decide, by decide, by decide, by decide, by decide, by decide, ?_⟩
  intro h
  exact h (Mutator.SetWrapAutoResize true) (by decide)

theorem markDirty_pause (depth : Nat) (env : Env) (sz : Size) (fb : FlowBoxLayout) :
    (markDirty depth env sz fb).fb.layout_pause = fb.layout_pause := by
  unfold markDirty
  by_cases h : fb.layout_pause = 0
  · simp only [h, if_true]
    rw [(Layout_frame depth env sz _).1]
  · simp only [h, if_false]

/-- No mutator changes the pause counter. -/
theorem Mutator_apply_pause (depth : Nat) (env : Env) (sz : Size) (fb : FlowBoxLayout)
    (m : Mutator) : (m.apply depth env sz fb).fb.layout_pause = fb.layout_pause := by
  cases m
  case ClearItems => simp only [Mutator.apply, Upp.ClearItems]; rw [(Layout_frame _ _ _ _).1]
  case SetWrapAutoResize e => rfl
  all_goals
    simp only [Mutator.apply, Upp.Add, Upp.AddExpand, Upp.AddFixed, Upp.AddFit, Upp.AddSpacer,
      Upp.AddBreak, addItem, ItemRef.Expand, ItemRef.Fixed, ItemRef.Fit, ItemRef.MinMaxWidth,
      ItemRef.MinMaxHeight, ItemRef.AlignSelf, Upp.SetDirection, Upp.SetGap, Upp.SetInset,
      Upp.SetWrap, Upp.SetWrapRowsExpand, Upp.SetAlignItems, Upp.SetFixedColumn, Upp.SetFixedRow]
    rw [markDirty_pause]
    try exact (ItemRef_update_frame _ _ _).1

/-- While layout is paused no mutator enters `Layout`, plans or commits. -/
theorem Mutator_apply_quiet (depth : Nat) (env : Env) (sz : Size) (fb : FlowBoxLayout)
    (m : Mutator) (hp : fb.layout_pause > 0) :
    (m.apply depth env sz fb).ran = false ∧ (m.apply depth env sz fb).planned = false ∧
    (m.apply depth env sz fb).setRects = [] := by
  cases m
  case ClearItems =>
    simp only [Mutator.apply, Upp.ClearItems]
    rw [Layout_paused depth env sz { fb with items := [], used_w := 0, used_h := 0 } hp]
    exact ⟨rfl, rfl, rfl⟩
  case SetWrapAutoResize e => exact ⟨rfl, rfl, rfl⟩
  all_goals
    have hne : ¬ (fb.layout_pause = 0) := by omega
    simp [Mutator.apply, Upp.Add, Upp.AddExpand, Upp.AddFixed, Upp.AddFit, Upp.AddSpacer,
      Upp.AddBreak, addItem, ItemRef.Expand, ItemRef.Fixed, ItemRef.Fit, ItemRef.MinMaxWidth,
      ItemRef.MinMaxHeight, ItemRef.AlignSelf, Upp.SetDirection, Upp.SetGap, Upp.SetInset,
      Upp.SetWrap, Upp.SetWrapRowsExpand, Upp.SetAlignItems, Upp.SetFixedColumn, Upp.SetFixedRow,
      markDirty, ItemRef_update_frame, hne]

/-- How a call changes the pause counter. -/
theorem Call_apply_pause (depth : Nat) (env : Env) (sz : Size) (fb : FlowBoxLayout) (c : Call) :
    (c.apply depth env sz fb).fb.layout_pause =
      match c with
      | Call.PauseLayout => fb.layout_pause + 1
      | Call.ResumeLayout _ => if fb.layout_pause > 0 then fb.layout_pause - 1 else fb.layout_pause
      | Call.mutate _ => fb.layout_pause
      | Call.Layout => fb.layout_pause := by
  cases c
  case PauseLayout => rfl
  case ResumeLayout r =>
    simp only [Call.apply, Upp.ResumeLayout]
    split_ifs <;> first | rfl | (rw [(Layout_frame _ _ _ _).1])
  case mutate m => exact Mutator_apply_pause depth env sz fb m
  case Layout => exact (Layout_frame depth env sz fb).1

theorem runCalls_append (depth : Nat) (env : Env) (sz : Size) :
    ∀ (a b : List Call) (fb : FlowBoxLayout),
      runCalls depth env sz (a ++ b) fb
        = ((runCalls depth env sz b (runCalls depth env sz a fb).1).1,
           (runCalls depth env sz a fb).2 + (runCalls depth env sz b (runCalls depth env sz a fb).1).2) := by
  intro a
  induction a with
  | nil => intro b fb; simp [runCalls]
  | cons c rest ih =>
    intro b fb
    have e := ih b (c.apply depth env sz fb).fb
    rw [List.cons_append]
    simp only [runCalls]
    rw [e]
    simp [Nat.add_assoc]

/-- The pause counter never becomes negative. -/
theorem runCalls_pause_nonneg (depth : Nat) (env : Env) (sz : Size) :
    ∀ (calls : List Call) (fb : FlowBoxLayout), 0 ≤ fb.layout_pause →
      0 ≤ (runCalls depth env sz calls fb).1.layout_pause := by
  intro calls
  induction calls with
  | nil => intro fb h; exact h
  | cons c rest ih =>
    intro fb h
    simp only [runCalls]
    apply ih
    rw [Call_apply_pause]
    cases c <;> simp only <;> omega

/-- Inside a properly nested batch the body of `Layout` is never entered, and
the batch ends at pause depth `1`. -/
theorem runCalls_nested (depth : Nat) (env : Env) (sz : Size) :
    ∀ (calls : List Call) (p : Int) (fb : FlowBoxLayout), fb.layout_pause = p → 1 ≤ p →
      nestedInside p calls = true →
      (runCalls depth env sz calls fb).2 = 0 ∧
      (runCalls depth env sz calls fb).1.layout_pause = 1 := by
  intro calls
  induction calls with
  | nil =>
    intro p fb hp _ hn
    simp only [nestedInside, decide_eq_true_eq] at hn
    exact ⟨rfl, by simp only [runCalls]; omega⟩
  | cons c rest ih =>
    intro p fb hp h1 hn
    have hpos : fb.layout_pause > 0 := by omega
    have hpa := Call_apply_pause depth env sz fb c
    cases c with
    | PauseLayout =>
      simp only [nestedInside] at hn
      simp only at hpa
      obtain ⟨a, b⟩ := ih (p + 1) (Call.PauseLayout.apply depth env sz fb).fb (by rw [hpa, hp])
        (by omega) hn
      simp only [runCalls]
      refine ⟨?_, b⟩
      rw [a]; rfl
    | ResumeLayout r =>
      simp only [nestedInside, Bool.and_eq_true, decide_eq_true_eq] at hn
      simp only [hpos, if_true] at hpa
      obtain ⟨a, b⟩ := ih (p - 1) ((Call.ResumeLayout r).apply depth env sz fb).fb
        (by rw [hpa, hp]) (by omega) hn.2
      simp only [runCalls]
      refine ⟨?_, b⟩
      rw [a]
      have hran : ((Call.ResumeLayout r).apply depth env sz fb).ran = false := by
        simp only [Call.apply, Upp.ResumeLayout, hpos, if_true]
        have : ¬ (fb.layout_pause - 1 = 0) := by omega
        simp [this]
      simp [hran]
    | mutate m =>
      simp only [nestedInside] at hn
      simp only at hpa
      obtain ⟨a, b⟩ := ih p ((Call.mutate m).apply depth env sz fb).fb (by rw [hpa, hp]) h1 hn
      simp only [runCalls]
      refine ⟨?_, b⟩
      rw [a]
      have hran : ((Call.mutate m).apply depth env sz fb).ran = false :=
        (Mutator_apply_quiet depth env sz fb m hpos).1
      simp [hran]
    | Layout =>
      simp only [nestedInside] at hn
      simp only at hpa
      obtain ⟨a, b⟩ := ih p (Call.Layout.apply depth env sz fb).fb (by rw [hpa, hp]) h1 hn
      simp only [runCalls]
      refine ⟨?_, b⟩
      rw [a]
      have hran : (Call.Layout.apply depth env sz fb).ran = false := by
        simp only [Call.apply]; rw [Layout_paused depth env sz fb hpos]
      simp [hran]

/-- C15 (pause/resume batching).  Over any sequence of calls the pause counter
stays non-negative; while it is positive `Layout` returns the container
unchanged, and no mutator enters `Layout`, plans or commits; and in a batch
that starts unpaused with `PauseLayout`, continues with properly nested calls
(further pauses and resumes, mutators anywhere) and ends with the
`ResumeLayout(true)` that closes the first pause, the body of `Layout` is
entered exactly once, by that last call, which leaves the counter at `0`. -/
theorem C15_pause_resume_batching (depth : Nat) (env : Env) (sz : Size) :
    (∀ (calls : List Call) (fb : FlowBoxLayout), 0 ≤ fb.layout_pause →
      0 ≤ (runCalls depth env sz calls fb).1.layout_pause) ∧
    (∀ fb : FlowBoxLayout, fb.layout_pause > 0 →
      Layout depth env sz fb = ⟨fb, [], false, false⟩) ∧
    (∀ (fb : FlowBoxLayout) (m : Mutator), fb.layout_pause > 0 →
      (m.apply depth env sz fb).ran = false ∧ (m.apply depth env sz fb).planned = false ∧
      (m.apply depth env sz fb).setRects = []) ∧
    (∀ (fb : FlowBoxLayout) (inside : List Call), fb.layout_pause = 0 →
      nestedInside 1 inside = true →
      (runCalls depth env sz (Call.PauseLayout :: inside) fb).2 = 0 ∧
      ((Call.ResumeLayout true).apply depth env sz
        (runCalls depth env sz (Call.PauseLayout :: inside) fb).1).ran = true ∧
      (runCalls depth env sz (Call.PauseLayout :: inside ++ [Call.ResumeLayout true]) fb).2 = 1 ∧
      (runCalls depth env sz (Call.PauseLayout :: inside ++ [Call.ResumeLayout true]) fb
        ).1.layout_pause = 0) := by
  refine ⟨runCalls_pause_nonneg depth env sz, fun fb h => Layout_paused depth env sz fb h,
    fun fb m h => Mutator_apply_quiet depth env sz fb m h, ?_⟩
  intro fb inside h0 hn
  have hp1 : (Upp.PauseLayout fb).fb.layout_pause = 1 := by
    simp only [Upp.PauseLayout]; omega
  obtain ⟨a, b⟩ := runCalls_nested depth env sz inside 1 (Upp.PauseLayout fb).fb hp1 (le_refl _) hn
  have hin : (runCalls depth env sz (Call.PauseLayout :: inside) fb).2 = 0 ∧
      (runCalls depth env sz (Call.PauseLayout :: inside) fb).1.layout_pause = 1 := by
    simp only [runCalls, Call.apply]
    exact ⟨by rw [a]; rfl, b⟩
  have hlast : ((Call.ResumeLayout true).apply depth env sz
      (runCalls depth env sz (Call.PauseLayout :: inside) fb).1).ran = true ∧
      ((Call.ResumeLayout true).apply depth env sz
      (runCalls depth env sz (Call.PauseLayout :: inside) fb).1).fb.layout_pause = 0 := by
    simp only [Call.apply]
    rw [ResumeLayout_last depth env sz _ hin.2]
    constructor
    · unfold Layout
      simp only [lt_irrefl, gt_iff_lt, if_false]
      split_ifs <;> rfl
    · rw [(Layout_frame depth env sz _).1]
  have happ : Call.PauseLayout :: inside ++ [Call.ResumeLayout true]
      = (Call.PauseLayout :: inside) ++ [Call.ResumeLayout true] := rfl
  have hone : ∀ s : FlowBoxLayout, runCalls depth env sz [Call.ResumeLayout true] s
      = (((Call.ResumeLayout true).apply depth env sz s).fb,
         (if ((Call.ResumeLayout true).apply depth env sz s).ran then 1 else 0) + 0) := fun _ => rfl
  refine ⟨hin.1, hlast.1, ?_, ?_⟩
  · rw [happ, runCalls_append, hone, hin.1, hlast.1]; rfl
  · rw [happ, runCalls_append, hone]
    exact hlast.2

/-- Witness for C15: two nested pauses around `Add` and `SetGap` on the sample
column; `Layout` runs once, at the second `ResumeLayout(true)`. -/
theorem C15_pause_resume_batching_witness :
    (runCalls 0 sampleEnv ⟨100, 200⟩
      (Call.PauseLayout :: [Call.PauseLayout, Call.mutate (Mutator.Add 7),
        Call.mutate (Mutator.SetGap 5), Call.ResumeLayout true] ++ [Call.ResumeLayout true])
      sampleColumn).2 = 1 ∧
    (runCalls 0 sampleEnv ⟨100, 200⟩
      (Call.PauseLayout :: [Call.PauseLayout, Call.mutate (Mutator.Add 7),
        Call.mutate (Mutator.SetGap 5), Call.ResumeLayout true] ++ [Call.ResumeLayout true])
      sampleColumn).1.layout_pause = 0 :=
  ((C15_pause_resume_batching 0 sampleEnv ⟨100, 200⟩).2.2.2 sampleColumn
    [Call.PauseLayout, Call.mutate (Mutator.Add 7), Call.mutate (Mutator.SetGap 5),
      Call.ResumeLayout true] (by decide) (by decide)).2.2

/-! ## Sizing modes -/

theorem PreLayoutCalc_cfg (depth : Nat) (env : Env) (fb : FlowBoxLayout) (irc : Rect) (j : Nat) :
    (getItem (PreLayoutCalc depth env fb irc).items j).cfg = (getItem fb.items j).cfg := by
  cases depth <;> exact PreLayoutCalcWith_cfg _ env fb irc j

/-- `Layout` leaves the configuration of every item. -/
theorem Layout_cfg (depth : Nat) (env : Env) (sz : Size) (fb : FlowBoxLayout) (j : Nat) :
    (getItem (Layout depth env sz fb).fb.items j).cfg = (getItem fb.items j).cfg := by
  rcases Layout_cases depth env sz fb with e | e | e | e <;> rw [e]
  exact PreLayoutCalc_cfg depth env fb _ j

theorem markDirty_cfg (depth : Nat) (env : Env) (sz : Size) (fb : FlowBoxLayout) (j : Nat) :
    (getItem (markDirty depth env sz fb).fb.items j).cfg = (getItem fb.items j).cfg := by
  unfold markDirty
  by_cases h : fb.layout_pause = 0
  · simp only [h, if_true]
    rw [Layout_cfg]
  · simp only [h, if_false]

theorem getItem_append_single (l : List Item) (a : Item) (j : Nat) :
    getItem (l ++ [a]) j
      = if j < l.length then getItem l j else if j = l.length then a else default := by
  unfold getItem
  by_cases h1 : j < l.length
  · rw [if_pos h1, List.getD_append _ _ _ _ h1]
  · rw [if_neg h1]
    by_cases h2 : j = l.length
    · rw [if_pos h2, h2]
      simp [List.getD_eq_getElem?_getD]
    · rw [if_neg h2]
      have : (l ++ [a]).length ≤ j := by simp; omega
      simp [List.getD_eq_getElem?_getD, List.getElem?_eq_none this]

/-- The item the `ItemRef` setters leave at every index. -/
theorem ItemRef_update_getItem (fb : FlowBoxLayout) (index : Int) (f : Item → Item) (j : Nat) :
    getItem (ItemRef.update fb index f).items j
      = if 0 ≤ index ∧ index < (fb.items.length : Int) ∧ index.toNat = j
        then f (getItem fb.items j) else getItem fb.items j := by
  unfold ItemRef.update
  by_cases h : 0 ≤ index ∧ index < (fb.items.length : Int)
  · rw [if_pos h]
    simp only [getItem_set]
    by_cases hj : index.toNat = j
    · have : j < fb.items.length := by omega
      rw [if_pos ⟨hj, this⟩, if_pos ⟨h.1, h.2, hj⟩, hj]
    · rw [if_neg (fun x => hj x.1), if_neg (fun x => hj x.2.2)]
  · rw [if_neg h, if_neg (fun x => h ⟨x.1, x.2.1⟩)]

theorem fixedFitExclusive_cfg (a b : Item) (h : a.cfg = b.cfg) (ha : fixedFitExclusive a) :
    fixedFitExclusive b := by
  obtain ⟨-, h2, -, h4, -⟩ := cfg_fields a b h
  unfold fixedFitExclusive at *
  rw [← h2, ← h4]; exact ha

/-- Every mutator keeps `Fixed` and `Fit` exclusive on every item. -/
theorem Mutator_apply_exclusive (depth : Nat) (env : Env) (sz : Size) (fb : FlowBoxLayout)
    (m : Mutator) (h : ∀ j, fixedFitExclusive (getItem fb.items j)) :
    ∀ j, fixedFitExclusive (getItem (m.apply depth env sz fb).fb.items j) := by
  intro j
  have hd : fixedFitExclusive (default : Item) := by
    intro x; exact absurd x.2 (by decide)
  cases m
  case ClearItems =>
    simp only [Mutator.apply, Upp.ClearItems]
    refine fixedFitExclusive_cfg _ _ (Layout_cfg depth env sz _ j).symm ?_
    simp only [getItem, List.getD_nil]; exact hd
  case SetWrapAutoResize e => exact h j
  case Add c =>
    refine fixedFitExclusive_cfg _ _ (markDirty_cfg depth env sz _ j).symm ?_
    simp only [getItem_append_single]
    split_ifs
    · exact h j
    · intro x; exact absurd x.2 (by simp)
    · exact hd
  case AddExpand c w =>
    refine fixedFitExclusive_cfg _ _ (markDirty_cfg depth env sz _ j).symm ?_
    simp only [getItem_append_single]
    split_ifs
    · exact h j
    · intro x; exact absurd x.2 (by simp)
    · exact hd
  case AddFixed c px =>
    refine fixedFitExclusive_cfg _ _ (markDirty_cfg depth env sz _ j).symm ?_
    simp only [getItem_append_single]
    split_ifs
    · exact h j
    · intro x; exact absurd x.2 (by simp)
    · exact hd
  case AddFit c =>
    refine fixedFitExclusive_cfg _ _ (markDirty_cfg depth env sz _ j).symm ?_
    simp only [getItem_append_single]
    split_ifs
    · exact h j
    · intro x; exact absurd x.1 (by simp)
    · exact hd
  case AddSpacer w =>
    refine fixedFitExclusive_cfg _ _ (markDirty_cfg depth env sz _ j).symm ?_
    simp only [getItem_append_single]
    split_ifs
    · exact h j
    · intro x; exact absurd x.2 (by simp)
    · exact hd
  case AddBreak w =>
    refine fixedFitExclusive_cfg _ _ (markDirty_cfg depth env sz _ j).symm ?_
    simp only [getItem_append_single]
    split_ifs
    · exact h j
    · intro x; exact absurd x.2 (by simp)
    · exact hd
  case Expand index w =>
    refine fixedFitExclusive_cfg _ _ (markDirty_cfg depth env sz _ j).symm ?_
    rw [ItemRef_update_getItem]
    split_ifs
    · exact h j
    · exact h j
  case Fixed index px =>
    refine fixedFitExclusive_cfg _ _ (markDirty_cfg depth env sz _ j).symm ?_
    rw [ItemRef_update_getItem]
    split_ifs
    · intro x; exact absurd x.2 (by simp)
    · exact h j
  case Fit index =>
    refine fixedFitExclusive_cfg _ _ (markDirty_cfg depth env sz _ j).symm ?_
    rw [ItemRef_update_getItem]
    split_ifs
    · intro x; exact absurd x.1 (by simp)
    · exact h j
  case MinMaxWidth index a b =>
    refine fixedFitExclusive_cfg _ _ (markDirty_cfg depth env sz _ j).symm ?_
    rw [ItemRef_update_getItem]
    split_ifs
    · exact h j
    · exact h j
  case MinMaxHeight index a b =>
    refine fixedFitExclusive_cfg _ _ (markDirty_cfg depth env sz _ j).symm ?_
    rw [ItemRef_update_getItem]
    split_ifs
    · exact h j
    · exact h j
  case AlignSelf index a =>
    refine fixedFitExclusive_cfg _ _ (markDirty_cfg depth env sz _ j).symm ?_
    rw [ItemRef_update_getItem]
    split_ifs
    · exact h j
    · exact h j
  all_goals
    exact fixedFitExclusive_cfg _ _ (markDirty_cfg depth env sz _ j).symm (h j)

theorem Call_apply_exclusive (depth : Nat) (env : Env) (sz : Size) (fb : FlowBoxLayout)
    (c : Call) (h : ∀ j, fixedFitExclusive (getItem fb.items j)) :
    ∀ j, fixedFitExclusive (getItem (c.apply depth env sz fb).fb.items j) := by
  intro j
  cases c
  case PauseLayout => exact h j
  case ResumeLayout r =>
    simp only [Call.apply, Upp.ResumeLayout]
    split_ifs
    · exact fixedFitExclusive_cfg _ _ (Layout_cfg depth env sz _ j).symm (h j)
    · exact h j
    · exact fixedFitExclusive_cfg _ _ (Layout_cfg depth env sz _ j).symm (h j)
    · exact h j
  case mutate m => exact Mutator_apply_exclusive depth env sz fb m h j
  case Layout => exact fixedFitExclusive_cfg _ _ (Layout_cfg depth env sz _ j).symm (h j)

theorem runCalls_exclusive (depth : Nat) (env : Env) (sz : Size) :
    ∀ (calls : List Call) (fb : FlowBoxLayout),
      (∀ j, fixedFitExclusive (getItem fb.items j)) →
      ∀ j, fixedFitExclusive (getItem (runCalls depth env sz calls fb).1.items j) := by
  intro calls
  induction calls with
  | nil => intro fb h; exact h
  | cons c rest ih =>
    intro fb h
    simp only [runCalls]
    exact ih _ (Call_apply_exclusive depth env sz fb c h)

/-- The configuration of the item an `ItemRef` setter was called on. -/
theorem ItemRef_update_cfg (depth : Nat) (env : Env) (sz : Size) (fb : FlowBoxLayout)
    (i : Nat) (hi : i < fb.items.length) (f : Item → Item) :
    (getItem (markDirty depth env sz (ItemRef.update fb (i : Int) f)).fb.items i).cfg
      = (f (getItem fb.items i)).cfg := by
  rw [markDirty_cfg, ItemRef_update_getItem, if_pos]
  exact ⟨by omega, by omega, by simp⟩

/-- C19, amended (`Fixed` and `Fit` are exclusive; `Expand` composes).  Over
any sequence of calls of the public API, starting from a container in which no
item has both `fixed >= 0` and `fit`, no item ever has both.  A call of
`ItemRef::Fixed` or `ItemRef::Fit` on an item leaves exactly that one mode
indicator set; a call of `ItemRef::Expand` sets the weight to `max(1, w)` and
leaves `fixed` and `fit` as they are. -/
theorem C19_fixed_and_fit_exclusive (depth : Nat) (env : Env) (sz : Size) :
    (∀ (calls : List Call) (fb : FlowBoxLayout),
      (∀ j, fixedFitExclusive (getItem fb.items j)) →
      ∀ j, fixedFitExclusive (getItem (runCalls depth env sz calls fb).1.items j)) ∧
    (∀ (fb : FlowBoxLayout) (i : Nat) (px : Int), i < fb.items.length →
      (getItem (ItemRef.Fixed depth env sz fb i px).fb.items i).fixed = max 0 px ∧
      (getItem (ItemRef.Fixed depth env sz fb i px).fb.items i).fit = false ∧
      (getItem (ItemRef.Fixed depth env sz fb i px).fb.items i).expandingWeight = 0 ∧
      modeCount (getItem (ItemRef.Fixed depth env sz fb i px).fb.items i) = 1) ∧
    (∀ (fb : FlowBoxLayout) (i : Nat), i < fb.items.length →
      (getItem (ItemRef.Fit depth env sz fb i).fb.items i).fit = true ∧
      (getItem (ItemRef.Fit depth env sz fb i).fb.items i).fixed = -1 ∧
      (getItem (ItemRef.Fit depth env sz fb i).fb.items i).expandingWeight = 0 ∧
      modeCount (getItem (ItemRef.Fit depth env sz fb i).fb.items i) = 1) ∧
    (∀ (fb : FlowBoxLayout) (i : Nat) (w : Int), i < fb.items.length →
      (getItem (ItemRef.Expand depth env sz fb i w).fb.items i).expandingWeight = max 1 w ∧
      (getItem (ItemRef.Expand depth env sz fb i w).fb.items i).fixed
        = (getItem fb.items i).fixed ∧
      (getItem (ItemRef.Expand depth env sz fb i w).fb.items i).fit
        = (getItem fb.items i).fit) := by
  refine ⟨runCalls_exclusive depth env sz, ?_, ?_, ?_⟩
  · intro fb i px hi
    obtain ⟨-, h2, h3, h4, -⟩ := cfg_fields _ _ (ItemRef_update_cfg depth env sz fb i hi
      (fun it => { it with fixed := max 0 px, expandingWeight := 0, fit := false }))
    simp only at h2 h3 h4
    unfold ItemRef.Fixed modeCount
    rw [h2, h3, h4]
    refine ⟨rfl, rfl, rfl, ?_⟩
    have : max 0 px ≥ 0 := le_max_left 0 px
    simp [this]
  · intro fb i hi
    obtain ⟨-, h2, h3, h4, -⟩ := cfg_fields _ _ (ItemRef_update_cfg depth env sz fb i hi
      (fun it => { it with fit := true, fixed := -1, expandingWeight := 0 }))
    simp only at h2 h3 h4
    unfold ItemRef.Fit modeCount
    rw [h2, h3, h4]
    exact ⟨rfl, rfl, rfl, by simp⟩
  · intro fb i w hi
    obtain ⟨-, h2, h3, h4, -⟩ := cfg_fields _ _ (ItemRef_update_cfg depth env sz fb i hi
      (fun it => { it with expandingWeight := max 1 w }))
    simp only at h2 h3 h4
    unfold ItemRef.Expand
    exact ⟨h3, h2, h4⟩

/-- Witness for C19: `Add`, `Fit()`, `Expand(1)`, `Fixed(40)` on an empty
container: the item ends as `Fixed(40)` only. -/
theorem C19_fixed_and_fit_exclusive_witness :
    (∀ j, fixedFitExclusive (getItem ({} : FlowBoxLayout).items j)) ∧
    fixedFitExclusive (getItem (runCalls 0 sampleEnv ⟨100, 200⟩
      [Call.mutate (Mutator.Add 0), Call.mutate (Mutator.Fit 0),
       Call.mutate (Mutator.Expand 0 1), Call.mutate (Mutator.Fixed 0 40)] {}).1.items 0) :=
  ⟨fun j => by simp [getItem, fixedFitExclusive],
   (C19_fixed_and_fit_exclusive 0 sampleEnv ⟨100, 200⟩).1 _ {}
     (fun j => by simp [getItem, fixedFitExclusive]) 0⟩

/-- C19 as stated fails: after `Add(c).Fit().Expand(1)`, the chain of the demo,
the item has `fit = true` together with `expandingWeight = 1`, and after
`AddFixed(c, 40).Expand(1)` it has `fixed = 40` together with
`expandingWeight = 1`: two mode indicators hold. -/
theorem C19_fixed_and_fit_exclusive_counterexample :
    (getItem (runCalls 0 sampleEnv ⟨100, 200⟩
      [Call.mutate (Mutator.Add 0), Call.mutate (Mutator.Fit 0),
       Call.mutate (Mutator.Expand 0 1)] {}).1.items 0).fit = true ∧
    (getItem (runCalls 0 sampleEnv ⟨100, 200⟩
      [Call.mutate (Mutator.Add 0), Call.mutate (Mutator.Fit 0),
       Call.mutate (Mutator.Expand 0 1)] {}).1.items 0).expandingWeight = 1 ∧
    modeCount (getItem (runCalls 0 sampleEnv ⟨100, 200⟩
      [Call.mutate (Mutator.Add 0), Call.mutate (Mutator.Fit 0),
       Call.mutate (Mutator.Expand 0 1)] {}).1.items 0) = 2 ∧
    (getItem (runCalls 0 sampleEnv ⟨100, 200⟩
      [Call.mutate (Mutator.AddFixed 0 40), Call.mutate (Mutator.Expand 0 1)] {}).1.items 0
      ).fixed = 40 ∧
    modeCount (getItem (runCalls 0 sampleEnv ⟨100, 200⟩
      [Call.mutate (Mutator.AddFixed 0 40), Call.mutate (Mutator.Expand 0 1)] {}).1.items 0) = 2 ∧
    ¬ (∀ calls : List Call,
        modeCount (getItem (runCalls 0 sampleEnv ⟨100, 200⟩ calls {}).1.items 0) ≤ 1) := by
  refine ⟨by decide, by decide, by decide, by decide, by decide, ?_⟩
  intro h
  exact absurd (h [Call.mutate (Mutator.Add 0), Call.mutate (Mutator.Fit 0),
       Call.mutate (Mutator.Expand 0 1)]) (by decide)

/-! ## Visibility gate: lemmas -/

theorem SameFlags_refl (a : Item) : SameFlags a a := ⟨rfl, rfl, fun _ => rfl⟩

theorem SameFlags_trans (a b c : Item) (h1 : SameFlags a b) (h2 : SameFlags b c) :
    SameFlags a c := by
  obtain ⟨a1, a2, a3⟩ := h1
  obtain ⟨b1, b2, b3⟩ := h2
  refine ⟨by rw [b1, a1], by rw [b2, a2], ?_⟩
  intro h
  have e := a3 h
  rw [b3 (by rw [a1]; exact h), e]

/-- Replacing the item at one index by one with the same flags keeps the flags
at every index; an item that does not participate must not be replaced. -/
theorem SameFlags_set (l : List Item) (k : Nat) (it2 : Item)
    (hv : it2.cl.visible = (getItem l k).cl.visible)
    (hs : it2.cl.spacer = (getItem l k).cl.spacer)
    (hk : (getItem l k).cl.visible = true) (j : Nat) :
    SameFlags (getItem l j) (getItem (l.set k it2) j) := by
  rw [getItem_set]
  by_cases h : k = j ∧ j < l.length
  · rw [if_pos h]
    obtain ⟨rfl, -⟩ := h
    refine ⟨hv, hs, ?_⟩
    intro hf; rw [hk] at hf; cases hf
  · rw [if_neg h]; exact SameFlags_refl _

theorem vItem_flags (fb : FlowBoxLayout) (env : Env)
    (probe : FlowBoxLayout → Rect → FlowBoxLayout) (inner_w : Int) (i : Nat) (it : Item) :
    SameFlags it (vItem fb env probe inner_w i it).1 ∧
    (it.cl.visible = false → (vItem fb env probe inner_w i it).2 = none) := by
  have hcl := (vItem_cfg fb env probe inner_w i it).2
  refine ⟨⟨by rw [hcl], by rw [hcl], ?_⟩, ?_⟩
  · intro h; unfold vItem; rw [if_pos h]
  · intro h; unfold vItem; rw [if_pos h]

/-- The cells of the build loop of `LayoutVertical` belong to participating
items. -/
theorem vBuild_cells_visible (fb : FlowBoxLayout) (env : Env)
    (probe : FlowBoxLayout → Rect → FlowBoxLayout) (inner_w : Int) (items : List Item)
    (i : Nat) (c : VCell) (hc : c ∈ (vBuild fb env probe inner_w i items).2) :
    ∃ j, j < items.length ∧ c.idx = i + j ∧ (getItem items j).cl.visible = true := by
  obtain ⟨j, hj, hidx, hv⟩ := vBuild_cell_origin fb env probe inner_w items i c hc
  refine ⟨j, hj, hidx, ?_⟩
  by_contra hn
  have hf : (getItem items j).cl.visible = false := by
    cases h : (getItem items j).cl.visible
    · rfl
    · exact absurd h hn
  rw [(vItem_flags fb env probe inner_w (i + j) (getItem items j)).2 hf] at hv
  cases hv

theorem vPlaceCell_flags (fb : FlowBoxLayout) (env : Env) (irc : Rect) (inner_w : Int)
    (k : Nat) (c : VCell) (more : Bool) (st : VPlace)
    (hk : (getItem st.items c.idx).cl.visible = true) (j : Nat) :
    SameFlags (getItem st.items j) (getItem (vPlaceCell fb env irc inner_w k c more st).items j) := by
  have key : ∃ it2, (vPlaceCell fb env irc inner_w k c more st).items = st.items.set c.idx it2 ∧
      it2.cl.visible = (getItem st.items c.idx).cl.visible ∧
      it2.cl.spacer = (getItem st.items c.idx).cl.spacer := by
    unfold vPlaceCell
    simp only
    split
    · refine ⟨_, rfl, ?_, ?_⟩
      · show (GetCtrlMinSize env fb.minsize_epoch (getItem st.items c.idx)).item.cl.visible = _
        rw [GetCtrlMinSize_cl]
      · show (GetCtrlMinSize env fb.minsize_epoch (getItem st.items c.idx)).item.cl.spacer = _
        rw [GetCtrlMinSize_cl]
    · exact ⟨_, rfl, rfl, rfl⟩
  obtain ⟨it2, h1, h2, h3⟩ := key
  rw [h1]
  exact SameFlags_set _ _ _ h2 h3 hk j

theorem vPlace_flags (fb : FlowBoxLayout) (env : Env) (irc : Rect) (inner_w : Int) :
    ∀ (cells : List VCell) (k : Nat) (st : VPlace),
      (∀ c ∈ cells, (getItem st.items c.idx).cl.visible = true) →
      ∀ j, SameFlags (getItem st.items j) (getItem (vPlace fb env irc inner_w k cells st).items j) := by
  intro cells
  induction cells with
  | nil => intro k st _ j; exact SameFlags_refl _
  | cons c rest ih =>
    intro k st h j
    unfold vPlace
    have h1 := vPlaceCell_flags fb env irc inner_w k c (!rest.isEmpty) st
      (h c (List.mem_cons_self _ _))
    refine SameFlags_trans _ _ _ (h1 j) (ih _ _ ?_ j)
    intro c2 hc2
    rw [(h1 c2.idx).1]
    exact h c2 (List.mem_cons_of_mem _ hc2)

/-- `LayoutVertical` keeps the flags of every item, and leaves an item that does
not participate as it is. -/
theorem LayoutVertical_flags (fb : FlowBoxLayout) (env : Env)
    (probe : FlowBoxLayout → Rect → FlowBoxLayout) (irc : Rect) (inner_w inner_h : Int)
    (j : Nat) :
    SameFlags (getItem fb.items j)
      (getItem (LayoutVertical fb env probe irc inner_w inner_h).items j) := by
  have hb : ∀ j, SameFlags (getItem fb.items j)
      (getItem (vBuild fb env probe inner_w 0 fb.items).1 j) := by
    intro j
    by_cases hj : j < fb.items.length
    · rw [vBuild_getItem fb env probe inner_w fb.items 0 j hj]
      exact (vItem_flags fb env probe inner_w (0 + j) (getItem fb.items j)).1
    · rw [getItem_default_of_le _ _ (by omega),
        getItem_default_of_le _ _ (by rw [vBuild_items_length]; omega)]
      exact SameFlags_refl _
  unfold LayoutVertical
  simp only
  refine SameFlags_trans _ _ _ (hb j) (vPlace_flags fb env irc inner_w _ 0 _ ?_ j)
  intro c hc
  obtain ⟨c0, hc0, hstep⟩ := forall₂_mem_right _ _ _
    (vDistributeAll_step fb (vBuild fb env probe inner_w 0 fb.items).1 inner_h
      (vBuild fb env probe inner_w 0 fb.items).2) c hc
  obtain ⟨j0, hj0, hidx, hv⟩ := vBuild_cells_visible fb env probe inner_w fb.items 0 c0 hc0
  rw [hstep.1, hidx, (hb (0 + j0)).1, zero_add]
  exact hv

theorem RowsIdx_new_row (P : Nat → Prop) (irc : Rect) (st : HBuild) (h : RowsIdx P st.rows) :
    RowsIdx P (st.new_row irc).rows := by
  intro R hR
  simp only [HBuild.rows, HBuild.new_row, List.mem_append, List.mem_singleton] at hR
  rcases hR with (hR | hR) | hR
  · exact h R (by simp [HBuild.rows, hR])
  · exact h R (by simp [HBuild.rows, hR])
  · subst hR; exact ⟨by simp, by simp⟩

theorem RowsIdx_addCell (P : Nat → Prop) (gap : Int) (rc : RowCell) (st : HBuild)
    (h : RowsIdx P st.rows) (hrc : P rc.idx) : RowsIdx P (st.addCell gap rc).rows := by
  intro R hR
  simp only [HBuild.rows, HBuild.addCell, List.mem_append, List.mem_singleton] at hR
  rcases hR with hR | hR
  · exact h R (by simp [HBuild.rows, hR])
  · subst hR
    have ht := h st.top (by simp [HBuild.rows])
    refine ⟨?_, ht.2⟩
    intro c hc
    simp only [List.mem_append, List.mem_singleton] at hc
    rcases hc with hc | hc
    · exact ht.1 c hc
    · subst hc; exact hrc

theorem RowsIdx_addGap (P : Nat → Prop) (g : GapExp) (st : HBuild)
    (h : RowsIdx P st.rows) (hg : P g.idx) :
    RowsIdx P ({ st with top := { st.top with gaps := st.top.gaps ++ [g] } } : HBuild).rows := by
  intro R hR
  simp only [HBuild.rows, List.mem_append, List.mem_singleton] at hR
  rcases hR with hR | hR
  · exact h R (by simp [HBuild.rows, hR])
  · subst hR
    have ht := h st.top (by simp [HBuild.rows])
    refine ⟨ht.1, ?_⟩
    intro c hc
    simp only [List.mem_append, List.mem_singleton] at hc
    rcases hc with hc | hc
    · exact ht.2 c hc
    · subst hc; exact hg

theorem RowsIdx_maybe_new_row (P : Nat → Prop) (irc : Rect) (st : HBuild) (p : Prop)
    [Decidable p] (h : RowsIdx P st.rows) :
    RowsIdx P (if p then st.new_row irc else st).rows := by
  by_cases hp : p
  · rw [if_pos hp]; exact RowsIdx_new_row P irc st h
  · rw [if_neg hp]; exact h

theorem RowsIdx_wrapFixed (P : Nat → Prop) (fb : FlowBoxLayout) (irc : Rect)
    (inner_w cell_w : Int) (st : HBuild) (h : RowsIdx P st.rows) :
    RowsIdx P (st.wrapFixed fb irc inner_w cell_w).rows := by
  unfold HBuild.wrapFixed
  by_cases hw : fb.wrap = true
  · rw [if_pos hw]; exact RowsIdx_maybe_new_row P irc st _ h
  · rw [if_neg hw]; exact h

theorem RowsIdx_wrapFluid (P : Nat → Prop) (irc : Rect) (st : HBuild) (p q : Prop)
    [Decidable p] [Decidable q] (h : RowsIdx P st.rows) :
    RowsIdx P (if p then (if q then st.new_row irc else st) else st).rows := by
  by_cases hp : p
  · rw [if_pos hp]; exact RowsIdx_maybe_new_row P irc st q h
  · rw [if_neg hp]; exact h

/-- PASS 1 keeps the flags of the item, leaves an item that does not participate
and the rows as they are, and refers in the rows only to the index of a
participating item. -/
theorem hItem_flags (fb : FlowBoxLayout) (env : Env)
    (probe : FlowBoxLayout → Rect → FlowBoxLayout)
    (irc : Rect) (inner_w inner_h : Int) (i : Nat) (it : Item) (st : HBuild) :
    SameFlags it (hItem fb env probe irc inner_w inner_h i it st).1 ∧
    (∀ P : Nat → Prop, RowsIdx P st.rows → (it.cl.visible = true → P i) →
      RowsIdx P (hItem fb env probe irc inner_w inner_h i it st).2.rows) := by
  have hrd : (GetCtrlMinSize env fb.minsize_epoch it).item.cl = it.cl := GetCtrlMinSize_cl _ _ _
  unfold hItem
  by_cases hv : it.cl.visible = false
  · rw [if_pos hv]; exact ⟨SameFlags_refl _, fun P h _ => h⟩
  rw [if_neg hv]
  have hvt : it.cl.visible = true := by
    cases h : it.cl.visible
    · exact absurd h hv
    · rfl
  have hno : ∀ b : Item, b.cl.visible = it.cl.visible → b.cl.spacer = it.cl.spacer →
      SameFlags it b := fun b h1 h2 => ⟨h1, h2, fun h => absurd h hv⟩
  by_cases hwb : fb.wrap = true ∧ it.is_break = true
  · rw [if_pos hwb]
    exact ⟨hno _ rfl rfl, fun P h _ => RowsIdx_maybe_new_row P irc st _ h⟩
  rw [if_neg hwb]
  by_cases hfc : fb.fixed_column ≥ 0
  · rw [if_pos hfc]
    simp only
    by_cases hnb : fb.wrap = false ∧ it.is_break = true
    · rw [if_pos hnb]
      exact ⟨hno _ rfl rfl, fun P h hi => RowsIdx_addCell P _ _ _ h (hi hvt)⟩
    rw [if_neg hnb]
    by_cases hsp : it.cl.spacer = true
    · rw [if_pos hsp]
      exact ⟨hno _ rfl rfl,
        fun P h hi => RowsIdx_addCell P _ _ _ (RowsIdx_wrapFixed P _ _ _ _ _ h) (hi hvt)⟩
    rw [if_neg hsp]
    refine ⟨hno _ ?_ ?_,
        fun P h hi => RowsIdx_addCell P _ _ _ (RowsIdx_wrapFixed P _ _ _ _ _ h) (hi hvt)⟩
    · show (GetCtrlMinSize env fb.minsize_epoch it).item.cl.visible = _
      rw [hrd]
    · show (GetCtrlMinSize env fb.minsize_epoch it).item.cl.spacer = _
      rw [hrd]
  rw [if_neg hfc]
  by_cases hnb : fb.wrap = false ∧ it.is_break = true
  · rw [if_pos hnb]
    exact ⟨hno _ rfl rfl, fun P h hi => RowsIdx_addGap P _ _ h (hi hvt)⟩
  rw [if_neg hnb]
  by_cases hsp : it.cl.spacer = true
  · rw [if_pos hsp]
    exact ⟨hno _ rfl rfl, fun P h hi => RowsIdx_addGap P _ _ h (hi hvt)⟩
  rw [if_neg hsp]
  simp only
  refine ⟨hno _ ?_ ?_, ?_⟩
  · show (GetCtrlMinSize env fb.minsize_epoch it).item.cl.visible = _
    rw [hrd]
  · show (GetCtrlMinSize env fb.minsize_epoch it).item.cl.spacer = _
    rw [hrd]
  · intro P h hi
    exact RowsIdx_addCell P _ _ _ (RowsIdx_wrapFluid P irc st _ _ h) (hi hvt)

/-- PASS 1 over a list of items: flags are kept index by index, and the rows
refer only to indices of participating items. -/
theorem hBuild_flags (fb : FlowBoxLayout) (env : Env)
    (probe : FlowBoxLayout → Rect → FlowBoxLayout) (irc : Rect) (inner_w inner_h : Int)
    (items : List Item) :
    ∀ (i : Nat) (st : HBuild),
      (∀ j, SameFlags (getItem items j)
        (getItem (hBuild fb env probe irc inner_w inner_h i items st).1 j)) ∧
      (∀ P : Nat → Prop, RowsIdx P st.rows →
        (∀ j, j < items.length → (getItem items j).cl.visible = true → P (i + j)) →
        RowsIdx P (hBuild fb env probe irc inner_w inner_h i items st).2.rows) := by
  induction items with
  | nil => intro i st; exact ⟨fun j => SameFlags_refl _, fun P h _ => h⟩
  | cons it rest ih =>
    intro i st
    obtain ⟨f1, f2⟩ := hItem_flags fb env probe irc inner_w inner_h i it st
    obtain ⟨g1, g2⟩ := ih (i + 1) (hItem fb env probe irc inner_w inner_h i it st).2
    unfold hBuild
    simp only
    constructor
    · intro j
      cases j with
      | zero => exact f1
      | succ j => exact g1 j
    · intro P h hP
      refine g2 P (f2 P h (fun hv => hP 0 (by simp) hv)) ?_
      intro j hj hv
      have := hP (j + 1) (by simp; omega) hv
      rw [show i + 1 + j = i + (j + 1) by omega]
      exact this

theorem hPlaceCell_flags (fb : FlowBoxLayout) (env : Env) (r : Nat) (y row_h : Int)
    (rc : RowCell) (st : HPlace)
    (hk : (getItem st.items rc.idx).cl.visible = true) (j : Nat) :
    SameFlags (getItem st.items j) (getItem (hPlaceCell fb env r y row_h rc st).items j) := by
  obtain ⟨it2, h1, -, -, -, -, -, h2, h3, -⟩ := hPlaceCell_spec fb env r y row_h rc st
  rw [h1]
  exact SameFlags_set _ _ _ h2 h3 hk j

theorem hPlaceCells_flags (fb : FlowBoxLayout) (env : Env) (r : Nat) (y row_h : Int) :
    ∀ (cells : List RowCell) (st : HPlace),
      (∀ rc ∈ cells, (getItem st.items rc.idx).cl.visible = true) →
      ∀ j, SameFlags (getItem st.items j)
        (getItem (hPlaceCells fb env r y row_h cells st).items j) := by
  intro cells
  induction cells with
  | nil => intro st _ j; exact SameFlags_refl _
  | cons rc rest ih =>
    intro st h j
    unfold hPlaceCells
    have h1 := hPlaceCell_flags fb env r y row_h rc st (h rc (List.mem_cons_self _ _))
    refine SameFlags_trans _ _ _ (h1 j) (ih _ ?_ j)
    intro c2 hc2
    rw [(h1 c2.idx).1]
    exact h c2 (List.mem_cons_of_mem _ hc2)

theorem hRow_flags (fb : FlowBoxLayout) (env : Env) (irc : Rect) (inner_w : Int)
    (r : Nat) (R : Row) (row_h : Int) (more : Bool) (st : HRows)
    (h : ∀ rc ∈ R.cells, (getItem st.items rc.idx).cl.visible = true) (j : Nat) :
    SameFlags (getItem st.items j)
      (getItem (hRow fb env irc inner_w r R row_h more st).items j) := by
  unfold hRow
  simp only
  refine hPlaceCells_flags fb env r st.y row_h _ ⟨st.items, irc.left, 0⟩ ?_ j
  intro rc hrc
  obtain ⟨rc0, hrc0, hstep⟩ := forall₂_mem_right _ _ _
    (hDistributeRow_step fb st.items inner_w R) rc hrc
  show (getItem st.items rc.idx).cl.visible = true
  rw [hstep.1]
  exact h rc0 hrc0

theorem hRows_flags (fb : FlowBoxLayout) (env : Env) (irc : Rect) (inner_w : Int) :
    ∀ (rows : List (Row × Int)) (r : Nat) (st : HRows),
      (∀ p ∈ rows, ∀ rc ∈ p.1.cells, (getItem st.items rc.idx).cl.visible = true) →
      ∀ j, SameFlags (getItem st.items j)
        (getItem (hRows fb env irc inner_w r rows st).items j) := by
  intro rows
  induction rows with
  | nil => intro r st _ j; exact SameFlags_refl _
  | cons p rest ih =>
    intro r st h j
    obtain ⟨R, row_h⟩ := p
    unfold hRows
    have h1 := hRow_flags fb env irc inner_w r R row_h (!rest.isEmpty) st
      (h (R, row_h) (List.mem_cons_self _ _))
    refine SameFlags_trans _ _ _ (h1 j) (ih _ _ ?_ j)
    intro p2 hp2 rc hrc
    rw [(h1 rc.idx).1]
    exact h p2 (List.mem_cons_of_mem _ hp2) rc hrc

/-- `LayoutHorizontal` keeps the flags of every item, and leaves an item that
does not participate as it is. -/
theorem LayoutHorizontal_flags (fb : FlowBoxLayout) (env : Env)
    (probe : FlowBoxLayout → Rect → FlowBoxLayout) (irc : Rect) (inner_w inner_h : Int)
    (j : Nat) :
    SameFlags (getItem fb.items j)
      (getItem (LayoutHorizontal fb env probe irc inner_w inner_h).items j) := by
  obtain ⟨hb, hidx⟩ := hBuild_flags fb env probe irc inner_w inner_h fb.items 0
    { x_row := irc.left }
  have hrows := hidx (fun k => (getItem fb.items k).cl.visible = true)
    (by
      intro R hR
      simp only [HBuild.rows, List.nil_append, List.mem_singleton] at hR
      subst hR
      exact ⟨by simp, by simp⟩)
    (by intro j _ hv; rw [zero_add]; exact hv)
  unfold LayoutHorizontal
  simp only
  refine SameFlags_trans _ _ _ (hb j) (hRows_flags fb env irc inner_w _ 0 _ ?_ j)
  intro p hp rc hrc
  have hR := (List.of_mem_zip hp).1
  show (getItem (hBuild fb env probe irc inner_w inner_h 0 fb.items { x_row := irc.left }).1
    rc.idx).cl.visible = true
  rw [(hb rc.idx).1]
  exact (hrows p.1 hR).1 rc hrc

/-- `PreLayoutCalc` keeps the flags the "mark visible" loop has set. -/
theorem PreLayoutCalcWith_flags (probe : FlowBoxLayout → Rect → FlowBoxLayout) (env : Env)
    (fb : FlowBoxLayout) (irc : Rect) (j : Nat) :
    SameFlags (getItem (markVisible env (resetTransient fb.items)) j)
      (getItem (PreLayoutCalcWith probe env fb irc).items j) := by
  unfold PreLayoutCalcWith
  simp only
  by_cases h : visibleCount env fb.items = 0
  · rw [if_pos h]; exact SameFlags_refl _
  rw [if_neg h]
  cases hd : fb.dir
  · exact LayoutHorizontal_flags (planStart env fb irc) env probe irc _ _ j
  · exact LayoutVertical_flags (planStart env fb irc) env probe irc _ _ j

/-! ## Visibility gate -/

theorem participates_iff (env : Env) (it : Item) :
    participates env it = true ↔
      (it.is_break = true ∨ (it.c = none ∧ it.is_break = false) ∨
        ∃ c, it.c = some c ∧ env.IsShown c = true) := by
  unfold participates
  cases hc : it.c <;> cases hb : it.is_break <;> simp

/-- C16 (visibility gate).  After `PreLayoutCalc`, the flag `cl.visible` of an
item is set exactly when the item is a break, or has no box and is not a break
(a spacer), or its box reports `IsShown`; `cl.spacer` is set exactly when the
item has no box and is not a break; and an item that does not participate keeps
a fresh transient cache (`rowOrCol = -1`, empty cell and content rectangles)
and no cell or gap-expander of a row, and no cell of the column, refers to
it. -/
theorem C16_visibility_gate (probe : FlowBoxLayout → Rect → FlowBoxLayout) (env : Env)
    (fb : FlowBoxLayout) (irc : Rect) (i : Nat) (hi : i < fb.items.length) :
    ((getItem (PreLayoutCalcWith probe env fb irc).items i).cl.visible = true ↔
      ((getItem fb.items i).is_break = true ∨
       ((getItem fb.items i).c = none ∧ (getItem fb.items i).is_break = false) ∨
       ∃ c, (getItem fb.items i).c = some c ∧ env.IsShown c = true)) ∧
    ((getItem (PreLayoutCalcWith probe env fb irc).items i).cl.spacer = true ↔
      ((getItem fb.items i).c = none ∧ (getItem fb.items i).is_break = false)) ∧
    ((getItem (PreLayoutCalcWith probe env fb irc).items i).cl.visible = false →
      (getItem (PreLayoutCalcWith probe env fb irc).items i).cl.rowOrCol = -1 ∧
      (getItem (PreLayoutCalcWith probe env fb irc).items i).cl.cell = {} ∧
      (getItem (PreLayoutCalcWith probe env fb irc).items i).cl.content = {} ∧
      (∀ R ∈ plannedRows probe env fb irc,
        (∀ rc ∈ R.cells, rc.idx ≠ i) ∧ (∀ g ∈ R.gaps, g.idx ≠ i)) ∧
      (∀ c ∈ plannedColumn probe env fb irc, c.idx ≠ i)) := by
  obtain ⟨f1, f2, f3⟩ := PreLayoutCalcWith_flags probe env fb irc i
  have hm := getItem_markVisible env fb.items i hi
  have hpart : participates env { getItem fb.items i with cl := {} }
      = participates env (getItem fb.items i) := rfl
  have hvis : (getItem (markVisible env (resetTransient fb.items)) i).cl.visible
      = participates env (getItem fb.items i) := by
    rw [hm]; unfold markItem; rw [hpart]
    cases hp : participates env (getItem fb.items i) <;> simp
  have hspc : (getItem (markVisible env (resetTransient fb.items)) i).cl.spacer = true ↔
      ((getItem fb.items i).c = none ∧ (getItem fb.items i).is_break = false) := by
    rw [hm]; unfold markItem; rw [hpart]
    cases hp : participates env (getItem fb.items i)
    · have hn := (participates_iff env (getItem fb.items i)).not.mp (by rw [hp]; simp)
      simp only [not_or] at hn
      simp only [Bool.false_eq_true, if_false]
      constructor
      · intro h; cases h
      · intro h; exact absurd h hn.2.1
    · simp only [if_true]
      cases hc : (getItem fb.items i).c <;> cases hb : (getItem fb.items i).is_break <;> simp
  refine ⟨?_, ?_, ?_⟩
  · rw [f1, hvis]; exact participates_iff env _
  · rw [f2]; exact hspc
  · intro hv
    have hv0 : (getItem (markVisible env (resetTransient fb.items)) i).cl.visible = false := by
      rw [← f1]; exact hv
    have hpf : participates env (getItem fb.items i) = false := by rw [← hvis]; exact hv0
    have he := f3 hv0
    have hcl : (getItem (markVisible env (resetTransient fb.items)) i).cl = {} := by
      rw [hm]; unfold markItem; rw [hpart, hpf]; rfl
    rw [he, hcl]
    refine ⟨rfl, rfl, rfl, ?_, ?_⟩
    · have hrows := (hBuild_flags (planStart env fb irc) env probe irc (max 0 irc.GetWidth)
        (max 0 irc.GetHeight) (planStart env fb irc).items 0 { x_row := irc.left }).2
        (fun k => (getItem (planStart env fb irc).items k).cl.visible = true)
        (by
          intro R hR
          simp only [HBuild.rows, List.nil_append, List.mem_singleton] at hR
          subst hR
          exact ⟨by simp, by simp⟩)
        (by intro j _ hvj; rw [zero_add]; exact hvj)
      intro R hR
      have hR2 := hrows R hR
      constructor
      · intro rc hrc hidx
        have := hR2.1 rc hrc
        rw [hidx] at this
        have h2 : (getItem (planStart env fb irc).items i).cl.visible = false := hv0
        rw [h2] at this; cases this
      · intro g hg hidx
        have := hR2.2 g hg
        rw [hidx] at this
        have h2 : (getItem (planStart env fb irc).items i).cl.visible = false := hv0
        rw [h2] at this; cases this
    · intro c hc hidx
      obtain ⟨j, -, hj, hvj⟩ := vBuild_cells_visible (planStart env fb irc) env probe
        (max 0 irc.GetWidth) (planStart env fb irc).items 0 c hc
      rw [zero_add] at hj
      rw [← hj, hidx] at hvj
      have h2 : (getItem (planStart env fb irc).items i).cl.visible = false := hv0
      rw [h2] at hvj; cases hvj

/-- Witness for C16: a shown box, a hidden box, a spacer and a break in a
horizontal container; the hidden box (index `1`) gets no row index. -/
theorem C16_visibility_gate_witness :
    1 < (sampleMixed Direction.H).items.length ∧
    (PreLayoutCalcWith noProbe sampleEnvHidden (sampleMixed Direction.H)
      (RectC 0 0 300 100)).items.map (fun it => it.cl.visible) = [true, false, true, true] ∧
    (getItem (PreLayoutCalcWith noProbe sampleEnvHidden (sampleMixed Direction.H)
      (RectC 0 0 300 100)).items 1).cl.rowOrCol = -1 :=
  ⟨by decide, by decide,
   ((C16_visibility_gate noProbe sampleEnvHidden (sampleMixed Direction.H) (RectC 0 0 300 100) 1
      (by decide)).2.2 (by decide)).1⟩

/-! ## Default caps -/

/-- PASS 1 for an `Expand` box item with the default width caps when wrapping is
off: a cell of base width `0` is appended to the current row. -/
theorem hItem_expand (fb : FlowBoxLayout) (env : Env)
    (probe : FlowBoxLayout → Rect → FlowBoxLayout)
    (irc : Rect) (inner_w inner_h : Int) (i : Nat) (it : Item) (st : HBuild)
    (hwrap : fb.wrap = false) (hfc : fb.fixed_column < 0)
    (hv : it.cl.visible = true) (hs : it.cl.spacer = false) (hb : it.is_break = false)
    (hfx : it.fixed < 0) (hfit : it.fit = false) (hwt : it.expandingWeight > 0)
    (hmin : it.minw = -1) (hmax : it.maxw = 2048) :
    ∃ rc : RowCell, rc.idx = i ∧ rc.w = 0 ∧
      (hItem fb env probe irc inner_w inner_h i it st).2 = st.addCell fb.gap rc ∧
      (hItem fb env probe irc inner_w inner_h i it st).1.cfg = it.cfg := by
  refine ⟨{ idx := i, is_ctrl := true, w := 0,
            base_h := (GetCtrlMinSize env fb.minsize_epoch it).size.cy,
            hmin := it.minh, hmax := it.maxh, self_align := it.align_self }, rfl, rfl, ?_,
          hItem_cfg _ _ _ _ _ _ _ _ _⟩
  unfold hItem
  have h1 : ¬ it.cl.visible = false := by rw [hv]; simp
  have h2 : ¬ (fb.wrap = true ∧ it.is_break = true) := by rw [hwrap]; simp
  have h3 : ¬ fb.fixed_column ≥ 0 := by omega
  have h4 : ¬ (fb.wrap = false ∧ it.is_break = true) := by rw [hb]; simp
  have h5 : ¬ it.cl.spacer = true := by rw [hs]; simp
  have h6 : ¬ it.fixed ≥ 0 := by omega
  have h7 : ¬ it.fit = true := by rw [hfit]; simp
  rw [if_neg h1, if_neg h2, if_neg h3, if_neg h4, if_neg h5]
  simp only [if_neg h6, if_neg h7, if_pos hwt, hmin, hmax, hwrap]
  have hc : ClampWith (-1) 2048 0 = 0 := by decide
  simp [hc]

/-- The share of a single weighted entry is the whole remainder, when the
remainder is one that an `int` holds. -/
theorem shareOf_single (remainder weight : Int) (hr : 0 < remainder)
    (hr2 : remainder ≤ INT_MAX) (hw : 0 < weight) :
    shareOf remainder weight weight remainder = remainder := by
  unfold shareOf
  have : Int.tdiv (remainder * weight) weight = remainder :=
    Int.mul_tdiv_cancel _ (by omega)
  simp only [this]
  rw [wrapInt32_of_range remainder (by omega) hr2]
  have hne : ¬ (remainder = 0 ∧ remainder > 0) := by omega
  rw [if_neg hne]
  exact min_self _

/-- A horizontal row that holds a single `Expand` box item with the default
width caps, wrap off and no fixed column, the inner width and the weight being
values that an `int` holds: the cell gets the inner width, up to the default
max cap `2048`. -/
theorem LayoutHorizontal_single (fb : FlowBoxLayout) (env : Env)
    (probe : FlowBoxLayout → Rect → FlowBoxLayout) (irc : Rect) (inner_w inner_h : Int)
    (it : Item) (hitems : fb.items = [it])
    (hwrap : fb.wrap = false) (hfc : fb.fixed_column < 0) (hW : 0 < inner_w)
    (hW2 : inner_w ≤ INT_MAX)
    (hv : it.cl.visible = true) (hs : it.cl.spacer = false) (hb : it.is_break = false)
    (hfx : it.fixed < 0) (hfit : it.fit = false) (hwt : it.expandingWeight > 0)
    (hwt3 : it.expandingWeight ≤ INT_MAX)
    (hmin : it.minw = -1) (hmax : it.maxw = 2048) :
    (getItem (LayoutHorizontal fb env probe irc inner_w inner_h).items 0).cl.cell.GetWidth
      = min inner_w 2048 := by
  obtain ⟨rc, hidx, hw0, hst, hcfg⟩ := hItem_expand fb env probe irc inner_w inner_h 0 it
    { x_row := irc.left } hwrap hfc hv hs hb hfx hfit hwt hmin hmax
  obtain ⟨-, -, c3, -, -, c6, c7, -⟩ := cfg_fields _ _ hcfg
  unfold LayoutHorizontal
  rw [hitems]
  simp only [hBuild, hst]
  have hrows : (HBuild.addCell fb.gap rc { x_row := irc.left }).rows = [⟨[rc], []⟩] := by
    simp [HBuild.rows, HBuild.addCell]
  rw [hrows]
  simp only [List.map_cons, List.map_nil]
  have hfin : rowHeightsFinal fb inner_h [rowBaseHeight fb inner_h ⟨[rc], []⟩]
      = [rowBaseHeight fb inner_h ⟨[rc], []⟩] := by
    unfold rowHeightsFinal
    simp [hwrap]
  rw [hfin]
  simp only [List.zip_cons_cons, List.zip_nil_right, hRows, hRow]
  have hdist : (hDistributeRow fb [(hItem fb env probe irc inner_w inner_h 0 it
      { x_row := irc.left }).1] inner_w ⟨[rc], []⟩).cells = [{ rc with w := min inner_w 2048 }] := by
    unfold hDistributeRow
    have hsum : rowSumW fb.gap ⟨[rc], []⟩ = 0 := by simp [rowSumW, hw0]
    have hget : getItem [(hItem fb env probe irc inner_w inner_h 0 it { x_row := irc.left }).1]
        rc.idx = (hItem fb env probe irc inner_w inner_h 0 it { x_row := irc.left }).1 := by
      rw [hidx]; rfl
    have hwt2 : (hItem fb env probe irc inner_w inner_h 0 it
        { x_row := irc.left }).1.expandingWeight > 0 := by rw [c3]; exact hwt
    have htot : rowTotalWeight [(hItem fb env probe irc inner_w inner_h 0 it
        { x_row := irc.left }).1] ⟨[rc], []⟩
        = max 1 (hItem fb env probe irc inner_w inner_h 0 it { x_row := irc.left }).1.expandingWeight := by
      have hle : (hItem fb env probe irc inner_w inner_h 0 it
          { x_row := irc.left }).1.expandingWeight ≤ INT_MAX := by rw [c3]; exact hwt3
      have hsumw : rowWeightSum [(hItem fb env probe irc inner_w inner_h 0 it
          { x_row := irc.left }).1] ⟨[rc], []⟩
          = max 1 (hItem fb env probe irc inner_w inner_h 0 it
              { x_row := irc.left }).1.expandingWeight := by
        simp [rowWeightSum, hget, hwt2]
      unfold rowTotalWeight
      rw [hsumw]
      exact wrapInt32_of_range _ (by omega) (by omega)
    have hrem : max 0 inner_w = inner_w := by omega
    have hcond : fb.fixed_column < 0 ∧ inner_w > 0 := ⟨hfc, hW⟩
    have hpos : max 1 (hItem fb env probe irc inner_w inner_h 0 it
        { x_row := irc.left }).1.expandingWeight > 0 := by omega
    have hcl : ClampWith (-1) 2048 inner_w = min inner_w 2048 := by
      unfold ClampWith; simp
    simp only [hsum, htot, sub_zero, hrem, if_pos hcond, if_pos hpos, hDistCtrls, hget,
      if_pos hwt2, if_pos hW, serve_fst, shareOf_single inner_w _ hW hW2 hpos, c6, c7, hmin, hmax,
      hw0, zero_add, hcl]
  rw [hdist]
  simp only [hPlaceCells]
  obtain ⟨it2, e1, -, e3, -⟩ := hPlaceCell_spec fb env 0 irc.top
    (rowBaseHeight fb inner_h ⟨[rc], []⟩) { rc with w := min inner_w 2048 }
    ⟨[(hItem fb env probe irc inner_w inner_h 0 it { x_row := irc.left }).1], irc.left, 0⟩
  rw [e1]
  simp only [hidx]
  rw [getItem_set_eq _ _ _ (by simp)]
  exact e3

/-- C18, amended (default caps).  For a container whose only item is a shown
`Expand` box, of any weight that an `int` holds, with the caps an item has when
`MinMaxWidth` and `MinMaxHeight` were never called (`minw = -1`, `maxw = 2048`,
`minh = -1`, `maxh = INT_MAX`): in a horizontal container (wrap off, no fixed
column) with inner width `W > 0` the cell gets the width `min(W, 2048)`, the
default max width being a cap of `2048`, for every inner width an `int` can
hold; in a vertical container (no fixed row) the cell gets exactly the inner
height, for every inner height an `int` can hold. -/
theorem C18_default_caps (probe : FlowBoxLayout → Rect → FlowBoxLayout) (env : Env)
    (fb : FlowBoxLayout) (irc : Rect) (it : Item) (c : Nat)
    (hitems : fb.items = [it]) (hc : it.c = some c) (hshown : env.IsShown c = true)
    (hb : it.is_break = false) (hfx : it.fixed < 0) (hfit : it.fit = false)
    (hwt : it.expandingWeight > 0) (hwt2 : it.expandingWeight ≤ INT_MAX)
    (hminw : it.minw = -1) (hmaxw : it.maxw = 2048)
    (hminh : it.minh = -1) (hmaxh : it.maxh = INT_MAX) :
    (fb.dir = Direction.H → fb.wrap = false → fb.fixed_column < 0 → 0 < irc.GetWidth →
      irc.GetWidth ≤ INT_MAX →
      (getItem (PreLayoutCalcWith probe env fb irc).items 0).cl.cell.GetWidth
        = min irc.GetWidth 2048) ∧
    (fb.dir = Direction.V → fb.fixed_row < 0 → 0 ≤ fb.gap →
      0 ≤ irc.GetHeight → irc.GetHeight ≤ INT_MAX →
      (getItem (PreLayoutCalcWith probe env fb irc).items 0).cl.cell.GetHeight
        = irc.GetHeight) := by
  have hshownBox : ∀ a ∈ fb.items, shownBox env a := by
    intro a ha
    rw [hitems, List.mem_singleton] at ha
    subst ha
    exact ⟨c, hc, hshown, hb⟩
  have hmark : (planStart env fb irc).items = [markedShown it] := by
    show markVisible env (resetTransient fb.items) = _
    rw [markVisible_shown env fb.items hshownBox, hitems]; rfl
  have hne : ¬ visibleCount env fb.items = 0 := by
    rw [visibleCount_shown env fb.items hshownBox, hitems]; simp
  constructor
  · intro hdir hwrap hfc hW hW2
    have hitems1 : (PreLayoutCalcWith probe env fb irc).items
        = (LayoutHorizontal (planStart env fb irc) env probe irc
            (max 0 irc.GetWidth) (max 0 irc.GetHeight)).items := by
      unfold PreLayoutCalcWith
      simp only [hne, if_false, hdir]
    rw [hitems1]
    have hmaxW : max 0 irc.GetWidth = irc.GetWidth := by omega
    rw [hmaxW]
    exact LayoutHorizontal_single (planStart env fb irc) env probe irc irc.GetWidth
      (max 0 irc.GetHeight) (markedShown it) hmark hwrap hfc hW hW2 rfl rfl hb hfx hfit hwt hwt2
      hminw hmaxw
  · intro hdir hrow hgap hH0 hH
    have hitems1 : (PreLayoutCalcWith probe env fb irc).items
        = (LayoutVertical (planStart env fb irc) env probe irc
            (max 0 irc.GetWidth) (max 0 irc.GetHeight)).items := by
      unfold PreLayoutCalcWith
      simp only [hne, if_false, hdir]
    rw [hitems1]
    have hmaxH : max 0 irc.GetHeight = irc.GetHeight := by omega
    rw [hmaxH]
    have hmarked : ∀ a ∈ (planStart env fb irc).items,
        MarkedFixedOrExpand it.expandingWeight a := by
      intro a ha
      rw [hmark, List.mem_singleton] at ha
      subst ha
      exact ⟨rfl, rfl, hb, hminh, hmaxh, Or.inr ⟨hfx, hfit, rfl⟩⟩
    have hfs : fixedSum [markedShown it] = 0 := by
      simp [fixedSum, markedShown, hwt]
    have hec : expandCount [markedShown it] = 1 := by
      simp [expandCount, markedShown, hwt]
    have key := (LayoutVertical_fixedExpand (planStart env fb irc) env probe irc
      (max 0 irc.GetWidth) irc.GetHeight it.expandingWeight hrow hgap hwt hH hmarked
      (by rw [hmark, hec, one_mul]; exact hwt2) 0
      (by rw [hmark]; simp)).2
    rw [hmark] at key
    have hg0 : (getItem [markedShown it] 0).expandingWeight > 0 := hwt
    simp only [hfs, hec, List.length_singleton, Nat.cast_one, sub_self, zero_mul, add_zero,
      sub_zero, Int.ediv_one] at key
    exact key hg0 hH0 (one_dvd _)

/-- Witness for C18: one `Expand(1)` box, horizontal, inner width `300`, and
vertical, inner height `5000`. -/
theorem C18_default_caps_witness :
    (getItem (PreLayoutCalcWith noProbe sampleEnv (sampleOneExpand Direction.H)
      (RectC 0 0 300 100)).items 0).cl.cell.GetWidth = min (RectC 0 0 300 100).GetWidth 2048 ∧
    (getItem (PreLayoutCalcWith noProbe sampleEnv (sampleOneExpand Direction.V)
      (RectC 0 0 100 5000)).items 0).cl.cell.GetHeight = (RectC 0 0 100 5000).GetHeight :=
  ⟨(C18_default_caps noProbe sampleEnv (sampleOneExpand Direction.H) (RectC 0 0 300 100)
      (expandItem 0 1) 0 rfl rfl rfl rfl (by decide) rfl (by decide) (by decide) rfl rfl rfl
      rfl).1 rfl rfl (by decide) (by decide) (by decide),
   (C18_default_caps noProbe sampleEnv (sampleOneExpand Direction.V) (RectC 0 0 100 5000)
      (expandItem 0 1) 0 rfl rfl rfl rfl (by decide) rfl (by decide) (by decide) rfl rfl rfl
      rfl).2 rfl (by decide) (by decide) (by decide) (by decide)⟩

/-- C18 as stated fails in the horizontal direction: a single `Expand(1)` box on
which `MinMaxWidth` was never called, wrap off, no fixed column, inner width
`3000`, gets the cell width `2048`, the default of `maxw`, and not `3000`; the
vertical sibling gets the whole inner height `3000`. -/
theorem C18_default_caps_counterexample :
    (getItem (sampleOneExpand Direction.H).items 0).minw = -1 ∧
    (getItem (sampleOneExpand Direction.H).items 0).maxw = 2048 ∧
    (getItem (PreLayoutCalc 0 sampleEnv (sampleOneExpand Direction.H)
      (RectC 0 0 3000 100)).items 0).cl.cell.GetWidth = 2048 ∧
    (getItem (PreLayoutCalc 0 sampleEnv (sampleOneExpand Direction.H)
      (RectC 0 0 3000 100)).items 0).cl.cell.GetWidth ≠ (RectC 0 0 3000 100).GetWidth ∧
    (getItem (PreLayoutCalc 0 sampleEnv (sampleOneExpand Direction.V)
      (RectC 0 0 100 3000)).items 0).cl.cell.GetHeight = 3000 := by
  refine ⟨by decide, by decide, by decide, by decide, by decide⟩

/-! ## Evaluations at failing inputs: measurement -/

/-- C11 at its failing input: three `Fit` boxes of min size `100 × 20`, gap
`10`, wrapping, laid out at `250 × 200` and then at the empty size `0 × 0`.
Two measurements at width `250` agree (`50`), but a `Layout` at `250 × 200`
without a measurement finds the plan guard satisfied, does not plan and leaves
the used size at `(0, 0)`, while the same `Layout` after the measurement plans
anew and leaves the used size at `(210, 50)`; both commit the same
rectangles. -/
theorem C11_layout_after_measurement_differs :
    (Layout 0 sampleEnv ⟨250, 200⟩ sampleAutoRow).fb.used_w = 210 ∧
    (Layout 0 sampleEnv ⟨250, 200⟩ sampleAutoRow).fb.used_h = 50 ∧
    (MeasureHeightForWidth 0 sampleEnv sampleAfterEmpty 250).2 = 50 ∧
    (MeasureHeightForWidth 0 sampleEnv
      (MeasureHeightForWidth 0 sampleEnv sampleAfterEmpty 250).1 250).2 = 50 ∧
    (Layout 0 sampleEnv ⟨250, 200⟩ sampleAfterEmpty).planned = false ∧
    (Layout 0 sampleEnv ⟨250, 200⟩ sampleAfterEmpty).fb.used_w = 0 ∧
    (Layout 0 sampleEnv ⟨250, 200⟩ sampleAfterEmpty).fb.used_h = 0 ∧
    (Layout 0 sampleEnv ⟨250, 200⟩
      (MeasureHeightForWidth 0 sampleEnv sampleAfterEmpty 250).1).planned = true ∧
    (Layout 0 sampleEnv ⟨250, 200⟩
      (MeasureHeightForWidth 0 sampleEnv sampleAfterEmpty 250).1).fb.used_w = 210 ∧
    (Layout 0 sampleEnv ⟨250, 200⟩
      (MeasureHeightForWidth 0 sampleEnv sampleAfterEmpty 250).1).fb.used_h = 50 ∧
    (Layout 0 sampleEnv ⟨250, 200⟩
      (MeasureHeightForWidth 0 sampleEnv sampleAfterEmpty 250).1).setRects
      = (Layout 0 sampleEnv ⟨250, 200⟩ sampleAfterEmpty).setRects := by
  refine ⟨by decide, by decide, by decide, by decide, by decide, by decide, by decide,
    by decide, by decide, by decide, by decide⟩

/-- C12 at its failing input: three `Fit` boxes of min size `100 × 20`, gap
`10`, wrapping, laid out at `250 × 200` (two rows, used size `(210, 50)`).
`MeasureHeightForWidth(1000)` then leaves `used_w = 320` and `used_h = 20`, the
values of its probe plan; and with rows-expand on, where the `Layout` leaves
`used_h = 200`, `GetMinSize` at the same size leaves `used_h = 50`. -/
theorem C12_measurement_overwrites_used_size :
    (Layout 0 sampleEnv ⟨250, 200⟩ sampleAutoRow).fb.used_w = 210 ∧
    (Layout 0 sampleEnv ⟨250, 200⟩ sampleAutoRow).fb.used_h = 50 ∧
    (MeasureHeightForWidth 0 sampleEnv
      (Layout 0 sampleEnv ⟨250, 200⟩ sampleAutoRow).fb 1000).1.used_w = 320 ∧
    (MeasureHeightForWidth 0 sampleEnv
      (Layout 0 sampleEnv ⟨250, 200⟩ sampleAutoRow).fb 1000).1.used_h = 20 ∧
    (Layout 0 sampleEnv ⟨250, 200⟩ { sampleAutoRow with wrap_rows_expand := true }).fb.used_h
      = 200 ∧
    (GetMinSize 0 sampleEnv ⟨250, 200⟩ 240
      (Layout 0 sampleEnv ⟨250, 200⟩ { sampleAutoRow with wrap_rows_expand := true }).fb
      ).1.used_h = 50 := by
  refine ⟨by decide, by decide, by decide, by decide, by decide, by decide⟩

/-- C20 at its failing input: inset `10` on every side, two `Fit` boxes of min
size `100 × 20`, gap `0`, container width `230`.  The probe plan at the inner
width `230 - 10 - 10 = 210` has one row and the used height `20`, so that the
claimed height is `20 + 10 + 10 = 40`; `GetMinSize` returns the height `80`:
it measures at the width `190`, the inset taken off twice, where the plan has
two rows and the used height `40`, and adds `inset.top + inset.bottom` twice.
The width returned is `max(1, 230)`.  The nested fit of a vertical parent with
the inner width `230` asks the same container for `40`. -/
theorem C20_get_min_size_counts_inset_twice :
    (GetMinSize 0 sampleEnv ⟨230, 100⟩ 240 sampleInsetRow).2 = ⟨230, 80⟩ ∧
    (PreLayoutCalc 0 sampleEnv sampleInsetRow (RectC 0 0 (230 - 10 - 10) INT_MAX)).used_h = 20 ∧
    (PreLayoutCalc 0 sampleEnv sampleInsetRow (RectC 0 0 (230 - 10 - 10) INT_MAX)).used_h
      + sampleInsetRow.inset.top + sampleInsetRow.inset.bottom = 40 ∧
    (PreLayoutCalc 0 sampleEnv sampleInsetRow (RectC 0 0 (230 - 10 - 10 - 10 - 10) INT_MAX)
      ).used_h = 40 ∧
    (MeasureHeightForWidth 0 sampleEnv sampleInsetRow (230 - 10 - 10)).2 = 60 ∧
    fitHeight sampleEnvNested (PreLayoutCalc 0 sampleEnvNested) 230 (fitItem 9) ⟨0, 0⟩ = 40 := by
  refine ⟨by decide, by decide, by decide, by decide, by decide, by decide⟩

/-! ## Placement, cell by cell: lemmas -/

/-- The body of the loop "place left→right" replaces the item of the cell by
`placedItem` and moves on by the width of the cell. -/
theorem hPlaceCell_eq (fb : FlowBoxLayout) (env : Env) (r : Nat) (y row_h : Int)
    (rc : RowCell) (st : HPlace) :
    hPlaceCell fb env r y row_h rc st
      = ⟨st.items.set rc.idx
          (placedItem fb env r y row_h rc
            (if st.placed_in_row > 0 then st.x + fb.gap else st.x) (getItem st.items rc.idx)),
         (if st.placed_in_row > 0 then st.x + fb.gap else st.x) + rc.w,
         st.placed_in_row + 1⟩ := by
  unfold placedItem hPlaceCell
  simp only [getItem_cons_zero, lt_irrefl, gt_iff_lt, if_false]
  cases hc : (getItem st.items rc.idx).c with
  | none => simp [getItem]
  | some c => simp [getItem]

/-- The body of the placement loop of `LayoutVertical` replaces the item of the
cell by `vPlacedItem`. -/
theorem vPlaceCell_items (fb : FlowBoxLayout) (env : Env) (irc : Rect) (inner_w : Int)
    (k : Nat) (c : VCell) (more : Bool) (st : VPlace) :
    (vPlaceCell fb env irc inner_w k c more st).items
      = st.items.set c.idx (vPlacedItem fb env irc inner_w k c st.y (getItem st.items c.idx)) := by
  unfold vPlacedItem vPlaceCell
  simp only [getItem_cons_zero]
  cases hc : (getItem st.items c.idx).c with
  | none => simp [getItem]
  | some c => simp [getItem]

theorem hPlaceCells_other (fb : FlowBoxLayout) (env : Env) (r : Nat) (y row_h : Int) :
    ∀ (cells : List RowCell) (st : HPlace) (j : Nat),
      (∀ c ∈ cells, c.idx ≠ j) →
      getItem (hPlaceCells fb env r y row_h cells st).items j = getItem st.items j := by
  intro cells
  induction cells with
  | nil => intro st j _; rfl
  | cons c rest ih =>
    intro st j h
    unfold hPlaceCells
    rw [ih _ _ (fun c2 hc2 => h c2 (List.mem_cons_of_mem _ hc2)), hPlaceCell_eq]
    exact getItem_set_ne _ _ _ _ (h c (List.mem_cons_self _ _))

theorem hPlaceCells_length (fb : FlowBoxLayout) (env : Env) (r : Nat) (y row_h : Int) :
    ∀ (cells : List RowCell) (st : HPlace),
      (hPlaceCells fb env r y row_h cells st).items.length = st.items.length := by
  intro cells
  induction cells with
  | nil => intro st; rfl
  | cons c rest ih =>
    intro st
    unfold hPlaceCells
    rw [ih, hPlaceCell_length]

theorem cellLeft_zero (gap x0 : Int) (cells : List RowCell) : cellLeft gap x0 cells 0 = x0 := by
  simp [cellLeft]

theorem cellLeft_succ (gap x0 : Int) (c : RowCell) (rest : List RowCell) (k : Nat) :
    cellLeft gap x0 (c :: rest) (k + 1) = cellLeft gap (x0 + c.w + gap) rest k := by
  simp [cellLeft]; ring

/-- The loop "place left→right" over cells with pairwise different item
indices: the item of the cell at position `k` ends as `placedItem` says, with
the left edge `cellLeft`. -/
theorem hPlaceCells_exact (fb : FlowBoxLayout) (env : Env) (r : Nat) (y row_h : Int) :
    ∀ (cells : List RowCell) (st : HPlace),
      0 ≤ st.placed_in_row → (cells.map (fun c => c.idx)).Nodup →
      (∀ c ∈ cells, c.idx < st.items.length) →
      ∀ (k : Nat) (c : RowCell), cells[k]? = some c →
        getItem (hPlaceCells fb env r y row_h cells st).items c.idx
          = placedItem fb env r y row_h c
              (cellLeft fb.gap (if st.placed_in_row > 0 then st.x + fb.gap else st.x) cells k)
              (getItem st.items c.idx) := by
  intro cells
  induction cells with
  | nil => intro st _ _ _ k c hk; simp at hk
  | cons c0 rest ih =>
    intro st hp hnd hlt k c hk
    simp only [List.map_cons, List.nodup_cons, List.mem_map, not_exists, not_and] at hnd
    unfold hPlaceCells
    cases k with
    | zero =>
      simp only [List.getElem?_cons_zero, Option.some.injEq] at hk
      subst hk
      rw [hPlaceCells_other _ _ _ _ _ _ _ _ (fun c2 hc2 heq => hnd.1 c2 hc2 heq),
        hPlaceCell_eq, cellLeft_zero]
      exact getItem_set_eq _ _ _ (hlt _ (List.mem_cons_self _ _))
    | succ k =>
      simp only [List.getElem?_cons_succ] at hk
      have hc : c ∈ rest := List.getElem?_mem hk
      have hne : c0.idx ≠ c.idx := fun heq => hnd.1 c hc heq.symm
      have key := ih (hPlaceCell fb env r y row_h c0 st)
        (by rw [hPlaceCell_eq]; show 0 ≤ st.placed_in_row + 1; omega) hnd.2
        (by
          intro c2 hc2
          rw [hPlaceCell_length]
          exact hlt c2 (List.mem_cons_of_mem _ hc2)) k c hk
      rw [key, cellLeft_succ]
      have h1 : (hPlaceCell fb env r y row_h c0 st).placed_in_row > 0 := by
        rw [hPlaceCell_eq]; show st.placed_in_row + 1 > 0; omega
      have h2 : (hPlaceCell fb env r y row_h c0 st).x
          = (if st.placed_in_row > 0 then st.x + fb.gap else st.x) + c0.w := by
        rw [hPlaceCell_eq]
      have h3 : getItem (hPlaceCell fb env r y row_h c0 st).items c.idx
          = getItem st.items c.idx := by
        rw [hPlaceCell_eq]
        exact getItem_set_ne _ _ _ _ hne
      rw [if_pos h1, h2, h3]

theorem hDistCtrls_congr (a b : List Item) (remainder total_w : Int)
    (h : ∀ j, (getItem a j).cfg = (getItem b j).cfg) :
    ∀ (cells : List RowCell) (rem : Int),
      hDistCtrls a remainder total_w rem cells = hDistCtrls b remainder total_w rem cells := by
  intro cells
  induction cells with
  | nil => intro rem; rfl
  | cons rc rest ih =>
    intro rem
    obtain ⟨-, -, h3, -, -, h6, h7, -⟩ := cfg_fields _ _ (h rc.idx)
    unfold hDistCtrls
    simp only [h3, h6, h7, ih]

theorem rowWeightSum_congr (a b : List Item) (R : Row)
    (h : ∀ j, (getItem a j).cfg = (getItem b j).cfg) :
    rowWeightSum a R = rowWeightSum b R := by
  unfold rowWeightSum
  congr 2
  apply List.map_congr_left
  intro rc _
  obtain ⟨-, -, h3, -⟩ := cfg_fields _ _ (h rc.idx)
  simp only [h3]

theorem rowTotalWeight_congr (a b : List Item) (R : Row)
    (h : ∀ j, (getItem a j).cfg = (getItem b j).cfg) :
    rowTotalWeight a R = rowTotalWeight b R := by
  unfold rowTotalWeight
  rw [rowWeightSum_congr a b R h]

/-- The block "distribute width" reads only the configuration of the items. -/
theorem hDistributeRow_congr (fb : FlowBoxLayout) (a b : List Item) (inner_w : Int) (R : Row)
    (h : ∀ j, (getItem a j).cfg = (getItem b j).cfg) :
    hDistributeRow fb a inner_w R = hDistributeRow fb b inner_w R := by
  unfold hDistributeRow
  simp only [rowTotalWeight_congr a b R h, hDistCtrls_congr a b _ _ h]

/-- The block "distribute width" keeps the item indices of the cells. -/
theorem hDistributeRow_idx (fb : FlowBoxLayout) (items : List Item) (inner_w : Int) (R : Row) :
    (hDistributeRow fb items inner_w R).cells.map (fun c => c.idx)
      = R.cells.map (fun c => c.idx) :=
  forall₂_map_eq (RowCellStep items) (fun c => c.idx) (fun _ _ hab => hab.1) _ _
    (hDistributeRow_step fb items inner_w R)

theorem hRow_items (fb : FlowBoxLayout) (env : Env) (irc : Rect) (inner_w : Int)
    (r : Nat) (R : Row) (row_h : Int) (more : Bool) (st : HRows) :
    (hRow fb env irc inner_w r R row_h more st).items
      = (hPlaceCells fb env r st.y row_h (hDistributeRow fb st.items inner_w R).cells
          ⟨st.items, irc.left, 0⟩).items := rfl

theorem hRow_length (fb : FlowBoxLayout) (env : Env) (irc : Rect) (inner_w : Int)
    (r : Nat) (R : Row) (row_h : Int) (more : Bool) (st : HRows) :
    (hRow fb env irc inner_w r R row_h more st).items.length = st.items.length := by
  rw [hRow_items, hPlaceCells_length]

theorem hRow_other (fb : FlowBoxLayout) (env : Env) (irc : Rect) (inner_w : Int)
    (r : Nat) (R : Row) (row_h : Int) (more : Bool) (st : HRows) (j : Nat)
    (h : ∀ c ∈ R.cells, c.idx ≠ j) :
    getItem (hRow fb env irc inner_w r R row_h more st).items j = getItem st.items j := by
  rw [hRow_items]
  refine hPlaceCells_other _ _ _ _ _ _ _ _ ?_
  intro c hc heq
  have : c.idx ∈ (hDistributeRow fb st.items inner_w R).cells.map (fun c => c.idx) :=
    List.mem_map_of_mem _ hc
  rw [hDistributeRow_idx] at this
  obtain ⟨c0, hc0, he⟩ := List.mem_map.mp this
  exact h c0 hc0 (he.trans heq)

theorem hRows_other (fb : FlowBoxLayout) (env : Env) (irc : Rect) (inner_w : Int) :
    ∀ (rows : List (Row × Int)) (r : Nat) (st : HRows) (j : Nat),
      (∀ c ∈ cellsOfRows (rows.map Prod.fst), c.idx ≠ j) →
      getItem (hRows fb env irc inner_w r rows st).items j = getItem st.items j := by
  intro rows
  induction rows with
  | nil => intro r st j _; rfl
  | cons p rest ih =>
    intro r st j h
    obtain ⟨R, row_h⟩ := p
    unfold hRows
    simp only [List.map_cons, cellsOfRows, List.mem_append] at h
    rw [ih _ _ _ (fun c hc => h c (Or.inr hc))]
    exact hRow_other _ _ _ _ _ _ _ _ _ _ (fun c hc => h c (Or.inl hc))

theorem hRows_length (fb : FlowBoxLayout) (env : Env) (irc : Rect) (inner_w : Int) :
    ∀ (rows : List (Row × Int)) (r : Nat) (st : HRows),
      (hRows fb env irc inner_w r rows st).items.length = st.items.length := by
  intro rows
  induction rows with
  | nil => intro r st; rfl
  | cons p rest ih =>
    intro r st
    obtain ⟨R, row_h⟩ := p
    unfold hRows
    rw [ih, hRow_length]

theorem rowTop_zero (gap y0 : Int) (hs : List Int) : rowTop gap y0 hs 0 = y0 := by
  simp [rowTop]

theorem rowTop_succ (gap y0 h : Int) (rest : List Int) (q : Nat) :
    rowTop gap y0 (h :: rest) (q + 1) = rowTop gap (y0 + h + gap) rest q := by
  simp [rowTop]; ring

/-- The row loop of PASS 2C over rows whose cells have pairwise different item
indices: the item of the cell at position `k` of row `q` ends as `placedItem`
says, with the top edge `rowTop` and the left edge `cellLeft`. -/
theorem hRows_exact (fb : FlowBoxLayout) (env : Env) (irc : Rect) (inner_w : Int) :
    ∀ (rows : List (Row × Int)) (r0 : Nat) (st : HRows),
      ((cellsOfRows (rows.map Prod.fst)).map (fun c => c.idx)).Nodup →
      (∀ c ∈ cellsOfRows (rows.map Prod.fst), c.idx < st.items.length) →
      ∀ (q : Nat) (p : Row × Int), rows[q]? = some p →
      ∀ (k : Nat) (d : RowCell), (hDistributeRow fb st.items inner_w p.1).cells[k]? = some d →
        getItem (hRows fb env irc inner_w r0 rows st).items d.idx
          = placedItem fb env (r0 + q) (rowTop fb.gap st.y (rows.map Prod.snd) q) p.2 d
              (cellLeft fb.gap irc.left (hDistributeRow fb st.items inner_w p.1).cells k)
              (getItem st.items d.idx) := by
  intro rows
  induction rows with
  | nil => intro r0 st _ _ q p hq; simp at hq
  | cons p0 rest ih =>
    intro r0 st hnd hlt q p hq k d hk
    obtain ⟨R, row_h⟩ := p0
    simp only [List.map_cons, cellsOfRows, List.map_append, List.nodup_append] at hnd
    simp only [List.map_cons, cellsOfRows, List.mem_append] at hlt
    obtain ⟨hnd1, hnd2, hdisj⟩ := hnd
    unfold hRows
    have hidx := hDistributeRow_idx fb st.items inner_w R
    cases q with
    | zero =>
      simp only [List.getElem?_cons_zero, Option.some.injEq] at hq
      subst hq
      have hd : d ∈ (hDistributeRow fb st.items inner_w R).cells := List.getElem?_mem hk
      have hdi : d.idx ∈ R.cells.map (fun c => c.idx) := by
        rw [← hidx]; exact List.mem_map_of_mem _ hd
      rw [hRows_other _ _ _ _ _ _ _ _ (by
        intro c hc heq
        exact hdisj hdi (heq ▸ List.mem_map_of_mem (fun c => c.idx) hc))]
      rw [hRow_items, List.map_cons, rowTop_zero, Nat.add_zero]
      have key := hPlaceCells_exact fb env r0 st.y row_h
        (hDistributeRow fb st.items inner_w R).cells ⟨st.items, irc.left, 0⟩ (le_refl _)
        (by rw [hidx]; exact hnd1)
        (by
          intro c hc
          have : c.idx ∈ (hDistributeRow fb st.items inner_w R).cells.map (fun c => c.idx) :=
            List.mem_map_of_mem _ hc
          rw [hidx] at this
          obtain ⟨c0, hc0, he⟩ := List.mem_map.mp this
          rw [← he]
          exact hlt c0 (Or.inl hc0)) k d hk
      simpa using key
    | succ q =>
      simp only [List.getElem?_cons_succ] at hq
      have hp : p ∈ rest := List.getElem?_mem hq
      have hd : d ∈ (hDistributeRow fb st.items inner_w p.1).cells := List.getElem?_mem hk
      have hdi : d.idx ∈ (cellsOfRows (rest.map Prod.fst)).map (fun c => c.idx) := by
        have h1 : d.idx ∈ p.1.cells.map (fun c => c.idx) := by
          rw [← hDistributeRow_idx fb st.items inner_w p.1]; exact List.mem_map_of_mem _ hd
        obtain ⟨c0, hc0, he⟩ := List.mem_map.mp h1
        rw [← he]
        exact List.mem_map_of_mem _
          (mem_cellsOfRows _ p.1 c0 (List.mem_map_of_mem Prod.fst hp) hc0)
      have hcfg : ∀ j, (getItem (hRow fb env irc inner_w r0 R row_h (!rest.isEmpty) st).items j).cfg
          = (getItem st.items j).cfg := fun j => hRow_cfg _ _ _ _ _ _ _ _ _ j
      have hD := hDistributeRow_congr fb _ _ inner_w p.1 hcfg
      have hne : rest ≠ [] := by
        intro he; rw [he] at hp; cases hp
      have hmore : (!rest.isEmpty) = true := by
        cases rest with
        | nil => exact absurd rfl hne
        | cons _ _ => rfl
      have hy : (hRow fb env irc inner_w r0 R row_h (!rest.isEmpty) st).y
          = st.y + row_h + fb.gap := by
        rw [(hRow_used _ _ _ _ _ _ _ _ _).2, hmore]; rfl
      have key := ih (r0 + 1) (hRow fb env irc inner_w r0 R row_h (!rest.isEmpty) st) hnd2
        (by
          intro c hc
          rw [hRow_length]
          exact hlt c (Or.inr hc)) q p hq k d (by rw [hD]; exact hk)
      rw [key, hD, hy, List.map_cons, rowTop_succ]
      have hoth : getItem (hRow fb env irc inner_w r0 R row_h (!rest.isEmpty) st).items d.idx
          = getItem st.items d.idx := by
        refine hRow_other _ _ _ _ _ _ _ _ _ _ ?_
        intro c hc heq
        exact hdisj (List.mem_map_of_mem (fun c => c.idx) hc) (heq ▸ hdi)
      rw [hoth, show r0 + 1 + q = r0 + (q + 1) by omega]

/-! ## PASS 1, state by state -/

theorem wrapFixed_cases (fb : FlowBoxLayout) (irc : Rect) (inner_w cell_w : Int) (st : HBuild) :
    st.wrapFixed fb irc inner_w cell_w = st ∨
    (st.topHasContent = true ∧ st.wrapFixed fb irc inner_w cell_w = st.new_row irc) := by
  unfold HBuild.wrapFixed
  by_cases hw : fb.wrap = true
  · rw [if_pos hw]
    simp only
    by_cases hc : (if st.placed = 0 then cell_w else st.x_row - irc.left + fb.gap + cell_w) > inner_w
        ∧ st.topHasContent = true
    · rw [if_pos hc]; exact Or.inr ⟨hc.2, rfl⟩
    · rw [if_neg hc]; exact Or.inl rfl
  · rw [if_neg hw]; exact Or.inl rfl

/-- What the body of PASS 1 does to the loop state for one item: nothing, a new
row (only when the top row has content), a gap-expander of the item added to
the top row, or a cell of the item added, to the top row or to a new row
(started only when the top row has content). -/
theorem hItem_state_cases (fb : FlowBoxLayout) (env : Env)
    (probe : FlowBoxLayout → Rect → FlowBoxLayout)
    (irc : Rect) (inner_w inner_h : Int) (i : Nat) (it : Item) (st : HBuild) :
    (hItem fb env probe irc inner_w inner_h i it st).2 = st ∨
    (st.topHasContent = true ∧
      (hItem fb env probe irc inner_w inner_h i it st).2 = st.new_row irc) ∨
    (∃ g : GapExp, g.idx = i ∧ (hItem fb env probe irc inner_w inner_h i it st).2
        = { st with top := { st.top with gaps := st.top.gaps ++ [g] } }) ∨
    (∃ rc : RowCell, rc.idx = i ∧
      ((hItem fb env probe irc inner_w inner_h i it st).2 = st.addCell fb.gap rc ∨
       (st.topHasContent = true ∧
        (hItem fb env probe irc inner_w inner_h i it st).2
          = (st.new_row irc).addCell fb.gap rc))) := by
  unfold hItem
  by_cases hv : it.cl.visible = false
  · rw [if_pos hv]; exact Or.inl rfl
  rw [if_neg hv]
  by_cases hwb : fb.wrap = true ∧ it.is_break = true
  · rw [if_pos hwb]
    by_cases hc : st.topHasContent = true
    · rw [if_pos hc]; exact Or.inr (Or.inl ⟨hc, rfl⟩)
    · rw [if_neg hc]; exact Or.inl rfl
  rw [if_neg hwb]
  by_cases hfc : fb.fixed_column ≥ 0
  · rw [if_pos hfc]
    simp only
    by_cases hnb : fb.wrap = false ∧ it.is_break = true
    · rw [if_pos hnb]
      exact Or.inr (Or.inr (Or.inr ⟨_, rfl, Or.inl rfl⟩))
    rw [if_neg hnb]
    by_cases hsp : it.cl.spacer = true
    · rw [if_pos hsp]
      rcases wrapFixed_cases fb irc inner_w fb.fixed_column st with e | ⟨hc, e⟩
      · rw [e]; exact Or.inr (Or.inr (Or.inr ⟨_, rfl, Or.inl rfl⟩))
      · rw [e]; exact Or.inr (Or.inr (Or.inr ⟨_, rfl, Or.inr ⟨hc, rfl⟩⟩))
    rw [if_neg hsp]
    rcases wrapFixed_cases fb irc inner_w fb.fixed_column st with e | ⟨hc, e⟩
    · rw [e]; exact Or.inr (Or.inr (Or.inr ⟨_, rfl, Or.inl rfl⟩))
    · rw [e]; exact Or.inr (Or.inr (Or.inr ⟨_, rfl, Or.inr ⟨hc, rfl⟩⟩))
  rw [if_neg hfc]
  by_cases hnb : fb.wrap = false ∧ it.is_break = true
  · rw [if_pos hnb]
    exact Or.inr (Or.inr (Or.inl ⟨_, rfl, rfl⟩))
  rw [if_neg hnb]
  by_cases hsp : it.cl.spacer = true
  · rw [if_pos hsp]
    exact Or.inr (Or.inr (Or.inl ⟨_, rfl, rfl⟩))
  rw [if_neg hsp]
  simp only
  by_cases hp : fb.wrap = true ∧
      ClampWith it.minw it.maxw
        (if it.fixed ≥ 0 then it.fixed
         else if it.fit = true then
           fitWidth env probe inner_h it (GetCtrlMinSize env fb.minsize_epoch it).size
         else if it.expandingWeight > 0 then 0
         else (GetCtrlMinSize env fb.minsize_epoch it).size.cx) > 0
  · rw [if_pos hp]
    by_cases hq : (if st.placed = 0 then
          ClampWith it.minw it.maxw
            (if it.fixed ≥ 0 then it.fixed
             else if it.fit = true then
               fitWidth env probe inner_h it (GetCtrlMinSize env fb.minsize_epoch it).size
             else if it.expandingWeight > 0 then 0
             else (GetCtrlMinSize env fb.minsize_epoch it).size.cx)
        else st.x_row - irc.left + fb.gap +
          ClampWith it.minw it.maxw
            (if it.fixed ≥ 0 then it.fixed
             else if it.fit = true then
               fitWidth env probe inner_h it (GetCtrlMinSize env fb.minsize_epoch it).size
             else if it.expandingWeight > 0 then 0
             else (GetCtrlMinSize env fb.minsize_epoch it).size.cx)) > inner_w
        ∧ st.topHasContent = true
    · rw [if_pos hq]
      exact Or.inr (Or.inr (Or.inr ⟨_, rfl, Or.inr ⟨hq.2, rfl⟩⟩))
    · rw [if_neg hq]
      exact Or.inr (Or.inr (Or.inr ⟨_, rfl, Or.inl rfl⟩))
  · rw [if_neg hp]
    exact Or.inr (Or.inr (Or.inr ⟨_, rfl, Or.inl rfl⟩))

/-- PASS 1 adds at most one cell for an item, and the cell carries the index of
the item. -/
theorem hItem_cells_idx (fb : FlowBoxLayout) (env : Env)
    (probe : FlowBoxLayout → Rect → FlowBoxLayout)
    (irc : Rect) (inner_w inner_h : Int) (i : Nat) (it : Item) (st : HBuild) :
    cellsOfRows (hItem fb env probe irc inner_w inner_h i it st).2.rows = cellsOfRows st.rows ∨
    ∃ rc : RowCell, rc.idx = i ∧
      cellsOfRows (hItem fb env probe irc inner_w inner_h i it st).2.rows
        = cellsOfRows st.rows ++ [rc] := by
  rcases hItem_state_cases fb env probe irc inner_w inner_h i it st with
    e | ⟨_, e⟩ | ⟨g, _, e⟩ | ⟨rc, hrc, e | ⟨_, e⟩⟩
  · rw [e]; exact Or.inl rfl
  · rw [e]; exact Or.inl (cells_new_row irc st)
  · rw [e]; exact Or.inl (cells_addGap g st)
  · rw [e]; exact Or.inr ⟨rc, hrc, cells_addCell _ _ _⟩
  · rw [e]; exact Or.inr ⟨rc, hrc, by rw [cells_addCell, cells_new_row]⟩

/-- The item indices of the cells PASS 1 builds increase strictly, row after
row, and stay below the number of items. -/
theorem hBuild_idx_sorted (fb : FlowBoxLayout) (env : Env)
    (probe : FlowBoxLayout → Rect → FlowBoxLayout) (irc : Rect) (inner_w inner_h : Int)
    (items : List Item) :
    ∀ (i : Nat) (st : HBuild),
      ((cellsOfRows st.rows).map (fun c => c.idx)).Pairwise (fun a b => a < b) →
      (∀ rc ∈ cellsOfRows st.rows, rc.idx < i) →
      ((cellsOfRows (hBuild fb env probe irc inner_w inner_h i items st).2.rows).map
          (fun c => c.idx)).Pairwise (fun a b => a < b) ∧
      ∀ rc ∈ cellsOfRows (hBuild fb env probe irc inner_w inner_h i items st).2.rows,
        rc.idx < i + items.length := by
  induction items with
  | nil => intro i st h1 h2; exact ⟨h1, fun rc hrc => by simpa using h2 rc hrc⟩
  | cons it rest ih =>
    intro i st h1 h2
    unfold hBuild
    simp only [List.length_cons]
    have key : ((cellsOfRows (hItem fb env probe irc inner_w inner_h i it st).2.rows).map
          (fun c => c.idx)).Pairwise (fun a b => a < b) ∧
        ∀ rc ∈ cellsOfRows (hItem fb env probe irc inner_w inner_h i it st).2.rows,
          rc.idx < i + 1 := by
      rcases hItem_cells_idx fb env probe irc inner_w inner_h i it st with e | ⟨rc, hrc, e⟩
      · rw [e]; exact ⟨h1, fun rc hrc => Nat.lt_succ_of_lt (h2 rc hrc)⟩
      · rw [e]
        constructor
        · rw [List.map_append, List.pairwise_append]
          refine ⟨h1, by simp, ?_⟩
          intro a ha b hb
          obtain ⟨c, hc, rfl⟩ := List.mem_map.mp ha
          simp only [List.map_cons, List.map_nil, List.mem_singleton] at hb
          rw [hb, hrc]
          exact h2 c hc
        · intro c hc
          rcases List.mem_append.mp hc with h | h
          · exact Nat.lt_succ_of_lt (h2 c h)
          · rw [List.mem_singleton] at h
            rw [h, hrc]; exact Nat.lt_succ_self _
    obtain ⟨k1, k2⟩ := ih (i + 1) _ key.1 key.2
    exact ⟨k1, fun rc hrc => by have := k2 rc hrc; omega⟩

theorem pairwise_lt_nodup (l : List Nat) (h : l.Pairwise (fun a b => a < b)) : l.Nodup :=
  List.Pairwise.imp (fun hab => Nat.ne_of_lt hab) h

theorem addExtra_length (each rem : Int) :
    ∀ (l : List Int) (r : Nat), (addExtra each rem r l).length = l.length := by
  intro l
  induction l with
  | nil => intro r; rfl
  | cons h rest ih => intro r; simp [addExtra, ih]

theorem rowHeightsFinal_length (fb : FlowBoxLayout) (inner_h : Int) (base : List Int) :
    (rowHeightsFinal fb inner_h base).length = base.length := by
  unfold rowHeightsFinal
  simp only
  split_ifs
  · exact addExtra_length _ _ _ _
  · rfl
  · rfl

/-! ## Placement, cell by cell: the planners -/

theorem placedItem_cell (fb : FlowBoxLayout) (env : Env) (r : Nat) (y row_h : Int)
    (rc : RowCell) (x : Int) (it : Item) :
    (placedItem fb env r y row_h rc x it).cl.cell = ⟨x, y, x + rc.w, y + row_h⟩ := by
  unfold placedItem hPlaceCell
  simp only [getItem_cons_zero, lt_irrefl, gt_iff_lt, if_false]
  cases hc : it.c <;> simp [getItem]

theorem hBuild_start_cells (irc : Rect) :
    cellsOfRows ({ x_row := irc.left } : HBuild).rows = [] := by
  simp [HBuild.rows, cellsOfRows]

/-- The item indices of the cells of the rows PASS 1 builds from an empty
state. -/
theorem hBuild_idx (fb : FlowBoxLayout) (env : Env)
    (probe : FlowBoxLayout → Rect → FlowBoxLayout) (irc : Rect) (inner_w inner_h : Int)
    (items : List Item) :
    ((cellsOfRows (hBuild fb env probe irc inner_w inner_h 0 items
        { x_row := irc.left }).2.rows).map (fun c => c.idx)).Pairwise (fun a b => a < b) ∧
    ∀ rc ∈ cellsOfRows (hBuild fb env probe irc inner_w inner_h 0 items
        { x_row := irc.left }).2.rows, rc.idx < items.length := by
  have h := hBuild_idx_sorted fb env probe irc inner_w inner_h items 0 { x_row := irc.left }
    (by rw [hBuild_start_cells]; simp) (by rw [hBuild_start_cells]; simp)
  exact ⟨h.1, fun rc hrc => by have := h.2 rc hrc; omega⟩

/-- Where `LayoutHorizontal` puts the cell at position `k` of row `q`. -/
theorem LayoutHorizontal_exact (fb : FlowBoxLayout) (env : Env)
    (probe : FlowBoxLayout → Rect → FlowBoxLayout) (irc : Rect) (inner_w inner_h : Int)
    (q : Nat) (R : Row)
    (hq : (hBuild fb env probe irc inner_w inner_h 0 fb.items { x_row := irc.left }).2.rows[q]?
      = some R)
    (k : Nat) (d : RowCell)
    (hk : (hDistributeRow fb (hBuild fb env probe irc inner_w inner_h 0 fb.items
      { x_row := irc.left }).1 inner_w R).cells[k]? = some d) :
    getItem (LayoutHorizontal fb env probe irc inner_w inner_h).items d.idx
      = placedItem fb env q
          (rowTop fb.gap irc.top
            (rowHeightsFinal fb inner_h
              ((hBuild fb env probe irc inner_w inner_h 0 fb.items
                { x_row := irc.left }).2.rows.map (rowBaseHeight fb inner_h))) q)
          ((rowHeightsFinal fb inner_h
              ((hBuild fb env probe irc inner_w inner_h 0 fb.items
                { x_row := irc.left }).2.rows.map (rowBaseHeight fb inner_h))).getD q 0)
          d
          (cellLeft fb.gap irc.left
            (hDistributeRow fb (hBuild fb env probe irc inner_w inner_h 0 fb.items
              { x_row := irc.left }).1 inner_w R).cells k)
          (getItem (hBuild fb env probe irc inner_w inner_h 0 fb.items
              { x_row := irc.left }).1 d.idx) := by
  unfold LayoutHorizontal
  simp only
  generalize hb : hBuild fb env probe irc inner_w inner_h 0 fb.items { x_row := irc.left } = b
    at hq hk ⊢
  generalize hhs : rowHeightsFinal fb inner_h (b.2.rows.map (rowBaseHeight fb inner_h)) = hs
  have hlen : hs.length = b.2.rows.length := by
    rw [← hhs, rowHeightsFinal_length, List.length_map]
  have hfst : (b.2.rows.zip hs).map Prod.fst = b.2.rows :=
    List.map_fst_zip _ _ (by omega)
  have hsnd : (b.2.rows.zip hs).map Prod.snd = hs :=
    List.map_snd_zip _ _ (by omega)
  have hidx := hBuild_idx fb env probe irc inner_w inner_h fb.items
  rw [hb] at hidx
  have hql : q < b.2.rows.length := by
    rcases Nat.lt_or_ge q b.2.rows.length with h | h
    · exact h
    · rw [List.getElem?_eq_none h] at hq; cases hq
  have hqs : hs[q]? = some (hs.getD q 0) := by
    rw [List.getD_eq_getElem?_getD, List.getElem?_eq_getElem (by omega)]
    rfl
  have hz : (b.2.rows.zip hs)[q]? = some (R, hs.getD q 0) := by
    rw [List.getElem?_zip_eq_some]
    exact ⟨hq, hqs⟩
  have key := hRows_exact fb env irc inner_w (b.2.rows.zip hs) 0 ⟨b.1, 0, 0, irc.top⟩
    (by rw [hfst]; exact pairwise_lt_nodup _ hidx.1)
    (by
      rw [hfst]
      intro c hc
      have := hidx.2 c hc
      rw [← hb, hBuild_items_length]
      exact this) q (R, hs.getD q 0) hz k d hk
  rw [hsnd, Nat.zero_add] at key
  exact key

/-! ## Placement, cell by cell: the column -/

theorem vPlacedItem_cell (fb : FlowBoxLayout) (env : Env) (irc : Rect) (inner_w : Int)
    (k : Nat) (c : VCell) (y : Int) (it : Item) :
    (vPlacedItem fb env irc inner_w k c y it).cl.cell
      = ⟨irc.left, y, irc.right, y + c.h⟩ := by
  unfold vPlacedItem vPlaceCell
  simp only [getItem_cons_zero]
  cases hc : it.c <;> simp [getItem]

theorem cellTop_zero (gap y0 : Int) (cells : List VCell) : cellTop gap y0 cells 0 = y0 := by
  simp [cellTop]

theorem cellTop_succ (gap y0 : Int) (c : VCell) (rest : List VCell) (k : Nat) :
    cellTop gap y0 (c :: rest) (k + 1) = cellTop gap (y0 + c.h + gap) rest k := by
  simp [cellTop]; ring

theorem vItem_idx (fb : FlowBoxLayout) (env : Env)
    (probe : FlowBoxLayout → Rect → FlowBoxLayout) (inner_w : Int) (i : Nat) (it : Item)
    (c : VCell) (h : (vItem fb env probe inner_w i it).2 = some c) : c.idx = i := by
  unfold vItem at h
  split at h
  · cases h
  · split at h
    · cases h; rfl
    · split at h
      · cases h; rfl
      · split at h
        · cases h; rfl
        · cases h; rfl

/-- The item indices of the cells the build loop of `LayoutVertical` adds
increase strictly and stay below the number of items. -/
theorem vBuild_idx_sorted (fb : FlowBoxLayout) (env : Env)
    (probe : FlowBoxLayout → Rect → FlowBoxLayout) (inner_w : Int) (items : List Item) :
    ∀ (i : Nat),
      (((vBuild fb env probe inner_w i items).2).map (fun c => c.idx)).Pairwise
        (fun a b => a < b) ∧
      ∀ c ∈ (vBuild fb env probe inner_w i items).2, i ≤ c.idx ∧ c.idx < i + items.length := by
  induction items with
  | nil => intro i; simp [vBuild]
  | cons it rest ih =>
    intro i
    obtain ⟨h1, h2⟩ := ih (i + 1)
    unfold vBuild
    simp only [List.length_cons]
    cases hc : (vItem fb env probe inner_w i it).2 with
    | none =>
      simp only [Option.toList, List.nil_append]
      exact ⟨h1, fun c hm => by have := h2 c hm; omega⟩
    | some c0 =>
      have hi := vItem_idx fb env probe inner_w i it c0 hc
      simp only [Option.toList, List.singleton_append, List.map_cons, List.pairwise_cons,
        List.mem_map, List.mem_cons]
      refine ⟨⟨?_, h1⟩, ?_⟩
      · rintro a ⟨c, hm, rfl⟩
        have := h2 c hm
        omega
      · rintro c (h | h)
        · rw [h, hi]; omega
        · have := h2 c h; omega

/-- The placement loop of `LayoutVertical` over cells with pairwise different
item indices: the item of the cell at position `j` ends as `vPlacedItem` says,
with the top edge `cellTop`. -/
theorem vPlace_exact (fb : FlowBoxLayout) (env : Env) (irc : Rect) (inner_w : Int) :
    ∀ (cells : List VCell) (k : Nat) (st : VPlace),
      (cells.map (fun c => c.idx)).Nodup → (∀ c ∈ cells, c.idx < st.items.length) →
      ∀ (j : Nat) (c : VCell), cells[j]? = some c →
        getItem (vPlace fb env irc inner_w k cells st).items c.idx
          = vPlacedItem fb env irc inner_w (k + j) c (cellTop fb.gap st.y cells j)
              (getItem st.items c.idx) := by
  intro cells
  induction cells with
  | nil => intro k st _ _ j c hj; simp at hj
  | cons c0 rest ih =>
    intro k st hnd hlt j c hj
    simp only [List.map_cons, List.nodup_cons, List.mem_map, not_exists, not_and] at hnd
    unfold vPlace
    cases j with
    | zero =>
      simp only [List.getElem?_cons_zero, Option.some.injEq] at hj
      subst hj
      rw [vPlace_other _ _ _ _ _ _ _ _ (fun c2 hc2 => hnd.1 c2 hc2)]
      rw [vPlaceCell_items, getItem_set_eq _ _ _ (hlt c0 (List.mem_cons_self _ _)),
        cellTop_zero, Nat.add_zero]
    | succ j =>
      simp only [List.getElem?_cons_succ] at hj
      have hc : c ∈ rest := List.getElem?_mem hj
      have hne : rest ≠ [] := by
        intro he; rw [he] at hc; cases hc
      have hmore : (!rest.isEmpty) = true := by
        cases rest with
        | nil => exact absurd rfl hne
        | cons _ _ => rfl
      rw [ih (k + 1) _ hnd.2 (by
        intro c2 hc2
        rw [vPlaceCell_length]
        exact hlt c2 (List.mem_cons_of_mem _ hc2)) j c hj]
      rw [vPlaceCell_y, hmore, if_pos rfl, cellTop_succ]
      have hoth : getItem (vPlaceCell fb env irc inner_w k c0 true st).items c.idx
          = getItem st.items c.idx := by
        rw [vPlaceCell_items, getItem_set_ne]
        intro he
        exact hnd.1 c hc he.symm
      rw [hoth, show k + 1 + j = k + (j + 1) by omega]

/-- Where the placement loop of `LayoutVertical` ends: below the first cell by
the heights of all cells and one gap between consecutive cells. -/
theorem vPlace_y (fb : FlowBoxLayout) (env : Env) (irc : Rect) (inner_w : Int) :
    ∀ (cells : List VCell) (k : Nat) (st : VPlace), cells ≠ [] →
      (vPlace fb env irc inner_w k cells st).y
        = st.y + (cells.map (fun c => c.h)).sum + ((cells.length : Int) - 1) * fb.gap := by
  intro cells
  induction cells with
  | nil => intro k st h; exact absurd rfl h
  | cons c rest ih =>
    intro k st _
    unfold vPlace
    cases rest with
    | nil =>
      unfold vPlace
      rw [vPlaceCell_y]
      simp
    | cons c2 rest2 =>
      rw [ih (k + 1) _ (by simp), vPlaceCell_y]
      simp only [List.isEmpty_cons, Bool.not_false, if_true, List.map_cons, List.sum_cons,
        List.length_cons]
      push_cast
      ring

/-- Where `LayoutVertical` puts the cell at position `j` of the column. -/
theorem LayoutVertical_exact (fb : FlowBoxLayout) (env : Env)
    (probe : FlowBoxLayout → Rect → FlowBoxLayout) (irc : Rect) (inner_w inner_h : Int)
    (j : Nat) (c : VCell)
    (hj : (vDistributeAll fb (vBuild fb env probe inner_w 0 fb.items).1 inner_h
            (vBuild fb env probe inner_w 0 fb.items).2)[j]? = some c) :
    getItem (LayoutVertical fb env probe irc inner_w inner_h).items c.idx
      = vPlacedItem fb env irc inner_w j c
          (cellTop fb.gap irc.top
            (vDistributeAll fb (vBuild fb env probe inner_w 0 fb.items).1 inner_h
              (vBuild fb env probe inner_w 0 fb.items).2) j)
          (getItem (vBuild fb env probe inner_w 0 fb.items).1 c.idx) := by
  unfold LayoutVertical
  simp only
  have hidx : (vDistributeAll fb (vBuild fb env probe inner_w 0 fb.items).1 inner_h
      (vBuild fb env probe inner_w 0 fb.items).2).map (fun c => c.idx)
      = (vBuild fb env probe inner_w 0 fb.items).2.map (fun c => c.idx) :=
    (forall₂_map_eq (VCellStep (vBuild fb env probe inner_w 0 fb.items).1) (fun c => c.idx)
      (fun _ _ hab => hab.1) _ _
      (vDistributeAll_step fb (vBuild fb env probe inner_w 0 fb.items).1 inner_h
        (vBuild fb env probe inner_w 0 fb.items).2))
  have hs := vBuild_idx_sorted fb env probe inner_w fb.items 0
  have key := vPlace_exact fb env irc inner_w _ 0
    ⟨(vBuild fb env probe inner_w 0 fb.items).1, irc.top, 0⟩
    (by rw [hidx]; exact pairwise_lt_nodup _ hs.1)
    (by
      intro c2 hc2
      have hm : c2.idx ∈ (vDistributeAll fb (vBuild fb env probe inner_w 0 fb.items).1 inner_h
          (vBuild fb env probe inner_w 0 fb.items).2).map (fun c => c.idx) :=
        List.mem_map_of_mem _ hc2
      rw [hidx] at hm
      obtain ⟨c3, hc3, he⟩ := List.mem_map.mp hm
      have := (hs.2 c3 hc3).2
      rw [vBuild_items_length]
      show c2.idx < fb.items.length
      rw [← he]; omega) j c hj
  rw [Nat.zero_add] at key
  exact key

/-! ## Placement, cell by cell: `PreLayoutCalc` -/

theorem PreLayoutCalcWith_items_H (probe : FlowBoxLayout → Rect → FlowBoxLayout) (env : Env)
    (fb : FlowBoxLayout) (irc : Rect) (hd : fb.dir = Direction.H)
    (h0 : visibleCount env fb.items ≠ 0) :
    (PreLayoutCalcWith probe env fb irc).items
      = (LayoutHorizontal (planStart env fb irc) env probe irc (max 0 irc.GetWidth)
          (max 0 irc.GetHeight)).items := by
  unfold PreLayoutCalcWith
  simp only
  rw [if_neg h0, hd]

theorem PreLayoutCalcWith_items_V (probe : FlowBoxLayout → Rect → FlowBoxLayout) (env : Env)
    (fb : FlowBoxLayout) (irc : Rect) (hd : fb.dir = Direction.V)
    (h0 : visibleCount env fb.items ≠ 0) :
    (PreLayoutCalcWith probe env fb irc).items
      = (LayoutVertical (planStart env fb irc) env probe irc (max 0 irc.GetWidth)
          (max 0 irc.GetHeight)).items := by
  unfold PreLayoutCalcWith
  simp only
  rw [if_neg h0, hd]

/-- The item of the cell at position `k` of row `q` after `PreLayoutCalc` in
horizontal mode. -/
theorem planned_item_H (probe : FlowBoxLayout → Rect → FlowBoxLayout) (env : Env)
    (fb : FlowBoxLayout) (irc : Rect) (hd : fb.dir = Direction.H)
    (h0 : visibleCount env fb.items ≠ 0)
    (q : Nat) (R : Row) (hq : (plannedRows probe env fb irc)[q]? = some R)
    (k : Nat) (d : RowCell)
    (hk : (hDistributeRow fb (plannedItems probe env fb irc) (max 0 irc.GetWidth) R).cells[k]?
      = some d) :
    getItem (PreLayoutCalcWith probe env fb irc).items d.idx
      = placedItem fb env q (rowTop fb.gap irc.top (finalRowHeights probe env fb irc) q)
          ((finalRowHeights probe env fb irc).getD q 0) d
          (cellLeft fb.gap irc.left
            (hDistributeRow fb (plannedItems probe env fb irc) (max 0 irc.GetWidth) R).cells k)
          (getItem (plannedItems probe env fb irc) d.idx) := by
  rw [PreLayoutCalcWith_items_H probe env fb irc hd h0]
  exact LayoutHorizontal_exact (planStart env fb irc) env probe irc _ _ q R hq k d hk

/-- The item of the cell at position `j` of the column after `PreLayoutCalc`
in vertical mode. -/
theorem planned_item_V (probe : FlowBoxLayout → Rect → FlowBoxLayout) (env : Env)
    (fb : FlowBoxLayout) (irc : Rect) (hd : fb.dir = Direction.V)
    (h0 : visibleCount env fb.items ≠ 0)
    (j : Nat) (c : VCell) (hj : (distributedColumn probe env fb irc)[j]? = some c) :
    getItem (PreLayoutCalcWith probe env fb irc).items c.idx
      = vPlacedItem fb env irc (max 0 irc.GetWidth) j c
          (cellTop fb.gap irc.top (distributedColumn probe env fb irc) j)
          (getItem (plannedColumnItems probe env fb irc) c.idx) := by
  rw [PreLayoutCalcWith_items_V probe env fb irc hd h0]
  exact LayoutVertical_exact (planStart env fb irc) env probe irc _ _ j c hj

/-! ## Contiguity of the cells: lemmas -/

theorem chainX_of_formula (gap : Int) (f : RowCell → Rect) :
    ∀ (cells : List RowCell) (x0 : Int),
      (∀ k c, cells[k]? = some c →
        (f c).left = cellLeft gap x0 cells k ∧ (f c).right = cellLeft gap x0 cells k + c.w) →
      ChainX gap x0 (cells.map f) := by
  intro cells
  induction cells with
  | nil => intro x0 _; exact trivial
  | cons c rest ih =>
    intro x0 h
    have h0 := h 0 c (by simp)
    rw [cellLeft_zero] at h0
    refine ⟨h0.1, ?_⟩
    rw [h0.2]
    apply ih
    intro k c2 hk
    have := h (k + 1) c2 (by simpa using hk)
    rw [cellLeft_succ] at this
    exact this

theorem chainY_of_formula (gap : Int) (f : VCell → Rect) :
    ∀ (cells : List VCell) (y0 : Int),
      (∀ k c, cells[k]? = some c →
        (f c).top = cellTop gap y0 cells k ∧ (f c).bottom = cellTop gap y0 cells k + c.h) →
      ChainY gap y0 (cells.map f) := by
  intro cells
  induction cells with
  | nil => intro y0 _; exact trivial
  | cons c rest ih =>
    intro y0 h
    have h0 := h 0 c (by simp)
    rw [cellTop_zero] at h0
    refine ⟨h0.1, ?_⟩
    rw [h0.2]
    apply ih
    intro k c2 hk
    have := h (k + 1) c2 (by simpa using hk)
    rw [cellTop_succ] at this
    exact this

theorem rowsStacked_of_formula (gap : Int) :
    ∀ (rows : List (List Rect)) (hs : List Int) (y0 : Int),
      (∀ q cells, rows[q]? = some cells → ∀ c ∈ cells,
        c.top = rowTop gap y0 hs q ∧ c.bottom = rowTop gap y0 hs q + hs.getD q 0) →
      RowsStacked gap y0 (rows.zip hs) := by
  intro rows
  induction rows with
  | nil => intro hs y0 _; exact trivial
  | cons cells rest ih =>
    intro hs y0 h
    cases hs with
    | nil => exact trivial
    | cons h0 hrest =>
      rw [List.zip_cons_cons]
      refine ⟨?_, ?_⟩
      · intro c hc
        have := h 0 cells (by simp) c hc
        rw [rowTop_zero] at this
        simpa using this
      · apply ih
        intro q cs hq c hc
        have := h (q + 1) cs (by simpa using hq) c hc
        rw [rowTop_succ] at this
        simpa using this

theorem rowsStacked_empty (gap : Int) :
    ∀ (rows : List (List Rect)) (hs : List Int) (y0 : Int),
      (∀ cells ∈ rows, cells = []) → RowsStacked gap y0 (rows.zip hs) := by
  intro rows hs y0 h
  apply rowsStacked_of_formula
  intro q cells hq c hc
  rw [h cells (List.getElem?_mem hq)] at hc
  cases hc

/-- In a chain of rectangles of non-negative width with a non-negative gap,
every rectangle ends before the following ones start. -/
theorem chainX_sorted (gap : Int) (hgap : 0 ≤ gap) :
    ∀ (l : List Rect) (x : Int), ChainX gap x l → (∀ c ∈ l, c.left ≤ c.right) →
      l.Pairwise (fun a b => a.right ≤ b.left) ∧ ∀ c ∈ l, x ≤ c.left := by
  intro l
  induction l with
  | nil => intro x _ _; simp
  | cons c rest ih =>
    intro x h hw
    obtain ⟨h1, h2⟩ := h
    have hc := hw c (List.mem_cons_self _ _)
    obtain ⟨k1, k2⟩ := ih _ h2 (fun a ha => hw a (List.mem_cons_of_mem _ ha))
    refine ⟨List.pairwise_cons.mpr ⟨fun b hb => by have := k2 b hb; omega, k1⟩, ?_⟩
    intro a ha
    rcases List.mem_cons.mp ha with e | e
    · rw [e]; omega
    · have := k2 a e; omega

theorem chainY_sorted (gap : Int) (hgap : 0 ≤ gap) :
    ∀ (l : List Rect) (y : Int), ChainY gap y l → (∀ c ∈ l, c.top ≤ c.bottom) →
      l.Pairwise (fun a b => a.bottom ≤ b.top) ∧ ∀ c ∈ l, y ≤ c.top := by
  intro l
  induction l with
  | nil => intro y _ _; simp
  | cons c rest ih =>
    intro y h hw
    obtain ⟨h1, h2⟩ := h
    have hc := hw c (List.mem_cons_self _ _)
    obtain ⟨k1, k2⟩ := ih _ h2 (fun a ha => hw a (List.mem_cons_of_mem _ ha))
    refine ⟨List.pairwise_cons.mpr ⟨fun b hb => by have := k2 b hb; omega, k1⟩, ?_⟩
    intro a ha
    rcases List.mem_cons.mp ha with e | e
    · rw [e]; omega
    · have := k2 a e; omega

theorem cellRects_append (items : List Item) (a b : List Nat) :
    cellRects items (a ++ b) = cellRects items a ++ cellRects items b := by
  simp [cellRects]

/-- Rows that are stacked with a non-negative gap and non-negative heights, and
whose cells do not overlap within a row, have no two overlapping cells. -/
theorem noOverlap_rows (gap : Int) (hgap : 0 ≤ gap) (items : List Item) :
    ∀ (rows : List Row) (hs : List Int) (y : Int), rows.length = hs.length →
      (∀ h ∈ hs, 0 ≤ h) →
      RowsStacked gap y
        ((rows.map (fun R => cellRects items (R.cells.map (fun c => c.idx)))).zip hs) →
      (∀ R ∈ rows, (cellRects items (R.cells.map (fun c => c.idx))).Pairwise Rect.NoOverlap) →
      (cellRects items ((cellsOfRows rows).map (fun c => c.idx))).Pairwise Rect.NoOverlap ∧
      ∀ c ∈ cellRects items ((cellsOfRows rows).map (fun c => c.idx)), y ≤ c.top := by
  intro rows
  induction rows with
  | nil => intro hs y _ _ _ _; simp [cellsOfRows, cellRects]
  | cons R rest ih =>
    intro hs y hlen hpos hst hrow
    cases hs with
    | nil => simp at hlen
    | cons h0 hrest =>
      simp only [List.map_cons, List.zip_cons_cons] at hst
      obtain ⟨s1, s2⟩ := hst
      have hh0 : 0 ≤ h0 := hpos h0 (List.mem_cons_self _ _)
      obtain ⟨k1, k2⟩ := ih hrest (y + h0 + gap) (by simpa using hlen)
        (fun h hh => hpos h (List.mem_cons_of_mem _ hh)) s2
        (fun R2 hR2 => hrow R2 (List.mem_cons_of_mem _ hR2))
      simp only [cellsOfRows, List.map_append, cellRects_append]
      refine ⟨List.pairwise_append.mpr ⟨hrow R (List.mem_cons_self _ _), k1, ?_⟩, ?_⟩
      · intro a ha b hb
        have h1 := (s1 a ha).2
        have h2 := k2 b hb
        exact Or.inr (Or.inr (Or.inl (by omega)))
      · intro c hc
        rcases List.mem_append.mp hc with e | e
        · have := (s1 c e).1; omega
        · have := k2 c e; omega

/-! ## Contiguity of the cells after `PreLayoutCalc` -/

theorem plannedRows_invisible (probe : FlowBoxLayout → Rect → FlowBoxLayout) (env : Env)
    (fb : FlowBoxLayout) (irc : Rect) (h0 : visibleCount env fb.items = 0) :
    plannedRows probe env fb irc = [{}] := by
  have hinv : ∀ it ∈ (planStart env fb irc).items, it.cl.visible = false :=
    marked_invisible env fb.items h0
  unfold plannedRows
  rw [hBuild_invisible _ _ _ _ _ _ _ hinv]
  rfl

theorem plannedColumn_invisible (probe : FlowBoxLayout → Rect → FlowBoxLayout) (env : Env)
    (fb : FlowBoxLayout) (irc : Rect) (h0 : visibleCount env fb.items = 0) :
    plannedColumn probe env fb irc = [] := by
  apply List.eq_nil_iff_forall_not_mem.mpr
  intro c hc
  unfold plannedColumn at hc
  obtain ⟨j, hj, _, hcell⟩ := vBuild_cell_origin _ _ _ _ _ 0 c hc
  have hinv := marked_invisible env fb.items h0 (getItem (planStart env fb irc).items j)
    (by
      unfold getItem
      rw [List.getD_eq_getElem _ _ hj]
      exact List.getElem_mem _)
  unfold vItem at hcell
  rw [if_pos hinv] at hcell
  cases hcell

theorem finalRowHeights_length (probe : FlowBoxLayout → Rect → FlowBoxLayout) (env : Env)
    (fb : FlowBoxLayout) (irc : Rect) :
    (finalRowHeights probe env fb irc).length = (plannedRows probe env fb irc).length := by
  unfold finalRowHeights baseRowHeights
  rw [rowHeightsFinal_length, List.length_map]

theorem finalRowHeights_nonneg (probe : FlowBoxLayout → Rect → FlowBoxLayout) (env : Env)
    (fb : FlowBoxLayout) (irc : Rect) : ∀ h ∈ finalRowHeights probe env fb irc, 0 ≤ h := by
  unfold finalRowHeights baseRowHeights
  apply rowHeightsFinal_nonneg
  intro h hh
  obtain ⟨R, _, rfl⟩ := List.mem_map.mp hh
  exact rowBaseHeight_nonneg fb _ R (le_max_left _ _)

/-- The cell rectangles of a row are those of its cells after the distribution
of the width. -/
theorem cellRects_distributed (fb : FlowBoxLayout) (items its : List Item) (inner_w : Int)
    (R : Row) :
    cellRects items (R.cells.map (fun c => c.idx))
      = (hDistributeRow fb its inner_w R).cells.map (fun d => (getItem items d.idx).cl.cell) := by
  rw [← hDistributeRow_idx fb its inner_w R]
  simp [cellRects, List.map_map, Function.comp]

/-- The cell rectangle of the cell at position `k` of row `q` after
`PreLayoutCalc` in horizontal mode. -/
theorem planned_cell_H (probe : FlowBoxLayout → Rect → FlowBoxLayout) (env : Env)
    (fb : FlowBoxLayout) (irc : Rect) (hd : fb.dir = Direction.H)
    (h0 : visibleCount env fb.items ≠ 0)
    (q : Nat) (R : Row) (hq : (plannedRows probe env fb irc)[q]? = some R)
    (k : Nat) (d : RowCell)
    (hk : (hDistributeRow fb (plannedItems probe env fb irc) (max 0 irc.GetWidth) R).cells[k]?
      = some d) :
    (getItem (PreLayoutCalcWith probe env fb irc).items d.idx).cl.cell
      = ⟨cellLeft fb.gap irc.left
            (hDistributeRow fb (plannedItems probe env fb irc) (max 0 irc.GetWidth) R).cells k,
         rowTop fb.gap irc.top (finalRowHeights probe env fb irc) q,
         cellLeft fb.gap irc.left
            (hDistributeRow fb (plannedItems probe env fb irc) (max 0 irc.GetWidth) R).cells k
           + d.w,
         rowTop fb.gap irc.top (finalRowHeights probe env fb irc) q
           + (finalRowHeights probe env fb irc).getD q 0⟩ := by
  rw [planned_item_H probe env fb irc hd h0 q R hq k d hk, placedItem_cell]

theorem planned_cell_V (probe : FlowBoxLayout → Rect → FlowBoxLayout) (env : Env)
    (fb : FlowBoxLayout) (irc : Rect) (hd : fb.dir = Direction.V)
    (h0 : visibleCount env fb.items ≠ 0)
    (j : Nat) (c : VCell) (hj : (distributedColumn probe env fb irc)[j]? = some c) :
    (getItem (PreLayoutCalcWith probe env fb irc).items c.idx).cl.cell
      = ⟨irc.left, cellTop fb.gap irc.top (distributedColumn probe env fb irc) j, irc.right,
         cellTop fb.gap irc.top (distributedColumn probe env fb irc) j + c.h⟩ := by
  rw [planned_item_V probe env fb irc hd h0 j c hj, vPlacedItem_cell]

theorem mem_getElem? {α : Type} (l : List α) (a : α) (h : a ∈ l) : ∃ k : Nat, l[k]? = some a := by
  obtain ⟨k, hk, e⟩ := List.getElem_of_mem h
  exact ⟨k, by rw [List.getElem?_eq_getElem hk, e]⟩

theorem rows_chainX (probe : FlowBoxLayout → Rect → FlowBoxLayout) (env : Env)
    (fb : FlowBoxLayout) (irc : Rect) (hd : fb.dir = Direction.H) :
    ∀ R ∈ plannedRows probe env fb irc,
      ChainX fb.gap irc.left
        (cellRects (PreLayoutCalcWith probe env fb irc).items (R.cells.map (fun c => c.idx))) := by
  intro R hR
  by_cases h0 : visibleCount env fb.items = 0
  · rw [plannedRows_invisible probe env fb irc h0, List.mem_singleton] at hR
    rw [hR]
    exact trivial
  · obtain ⟨q, hq⟩ := mem_getElem? _ R hR
    rw [cellRects_distributed fb _ (plannedItems probe env fb irc) (max 0 irc.GetWidth) R]
    apply chainX_of_formula
    intro k d hk
    rw [planned_cell_H probe env fb irc hd h0 q R hq k d hk]
    exact ⟨rfl, rfl⟩

theorem rows_stacked (probe : FlowBoxLayout → Rect → FlowBoxLayout) (env : Env)
    (fb : FlowBoxLayout) (irc : Rect) (hd : fb.dir = Direction.H) :
    RowsStacked fb.gap irc.top
      (((plannedRows probe env fb irc).map (fun R =>
          cellRects (PreLayoutCalcWith probe env fb irc).items (R.cells.map (fun c => c.idx)))).zip
        (finalRowHeights probe env fb irc)) := by
  by_cases h0 : visibleCount env fb.items = 0
  · apply rowsStacked_empty
    intro cells hc
    rw [plannedRows_invisible probe env fb irc h0] at hc
    simp only [List.map_cons, List.map_nil, List.mem_singleton] at hc
    rw [hc]; rfl
  · apply rowsStacked_of_formula
    intro q cells hq c hc
    rw [List.getElem?_map] at hq
    cases hR : (plannedRows probe env fb irc)[q]? with
    | none => rw [hR] at hq; cases hq
    | some R =>
      rw [hR] at hq
      simp only [Option.map_some', Option.some.injEq] at hq
      rw [← hq, cellRects_distributed fb _ (plannedItems probe env fb irc) (max 0 irc.GetWidth) R]
        at hc
      obtain ⟨d, hdm, rfl⟩ := List.mem_map.mp hc
      obtain ⟨k, hk⟩ := mem_getElem? _ d hdm
      rw [planned_cell_H probe env fb irc hd h0 q R hR k d hk]
      exact ⟨rfl, rfl⟩

/-- In horizontal mode, with a gap that is not negative, no two cell rectangles
overlap when no cell rectangle has a negative width. -/
theorem rows_noOverlap (probe : FlowBoxLayout → Rect → FlowBoxLayout) (env : Env)
    (fb : FlowBoxLayout) (irc : Rect) (hd : fb.dir = Direction.H) (hgap : 0 ≤ fb.gap)
    (hw : ∀ i, 0 ≤ (getItem (PreLayoutCalcWith probe env fb irc).items i).cl.cell.GetWidth) :
    (cellRects (PreLayoutCalcWith probe env fb irc).items
      ((cellsOfRows (plannedRows probe env fb irc)).map (fun c => c.idx))).Pairwise
      Rect.NoOverlap := by
  refine (noOverlap_rows fb.gap hgap _ (plannedRows probe env fb irc)
    (finalRowHeights probe env fb irc) irc.top
    (finalRowHeights_length probe env fb irc).symm
    (finalRowHeights_nonneg probe env fb irc)
    (rows_stacked probe env fb irc hd) ?_).1
  intro R hR
  have hch := rows_chainX probe env fb irc hd R hR
  refine List.Pairwise.imp (fun h => Or.inl h) (chainX_sorted fb.gap hgap _ _ hch ?_).1
  intro c hc
  unfold cellRects at hc
  obtain ⟨i, _, rfl⟩ := List.mem_map.mp hc
  have := hw i
  unfold Rect.GetWidth at this
  omega

theorem cellRects_column (fb : FlowBoxLayout) (items its : List Item) (inner_h : Int)
    (cells : List VCell) :
    cellRects items (cells.map (fun c => c.idx))
      = (vDistributeAll fb its inner_h cells).map (fun d => (getItem items d.idx).cl.cell) := by
  have hidx : (vDistributeAll fb its inner_h cells).map (fun c => c.idx)
      = cells.map (fun c => c.idx) :=
    forall₂_map_eq (VCellStep its) (fun c => c.idx) (fun _ _ hab => hab.1) _ _
      (vDistributeAll_step fb its inner_h cells)
  rw [← hidx]
  simp [cellRects, List.map_map, Function.comp]

theorem column_chainY (probe : FlowBoxLayout → Rect → FlowBoxLayout) (env : Env)
    (fb : FlowBoxLayout) (irc : Rect) (hd : fb.dir = Direction.V) :
    ChainY fb.gap irc.top
      (cellRects (PreLayoutCalcWith probe env fb irc).items
        ((plannedColumn probe env fb irc).map (fun c => c.idx))) := by
  by_cases h0 : visibleCount env fb.items = 0
  · rw [plannedColumn_invisible probe env fb irc h0]
    exact trivial
  · rw [cellRects_column fb _ (plannedColumnItems probe env fb irc) (max 0 irc.GetHeight)]
    apply chainY_of_formula
    intro k c hk
    rw [planned_cell_V probe env fb irc hd h0 k c hk]
    exact ⟨rfl, rfl⟩

/-- In vertical mode, with a gap that is not negative, no two cell rectangles
overlap when no cell of the column has a negative height. -/
theorem column_noOverlap (probe : FlowBoxLayout → Rect → FlowBoxLayout) (env : Env)
    (fb : FlowBoxLayout) (irc : Rect) (hd : fb.dir = Direction.V) (hgap : 0 ≤ fb.gap)
    (hh : ∀ c ∈ distributedColumn probe env fb irc, 0 ≤ c.h) :
    (cellRects (PreLayoutCalcWith probe env fb irc).items
      ((plannedColumn probe env fb irc).map (fun c => c.idx))).Pairwise Rect.NoOverlap := by
  have hch := column_chainY probe env fb irc hd
  refine List.Pairwise.imp (fun h => Or.inr (Or.inr (Or.inl h)))
    (chainY_sorted fb.gap hgap _ _ hch ?_).1
  intro r hr
  by_cases h0 : visibleCount env fb.items = 0
  · rw [plannedColumn_invisible probe env fb irc h0] at hr
    cases hr
  · rw [cellRects_column fb _ (plannedColumnItems probe env fb irc) (max 0 irc.GetHeight)] at hr
    obtain ⟨c, hc, rfl⟩ := List.mem_map.mp hr
    obtain ⟨k, hk⟩ := mem_getElem? _ c hc
    rw [planned_cell_V probe env fb irc hd h0 k c hk]
    have := hh c hc
    show cellTop fb.gap irc.top (distributedColumn probe env fb irc) k
      ≤ cellTop fb.gap irc.top (distributedColumn probe env fb irc) k + c.h
    omega

/-! ## The content rectangle of a centred box -/

theorem plannedItems_cfg (probe : FlowBoxLayout → Rect → FlowBoxLayout) (env : Env)
    (fb : FlowBoxLayout) (irc : Rect) (j : Nat) :
    (getItem (plannedItems probe env fb irc) j).cfg = (getItem fb.items j).cfg := by
  unfold plannedItems
  rw [hBuild_cfg]
  exact (getItem_marked env fb.items j).1

/-- PASS 1 over a list with one more item at its end: the loop state is that of
the loop body on the last item, run on the state PASS 1 leaves for the list
before it. -/
theorem hBuild_snoc (fb : FlowBoxLayout) (env : Env)
    (probe : FlowBoxLayout → Rect → FlowBoxLayout) (irc : Rect) (inner_w inner_h : Int)
    (a : Item) :
    ∀ (l : List Item) (i : Nat) (st : HBuild),
      (hBuild fb env probe irc inner_w inner_h i (l ++ [a]) st).2
        = (hItem fb env probe irc inner_w inner_h (i + l.length) a
            (hBuild fb env probe irc inner_w inner_h i l st).2).2 := by
  intro l
  induction l with
  | nil => intro i st; simp [hBuild]
  | cons b rest ih =>
    intro i st
    rw [List.cons_append]
    simp only [hBuild, List.length_cons]
    rw [ih]
    rw [show i + 1 + rest.length = i + (rest.length + 1) by omega]

theorem take_succ_getItem (items : List Item) (m : Nat) (hm : m < items.length) :
    items.take (m + 1) = items.take m ++ [getItem items m] := by
  rw [List.take_succ]
  congr 1
  unfold getItem
  rw [List.getD_eq_getElem _ _ hm, List.getElem?_eq_getElem hm]
  rfl

/-- The loop state of PASS 1 before the first item. -/
theorem pass1State_zero (probe : FlowBoxLayout → Rect → FlowBoxLayout) (env : Env)
    (fb : FlowBoxLayout) (irc : Rect) :
    pass1State probe env fb irc 0 = { x_row := irc.left } := by
  unfold pass1State
  rw [List.take_zero]
  rfl

/-- The loop state of PASS 1 after item `m`: the loop body run on item `m` in the
state before it. -/
theorem pass1State_succ (probe : FlowBoxLayout → Rect → FlowBoxLayout) (env : Env)
    (fb : FlowBoxLayout) (irc : Rect) (m : Nat) (hm : m < fb.items.length) :
    pass1State probe env fb irc (m + 1)
      = (hItem (planStart env fb irc) env probe irc (max 0 irc.GetWidth) (max 0 irc.GetHeight) m
          (getItem (planStart env fb irc).items m) (pass1State probe env fb irc m)).2 := by
  have hlen : (planStart env fb irc).items.length = fb.items.length := by
    simp [planStart, markVisible, resetTransient]
  unfold pass1State
  rw [take_succ_getItem _ _ (by rw [hlen]; exact hm), hBuild_snoc]
  rw [List.length_take, Nat.min_eq_left (by rw [hlen]; omega), Nat.zero_add]

/-- The rows PASS 1 builds are those of the loop state after the last item. -/
theorem pass1State_final (probe : FlowBoxLayout → Rect → FlowBoxLayout) (env : Env)
    (fb : FlowBoxLayout) (irc : Rect) :
    (pass1State probe env fb irc fb.items.length).rows = plannedRows probe env fb irc := by
  have hlen : (planStart env fb irc).items.length = fb.items.length := by
    simp [planStart, markVisible, resetTransient]
  unfold pass1State plannedRows
  rw [← hlen, List.take_length]

/-- A property of the loop state that the body of PASS 1 maintains holds in
every state of PASS 1. -/
theorem pass1State_inv (probe : FlowBoxLayout → Rect → FlowBoxLayout) (env : Env)
    (fb : FlowBoxLayout) (irc : Rect) (P : HBuild → Prop)
    (h0 : P { x_row := irc.left })
    (hstep : ∀ i it st, P st →
      P (hItem (planStart env fb irc) env probe irc (max 0 irc.GetWidth) (max 0 irc.GetHeight)
          i it st).2) :
    ∀ m, m ≤ fb.items.length → P (pass1State probe env fb irc m) := by
  intro m
  induction m with
  | zero => intro _; rw [pass1State_zero]; exact h0
  | succ m ih =>
    intro hm
    rw [pass1State_succ probe env fb irc m (by omega)]
    exact hstep _ _ _ (ih (by omega))

theorem planStart_visible (env : Env) (fb : FlowBoxLayout) (irc : Rect) (i : Nat)
    (hi : i < fb.items.length) :
    (getItem (planStart env fb irc).items i).cl.visible = participates env (getItem fb.items i) := by
  show (getItem (markVisible env (resetTransient fb.items)) i).cl.visible = _
  rw [getItem_markVisible env fb.items i hi]
  unfold markItem
  rw [participates_reset]
  cases hp : participates env (getItem fb.items i) <;> simp

theorem planStart_is_break (env : Env) (fb : FlowBoxLayout) (irc : Rect) (i : Nat) :
    (getItem (planStart env fb irc).items i).is_break = (getItem fb.items i).is_break :=
  (cfg_fields _ _ (getItem_marked env fb.items i).1).2.2.2.2.1

/-! ## The hard break -/

/-- The body of PASS 1 on a participating break with wrap on: a new row when the
top row has content, nothing otherwise. -/
theorem hItem_break (fb : FlowBoxLayout) (env : Env)
    (probe : FlowBoxLayout → Rect → FlowBoxLayout)
    (irc : Rect) (inner_w inner_h : Int) (i : Nat) (it : Item) (st : HBuild)
    (hv : it.cl.visible = true) (hw : fb.wrap = true) (hb : it.is_break = true) :
    (hItem fb env probe irc inner_w inner_h i it st).2
      = if st.topHasContent = true then st.new_row irc else st := by
  unfold hItem
  rw [if_neg (by rw [hv]; simp), if_pos ⟨hw, hb⟩]

theorem new_row_top (irc : Rect) (st : HBuild) : (st.new_row irc).topHasContent = false := by
  simp [HBuild.new_row, HBuild.topHasContent]

/-- After a break the top row is empty. -/
theorem hItem_break_top (fb : FlowBoxLayout) (env : Env)
    (probe : FlowBoxLayout → Rect → FlowBoxLayout)
    (irc : Rect) (inner_w inner_h : Int) (i : Nat) (it : Item) (st : HBuild)
    (hv : it.cl.visible = true) (hw : fb.wrap = true) (hb : it.is_break = true) :
    (hItem fb env probe irc inner_w inner_h i it st).2.topHasContent = false := by
  rw [hItem_break fb env probe irc inner_w inner_h i it st hv hw hb]
  by_cases hc : st.topHasContent = true
  · rw [if_pos hc]; exact new_row_top irc st
  · rw [if_neg hc]; simpa using hc

/-- Every row before the top row has a cell or a gap-expander. -/
theorem hItem_done_nonempty (fb : FlowBoxLayout) (env : Env)
    (probe : FlowBoxLayout → Rect → FlowBoxLayout)
    (irc : Rect) (inner_w inner_h : Int) (i : Nat) (it : Item) (st : HBuild)
    (h : ∀ R ∈ st.done, R.isEmpty = false) :
    ∀ R ∈ (hItem fb env probe irc inner_w inner_h i it st).2.done, R.isEmpty = false := by
  have hnew : st.topHasContent = true → ∀ R ∈ (st.new_row irc).done, R.isEmpty = false := by
    intro hc R hR
    simp only [HBuild.new_row, List.mem_append, List.mem_singleton] at hR
    rcases hR with hR | hR
    · exact h R hR
    · rw [hR]
      unfold HBuild.topHasContent at hc
      unfold Row.isEmpty
      cases hcs : st.top.cells <;> cases hgs : st.top.gaps <;> simp [hcs, hgs] at hc ⊢
  rcases hItem_state_cases fb env probe irc inner_w inner_h i it st with
    e | ⟨hc, e⟩ | ⟨g, _, e⟩ | ⟨rc, _, e | ⟨hc, e⟩⟩
  · rw [e]; exact h
  · rw [e]; exact hnew hc
  · rw [e]; exact h
  · rw [e]; exact h
  · rw [e]; exact hnew hc

theorem dropLast_rows (st : HBuild) : st.rows.dropLast = st.done := by
  unfold HBuild.rows
  exact List.dropLast_concat

/-- No row PASS 1 builds, other than possibly the last one, is empty. -/
theorem plannedRows_inner_nonempty (probe : FlowBoxLayout → Rect → FlowBoxLayout) (env : Env)
    (fb : FlowBoxLayout) (irc : Rect) :
    ∀ R ∈ (plannedRows probe env fb irc).dropLast, R.isEmpty = false := by
  rw [← pass1State_final, dropLast_rows]
  exact pass1State_inv probe env fb irc (fun st => ∀ R ∈ st.done, R.isEmpty = false)
    (by intro R hR; cases hR)
    (fun i it st h => hItem_done_nonempty (planStart env fb irc) env probe irc _ _ i it st h) _ (le_refl _)

/-- While every item so far is a break, PASS 1 of a wrapping container is in
its initial state. -/
theorem pass1State_leading_breaks (probe : FlowBoxLayout → Rect → FlowBoxLayout) (env : Env)
    (fb : FlowBoxLayout) (irc : Rect) (hw : fb.wrap = true) :
    ∀ m, m ≤ fb.items.length → (∀ j, j < m → (getItem fb.items j).is_break = true) →
      pass1State probe env fb irc m = { x_row := irc.left } := by
  intro m
  induction m with
  | zero => intro _ _; exact pass1State_zero probe env fb irc
  | succ m ih =>
    intro hm hb
    have hbm := hb m (Nat.lt_succ_self _)
    rw [pass1State_succ probe env fb irc m (by omega),
      hItem_break (planStart env fb irc) env probe irc _ _ m _ _
        (by
          rw [planStart_visible env fb irc m (by omega)]
          exact (participates_iff env _).mpr (Or.inl hbm))
        hw (by rw [planStart_is_break]; exact hbm),
      ih (by omega) (fun j hj => hb j (Nat.lt_succ_of_lt hj))]
    rfl

/-- After `k + 1` consecutive breaks PASS 1 of a wrapping container is in the
state one break leaves. -/
theorem pass1State_breaks (probe : FlowBoxLayout → Rect → FlowBoxLayout) (env : Env)
    (fb : FlowBoxLayout) (irc : Rect) (hw : fb.wrap = true) (m : Nat) :
    ∀ k, m + k + 1 ≤ fb.items.length →
      (∀ j, m ≤ j → j < m + k + 1 → (getItem fb.items j).is_break = true) →
      pass1State probe env fb irc (m + k + 1) = pass1State probe env fb irc (m + 1) ∧
      (pass1State probe env fb irc (m + k + 1)).topHasContent = false := by
  have hstep : ∀ j, j < fb.items.length → (getItem fb.items j).is_break = true →
      pass1State probe env fb irc (j + 1)
        = (if (pass1State probe env fb irc j).topHasContent = true
            then (pass1State probe env fb irc j).new_row irc
            else pass1State probe env fb irc j) ∧
      (pass1State probe env fb irc (j + 1)).topHasContent = false := by
    intro j hj hbj
    have hv : (getItem (planStart env fb irc).items j).cl.visible = true := by
      rw [planStart_visible env fb irc j hj]
      exact (participates_iff env _).mpr (Or.inl hbj)
    have hb2 : (getItem (planStart env fb irc).items j).is_break = true := by
      rw [planStart_is_break]; exact hbj
    rw [pass1State_succ probe env fb irc j hj]
    exact ⟨hItem_break (planStart env fb irc) env probe irc _ _ j _ _ hv hw hb2,
      hItem_break_top (planStart env fb irc) env probe irc _ _ j _ _ hv hw hb2⟩
  intro k
  induction k with
  | zero =>
    intro hm hb
    exact ⟨rfl, (hstep m (by omega) (hb m (le_refl _) (by omega))).2⟩
  | succ k ih =>
    intro hm hb
    obtain ⟨i1, i2⟩ := ih (by omega) (fun j h1 h2 => hb j h1 (by omega))
    obtain ⟨s1, s2⟩ := hstep (m + k + 1) (by omega) (hb _ (by omega) (by omega))
    rw [show m + (k + 1) + 1 = m + k + 1 + 1 by omega]
    refine ⟨?_, s2⟩
    rw [s1, if_neg (by rw [i2]; simp), i1]

/-! ## Fixed-column mode -/

/-- Every participating item has a cell in the column. -/
theorem vBuild_covers (fb : FlowBoxLayout) (env : Env)
    (probe : FlowBoxLayout → Rect → FlowBoxLayout) (inner_w : Int) (items : List Item) :
    ∀ (i j : Nat), j < items.length → (getItem items j).cl.visible = true →
      ∃ c ∈ (vBuild fb env probe inner_w i items).2,
        (vItem fb env probe inner_w (i + j) (getItem items j)).2 = some c := by
  induction items with
  | nil => intro i j hj; simp at hj
  | cons it rest ih =>
    intro i j hj hv
    unfold vBuild
    cases j with
    | zero =>
      rw [getItem_cons_zero] at hv ⊢
      cases hc : (vItem fb env probe inner_w i it).2 with
      | none =>
        exfalso
        unfold vItem at hc
        rw [if_neg (by rw [hv]; simp)] at hc
        split_ifs at hc
      | some c =>
        refine ⟨c, ?_, by simpa using hc⟩
        simp only [hc, Option.toList, List.singleton_append, List.mem_cons, true_or]
    | succ j =>
      rw [getItem_cons_succ] at hv ⊢
      obtain ⟨c, hc, he⟩ := ih (i + 1) j (by simpa using hj) hv
      refine ⟨c, List.mem_append_right _ hc, ?_⟩
      rw [show i + (j + 1) = i + 1 + j by omega]
      exact he

/-- The build loop adds one cell for every item whose `visible` flag is set. -/
theorem vBuild_length (fb : FlowBoxLayout) (env : Env)
    (probe : FlowBoxLayout → Rect → FlowBoxLayout) (inner_w : Int) (items : List Item) :
    ∀ (i : Nat), (vBuild fb env probe inner_w i items).2.length
      = (items.filter (fun it => it.cl.visible)).length := by
  induction items with
  | nil => intro i; rfl
  | cons it rest ih =>
    intro i
    unfold vBuild
    simp only [List.length_append, ih (i + 1)]
    cases hv : it.cl.visible with
    | false =>
      have : (vItem fb env probe inner_w i it).2 = none := by
        unfold vItem; rw [if_pos hv]
      rw [this]
      simp [List.filter, hv]
    | true =>
      obtain ⟨c, _, hc⟩ := vBuild_covers fb env probe inner_w [it] i 0 (by simp)
        (by rw [getItem_cons_zero]; exact hv)
      rw [getItem_cons_zero, Nat.add_zero] at hc
      rw [hc]
      simp [List.filter, hv]
      omega

theorem marked_filter_length (env : Env) (items : List Item) :
    ((markVisible env (resetTransient items)).filter (fun it => it.cl.visible)).length
      = visibleCount env items := by
  unfold visibleCount markVisible resetTransient
  induction items with
  | nil => rfl
  | cons it rest ih =>
    simp only [List.map_cons, List.filter]
    have hv : (markItem env { it with cl := {} }).cl.visible = participates env it := by
      unfold markItem
      rw [participates_reset]
      cases hp : participates env it <;> simp
    rw [hv]
    cases hp : participates env it
    · simpa using ih
    · simpa using ih

/-- The column has one cell for every participating item. -/
theorem plannedColumn_length (probe : FlowBoxLayout → Rect → FlowBoxLayout) (env : Env)
    (fb : FlowBoxLayout) (irc : Rect) :
    (plannedColumn probe env fb irc).length = visibleCount env fb.items := by
  unfold plannedColumn
  rw [vBuild_length]
  exact marked_filter_length env fb.items

/-- The used height `LayoutVertical` computes: the extent of the cells with one
gap between consecutive cells, clamped to the inner height. -/
theorem planned_used_h_V (probe : FlowBoxLayout → Rect → FlowBoxLayout) (env : Env)
    (fb : FlowBoxLayout) (irc : Rect) (hd : fb.dir = Direction.V)
    (h0 : visibleCount env fb.items ≠ 0) :
    (PreLayoutCalcWith probe env fb irc).used_h
      = min (max 0 irc.GetHeight)
          (((distributedColumn probe env fb irc).map (fun c => c.h)).sum
            + (((distributedColumn probe env fb irc).length : Int) - 1) * fb.gap) := by
  have hne : distributedColumn probe env fb irc ≠ [] := by
    intro he
    have hl : (distributedColumn probe env fb irc).length
        = (plannedColumn probe env fb irc).length :=
      (List.Forall₂.length_eq (vDistributeAll_step fb _ _ _)).symm
    rw [he, plannedColumn_length] at hl
    exact h0 hl.symm
  have hy := vPlace_y (planStart env fb irc) env irc (max 0 irc.GetWidth)
    (distributedColumn probe env fb irc) 0
    ⟨plannedColumnItems probe env fb irc, irc.top, 0⟩ hne
  unfold PreLayoutCalcWith
  simp only
  rw [if_neg h0, hd]
  show min (max 0 irc.GetHeight)
      ((vPlace (planStart env fb irc) env irc (max 0 irc.GetWidth) 0
        (distributedColumn probe env fb irc)
        ⟨plannedColumnItems probe env fb irc, irc.top, 0⟩).y - irc.top) = _
  rw [hy]
  show min (max 0 irc.GetHeight) (irc.top + _ + _ * fb.gap - irc.top) = _
  congr 1
  ring

/-! ## Row heights: the split of the extra height -/

theorem PreLayoutCalcWith_config (probe : FlowBoxLayout → Rect → FlowBoxLayout) (env : Env)
    (fb : FlowBoxLayout) (irc : Rect) :
    (PreLayoutCalcWith probe env fb irc).gap = fb.gap ∧
    (PreLayoutCalcWith probe env fb irc).fixed_column = fb.fixed_column ∧
    (PreLayoutCalcWith probe env fb irc).fixed_row = fb.fixed_row := by
  unfold PreLayoutCalcWith
  by_cases h : visibleCount env fb.items = 0
  · simp [h, planStart]
  · cases hd : fb.dir <;> simp [h, hd, planStart, LayoutHorizontal, LayoutVertical]

theorem PreLayoutCalc_config (depth : Nat) (env : Env) (fb : FlowBoxLayout) (irc : Rect) :
    (PreLayoutCalc depth env fb irc).gap = fb.gap ∧
    (PreLayoutCalc depth env fb irc).fixed_column = fb.fixed_column ∧
    (PreLayoutCalc depth env fb irc).fixed_row = fb.fixed_row := by
  cases depth <;> exact PreLayoutCalcWith_config _ env fb irc

/-- `Layout` does not touch the gap, the fixed column or the fixed row. -/
theorem Layout_config (depth : Nat) (env : Env) (sz : Size) (fb : FlowBoxLayout) :
    (Layout depth env sz fb).fb.gap = fb.gap ∧
    (Layout depth env sz fb).fb.fixed_column = fb.fixed_column ∧
    (Layout depth env sz fb).fb.fixed_row = fb.fixed_row := by
  rcases Layout_cases depth env sz fb with e | e | e | e <;> rw [e]
  · exact ⟨rfl, rfl, rfl⟩
  · exact ⟨rfl, rfl, rfl⟩
  · exact PreLayoutCalc_config depth env fb _
  · exact ⟨rfl, rfl, rfl⟩

/-- Whether the stored values of an item are valid depends on its
configuration only. -/
theorem itemValid_cfg (a b : Item) (h : a.cfg = b.cfg)
    (ha : (a.fixed = -1 ∨ 0 ≤ a.fixed) ∧ (a.expandingWeight = 0 ∨ 1 ≤ a.expandingWeight)) :
    (b.fixed = -1 ∨ 0 ≤ b.fixed) ∧ (b.expandingWeight = 0 ∨ 1 ≤ b.expandingWeight) := by
  obtain ⟨-, h2, h3, -⟩ := cfg_fields a b h
  rw [← h2, ← h3]; exact ha

theorem ConfigValid_Layout (depth : Nat) (env : Env) (sz : Size) (fb : FlowBoxLayout)
    (h : ConfigValid fb) : ConfigValid (Layout depth env sz fb).fb := by
  obtain ⟨h1, h2, h3, h4⟩ := h
  obtain ⟨e1, e2, e3⟩ := Layout_config depth env sz fb
  refine ⟨by rw [e1]; exact h1, by rw [e2]; exact h2, by rw [e3]; exact h3, ?_⟩
  intro j
  exact itemValid_cfg _ _ (Layout_cfg depth env sz fb j).symm (h4 j)

theorem ConfigValid_markDirty (depth : Nat) (env : Env) (sz : Size) (fb : FlowBoxLayout)
    (h : ConfigValid fb) : ConfigValid (markDirty depth env sz fb).fb := by
  unfold markDirty
  simp only
  split_ifs
  · exact ConfigValid_Layout depth env sz _ h
  · exact h

theorem ConfigValid_default : ConfigValid {} := by
  refine ⟨le_refl _, Or.inl rfl, Or.inl rfl, ?_⟩
  intro j
  simp only [getItem, List.getD_nil]
  exact ⟨Or.inl rfl, Or.inl rfl⟩

theorem itemValid_default :
    ((default : Item).fixed = -1 ∨ 0 ≤ (default : Item).fixed) ∧
    ((default : Item).expandingWeight = 0 ∨ 1 ≤ (default : Item).expandingWeight) :=
  ⟨Or.inl rfl, Or.inl rfl⟩

theorem ConfigValid_addItem (depth : Nat) (env : Env) (sz : Size) (fb : FlowBoxLayout)
    (it : Item) (h : ConfigValid fb)
    (hit : (it.fixed = -1 ∨ 0 ≤ it.fixed) ∧ (it.expandingWeight = 0 ∨ 1 ≤ it.expandingWeight)) :
    ConfigValid (addItem depth env sz fb it).fb := by
  unfold addItem
  apply ConfigValid_markDirty
  obtain ⟨h1, h2, h3, h4⟩ := h
  refine ⟨h1, h2, h3, ?_⟩
  intro j
  show (_ ∨ _) ∧ (_ ∨ _)
  simp only [getItem_append_single]
  split_ifs
  · exact h4 j
  · exact hit
  · exact itemValid_default

theorem ConfigValid_update (depth : Nat) (env : Env) (sz : Size) (fb : FlowBoxLayout)
    (index : Int) (f : Item → Item) (h : ConfigValid fb)
    (hf : ∀ it, ((f it).fixed = -1 ∨ 0 ≤ (f it).fixed) ∧
      ((f it).expandingWeight = 0 ∨ 1 ≤ (f it).expandingWeight) ∨
      ((f it).fixed = it.fixed ∧ (f it).expandingWeight = it.expandingWeight) ∨
      ((f it).fixed = it.fixed ∧ ((f it).expandingWeight = 0 ∨ 1 ≤ (f it).expandingWeight))) :
    ConfigValid (markDirty depth env sz (ItemRef.update fb index f)).fb := by
  apply ConfigValid_markDirty
  obtain ⟨h1, h2, h3, h4⟩ := h
  have hfr : (ItemRef.update fb index f).gap = fb.gap ∧
      (ItemRef.update fb index f).fixed_column = fb.fixed_column ∧
      (ItemRef.update fb index f).fixed_row = fb.fixed_row := by
    unfold ItemRef.update
    split_ifs <;> exact ⟨rfl, rfl, rfl⟩
  refine ⟨by rw [hfr.1]; exact h1, by rw [hfr.2.1]; exact h2, by rw [hfr.2.2]; exact h3, ?_⟩
  intro j
  rw [ItemRef_update_getItem]
  split_ifs
  · rcases hf (getItem fb.items j) with x | ⟨x1, x2⟩ | ⟨x1, x2⟩
    · exact x
    · rw [x1, x2]; exact h4 j
    · rw [x1]; exact ⟨(h4 j).1, x2⟩
  · exact h4 j

/-- Every mutator keeps the validated values valid. -/
theorem Mutator_apply_valid (depth : Nat) (env : Env) (sz : Size) (fb : FlowBoxLayout)
    (m : Mutator) (h : ConfigValid fb) : ConfigValid (m.apply depth env sz fb).fb := by
  have hmax1 : ∀ w : Int, (max 1 w = 0 ∨ 1 ≤ max 1 w) := fun w => Or.inr (le_max_left _ _)
  have hmax0 : ∀ px : Int, (max 0 px = -1 ∨ 0 ≤ max 0 px) := fun px => Or.inr (le_max_left _ _)
  cases m
  case ClearItems =>
    simp only [Mutator.apply, Upp.ClearItems]
    apply ConfigValid_Layout
    obtain ⟨h1, h2, h3, _⟩ := h
    refine ⟨h1, h2, h3, ?_⟩
    intro j
    simp only [getItem, List.getD_nil]
    exact itemValid_default
  case SetWrapAutoResize e => exact h
  case Add c =>
    exact ConfigValid_addItem depth env sz fb _ h ⟨Or.inl rfl, Or.inr (le_refl _)⟩
  case AddExpand c w =>
    exact ConfigValid_addItem depth env sz fb _ h ⟨Or.inl rfl, hmax1 w⟩
  case AddFixed c px =>
    exact ConfigValid_addItem depth env sz fb _ h ⟨hmax0 px, Or.inl rfl⟩
  case AddFit c =>
    exact ConfigValid_addItem depth env sz fb _ h ⟨Or.inl rfl, Or.inl rfl⟩
  case AddSpacer w =>
    exact ConfigValid_addItem depth env sz fb _ h ⟨Or.inl rfl, hmax1 w⟩
  case AddBreak w =>
    exact ConfigValid_addItem depth env sz fb _ h ⟨Or.inl rfl, hmax1 w⟩
  case Expand index w =>
    exact ConfigValid_update depth env sz fb index _ h
      (fun it => Or.inr (Or.inr ⟨rfl, hmax1 w⟩))
  case Fixed index px =>
    exact ConfigValid_update depth env sz fb index _ h
      (fun it => Or.inl ⟨hmax0 px, Or.inl rfl⟩)
  case Fit index =>
    exact ConfigValid_update depth env sz fb index _ h
      (fun it => Or.inl ⟨Or.inl rfl, Or.inl rfl⟩)
  case MinMaxWidth index a b =>
    exact ConfigValid_update depth env sz fb index _ h (fun it => Or.inr (Or.inl ⟨rfl, rfl⟩))
  case MinMaxHeight index a b =>
    exact ConfigValid_update depth env sz fb index _ h (fun it => Or.inr (Or.inl ⟨rfl, rfl⟩))
  case AlignSelf index a =>
    exact ConfigValid_update depth env sz fb index _ h (fun it => Or.inr (Or.inl ⟨rfl, rfl⟩))
  case SetDirection d => exact ConfigValid_markDirty depth env sz _ h
  case SetGap px =>
    apply ConfigValid_markDirty
    exact ⟨le_max_left _ _, h.2.1, h.2.2.1, h.2.2.2⟩
  case SetInset l t r b => exact ConfigValid_markDirty depth env sz _ h
  case SetWrap e => exact ConfigValid_markDirty depth env sz _ h
  case SetWrapRowsExpand e => exact ConfigValid_markDirty depth env sz _ h
  case SetAlignItems a => exact ConfigValid_markDirty depth env sz _ h
  case SetFixedColumn px =>
    apply ConfigValid_markDirty
    refine ⟨h.1, ?_, h.2.2.1, h.2.2.2⟩
    show (if px ≥ 0 then px else -1) = -1 ∨ 0 ≤ (if px ≥ 0 then px else -1)
    split_ifs with hp
    · exact Or.inr hp
    · exact Or.inl rfl
  case SetFixedRow px =>
    apply ConfigValid_markDirty
    refine ⟨h.1, h.2.1, ?_, h.2.2.2⟩
    show (if px ≥ 0 then px else -1) = -1 ∨ 0 ≤ (if px ≥ 0 then px else -1)
    split_ifs with hp
    · exact Or.inr hp
    · exact Or.inl rfl

theorem Call_apply_valid (depth : Nat) (env : Env) (sz : Size) (fb : FlowBoxLayout)
    (c : Call) (h : ConfigValid fb) : ConfigValid (c.apply depth env sz fb).fb := by
  cases c
  case PauseLayout => exact h
  case ResumeLayout r =>
    simp only [Call.apply, Upp.ResumeLayout]
    split_ifs
    · exact ConfigValid_Layout depth env sz _ h
    · exact h
    · exact ConfigValid_Layout depth env sz _ h
    · exact h
  case mutate m => exact Mutator_apply_valid depth env sz fb m h
  case Layout => exact ConfigValid_Layout depth env sz fb h

theorem runCalls_valid (depth : Nat) (env : Env) (sz : Size) :
    ∀ (calls : List Call) (fb : FlowBoxLayout), ConfigValid fb →
      ConfigValid (runCalls depth env sz calls fb).1 := by
  intro calls
  induction calls with
  | nil => intro fb h; exact h
  | cons c rest ih =>
    intro fb h
    simp only [runCalls]
    exact ih _ (Call_apply_valid depth env sz fb c h)

/-- The item an insertion helper appends, read back after the call. -/
theorem addItem_last (depth : Nat) (env : Env) (sz : Size) (fb : FlowBoxLayout) (it : Item) :
    (getItem (addItem depth env sz fb it).fb.items fb.items.length).cfg = it.cfg := by
  unfold addItem
  rw [markDirty_cfg, getItem_append_single, if_neg (lt_irrefl _), if_pos rfl]

/-- In vertical mode without a fixed row, the cell of a participating break
whose weight is at least `1` (as `AddBreak` stores it) has the weight `0`. -/
theorem vItem_break_weight (fb : FlowBoxLayout) (env : Env)
    (probe : FlowBoxLayout → Rect → FlowBoxLayout) (inner_w : Int) (i : Nat) (it : Item)
    (hv : it.cl.visible = true) (hF : fb.fixed_row < 0) (hb : it.is_break = true)
    (hw : 1 ≤ it.expandingWeight) :
    (vItem fb env probe inner_w i it).2
      = some ⟨i, ClampWith it.minh it.maxh (max fb.gap 0), 0⟩ := by
  unfold vItem
  rw [if_neg (by rw [hv]; simp), if_neg (by omega), if_pos hb]
  simp only
  rw [if_neg (by omega)]

/-- C23 (break in vertical mode): the code does not do what the claim says.
`AddBreak` stores `max(1, weight)`, so the test `expandingWeight <= 0` of the
build loop never holds for a break added through the API, and the break gets a
cell of the gap height with weight `0`.  For
`AddFixed(c0, 40); AddBreak(); AddFixed(c1, 40)` with gap `10` laid out at
`100 × 200`: the break keeps the height `10`, the `90` units left over are
handed to nobody and the used height is `110`; a spacer in the same place
(`AddSpacer()`) receives the leftover and ends `100` high, with used height
`200`. -/
theorem C23_break_gets_no_share :
    (getItem (sampleStack (Mutator.AddBreak 1)).items 1).is_break = true ∧
    (getItem (sampleStack (Mutator.AddBreak 1)).items 1).expandingWeight = 1 ∧
    (sampleStack (Mutator.AddBreak 1)).fixed_row = -1 ∧
    plannedColumn noProbe sampleEnv (sampleStack (Mutator.AddBreak 1)) (RectC 0 0 100 200)
      = [⟨0, 40, 0⟩, ⟨1, 10, 0⟩, ⟨2, 40, 0⟩] ∧
    (getItem (sampleStack (Mutator.AddBreak 1)).items 1).cl.cell = ⟨0, 50, 100, 60⟩ ∧
    (getItem (sampleStack (Mutator.AddBreak 1)).items 2).cl.cell = ⟨0, 70, 100, 110⟩ ∧
    (sampleStack (Mutator.AddBreak 1)).used_h = 110 ∧
    plannedColumn noProbe sampleEnv (sampleStack (Mutator.AddSpacer 1)) (RectC 0 0 100 200)
      = [⟨0, 40, 0⟩, ⟨1, 0, 1⟩, ⟨2, 40, 0⟩] ∧
    (getItem (sampleStack (Mutator.AddSpacer 1)).items 1).cl.cell = ⟨0, 50, 100, 150⟩ ∧
    (sampleStack (Mutator.AddSpacer 1)).used_h = 200 := by
  decide

/-- C24 (spacer in a non-wrapping horizontal row): the code does not do what
the claim says.  PASS 2C adds the share of a gap-expander to its `minw`, but
the placement loop walks the cells only.  For
`AddFit(c0); AddSpacer(); AddFit(c1)` (intrinsic width `100`) with wrap off, no
fixed column and gap `0` laid out at `500 × 100`: the row has the two cells
and the gap-expander of the spacer, the second box is placed at `100 .. 200`
right after the first, the spacer keeps an empty cell and the used width is
`200`, not `500`.  The same items in a column of height `500` put the second
box at the bottom edge (`480 .. 500`) with used height `500`. -/
theorem C24_spacer_share_not_placed :
    (sampleSpacerBetween Direction.H ⟨500, 100⟩).wrap = false ∧
    (sampleSpacerBetween Direction.H ⟨500, 100⟩).fixed_column = -1 ∧
    (plannedRows noProbe sampleEnv (sampleSpacerBetween Direction.H ⟨500, 100⟩)
        (RectC 0 0 500 100)).map (fun R => (R.cells.map (fun c => (c.idx, c.w)), R.gaps))
      = [([(0, 100), (2, 100)], [⟨1, 1, 0⟩])] ∧
    (distributedRows noProbe sampleEnv (sampleSpacerBetween Direction.H ⟨500, 100⟩)
        (RectC 0 0 500 100)).map (fun R => (R.cells.map (fun c => (c.idx, c.w)), R.gaps))
      = [([(0, 100), (2, 100)], [⟨1, 1, 300⟩])] ∧
    (getItem (sampleSpacerBetween Direction.H ⟨500, 100⟩).items 0).cl.cell = ⟨0, 0, 100, 100⟩ ∧
    (getItem (sampleSpacerBetween Direction.H ⟨500, 100⟩).items 1).cl.cell = ⟨0, 0, 0, 0⟩ ∧
    (getItem (sampleSpacerBetween Direction.H ⟨500, 100⟩).items 2).cl.cell
      = ⟨100, 0, 200, 100⟩ ∧
    (sampleSpacerBetween Direction.H ⟨500, 100⟩).used_w = 200 ∧
    (getItem (sampleSpacerBetween Direction.V ⟨100, 500⟩).items 1).cl.cell
      = ⟨0, 20, 100, 480⟩ ∧
    (getItem (sampleSpacerBetween Direction.V ⟨100, 500⟩).items 2).cl.cell
      = ⟨0, 480, 100, 500⟩ ∧
    (sampleSpacerBetween Direction.V ⟨100, 500⟩).used_h = 500 := by
  decide

/-- The configuration values that the setters validate.  A freshly constructed
container is valid, and every sequence of public calls with arbitrary integer
arguments keeps a valid container valid: `gap ≥ 0`, `fixed_column` and
`fixed_row` are `-1` or `≥ 0`, and every item has `fixed = -1` or `fixed ≥ 0`
and a weight that is `0` (unset) or `≥ 1`.  The weight stored by `AddExpand`,
`AddSpacer`, `AddBreak` and `ItemRef::Expand` is `max(1, w) ≥ 1`, and the
fixed size stored by `AddFixed` and `ItemRef::Fixed` is `max(0, px)`.  The
insets are not among these values. -/
theorem setters_validate_all_but_insets (depth : Nat) (env : Env) (sz : Size) :
    ConfigValid {} ∧
    (∀ (calls : List Call) (fb : FlowBoxLayout), ConfigValid fb →
      ConfigValid (runCalls depth env sz calls fb).1) ∧
    (∀ (fb : FlowBoxLayout) (c : Nat) (w : Int),
      (getItem (AddExpand depth env sz fb c w).fb.items fb.items.length).expandingWeight
        = max 1 w) ∧
    (∀ (fb : FlowBoxLayout) (w : Int),
      (getItem (AddSpacer depth env sz fb w).fb.items fb.items.length).expandingWeight
        = max 1 w) ∧
    (∀ (fb : FlowBoxLayout) (w : Int),
      (getItem (AddBreak depth env sz fb w).fb.items fb.items.length).expandingWeight
        = max 1 w) ∧
    (∀ (fb : FlowBoxLayout) (i : Nat) (w : Int), i < fb.items.length →
      (getItem (ItemRef.Expand depth env sz fb (i : Int) w).fb.items i).expandingWeight
        = max 1 w) ∧
    (∀ (fb : FlowBoxLayout) (c : Nat) (px : Int),
      (getItem (AddFixed depth env sz fb c px).fb.items fb.items.length).fixed = max 0 px) ∧
    (∀ (fb : FlowBoxLayout) (i : Nat) (px : Int), i < fb.items.length →
      (getItem (ItemRef.Fixed depth env sz fb (i : Int) px).fb.items i).fixed = max 0 px) := by
  refine ⟨ConfigValid_default, runCalls_valid depth env sz, ?_, ?_, ?_, ?_, ?_, ?_⟩
  · intro fb c w
    exact (cfg_fields _ _ (addItem_last depth env sz fb _)).2.2.1
  · intro fb w
    exact (cfg_fields _ _ (addItem_last depth env sz fb _)).2.2.1
  · intro fb w
    exact (cfg_fields _ _ (addItem_last depth env sz fb _)).2.2.1
  · intro fb i w hi
    exact (cfg_fields _ _ (ItemRef_update_cfg depth env sz fb i hi _)).2.2.1
  · intro fb c px
    exact (cfg_fields _ _ (addItem_last depth env sz fb _)).2.1
  · intro fb i px hi
    exact (cfg_fields _ _ (ItemRef_update_cfg depth env sz fb i hi _)).2.1

/-- C25 (validated configuration inputs): the code does not do what the claim
says.  The three overloads of `SetInset` store their arguments as they are,
while the sibling setters clamp: on a fresh container, `SetInset(-5, -5, -5,
-5)`, `SetInset(-5)` and `SetInset(-5, -7)` leave the insets `(-5, -5, -5,
-5)`, `(-5, -5, -5, -5)` and `(-5, -7, -5, -7)`, whereas `SetGap(-5)` stores
the gap `0`, `SetFixedColumn(-5)` and `SetFixedRow(-5)` store the sentinel
`-1`, and `AddFixed(c, -5)` stores the fixed size `0`. -/
theorem C25_set_inset_stores_negative :
    (runCalls 0 sampleEnv ⟨100, 100⟩
      [Call.mutate (Mutator.SetInset (-5) (-5) (-5) (-5))] {}).1.inset = ⟨-5, -5, -5, -5⟩ ∧
    (SetInset 0 sampleEnv ⟨100, 100⟩ {} (-5) (-5) (-5) (-5)).fb.inset.left < 0 ∧
    (SetInset 0 sampleEnv ⟨100, 100⟩ {} (-5) (-5) (-5) (-5)).fb.inset.top < 0 ∧
    (SetInset 0 sampleEnv ⟨100, 100⟩ {} (-5) (-5) (-5) (-5)).fb.inset.right < 0 ∧
    (SetInset 0 sampleEnv ⟨100, 100⟩ {} (-5) (-5) (-5) (-5)).fb.inset.bottom < 0 ∧
    (SetInset 0 sampleEnv ⟨100, 100⟩ {} (-5) (-7) (-5) (-7)).fb.inset = ⟨-5, -7, -5, -7⟩ ∧
    (runCalls 0 sampleEnv ⟨100, 100⟩ [Call.mutate (Mutator.SetGap (-5))] {}).1.gap = 0 ∧
    (runCalls 0 sampleEnv ⟨100, 100⟩
      [Call.mutate (Mutator.SetFixedColumn (-5))] {}).1.fixed_column = -1 ∧
    (runCalls 0 sampleEnv ⟨100, 100⟩
      [Call.mutate (Mutator.SetFixedRow (-5))] {}).1.fixed_row = -1 ∧
    (getItem (runCalls 0 sampleEnv ⟨100, 100⟩
      [Call.mutate (Mutator.AddFixed 0 (-5))] {}).1.items 0).fixed = 0 := by
  refine ⟨by decide, by decide, by decide, by decide, by decide, by decide, by decide,
    by decide, by decide, by decide⟩

/-- C27 (hard break rule, no empty inner rows).  In PASS 1 of
`LayoutHorizontal` during `PreLayoutCalc`, with `pass1State m` the loop state
before item `m` (the rows built are those of the state after the last item):
with wrap on, a break starts a new row when the top row holds a cell or a
gap-expander and leaves the state as it is otherwise; while every item so far
is a break the state is the initial one (no leading empty row); and after
`k + 1` consecutive breaks the state is the one a single break leaves.  For
every configuration, no row other than possibly the last one is empty. -/
theorem C27_hard_break_rule (probe : FlowBoxLayout → Rect → FlowBoxLayout) (env : Env)
    (fb : FlowBoxLayout) (irc : Rect) :
    (pass1State probe env fb irc fb.items.length).rows = plannedRows probe env fb irc ∧
    (∀ R ∈ (plannedRows probe env fb irc).dropLast, R.isEmpty = false) ∧
    (fb.wrap = true →
      (∀ m, m < fb.items.length → (getItem fb.items m).is_break = true →
        pass1State probe env fb irc (m + 1)
          = if (pass1State probe env fb irc m).topHasContent = true
            then (pass1State probe env fb irc m).new_row irc
            else pass1State probe env fb irc m) ∧
      (∀ m, m ≤ fb.items.length → (∀ j, j < m → (getItem fb.items j).is_break = true) →
        pass1State probe env fb irc m = { x_row := irc.left }) ∧
      (∀ m k, m + k + 1 ≤ fb.items.length →
        (∀ j, m ≤ j → j < m + k + 1 → (getItem fb.items j).is_break = true) →
        pass1State probe env fb irc (m + k + 1) = pass1State probe env fb irc (m + 1))) := by
  refine ⟨pass1State_final probe env fb irc, plannedRows_inner_nonempty probe env fb irc, ?_⟩
  intro hw
  refine ⟨?_, pass1State_leading_breaks probe env fb irc hw,
    fun m k hm hb => (pass1State_breaks probe env fb irc hw m k hm hb).1⟩
  intro m hm hb
  rw [pass1State_succ probe env fb irc m hm]
  exact hItem_break (planStart env fb irc) env probe irc _ _ m _ _
    (by
      rw [planStart_visible env fb irc m hm]
      exact (participates_iff env _).mpr (Or.inl hb))
    hw (by rw [planStart_is_break]; exact hb)

/-- Witness for C27: a wrapping row whose list is two breaks, a box, two breaks
and a box; the state after the two leading breaks is the initial one, and the
state after the two breaks in the middle is the one after the first of
them. -/
theorem C27_hard_break_rule_witness :
    sampleBreaks.wrap = true ∧
    (∀ j, j < 2 → (getItem sampleBreaks.items j).is_break = true) ∧
    pass1State noProbe sampleEnv sampleBreaks (RectC 0 0 200 100) 2
      = { x_row := (RectC 0 0 200 100).left } ∧
    (∀ j, 3 ≤ j → j < 3 + 1 + 1 → (getItem sampleBreaks.items j).is_break = true) ∧
    pass1State noProbe sampleEnv sampleBreaks (RectC 0 0 200 100) (3 + 1 + 1)
      = pass1State noProbe sampleEnv sampleBreaks (RectC 0 0 200 100) (3 + 1) :=
  ⟨rfl, by decide,
   ((C27_hard_break_rule noProbe sampleEnv sampleBreaks (RectC 0 0 200 100)).2.2 rfl).2.1 2
     (by decide) (by decide),
   by decide,
   ((C27_hard_break_rule noProbe sampleEnv sampleBreaks (RectC 0 0 200 100)).2.2 rfl).2.2 3 1
     (by decide) (by decide)⟩

theorem invalidateFirst_length (c : Nat) :
    ∀ (items : List Item), (invalidateFirst c items).length = items.length := by
  intro items
  induction items with
  | nil => rfl
  | cons it rest ih =>
    unfold invalidateFirst
    split_ifs
    · rfl
    · simp [ih]

theorem invalidateFirst_getItem (c : Nat) :
    ∀ (items : List Item) (j : Nat),
      validityCleared (getItem items j) (getItem (invalidateFirst c items) j) := by
  intro items
  induction items with
  | nil => intro j; exact Or.inl rfl
  | cons it rest ih =>
    intro j
    unfold invalidateFirst
    by_cases h : it.c = some c
    · rw [if_pos h]
      cases j with
      | zero => exact Or.inr rfl
      | succ n => exact Or.inl rfl
    · rw [if_neg h]
      cases j with
      | zero => exact Or.inl rfl
      | succ n => exact ih n

theorem clearAll_getItem (items : List Item) (j : Nat) :
    validityCleared (getItem items j)
      (getItem (items.map (fun it => { it with ms_valid := false })) j) := by
  by_cases h : j < items.length
  · rw [getItem_map _ _ _ h]
    exact Or.inr rfl
  · rw [getItem_default_of_le (items.map _) j (by simp; omega),
      getItem_default_of_le items j (by omega)]
    exact Or.inl rfl

/-- The calls `PostLayoutCommit` issues depend only on the control and the
transient layout cache of the items. -/
theorem PostLayoutCommit_eq (a : FlowBoxLayout) :
    PostLayoutCommit a
      = (a.items.map (fun it => (it.c, it.cl))).filterMap (fun p =>
          if p.2.visible = false then none else p.1.map (fun c => (c, p.2.content))) := by
  unfold PostLayoutCommit
  rw [List.filterMap_map]
  congr 1
  funext it
  cases hc : it.c <;> simp [Function.comp, hc]

theorem PostLayoutCommit_congr (a b : FlowBoxLayout)
    (h : a.items.map (fun it => (it.c, it.cl)) = b.items.map (fun it => (it.c, it.cl))) :
    PostLayoutCommit a = PostLayoutCommit b := by
  rw [PostLayoutCommit_eq, PostLayoutCommit_eq, h]

theorem invalidateFirst_map (c : Nat) :
    ∀ (items : List Item),
      (invalidateFirst c items).map (fun it => (it.c, it.cl))
        = items.map (fun it => (it.c, it.cl)) := by
  intro items
  induction items with
  | nil => rfl
  | cons it rest ih =>
    unfold invalidateFirst
    split_ifs
    · rfl
    · simp [ih]

theorem InvalidateAllMinSizes_cases (fb : FlowBoxLayout) :
    InvalidateAllMinSizes fb
        = { fb with minsize_epoch := 1,
                    items := fb.items.map (fun it => { it with ms_valid := false }) } ∨
    InvalidateAllMinSizes fb = { fb with minsize_epoch := wrapInt32 (fb.minsize_epoch + 1) } := by
  unfold InvalidateAllMinSizes
  simp only
  split_ifs
  · exact Or.inl rfl
  · exact Or.inr rfl

theorem InvalidateAllMinSizes_map (fb : FlowBoxLayout) :
    (InvalidateAllMinSizes fb).items.map (fun it => (it.c, it.cl))
      = fb.items.map (fun it => (it.c, it.cl)) := by
  rcases InvalidateAllMinSizes_cases fb with e | e <;> rw [e]
  simp [List.map_map, Function.comp]

/-- What `InvalidateAllMinSizes` leaves as it is. -/
theorem InvalidateAllMinSizes_frame (fb : FlowBoxLayout) :
    (InvalidateAllMinSizes fb).cur_gen = fb.cur_gen ∧
    (InvalidateAllMinSizes fb).plan_gen = fb.plan_gen ∧
    (InvalidateAllMinSizes fb).plan_inner = fb.plan_inner ∧
    (InvalidateAllMinSizes fb).used_w = fb.used_w ∧
    (InvalidateAllMinSizes fb).used_h = fb.used_h ∧
    (InvalidateAllMinSizes fb).layout_pause = fb.layout_pause ∧
    (InvalidateAllMinSizes fb).inset = fb.inset ∧
    (InvalidateAllMinSizes fb).items.length = fb.items.length ∧
    ∀ j, validityCleared (getItem fb.items j) (getItem (InvalidateAllMinSizes fb).items j) := by
  rcases InvalidateAllMinSizes_cases fb with e | e <;> rw [e]
  · exact ⟨rfl, rfl, rfl, rfl, rfl, rfl, rfl, by simp, fun j => clearAll_getItem fb.items j⟩
  · exact ⟨rfl, rfl, rfl, rfl, rfl, rfl, rfl, rfl, fun j => Or.inl rfl⟩

/-- A `Layout` of a container whose plan guard holds, after a change that keeps
the guard, the pause counter and the inset: nothing is planned, and the
rectangles committed are those of the plan. -/
theorem Layout_after_invalidate (depth : Nat) (env : Env) (sz : Size) (fb fb2 : FlowBoxLayout)
    (h1 : ¬ fb.layout_pause > 0) (h2 : ¬ (⟨0, 0, sz.cx, sz.cy⟩ : Rect).IsEmpty = true)
    (h3 : ¬ (innerRect fb sz).IsEmpty = true)
    (hg1 : fb.plan_inner = (innerRect fb sz).GetSize) (hg2 : fb.plan_gen = fb.cur_gen)
    (e1 : fb2.layout_pause = fb.layout_pause) (e2 : fb2.inset = fb.inset)
    (e3 : fb2.plan_inner = fb.plan_inner) (e4 : fb2.plan_gen = fb.plan_gen)
    (e5 : fb2.cur_gen = fb.cur_gen)
    (e6 : fb2.items.map (fun it => (it.c, it.cl)) = fb.items.map (fun it => (it.c, it.cl))) :
    Layout depth env sz fb2 = ⟨fb2, PostLayoutCommit fb, false, true⟩ := by
  have hi : innerRect fb2 sz = innerRect fb sz := by unfold innerRect; rw [e2]
  rw [Layout_current depth env sz fb2 (by rw [e1]; exact h1) h2 (by rw [hi]; exact h3)
    (by rw [e3, hi]; exact hg1) (by rw [e4, e5]; exact hg2),
    PostLayoutCommit_congr fb2 fb e6]

/-- C40 (min-size invalidation does not make the plan stale).
`InvalidateMinSize` and `InvalidateAllMinSizes` leave `cur_gen`, `plan_gen`,
`plan_inner`, the used size, the pause counter and the inset as they are, and
every item is the item it was, at most with `ms_valid` cleared (so its
transient cell and content rectangles are unchanged); `InvalidateMinSize` also
keeps `minsize_epoch`.  Hence, on a container that is not paused and whose plan
guard holds for the (non-empty) size `sz`, a following `Layout` at `sz` does
not run `PreLayoutCalc` and issues exactly the `SetRect` calls of the plan the
container had before the invalidation, whatever the controls now answer
(`env2`). -/
theorem C40_invalidation_keeps_plan (depth : Nat) (env2 : Env) (sz : Size)
    (fb : FlowBoxLayout) (c : Nat) :
    ((InvalidateMinSize fb c).cur_gen = fb.cur_gen ∧
     (InvalidateMinSize fb c).plan_gen = fb.plan_gen ∧
     (InvalidateMinSize fb c).plan_inner = fb.plan_inner ∧
     (InvalidateMinSize fb c).used_w = fb.used_w ∧
     (InvalidateMinSize fb c).used_h = fb.used_h ∧
     (InvalidateMinSize fb c).layout_pause = fb.layout_pause ∧
     (InvalidateMinSize fb c).inset = fb.inset ∧
     (InvalidateMinSize fb c).minsize_epoch = fb.minsize_epoch ∧
     (InvalidateMinSize fb c).items.length = fb.items.length ∧
     ∀ j, validityCleared (getItem fb.items j) (getItem (InvalidateMinSize fb c).items j)) ∧
    ((InvalidateAllMinSizes fb).cur_gen = fb.cur_gen ∧
     (InvalidateAllMinSizes fb).plan_gen = fb.plan_gen ∧
     (InvalidateAllMinSizes fb).plan_inner = fb.plan_inner ∧
     (InvalidateAllMinSizes fb).used_w = fb.used_w ∧
     (InvalidateAllMinSizes fb).used_h = fb.used_h ∧
     (InvalidateAllMinSizes fb).layout_pause = fb.layout_pause ∧
     (InvalidateAllMinSizes fb).inset = fb.inset ∧
     (InvalidateAllMinSizes fb).items.length = fb.items.length ∧
     ∀ j, validityCleared (getItem fb.items j) (getItem (InvalidateAllMinSizes fb).items j)) ∧
    (¬ fb.layout_pause > 0 → ¬ (⟨0, 0, sz.cx, sz.cy⟩ : Rect).IsEmpty = true →
      ¬ (innerRect fb sz).IsEmpty = true →
      fb.plan_inner = (innerRect fb sz).GetSize → fb.plan_gen = fb.cur_gen →
      Layout depth env2 sz (InvalidateMinSize fb c)
        = ⟨InvalidateMinSize fb c, PostLayoutCommit fb, false, true⟩ ∧
      Layout depth env2 sz (InvalidateAllMinSizes fb)
        = ⟨InvalidateAllMinSizes fb, PostLayoutCommit fb, false, true⟩) := by
  obtain ⟨a1, a2, a3, a4, a5, a6, a7, a8, a9⟩ := InvalidateAllMinSizes_frame fb
  refine ⟨⟨rfl, rfl, rfl, rfl, rfl, rfl, rfl, rfl, invalidateFirst_length c fb.items,
    fun j => invalidateFirst_getItem c fb.items j⟩,
    ⟨a1, a2, a3, a4, a5, a6, a7, a8, a9⟩, ?_⟩
  intro h1 h2 h3 hg1 hg2
  exact ⟨Layout_after_invalidate depth env2 sz fb _ h1 h2 h3 hg1 hg2 rfl rfl rfl rfl rfl
      (invalidateFirst_map c fb.items),
    Layout_after_invalidate depth env2 sz fb _ h1 h2 h3 hg1 hg2 a6 a7 a3 a2 a1
      (InvalidateAllMinSizes_map fb)⟩

/-- Witness for C40: the sample column laid out at `100 × 200` with intrinsic
min sizes `(100, 20)`; after `InvalidateAllMinSizes`, a `Layout` at the same
size under a toolkit that now reports `(300, 90)` plans nothing and commits
the old rectangles. -/
theorem C40_invalidation_keeps_plan_witness :
    ¬ laidOutColumn.layout_pause > 0 ∧
    ¬ (⟨0, 0, (⟨100, 200⟩ : Size).cx, (⟨100, 200⟩ : Size).cy⟩ : Rect).IsEmpty = true ∧
    ¬ (innerRect laidOutColumn ⟨100, 200⟩).IsEmpty = true ∧
    laidOutColumn.plan_inner = (innerRect laidOutColumn ⟨100, 200⟩).GetSize ∧
    laidOutColumn.plan_gen = laidOutColumn.cur_gen ∧
    Layout 0 sampleEnvGrown ⟨100, 200⟩ (InvalidateAllMinSizes laidOutColumn)
      = ⟨InvalidateAllMinSizes laidOutColumn, PostLayoutCommit laidOutColumn, false, true⟩ :=
  ⟨by decide, by decide, by decide, by decide, by decide,
   ((C40_invalidation_keeps_plan 0 sampleEnvGrown ⟨100, 200⟩ laidOutColumn 1).2.2
     (by decide) (by decide) (by decide) (by decide) (by decide)).2⟩

/-! ## Pure Expand items in a wrapping row -/

theorem PureExpand_cfg (a b : Item) (h : a.cfg = b.cfg) (ha : PureExpand a) : PureExpand b := by
  obtain ⟨h1, h2, h3, h4, h5, h6, -⟩ := cfg_fields a b h
  unfold PureExpand at *
  rw [← h1, ← h2, ← h3, ← h4, ← h5, ← h6]; exact ha

theorem planStart_spacer (env : Env) (fb : FlowBoxLayout) (irc : Rect) (i : Nat)
    (hc : (getItem fb.items i).c.isSome = true) :
    (getItem (planStart env fb irc).items i).cl.spacer = false := by
  show (getItem (markVisible env (resetTransient fb.items)) i).cl.spacer = false
  by_cases hi : i < fb.items.length
  · rw [getItem_markVisible env fb.items i hi]
    unfold markItem
    split_ifs
    · show ((getItem fb.items i).c.isNone && !(getItem fb.items i).is_break) = false
      cases h : (getItem fb.items i).c with
      | none => rw [h] at hc; cases hc
      | some c => rfl
    · rfl
  · rw [getItem_default_of_le _ _ (by simp [markVisible, resetTransient]; omega)]
    rfl

/-- The base width PASS 1 computes for a pure Expand item is `0`. -/
theorem ClampWith_zero_of (minw maxw : Int) (h : minw ≤ 0) : ClampWith minw maxw 0 = 0 := by
  unfold ClampWith
  simp only
  split_ifs <;> omega

/-- The body of PASS 1 on a participating pure Expand box, with wrap on and no
fixed column: a cell of width `0` is appended to the top row, whatever the
state. -/
theorem hItem_pure_expand (fb : FlowBoxLayout) (env : Env)
    (probe : FlowBoxLayout → Rect → FlowBoxLayout)
    (irc : Rect) (inner_w inner_h : Int) (i : Nat) (it : Item) (st : HBuild)
    (hv : it.cl.visible = true) (hs : it.cl.spacer = false) (hfc : fb.fixed_column < 0)
    (hp : PureExpand it) :
    ∃ rc : RowCell, rc.idx = i ∧ rc.w = 0 ∧
      (hItem fb env probe irc inner_w inner_h i it st).2 = st.addCell fb.gap rc := by
  obtain ⟨_, hb, hfx, hfit, hw, hmin⟩ := hp
  have hbase : ClampWith it.minw it.maxw
      (if it.fixed ≥ 0 then it.fixed
       else if it.fit = true then
         fitWidth env probe inner_h it (GetCtrlMinSize env fb.minsize_epoch it).size
       else if it.expandingWeight > 0 then 0
       else (GetCtrlMinSize env fb.minsize_epoch it).size.cx) = 0 := by
    rw [if_neg (by omega), if_neg (by rw [hfit]; simp), if_pos hw]
    exact ClampWith_zero_of _ _ hmin
  unfold hItem
  rw [if_neg (by rw [hv]; simp), if_neg (by rw [hb]; simp), if_neg (by omega),
    if_neg (by rw [hb]; simp), if_neg (by rw [hs]; simp)]
  simp only
  rw [hbase, if_neg (by simp)]
  exact ⟨_, rfl, rfl, rfl⟩

theorem hItem_pure_done (fb : FlowBoxLayout) (env : Env)
    (probe : FlowBoxLayout → Rect → FlowBoxLayout)
    (irc : Rect) (inner_w inner_h : Int) (i : Nat) (it : Item) (st : HBuild)
    (hs : it.cl.spacer = false) (hfc : fb.fixed_column < 0) (hp : PureExpand it) :
    (hItem fb env probe irc inner_w inner_h i it st).2.done = st.done := by
  by_cases hv : it.cl.visible = true
  · obtain ⟨rc, _, _, e⟩ := hItem_pure_expand fb env probe irc inner_w inner_h i it st hv hs hfc hp
    rw [e]; rfl
  · unfold hItem
    rw [if_pos (by simpa using hv)]

theorem hBuild_pure_done (fb : FlowBoxLayout) (env : Env)
    (probe : FlowBoxLayout → Rect → FlowBoxLayout) (irc : Rect) (inner_w inner_h : Int)
    (hfc : fb.fixed_column < 0) (items : List Item)
    (h : ∀ it ∈ items, it.cl.spacer = false ∧ PureExpand it) :
    ∀ (i : Nat) (st : HBuild),
      (hBuild fb env probe irc inner_w inner_h i items st).2.done = st.done := by
  induction items with
  | nil => intro i st; rfl
  | cons it rest ih =>
    intro i st
    simp only [hBuild]
    rw [ih (fun a ha => h a (List.mem_cons_of_mem _ ha)),
      hItem_pure_done fb env probe irc inner_w inner_h i it st
        (h it (List.mem_cons_self _ _)).1 hfc (h it (List.mem_cons_self _ _)).2]

theorem mem_getItem (items : List Item) (it : Item) (h : it ∈ items) :
    ∃ j, j < items.length ∧ getItem items j = it := by
  obtain ⟨j, hj, e⟩ := List.getElem_of_mem h
  refine ⟨j, hj, ?_⟩
  unfold getItem
  rw [List.getD_eq_getElem _ _ hj, e]

/-- A container whose items are all pure Expand boxes builds exactly one row,
with wrap on and no fixed column, for every inner rectangle. -/
theorem plannedRows_pure_expand (probe : FlowBoxLayout → Rect → FlowBoxLayout) (env : Env)
    (fb : FlowBoxLayout) (irc : Rect) (hfc : fb.fixed_column < 0)
    (h : ∀ j, j < fb.items.length → PureExpand (getItem fb.items j)) :
    (plannedRows probe env fb irc).length = 1 := by
  have hmk : ∀ it ∈ (planStart env fb irc).items, it.cl.spacer = false ∧ PureExpand it := by
    intro it hit
    obtain ⟨j, hj, e⟩ := mem_getItem _ it hit
    have hlen : (planStart env fb irc).items.length = fb.items.length := by
      simp [planStart, markVisible, resetTransient]
    rw [hlen] at hj
    rw [← e]
    exact ⟨planStart_spacer env fb irc j (h j hj).1,
      PureExpand_cfg _ _ (getItem_marked env fb.items j).1.symm (h j hj)⟩
  have hd := hBuild_pure_done (planStart env fb irc) env probe irc (max 0 irc.GetWidth)
    (max 0 irc.GetHeight) hfc (planStart env fb irc).items hmk 0 { x_row := irc.left }
  unfold plannedRows HBuild.rows
  rw [hd]
  rfl

/-- C39 (pure Expand items never wrap).  With no fixed column (wrap on or
off), PASS 1 of `LayoutHorizontal` handles a participating item in pure Expand
mode (a box with `fixed` unset, `fit` off, a positive weight and a min width
cap that is unset or `0`) by appending a cell of base width `0` to the top
row, whatever the state of the row; hence a container whose items are all pure
Expand boxes builds exactly one row for every inner rectangle.  The item
`Add(ctrl)` creates is such an item. -/
theorem C39_pure_expand_never_wraps (probe : FlowBoxLayout → Rect → FlowBoxLayout) (env : Env)
    (fb : FlowBoxLayout) (irc : Rect) (hfc : fb.fixed_column < 0) :
    (∀ m, m < fb.items.length → participates env (getItem fb.items m) = true →
      PureExpand (getItem fb.items m) →
      ∃ rc : RowCell, rc.idx = m ∧ rc.w = 0 ∧
        pass1State probe env fb irc (m + 1)
          = (pass1State probe env fb irc m).addCell fb.gap rc) ∧
    ((∀ j, j < fb.items.length → PureExpand (getItem fb.items j)) →
      (plannedRows probe env fb irc).length = 1) ∧
    (∀ (depth : Nat) (sz : Size) (fb0 : FlowBoxLayout) (c : Nat),
      PureExpand (getItem (Add depth env sz fb0 c).fb.items fb0.items.length)) := by
  refine ⟨?_, plannedRows_pure_expand probe env fb irc hfc, ?_⟩
  · intro m hm hp hpe
    obtain ⟨rc, h1, h2, h3⟩ := hItem_pure_expand (planStart env fb irc) env probe irc
      (max 0 irc.GetWidth) (max 0 irc.GetHeight) m (getItem (planStart env fb irc).items m)
      (pass1State probe env fb irc m)
      (by rw [planStart_visible env fb irc m hm]; exact hp)
      (planStart_spacer env fb irc m hpe.1) hfc
      (PureExpand_cfg _ _ (getItem_marked env fb.items m).1.symm hpe)
    exact ⟨rc, h1, h2, by rw [pass1State_succ probe env fb irc m hm, h3]; rfl⟩
  · intro depth sz fb0 c
    refine PureExpand_cfg _ _ (addItem_last depth env sz fb0 _).symm ?_
    exact ⟨rfl, rfl, by simp, rfl, by simp, by simp⟩

/-- Witness for C39: three boxes of intrinsic width `100` added through
`Add(ctrl)` to a wrapping row that is `50` wide form one row. -/
theorem C39_pure_expand_never_wraps_witness :
    sampleAddOnly.wrap = true ∧ sampleAddOnly.fixed_column < 0 ∧
    (∀ j, j < sampleAddOnly.items.length → PureExpand (getItem sampleAddOnly.items j)) ∧
    (plannedRows noProbe sampleEnv sampleAddOnly (RectC 0 0 50 100)).length = 1 :=
  ⟨by decide, by decide, by decide,
   (C39_pure_expand_never_wraps noProbe sampleEnv sampleAddOnly (RectC 0 0 50 100)
     (by decide)).2.1 (by decide)⟩

/-! ## Cross-axis resolution in a row -/

theorem gapsValid_new_row (irc : Rect) (st : HBuild) (h : st.gapsValid) :
    (st.new_row irc).gapsValid := by
  intro R hR g hg
  simp only [HBuild.rows, HBuild.new_row, List.mem_append, List.mem_singleton] at hR
  rcases hR with hR | hR
  · exact h R (by simpa [HBuild.rows] using hR) g hg
  · subst hR
    cases hg

theorem gapsValid_maybe_new_row (irc : Rect) (st : HBuild) (p : Prop) [Decidable p]
    (h : st.gapsValid) : (if p then st.new_row irc else st).gapsValid := by
  split
  · exact gapsValid_new_row irc st h
  · exact h

theorem gapsValid_addCell (gap : Int) (rc : RowCell) (st : HBuild) (h : st.gapsValid) :
    (st.addCell gap rc).gapsValid := by
  intro R hR g hg
  simp only [HBuild.rows, HBuild.addCell, List.mem_append, List.mem_singleton] at hR
  rcases hR with hR | hR
  · exact h R (by simp [HBuild.rows, hR]) g hg
  · subst hR
    exact h st.top (by simp [HBuild.rows]) g hg

theorem gapsValid_wrapFixed (fb : FlowBoxLayout) (irc : Rect) (inner_w cell_w : Int)
    (st : HBuild) (h : st.gapsValid) : (st.wrapFixed fb irc inner_w cell_w).gapsValid := by
  unfold HBuild.wrapFixed
  by_cases hw : fb.wrap = true
  · rw [if_pos hw]
    exact gapsValid_maybe_new_row irc st _ h
  · rw [if_neg hw]
    exact h

theorem gapsValid_addGap (g0 : GapExp) (st : HBuild) (h : st.gapsValid)
    (h0 : 0 ≤ g0.minw ∧ 1 ≤ g0.weight) :
    ({ st with top := { st.top with gaps := st.top.gaps ++ [g0] } } : HBuild).gapsValid := by
  intro R hR g hg
  simp only [HBuild.rows, List.mem_append, List.mem_singleton] at hR
  rcases hR with hR | hR
  · exact h R (by simp [HBuild.rows, hR]) g hg
  · subst hR
    simp only [List.mem_append, List.mem_singleton] at hg
    rcases hg with hg | hg
    · exact h st.top (by simp [HBuild.rows]) g hg
    · subst hg; exact h0

/-- The body of PASS 1 adds no gap-expander with a negative base width or with
a weight below `1`. -/
theorem hItem_gapsValid (fb : FlowBoxLayout) (env : Env)
    (probe : FlowBoxLayout → Rect → FlowBoxLayout)
    (irc : Rect) (inner_w inner_h : Int) (i : Nat) (it : Item) (st : HBuild)
    (h : st.gapsValid) : (hItem fb env probe irc inner_w inner_h i it st).2.gapsValid := by
  unfold hItem
  by_cases hv : it.cl.visible = false
  · rw [if_pos hv]; exact h
  rw [if_neg hv]
  by_cases hwb : fb.wrap = true ∧ it.is_break = true
  · rw [if_pos hwb]
    exact gapsValid_maybe_new_row irc st _ h
  rw [if_neg hwb]
  by_cases hfc : fb.fixed_column ≥ 0
  · rw [if_pos hfc]
    simp only
    by_cases hnb : fb.wrap = false ∧ it.is_break = true
    · rw [if_pos hnb]
      exact gapsValid_addCell _ _ _ h
    rw [if_neg hnb]
    by_cases hsp : it.cl.spacer = true
    · rw [if_pos hsp]
      exact gapsValid_addCell _ _ _ (gapsValid_wrapFixed _ _ _ _ _ h)
    rw [if_neg hsp]
    exact gapsValid_addCell _ _ _ (gapsValid_wrapFixed _ _ _ _ _ h)
  rw [if_neg hfc]
  by_cases hnb : fb.wrap = false ∧ it.is_break = true
  · rw [if_pos hnb]
    exact gapsValid_addGap _ st h ⟨le_max_left _ _, le_refl _⟩
  rw [if_neg hnb]
  by_cases hsp : it.cl.spacer = true
  · rw [if_pos hsp]
    exact gapsValid_addGap _ st h ⟨le_refl _, le_max_left _ _⟩
  rw [if_neg hsp]
  simp only
  apply gapsValid_addCell
  by_cases hp : fb.wrap = true ∧ ClampWith it.minw it.maxw
      (if it.fixed ≥ 0 then it.fixed
       else if it.fit = true then
         fitWidth env probe inner_h it (GetCtrlMinSize env fb.minsize_epoch it).size
       else if it.expandingWeight > 0 then 0
       else (GetCtrlMinSize env fb.minsize_epoch it).size.cx) > 0
  · rw [if_pos hp]
    exact gapsValid_maybe_new_row irc st _ h
  · rw [if_neg hp]
    exact h

theorem hBuild_gapsValid (fb : FlowBoxLayout) (env : Env)
    (probe : FlowBoxLayout → Rect → FlowBoxLayout) (irc : Rect) (inner_w inner_h : Int)
    (items : List Item) :
    ∀ (i : Nat) (st : HBuild), st.gapsValid →
      (hBuild fb env probe irc inner_w inner_h i items st).2.gapsValid := by
  induction items with
  | nil => intro i st h; exact h
  | cons it rest ih =>
    intro i st h
    unfold hBuild
    exact ih (i + 1) _ (hItem_gapsValid fb env probe irc inner_w inner_h i it st h)

/-- No gap-expander of the rows of PASS 1 has a negative base width or a weight
below `1`. -/
theorem plannedRows_gaps_valid (probe : FlowBoxLayout → Rect → FlowBoxLayout) (env : Env)
    (fb : FlowBoxLayout) (irc : Rect) :
    ∀ R ∈ plannedRows probe env fb irc, ∀ g ∈ R.gaps, 0 ≤ g.minw ∧ 1 ≤ g.weight := by
  unfold plannedRows
  apply hBuild_gapsValid
  intro R hR g hg
  simp only [HBuild.rows, List.nil_append, List.mem_singleton] at hR
  subst hR
  cases hg

theorem ClampWith_idem (lo hi v : Int) : ClampWith lo hi (ClampWith lo hi v) = ClampWith lo hi v := by
  unfold ClampWith
  simp only
  split_ifs <;> omega

/-- The cell the build loop of `LayoutVertical` adds without fixed row has a
height that the height caps of its item leave as it is, and a weight that is
not negative. -/
theorem vItem_clamped (fb : FlowBoxLayout) (env : Env)
    (probe : FlowBoxLayout → Rect → FlowBoxLayout) (inner_w : Int) (i : Nat) (it : Item)
    (c : VCell) (hrow : fb.fixed_row < 0) (h : (vItem fb env probe inner_w i it).2 = some c) :
    ClampWith it.minh it.maxh c.h = c.h ∧ 0 ≤ c.wshare := by
  have hrow2 : ¬ fb.fixed_row ≥ 0 := by omega
  unfold vItem at h
  by_cases hv : it.cl.visible = false
  · rw [if_pos hv] at h; cases h
  rw [if_neg hv, if_neg hrow2] at h
  by_cases hb : it.is_break = true
  · rw [if_pos hb] at h
    cases h
    refine ⟨ClampWith_idem _ _ _, ?_⟩
    dsimp only
    split_ifs <;> omega
  rw [if_neg hb] at h
  by_cases hs : it.cl.spacer = true
  · rw [if_pos hs] at h
    cases h
    exact ⟨ClampWith_idem _ _ _, by dsimp only; omega⟩
  rw [if_neg hs] at h
  cases h
  refine ⟨ClampWith_idem _ _ _, ?_⟩
  dsimp only
  split_ifs <;> omega

/-- Without fixed row, every cell of the column has a height that the height
caps of its item leave as it is, and a weight that is not negative. -/
theorem plannedColumn_clamped (probe : FlowBoxLayout → Rect → FlowBoxLayout) (env : Env)
    (fb : FlowBoxLayout) (irc : Rect) (hrow : fb.fixed_row < 0) :
    ∀ c ∈ plannedColumn probe env fb irc,
      ClampWith (getItem fb.items c.idx).minh (getItem fb.items c.idx).maxh c.h = c.h ∧
      0 ≤ c.wshare := by
  intro c hc
  unfold plannedColumn at hc
  obtain ⟨j, _, hidx, hcell⟩ := vBuild_cell_origin _ _ _ _ _ 0 c hc
  rw [zero_add] at hidx hcell
  have h := vItem_clamped (planStart env fb irc) env probe _ j _ c hrow hcell
  have hcfg := cfg_fields _ _ (getItem_marked env fb.items j).1
  rw [hidx]
  refine ⟨?_, h.2⟩
  rw [← hcfg.2.2.2.2.2.2.2.1, ← hcfg.2.2.2.2.2.2.2.2.1]
  exact h.1

/-- A size that its caps leave as it is grows by the share at most when the
share is added and the sum is clamped, and does not shrink. -/
theorem ClampWith_grow (lo hi old s : Int) (hfix : ClampWith lo hi old = old) (hs : 0 ≤ s) :
    old ≤ ClampWith lo hi (old + s) ∧ ClampWith lo hi (old + s) ≤ old + s := by
  unfold ClampWith at *
  simp only at *
  split_ifs at hfix ⊢ <;> omega

/-- Serving an entry whose size its caps leave as it is: the pool shrinks by
exactly what the entry grows. -/
theorem serve_conserve (lo hi old share rem : Int) (hfix : ClampWith lo hi old = old)
    (hs : 0 ≤ share) :
    (serve lo hi old share rem).2 = rem - ((serve lo hi old share rem).1 - old) ∧
    old ≤ (serve lo hi old share rem).1 ∧ (serve lo hi old share rem).1 ≤ old + share := by
  obtain ⟨h1, h2⟩ := ClampWith_grow lo hi old share hfix hs
  unfold serve
  simp only
  refine ⟨?_, h1, h2⟩
  split_ifs <;> omega

theorem totalRoom_nonneg (items : List Item) (cells : List VCell) : 0 ≤ totalRoom items cells := by
  unfold totalRoom
  apply List.sum_nonneg
  intro x hx
  rw [List.mem_map] at hx
  obtain ⟨c, _, e⟩ := hx
  rw [← e]
  split_ifs <;> omega

theorem totalRoom_cons (items : List Item) (c : VCell) (rest : List VCell) :
    totalRoom items (c :: rest)
      = (if c.wshare > 0 then max 0 (roomOf (getItem items c.idx) c.h) else 0)
        + totalRoom items rest := by
  unfold totalRoom
  rw [List.map_cons, List.sum_cons]

/-- The first distribution loop of `LayoutVertical` over cells that their caps
leave as they are, with a remainder that an `int` holds and weights that are
part of the total: the heights grow by what leaves the pool, the pool stays
non-negative, and the room of the weighted cells shrinks by what leaves the
pool at most. -/
theorem vDistribute_conserve (items : List Item) (remainder ews : Int)
    (hr : 0 ≤ remainder) (hr2 : remainder ≤ INT_MAX) :
    ∀ (cells : List VCell) (rem : Int), 0 ≤ rem →
      (∀ c ∈ cells, c.wshare ≤ ews) →
      (∀ c ∈ cells, c.wshare > 0 →
        ClampWith (getItem items c.idx).minh (getItem items c.idx).maxh c.h = c.h) →
      ((vDistribute items remainder ews rem cells).1.map (fun c => c.h)).sum
        = (cells.map (fun c => c.h)).sum + (rem - (vDistribute items remainder ews rem cells).2) ∧
      0 ≤ (vDistribute items remainder ews rem cells).2 ∧
      (vDistribute items remainder ews rem cells).2 ≤ rem ∧
      totalRoom items cells
        ≤ totalRoom items (vDistribute items remainder ews rem cells).1
          + (rem - (vDistribute items remainder ews rem cells).2) := by
  intro cells
  induction cells with
  | nil =>
    intro rem hrem _ _
    simp [vDistribute, hrem]
  | cons c rest ih =>
    intro rem hrem hle hfix
    have hfr : ∀ c ∈ rest, c.wshare > 0 →
        ClampWith (getItem items c.idx).minh (getItem items c.idx).maxh c.h = c.h :=
      fun a ha => hfix a (List.mem_cons_of_mem _ ha)
    have hler : ∀ c ∈ rest, c.wshare ≤ ews := fun a ha => hle a (List.mem_cons_of_mem _ ha)
    unfold vDistribute
    by_cases hws : c.wshare ≤ 0
    · rw [if_pos hws]
      obtain ⟨h1, h2, h3, h4⟩ := ih rem hrem hler hfr
      simp only [List.map_cons, List.sum_cons, totalRoom_cons]
      have hn : ¬ c.wshare > 0 := by omega
      rw [if_neg hn]
      refine ⟨by rw [h1]; ring, h2, h3, by omega⟩
    · rw [if_neg hws]
      simp only
      have hb := shareOf_bounds remainder c.wshare ews rem hr hr2 (by omega)
        (hle c (List.mem_cons_self _ _)) hrem
      obtain ⟨s1, s2, s3⟩ := serve_conserve (getItem items c.idx).minh (getItem items c.idx).maxh
        c.h (shareOf remainder c.wshare ews rem) rem
        (hfix c (List.mem_cons_self _ _) (by omega)) hb.1
      generalize hS : serve (getItem items c.idx).minh (getItem items c.idx).maxh c.h
        (shareOf remainder c.wshare ews rem) rem = S at s1 s2 s3
      have hpos : c.wshare > 0 := by omega
      have hroom : roomOf (getItem items c.idx) S.1
          = roomOf (getItem items c.idx) c.h - (S.1 - c.h) := by
        unfold roomOf; ring
      by_cases hz : S.2 = 0
      · rw [if_pos hz]
        simp only [List.map_cons, List.sum_cons, totalRoom_cons]
        rw [if_pos hpos, if_pos hpos, hroom]
        refine ⟨by omega, by omega, by omega, by omega⟩
      · rw [if_neg hz]
        have hS2 : 0 ≤ S.2 := by omega
        obtain ⟨h1, h2, h3, h4⟩ := ih S.2 hS2 hler hfr
        simp only [List.map_cons, List.sum_cons, totalRoom_cons]
        rw [if_pos hpos, if_pos hpos, hroom]
        refine ⟨by rw [h1]; omega, h2, by omega, by omega⟩

/-- The second distribution loop of `LayoutVertical`: the heights grow by the
pool at most, and by the whole pool when the weighted cells have room for
it. -/
theorem vLeftover_sum (items : List Item) :
    ∀ (cells : List VCell) (rem : Int), 0 ≤ rem →
      ((vLeftover items rem cells).map (fun c => c.h)).sum
        ≤ (cells.map (fun c => c.h)).sum + rem ∧
      (rem ≤ totalRoom items cells →
        ((vLeftover items rem cells).map (fun c => c.h)).sum
          = (cells.map (fun c => c.h)).sum + rem) := by
  intro cells
  induction cells with
  | nil =>
    intro rem hrem
    have h0 : totalRoom items [] = 0 := rfl
    simp only [vLeftover, List.map_nil, List.sum_nil, h0]
    exact ⟨by omega, fun h => by omega⟩
  | cons c rest ih =>
    intro rem hrem
    unfold vLeftover
    by_cases hp : rem > 0
    · rw [if_pos hp]
      by_cases hs : c.wshare ≤ 0 ∨ roomOf (getItem items c.idx) c.h ≤ 0
      · rw [if_pos hs]
        obtain ⟨h1, h2⟩ := ih rem hrem
        simp only [List.map_cons, List.sum_cons, totalRoom_cons]
        have hz : (if c.wshare > 0 then max 0 (roomOf (getItem items c.idx) c.h) else 0) = 0 := by
          split_ifs <;> omega
        rw [hz]
        refine ⟨by omega, fun h => ?_⟩
        rw [h2 (by omega)]
        ring
      · rw [if_neg hs]
        simp only
        have hw : c.wshare > 0 := by omega
        have hroom : 0 < roomOf (getItem items c.idx) c.h := by omega
        obtain ⟨h1, h2⟩ := ih (rem - min (roomOf (getItem items c.idx) c.h) rem) (by omega)
        have hnn := totalRoom_nonneg items rest
        simp only [List.map_cons, List.sum_cons, totalRoom_cons]
        rw [if_pos hw]
        refine ⟨by omega, fun h => ?_⟩
        rw [h2 (by omega)]
        omega
    · rw [if_neg hp]
      have : rem = 0 := by omega
      subst this
      exact ⟨by omega, fun _ => by omega⟩

theorem vDistributeAll_length (fb : FlowBoxLayout) (items : List Item) (inner_h : Int)
    (cells : List VCell) : (vDistributeAll fb items inner_h cells).length = cells.length :=
  (List.Forall₂.length_eq (vDistributeAll_step fb items inner_h cells)).symm

/-- The block "distribute remainder" of `LayoutVertical` over cells that their
caps leave as they are, while the sum of the weights and the remainder are
values that an `int` holds: a column that fits the inner height still fits it,
and fills it when some cell has a weight and the weighted cells have room for
the remainder. -/
theorem vDistributeAll_extent (fb : FlowBoxLayout) (items : List Item) (inner_h : Int)
    (cells : List VCell) (hfr : fb.fixed_row < 0)
    (hfix : ∀ c ∈ cells, c.wshare > 0 →
      ClampWith (getItem items c.idx).minh (getItem items c.idx).maxh c.h = c.h)
    (hfit : columnExtent fb.gap cells ≤ inner_h)
    (hnn : ∀ c ∈ cells, 0 ≤ c.wshare)
    (hsum : (cells.map (fun c => c.wshare)).sum ≤ INT_MAX)
    (hint : inner_h - columnExtent fb.gap cells ≤ INT_MAX) :
    columnExtent fb.gap (vDistributeAll fb items inner_h cells) ≤ inner_h ∧
    ((cells.map (fun c => c.wshare)).sum > 0 →
      inner_h - columnExtent fb.gap cells ≤ totalRoom items cells →
      columnExtent fb.gap (vDistributeAll fb items inner_h cells) = inner_h) := by
  have hlen := vDistributeAll_length fb items inner_h cells
  unfold columnExtent at *
  rw [hlen]
  unfold vDistributeAll
  simp only
  have hnf : ¬ fb.fixed_row ≥ 0 := by omega
  rw [if_neg hnf]
  have hmem : ∀ x ∈ cells.map (fun c => c.wshare), 0 ≤ x := by
    intro x hx
    rw [List.mem_map] at hx
    obtain ⟨c, hc, e⟩ := hx
    rw [← e]
    exact hnn c hc
  have hsum0 : 0 ≤ (cells.map (fun c => c.wshare)).sum := List.sum_nonneg hmem
  have hle : ∀ c ∈ cells, c.wshare ≤ (cells.map (fun c => c.wshare)).sum :=
    fun c hc => List.single_le_sum hmem _ (List.mem_map_of_mem (fun c => c.wshare) hc)
  rw [wrapInt32_of_range _ (by omega) hsum]
  generalize hG : max 0 ((cells.length : Int) - 1) * fb.gap = G at hfit hint ⊢
  generalize hB : (cells.map (fun c => c.h)).sum = B at hfit hint ⊢
  have hR : max 0 (inner_h - (B + G)) = inner_h - (B + G) := by omega
  rw [hR]
  by_cases hg : fb.fixed_row < 0 ∧ (cells.map (fun c => c.wshare)).sum > 0
      ∧ inner_h - (B + G) > 0
  · rw [if_pos hg]
    obtain ⟨_, hews, hrem⟩ := hg
    obtain ⟨d1, d2, d3, d4⟩ := vDistribute_conserve items (inner_h - (B + G))
      (cells.map (fun c => c.wshare)).sum (by omega) hint cells (inner_h - (B + G))
      (by omega) hle hfix
    rw [hB] at d1
    generalize vDistribute items (inner_h - (B + G)) (cells.map (fun c => c.wshare)).sum
      (inner_h - (B + G)) cells = D at d1 d2 d3 d4
    by_cases h2 : D.2 > 0
    · rw [if_pos h2]
      obtain ⟨l1, l2⟩ := vLeftover_sum items D.1 D.2 d2
      refine ⟨by omega, fun _ hroom => ?_⟩
      rw [l2 (by omega)]
      omega
    · rw [if_neg h2]
      refine ⟨by omega, fun _ _ => by omega⟩
  · rw [if_neg hg]
    rw [hB]
    refine ⟨by omega, fun hews hroom => ?_⟩
    have : ¬ inner_h - (B + G) > 0 := fun h => hg ⟨hfr, hews, h⟩
    omega

theorem vBuild_items_cfg (fb : FlowBoxLayout) (env : Env)
    (probe : FlowBoxLayout → Rect → FlowBoxLayout) (inner_w : Int) (items : List Item) (j : Nat) :
    (getItem (vBuild fb env probe inner_w 0 items).1 j).cfg = (getItem items j).cfg := by
  by_cases hj : j < items.length
  · rw [vBuild_getItem fb env probe inner_w items 0 j hj]
    exact (vItem_cfg fb env probe inner_w _ _).1
  · rw [getItem_default_of_le _ _ (by rw [vBuild_items_length]; omega),
      getItem_default_of_le _ _ (by omega)]

theorem plannedColumnItems_cfg (probe : FlowBoxLayout → Rect → FlowBoxLayout) (env : Env)
    (fb : FlowBoxLayout) (irc : Rect) (j : Nat) :
    (getItem (plannedColumnItems probe env fb irc) j).cfg = (getItem fb.items j).cfg := by
  unfold plannedColumnItems
  rw [vBuild_items_cfg]
  exact (getItem_marked env fb.items j).1

theorem totalRoom_congr (a b : List Item) (cells : List VCell)
    (h : ∀ j, (getItem a j).cfg = (getItem b j).cfg) : totalRoom a cells = totalRoom b cells := by
  unfold totalRoom
  congr 1
  apply List.map_congr_left
  intro c _
  unfold roomOf
  rw [(cfg_fields _ _ (h c.idx)).2.2.2.2.2.2.2.2.1]

theorem sum_pos_of_mem (l : List Int) (h : ∀ x ∈ l, 0 ≤ x) (a : Int) (ha : a ∈ l) (hp : 0 < a) :
    0 < l.sum := by
  induction l with
  | nil => cases ha
  | cons b rest ih =>
    rw [List.sum_cons]
    have hb := h b (List.mem_cons_self _ _)
    have hrest : 0 ≤ rest.sum := List.sum_nonneg (fun x hx => h x (List.mem_cons_of_mem _ hx))
    rcases List.mem_cons.mp ha with e | e
    · subst e; omega
    · have := ih (fun x hx => h x (List.mem_cons_of_mem _ hx)) e
      omega

/-- The column `PreLayoutCalc` distributes, without fixed row, while the sum of
the weights and the remainder are values that an `int` holds: a column that
fits the inner height still fits it after the distribution, and fills it when
some cell has a positive weight and the weighted cells have room for the
remainder. -/
theorem distributedColumn_extent (probe : FlowBoxLayout → Rect → FlowBoxLayout) (env : Env)
    (fb : FlowBoxLayout) (irc : Rect) (hrow : fb.fixed_row < 0)
    (hfit : columnExtent fb.gap (plannedColumn probe env fb irc) ≤ max 0 irc.GetHeight)
    (hsum : ((plannedColumn probe env fb irc).map (fun c => c.wshare)).sum ≤ INT_MAX)
    (hint : max 0 irc.GetHeight - columnExtent fb.gap (plannedColumn probe env fb irc)
      ≤ INT_MAX) :
    columnExtent fb.gap (distributedColumn probe env fb irc) ≤ max 0 irc.GetHeight ∧
    ((∃ c ∈ plannedColumn probe env fb irc, c.wshare > 0) →
      max 0 irc.GetHeight - columnExtent fb.gap (plannedColumn probe env fb irc)
        ≤ totalRoom fb.items (plannedColumn probe env fb irc) →
      columnExtent fb.gap (distributedColumn probe env fb irc) = max 0 irc.GetHeight) := by
  have hcl := plannedColumn_clamped probe env fb irc hrow
  have hfix : ∀ c ∈ plannedColumn probe env fb irc, c.wshare > 0 →
      ClampWith (getItem (plannedColumnItems probe env fb irc) c.idx).minh
        (getItem (plannedColumnItems probe env fb irc) c.idx).maxh c.h = c.h := by
    intro c hc _
    have hcfg := cfg_fields _ _ (plannedColumnItems_cfg probe env fb irc c.idx)
    rw [hcfg.2.2.2.2.2.2.2.1, hcfg.2.2.2.2.2.2.2.2.1]
    exact (hcl c hc).1
  obtain ⟨h1, h2⟩ := vDistributeAll_extent fb (plannedColumnItems probe env fb irc)
    (max 0 irc.GetHeight) (plannedColumn probe env fb irc) hrow hfix hfit
    (fun c hc => (hcl c hc).2) hsum hint
  refine ⟨h1, ?_⟩
  rintro ⟨c, hc, hpos⟩ hroom
  apply h2
  · apply sum_pos_of_mem _ _ c.wshare (List.mem_map_of_mem _ hc) hpos
    intro x hx
    rw [List.mem_map] at hx
    obtain ⟨c2, hc2, e⟩ := hx
    rw [← e]
    exact (hcl c2 hc2).2
  · rw [totalRoom_congr _ fb.items _ (plannedColumnItems_cfg probe env fb irc)]
    exact hroom

theorem rowCellsExtent_eq (gap : Int) (cells : List RowCell) :
    rowCellsExtent gap cells
      = (cells.map (fun c => c.w)).sum + max 0 ((cells.length : Int) - 1) * gap := by
  cases cells with
  | nil => simp [rowCellsExtent]
  | cons rc rest =>
    unfold rowCellsExtent
    simp only [List.map_cons, List.sum_cons, List.length_cons]
    have h : (rest.map (fun c => gap + c.w)).sum
        = (rest.length : Int) * gap + (rest.map (fun c => c.w)).sum := by
      induction rest with
      | nil => simp
      | cons a r ih =>
        simp only [List.map_cons, List.sum_cons, List.length_cons, ih]
        push_cast
        ring
    rw [h]
    have h2 : max 0 (((rest.length + 1 : Nat) : Int) - 1) = (rest.length : Int) := by
      push_cast
      omega
    rw [h2]
    ring

theorem rowSumW_eq (gap : Int) (R : Row) :
    rowSumW gap R = rowCellsExtent gap R.cells + (R.gaps.map (fun g => gap + g.minw)).sum := by
  unfold rowSumW rowCellsExtent
  rfl

/-- The loop "controls first" of PASS 2C over cells whose widths the width caps
of their items leave as they are, with a remainder that an `int` holds and
weights that are part of the total: the widths grow by what leaves the pool,
and the pool stays non-negative. -/
theorem hDistCtrls_conserve (items : List Item) (remainder total_w : Int)
    (hr : 0 ≤ remainder) (hr2 : remainder ≤ INT_MAX) :
    ∀ (cells : List RowCell) (rem : Int), 0 ≤ rem →
      (∀ rc ∈ cells, (getItem items rc.idx).expandingWeight > 0 →
        max 1 (getItem items rc.idx).expandingWeight ≤ total_w) →
      (∀ rc ∈ cells, (getItem items rc.idx).expandingWeight > 0 →
        ClampWith (getItem items rc.idx).minw (getItem items rc.idx).maxw rc.w = rc.w) →
      ((hDistCtrls items remainder total_w rem cells).1.map (fun c => c.w)).sum
        = (cells.map (fun c => c.w)).sum + (rem - (hDistCtrls items remainder total_w rem cells).2) ∧
      0 ≤ (hDistCtrls items remainder total_w rem cells).2 ∧
      (hDistCtrls items remainder total_w rem cells).2 ≤ rem ∧
      (hDistCtrls items remainder total_w rem cells).1.length = cells.length := by
  intro cells
  induction cells with
  | nil =>
    intro rem hrem _ _
    simp [hDistCtrls, hrem]
  | cons rc rest ih =>
    intro rem hrem hle hfix
    have hfr : ∀ c ∈ rest, (getItem items c.idx).expandingWeight > 0 →
        ClampWith (getItem items c.idx).minw (getItem items c.idx).maxw c.w = c.w :=
      fun a ha => hfix a (List.mem_cons_of_mem _ ha)
    have hler : ∀ c ∈ rest, (getItem items c.idx).expandingWeight > 0 →
        max 1 (getItem items c.idx).expandingWeight ≤ total_w :=
      fun a ha => hle a (List.mem_cons_of_mem _ ha)
    unfold hDistCtrls
    by_cases hw : (getItem items rc.idx).expandingWeight > 0
    · rw [if_pos hw]
      by_cases hp : rem > 0
      · rw [if_pos hp]
        simp only
        have hb := shareOf_bounds remainder (max 1 (getItem items rc.idx).expandingWeight)
          total_w rem hr hr2 (by omega) (hle rc (List.mem_cons_self _ _) hw) hrem
        obtain ⟨s1, s2, s3⟩ := serve_conserve (getItem items rc.idx).minw
          (getItem items rc.idx).maxw rc.w
          (shareOf remainder (max 1 (getItem items rc.idx).expandingWeight) total_w rem) rem
          (hfix rc (List.mem_cons_self _ _) hw) hb.1
        generalize serve (getItem items rc.idx).minw (getItem items rc.idx).maxw rc.w
          (shareOf remainder (max 1 (getItem items rc.idx).expandingWeight) total_w rem) rem
          = S at s1 s2 s3
        obtain ⟨h1, h2, h3, h4⟩ := ih S.2 (by omega) hler hfr
        simp only [List.map_cons, List.sum_cons, List.length_cons]
        exact ⟨by rw [h1]; omega, h2, by omega, by rw [h4]⟩
      · rw [if_neg hp]
        dsimp only
        exact ⟨by omega, hrem, le_refl _, rfl⟩
    · rw [if_neg hw]
      obtain ⟨h1, h2, h3, h4⟩ := ih rem hrem hler hfr
      simp only [List.map_cons, List.sum_cons, List.length_cons]
      exact ⟨by rw [h1]; ring, h2, h3, by rw [h4]⟩

/-- The loop "then gaps/spacers" of PASS 2C: the gap-expanders grow by what
leaves the pool, and the pool stays non-negative. -/
theorem hDistGaps_conserve (gap remainder total_w : Int) :
    ∀ (gaps : List GapExp) (rem : Int), 0 ≤ rem →
      ((hDistGaps remainder total_w rem gaps).1.map (fun g => gap + g.minw)).sum
        = (gaps.map (fun g => gap + g.minw)).sum + (rem - (hDistGaps remainder total_w rem gaps).2) ∧
      0 ≤ (hDistGaps remainder total_w rem gaps).2 := by
  intro gaps
  induction gaps with
  | nil =>
    intro rem hrem
    simp [hDistGaps, hrem]
  | cons g rest ih =>
    intro rem hrem
    unfold hDistGaps
    by_cases hp : rem > 0
    · rw [if_pos hp]
      simp only
      have hle : shareOf remainder g.weight total_w rem ≤ rem := by
        unfold shareOf
        simp only
        exact min_le_right _ _
      obtain ⟨h1, h2⟩ := ih (rem - shareOf remainder g.weight total_w rem) (by omega)
      simp only [List.map_cons, List.sum_cons]
      exact ⟨by rw [h1]; ring, h2⟩
    · rw [if_neg hp]
      dsimp only
      exact ⟨by omega, hrem⟩

/-- The sum of the weights of a row whose gap-expanders have no negative weight
is not negative, and the weight of each of its weighted cells is part of
it. -/
theorem rowWeightSum_ge (items : List Item) (R : Row) (hg : ∀ g ∈ R.gaps, 0 ≤ g.weight) :
    0 ≤ rowWeightSum items R ∧
    ∀ rc ∈ R.cells, (getItem items rc.idx).expandingWeight > 0 →
      max 1 (getItem items rc.idx).expandingWeight ≤ rowWeightSum items R := by
  unfold rowWeightSum
  dsimp only
  have h1 : ∀ x ∈ R.cells.map (fun rc =>
      if (getItem items rc.idx).expandingWeight > 0
      then max 1 (getItem items rc.idx).expandingWeight else 0), 0 ≤ x := by
    intro x hx
    rw [List.mem_map] at hx
    obtain ⟨rc, _, e⟩ := hx
    rw [← e]
    split_ifs <;> omega
  have h2 : 0 ≤ (R.gaps.map (fun g => g.weight)).sum := by
    apply List.sum_nonneg
    intro x hx
    rw [List.mem_map] at hx
    obtain ⟨g, hgm, e⟩ := hx
    rw [← e]
    exact hg g hgm
  refine ⟨by have := List.sum_nonneg h1; omega, ?_⟩
  intro rc hrc hw
  have h3 := List.single_le_sum h1 _ (List.mem_map_of_mem (fun rc =>
      if (getItem items rc.idx).expandingWeight > 0
      then max 1 (getItem items rc.idx).expandingWeight else 0) hrc)
  rw [if_pos hw] at h3
  omega

/-- The block "distribute width" of PASS 2C for a row without fixed column
whose cell widths the width caps of their items leave as they are, while the
sum of the weights and the remainder are values that an `int` holds: a row
that fits the inner width still fits it, and its cells alone take no more than
the inner width less the base widths of the gap-expanders. -/
theorem hDistributeRow_extent (fb : FlowBoxLayout) (items : List Item) (inner_w : Int) (R : Row)
    (hfix : ∀ rc ∈ R.cells, (getItem items rc.idx).expandingWeight > 0 →
      ClampWith (getItem items rc.idx).minw (getItem items rc.idx).maxw rc.w = rc.w)
    (hfit : rowSumW fb.gap R ≤ inner_w)
    (hg : ∀ g ∈ R.gaps, 0 ≤ g.weight)
    (hsum : rowWeightSum items R ≤ INT_MAX)
    (hint : inner_w - rowSumW fb.gap R ≤ INT_MAX) :
    rowSumW fb.gap (hDistributeRow fb items inner_w R) ≤ inner_w ∧
    rowCellsExtent fb.gap (hDistributeRow fb items inner_w R).cells
      ≤ inner_w - (R.gaps.map (fun g => fb.gap + g.minw)).sum := by
  have hbase : rowCellsExtent fb.gap R.cells
      ≤ inner_w - (R.gaps.map (fun g => fb.gap + g.minw)).sum := by
    rw [rowSumW_eq] at hfit; omega
  unfold hDistributeRow
  simp only
  by_cases h1 : fb.fixed_column < 0 ∧ max 0 (inner_w - rowSumW fb.gap R) > 0
  · rw [if_pos h1]
    by_cases h2 : rowTotalWeight items R > 0
    · rw [if_pos h2]
      have hR : max 0 (inner_w - rowSumW fb.gap R) = inner_w - rowSumW fb.gap R := by omega
      rw [hR]
      have hws := rowWeightSum_ge items R hg
      have htw : rowTotalWeight items R = rowWeightSum items R := by
        unfold rowTotalWeight
        exact wrapInt32_of_range _ (by omega) hsum
      obtain ⟨c1, c2, c3, c4⟩ := hDistCtrls_conserve items (inner_w - rowSumW fb.gap R)
        (rowTotalWeight items R) (by omega) hint R.cells (inner_w - rowSumW fb.gap R)
        (by omega) (by rw [htw]; exact hws.2) hfix
      generalize hDistCtrls items (inner_w - rowSumW fb.gap R) (rowTotalWeight items R)
        (inner_w - rowSumW fb.gap R) R.cells = D at c1 c2 c3 c4
      obtain ⟨g1, g2⟩ := hDistGaps_conserve fb.gap (inner_w - rowSumW fb.gap R)
        (rowTotalWeight items R) R.gaps D.2 c2
      generalize hDistGaps (inner_w - rowSumW fb.gap R) (rowTotalWeight items R) D.2 R.gaps
        = E at g1 g2
      rw [rowSumW_eq]
      dsimp only
      rw [rowCellsExtent_eq, c1, c4, g1]
      have hS := rowSumW_eq fb.gap R
      rw [rowCellsExtent_eq] at hS hbase
      constructor <;> omega
    · rw [if_neg h2]
      exact ⟨hfit, hbase⟩
  · rw [if_neg h1]
    exact ⟨hfit, hbase⟩

/-- Without fixed column, the width of every cell of the rows of PASS 1 is one
that the width caps of its item leave as it is. -/
theorem plannedRows_clamped (probe : FlowBoxLayout → Rect → FlowBoxLayout) (env : Env)
    (fb : FlowBoxLayout) (irc : Rect) (hfc : fb.fixed_column < 0) :
    ∀ R ∈ plannedRows probe env fb irc, ∀ rc ∈ R.cells,
      ClampWith (getItem (plannedItems probe env fb irc) rc.idx).minw
        (getItem (plannedItems probe env fb irc) rc.idx).maxw rc.w = rc.w := by
  intro R hR rc hrc
  have hmem := mem_cellsOfRows _ _ _ hR hrc
  have hcfg := cfg_fields _ _ (plannedItems_cfg probe env fb irc rc.idx)
  have hcfg2 := cfg_fields _ _ (getItem_marked env fb.items rc.idx).1
  rcases hBuild_cells (planStart env fb irc) env probe irc _ _ _ 0 _ rc hmem with h | ⟨j, _, hc⟩
  · simp [HBuild.rows, cellsOfRows] at h
  · obtain ⟨hi, _, _, _, _, hw⟩ := hc
    rw [zero_add] at hi
    subst hi
    obtain ⟨b, hb, _⟩ := hw hfc
    rw [hcfg.2.2.2.2.2.1, hcfg.2.2.2.2.2.2.1, ← hcfg2.2.2.2.2.2.1, ← hcfg2.2.2.2.2.2.2.1]
    rw [hb]
    exact ClampWith_idem _ _ _

/-- Where the loop "place left→right" ends, started after a cell. -/
theorem hPlaceCells_x_after (fb : FlowBoxLayout) (env : Env) (r : Nat) (y row_h : Int) :
    ∀ (cells : List RowCell) (st : HPlace), st.placed_in_row > 0 →
      (hPlaceCells fb env r y row_h cells st).x
        = st.x + (cells.map (fun c => fb.gap + c.w)).sum := by
  intro cells
  induction cells with
  | nil => intro st _; simp [hPlaceCells]
  | cons c rest ih =>
    intro st hp
    unfold hPlaceCells
    rw [ih _ (by rw [hPlaceCell_eq]; dsimp only; omega), hPlaceCell_eq]
    dsimp only
    rw [if_pos hp, List.map_cons, List.sum_cons]
    ring

/-- Where the loop "place left→right" ends for a row: at the extent of its
cells. -/
theorem hPlaceCells_x (fb : FlowBoxLayout) (env : Env) (r : Nat) (y row_h : Int)
    (cells : List RowCell) (items : List Item) (x0 : Int) :
    (hPlaceCells fb env r y row_h cells ⟨items, x0, 0⟩).x = x0 + rowCellsExtent fb.gap cells := by
  cases cells with
  | nil => simp [hPlaceCells, rowCellsExtent]
  | cons c rest =>
    unfold hPlaceCells rowCellsExtent
    rw [hPlaceCells_x_after _ _ _ _ _ _ _ (by rw [hPlaceCell_eq]; dsimp only; omega),
      hPlaceCell_eq]
    dsimp only
    rw [if_neg (by omega)]
    ring

/-- The used width after the row loop of PASS 2C stays below a bound that the
used width so far and the extent of the cells of every row respect. -/
theorem hRows_used_w_le (fb : FlowBoxLayout) (env : Env) (irc : Rect) (inner_w B : Int) :
    ∀ (rows : List (Row × Int)) (r : Nat) (st : HRows),
      st.used_w ≤ B →
      (∀ p ∈ rows, ∀ its : List Item, (∀ j, (getItem its j).cfg = (getItem st.items j).cfg) →
        rowCellsExtent fb.gap (hDistributeRow fb its inner_w p.1).cells ≤ B) →
      (hRows fb env irc inner_w r rows st).used_w ≤ B := by
  intro rows
  induction rows with
  | nil => intro r st h _; exact h
  | cons p rest ih =>
    intro r st hu hrows
    obtain ⟨R, row_h⟩ := p
    unfold hRows
    apply ih
    · unfold hRow
      dsimp only
      rw [hPlaceCells_x]
      have := hrows (R, row_h) (List.mem_cons_self _ _) st.items (fun _ => rfl)
      dsimp only at this
      omega
    · intro p hp its hits
      apply hrows p (List.mem_cons_of_mem _ hp) its
      intro j
      rw [hits j, hRow_cfg]

theorem totalRoom_ge_mem (items : List Item) (cells : List VCell) (c : VCell) (hc : c ∈ cells)
    (hw : c.wshare > 0) : roomOf (getItem items c.idx) c.h ≤ totalRoom items cells := by
  induction cells with
  | nil => cases hc
  | cons a rest ih =>
    rw [totalRoom_cons]
    have hnn := totalRoom_nonneg items rest
    rcases List.mem_cons.mp hc with e | e
    · subst e
      rw [if_pos hw]
      omega
    · have := ih e
      split_ifs <;> omega

/-- The conservation of the remainder in vertical mode while the sum of the
weights and the remainder are values that an `int` holds.  Without fixed-row
override, when the base heights plus inter-cell gaps do not exceed the inner
height (remainder `R ≥ 0`), at least one cell has a positive weight, and the
weighted cells' total room to grow (max cap minus base height, `INT_MAX` minus
base height for an unset cap) is at least `R` — as it is when some weighted
cell has an unset max cap and its base height plus `R` is an `int` —, then
after the distribution the sum of all cell heights plus inter-cell gaps equals
the inner height exactly, and the used height equals the inner height. -/
theorem vertical_remainder_conserved_in_range (probe : FlowBoxLayout → Rect → FlowBoxLayout)
    (env : Env) (fb : FlowBoxLayout) (irc : Rect)
    (hd : fb.dir = Direction.V) (hrow : fb.fixed_row < 0)
    (hfit : columnExtent fb.gap (plannedColumn probe env fb irc) ≤ max 0 irc.GetHeight)
    (hsum : ((plannedColumn probe env fb irc).map (fun c => c.wshare)).sum ≤ INT_MAX)
    (hint : max 0 irc.GetHeight - columnExtent fb.gap (plannedColumn probe env fb irc)
      ≤ INT_MAX)
    (hw : ∃ c ∈ plannedColumn probe env fb irc, c.wshare > 0)
    (hroom : max 0 irc.GetHeight - columnExtent fb.gap (plannedColumn probe env fb irc)
        ≤ totalRoom fb.items (plannedColumn probe env fb irc) ∨
      ∃ c ∈ plannedColumn probe env fb irc, c.wshare > 0 ∧ (getItem fb.items c.idx).maxh < 0 ∧
        c.h + (max 0 irc.GetHeight - columnExtent fb.gap (plannedColumn probe env fb irc))
          ≤ INT_MAX) :
    columnExtent fb.gap (distributedColumn probe env fb irc) = max 0 irc.GetHeight ∧
    ((distributedColumn probe env fb irc).map (fun c => c.h)).sum
      + (((distributedColumn probe env fb irc).length : Int) - 1) * fb.gap
      = max 0 irc.GetHeight ∧
    (PreLayoutCalcWith probe env fb irc).used_h = max 0 irc.GetHeight := by
  have hroom2 : max 0 irc.GetHeight - columnExtent fb.gap (plannedColumn probe env fb irc)
      ≤ totalRoom fb.items (plannedColumn probe env fb irc) := by
    rcases hroom with h | ⟨c, hc, hcw, hmax, hint⟩
    · exact h
    · refine le_trans ?_ (totalRoom_ge_mem fb.items _ c hc hcw)
      unfold roomOf
      rw [if_neg (by omega)]
      omega
  have hext := (distributedColumn_extent probe env fb irc hrow hfit hsum hint).2 hw hroom2
  obtain ⟨c, hc, _⟩ := hw
  have hpos : 0 < (plannedColumn probe env fb irc).length := List.length_pos_of_mem hc
  have h0 : visibleCount env fb.items ≠ 0 := by
    rw [← plannedColumn_length probe env fb irc]; omega
  have hlen : (distributedColumn probe env fb irc).length
      = (plannedColumn probe env fb irc).length := vDistributeAll_length fb _ _ _
  have hsum : ((distributedColumn probe env fb irc).map (fun c => c.h)).sum
      + (((distributedColumn probe env fb irc).length : Int) - 1) * fb.gap
      = max 0 irc.GetHeight := by
    rw [← hext]
    unfold columnExtent
    rw [max_eq_right (by omega)]
  refine ⟨hext, hsum, ?_⟩
  rw [planned_used_h_V probe env fb irc hd h0, hsum]
  exact min_self _

/-- The distribution does not over-fill while the sums of the weights and the
remainders are values that an `int` holds.  In horizontal mode without fixed
column, for every row of PASS 1 whose base widths plus gaps (each gap-expander
counted as gap plus its base width) do not exceed the inner width, the sum of
the final cell widths, gap-expander widths and gaps is still at most the inner
width; when every row is such a row and the gap is not negative, the used
width is at most the inner width.  In vertical mode without fixed row, when
the base heights plus gaps do not exceed the inner height, the sum of the
final cell heights plus gaps is at most the inner height.  This holds for all
caps. -/
theorem distribution_never_overfills_in_range (probe : FlowBoxLayout → Rect → FlowBoxLayout)
    (env : Env) (fb : FlowBoxLayout) (irc : Rect) :
    (fb.fixed_column < 0 → ∀ R ∈ plannedRows probe env fb irc,
      rowSumW fb.gap R ≤ max 0 irc.GetWidth →
      rowWeightSum (plannedItems probe env fb irc) R ≤ INT_MAX →
      max 0 irc.GetWidth - rowSumW fb.gap R ≤ INT_MAX →
      rowSumW fb.gap (hDistributeRow fb (plannedItems probe env fb irc) (max 0 irc.GetWidth) R)
        ≤ max 0 irc.GetWidth) ∧
    (fb.dir = Direction.H → fb.fixed_column < 0 → 0 ≤ fb.gap →
      (∀ R ∈ plannedRows probe env fb irc, rowSumW fb.gap R ≤ max 0 irc.GetWidth ∧
        rowWeightSum (plannedItems probe env fb irc) R ≤ INT_MAX ∧
        max 0 irc.GetWidth - rowSumW fb.gap R ≤ INT_MAX) →
      (PreLayoutCalcWith probe env fb irc).used_w ≤ max 0 irc.GetWidth) ∧
    (fb.fixed_row < 0 →
      columnExtent fb.gap (plannedColumn probe env fb irc) ≤ max 0 irc.GetHeight →
      ((plannedColumn probe env fb irc).map (fun c => c.wshare)).sum ≤ INT_MAX →
      max 0 irc.GetHeight - columnExtent fb.gap (plannedColumn probe env fb irc) ≤ INT_MAX →
      columnExtent fb.gap (distributedColumn probe env fb irc) ≤ max 0 irc.GetHeight) := by
  have hgw : ∀ R ∈ plannedRows probe env fb irc, ∀ g ∈ R.gaps, 0 ≤ g.weight := by
    intro R hR g hg
    have := (plannedRows_gaps_valid probe env fb irc R hR g hg).2
    omega
  refine ⟨?_, ?_, ?_⟩
  · intro hfc R hR hfit hsum hint
    exact (hDistributeRow_extent fb _ _ R
      (fun rc hrc _ => plannedRows_clamped probe env fb irc hfc R hR rc hrc) hfit
      (hgw R hR) hsum hint).1
  · intro hd hfc hgap hall
    unfold PreLayoutCalcWith
    simp only
    by_cases h0 : visibleCount env fb.items = 0
    · rw [if_pos h0]
      exact le_max_left _ _
    · rw [if_neg h0, hd]
      show (hRows (planStart env fb irc) env irc (max 0 irc.GetWidth) 0
        ((plannedRows probe env fb irc).zip (finalRowHeights probe env fb irc))
        ⟨plannedItems probe env fb irc, 0, 0, irc.top⟩).used_w ≤ max 0 irc.GetWidth
      apply hRows_used_w_le
      · exact le_max_left _ _
      · intro p hp its hits
        have hR : p.1 ∈ plannedRows probe env fb irc := (List.of_mem_zip hp).1
        rw [hDistributeRow_congr _ its (plannedItems probe env fb irc) _ _ hits]
        have h2 := (hDistributeRow_extent fb (plannedItems probe env fb irc)
          (max 0 irc.GetWidth) p.1
          (fun rc hrc _ => plannedRows_clamped probe env fb irc hfc p.1 hR rc hrc)
          (hall p.1 hR).1 (hgw p.1 hR) (hall p.1 hR).2.1 (hall p.1 hR).2.2).2
        have h3 : 0 ≤ (p.1.gaps.map (fun g => fb.gap + g.minw)).sum := by
          apply List.sum_nonneg
          intro x hx
          rw [List.mem_map] at hx
          obtain ⟨g, hg, e⟩ := hx
          have := (plannedRows_gaps_valid probe env fb irc p.1 hR g hg).1
          omega
        exact le_trans h2 (by omega)
  · intro hrow hfit hsum hint
    exact (distributedColumn_extent probe env fb irc hrow hfit hsum hint).1

theorem weightedCount_nonneg (cells : List VCell) : 0 ≤ weightedCount cells := by
  unfold weightedCount; omega

theorem weightedCount_cons (c : VCell) (rest : List VCell) :
    weightedCount (c :: rest) = (if c.wshare > 0 then 1 else 0) + weightedCount rest := by
  unfold weightedCount
  by_cases h : c.wshare > 0
  · simp [List.filter_cons, h]; omega
  · simp [List.filter_cons, h]

theorem weightedCount_nil : weightedCount [] = 0 := rfl

/-- Cells without weight are left as they are by `equalShareCells`. -/
theorem equalShareCells_no_weight (R n : Int) :
    ∀ (cells : List VCell) (rank : Int), weightedCount cells = 0 →
      equalShareCells R n rank cells = cells := by
  intro cells
  induction cells with
  | nil => intro rank _; rfl
  | cons c rest ih =>
    intro rank h
    rw [weightedCount_cons] at h
    have hnn := weightedCount_nonneg rest
    have hc : ¬ c.wshare > 0 := by
      intro hp
      rw [if_pos hp] at h
      omega
    rw [if_neg hc] at h
    unfold equalShareCells
    rw [if_neg hc, ih rank (by omega)]

/-- From the second weighted cell on, `equalShareCells` sets the height `R / n`
when `n ≤ R`. -/
theorem equalShareCells_later (R n : Int) (hn : n ≤ R) :
    ∀ (cells : List VCell) (rank : Int), 1 ≤ rank →
      equalShareCells R n rank cells
        = cells.map (fun c => if c.wshare > 0 then { c with h := R / n } else c) := by
  intro cells
  induction cells with
  | nil => intro rank _; rfl
  | cons c rest ih =>
    intro rank hr
    unfold equalShareCells
    by_cases hc : c.wshare > 0
    · rw [if_pos hc, ih (rank + 1) (by omega), List.map_cons, if_pos hc]
      unfold equalShare
      rw [if_pos hn, if_neg (by omega)]
      simp
    · rw [if_neg hc, ih rank hr, List.map_cons, if_neg hc]

/-- Past the remainder, `equalShareCells` leaves cells of height `0` as they
are when `R < n`. -/
theorem equalShareCells_past (R n : Int) (hn : ¬ n ≤ R) :
    ∀ (cells : List VCell) (rank : Int), R ≤ rank →
      (∀ c ∈ cells, c.wshare > 0 → c.h = 0) →
      equalShareCells R n rank cells = cells := by
  intro cells
  induction cells with
  | nil => intro rank _ _; rfl
  | cons c rest ih =>
    intro rank hr h0
    have hrest : ∀ c ∈ rest, c.wshare > 0 → c.h = 0 :=
      fun a ha => h0 a (List.mem_cons_of_mem _ ha)
    unfold equalShareCells
    by_cases hc : c.wshare > 0
    · rw [if_pos hc, ih (rank + 1) (by omega) hrest]
      unfold equalShare
      rw [if_neg hn, if_neg (by omega), ← h0 c (List.mem_cons_self _ _) hc]
    · rw [if_neg hc, ih rank hr hrest]

/-- The cell at position `k` of `equalShareCells`. -/
theorem equalShareCells_getElem? (R n : Int) :
    ∀ (cells : List VCell) (rank : Int) (k : Nat) (c : VCell), cells[k]? = some c →
      (equalShareCells R n rank cells)[k]?
        = some (if c.wshare > 0
            then { c with h := equalShare R n (rank + weightedCount (cells.take k)) } else c) := by
  intro cells
  induction cells with
  | nil => intro rank k c h; simp at h
  | cons c0 rest ih =>
    intro rank k c h
    unfold equalShareCells
    cases k with
    | zero =>
      simp only [List.getElem?_cons_zero, Option.some.injEq] at h
      subst h
      by_cases hc : c0.wshare > 0
      · rw [if_pos hc, if_pos hc]
        simp [weightedCount_nil]
      · rw [if_neg hc, if_neg hc]
        simp
    | succ k =>
      simp only [List.getElem?_cons_succ] at h
      rw [List.take_succ_cons, weightedCount_cons]
      by_cases hc : c0.wshare > 0
      · rw [if_pos hc, if_pos hc, List.getElem?_cons_succ, ih (rank + 1) k c h]
        rw [show rank + 1 + weightedCount (List.take k rest)
          = rank + (1 + weightedCount (List.take k rest)) by ring]
      · rw [if_neg hc, if_neg hc, List.getElem?_cons_succ, ih rank k c h, zero_add]

/-- The first distribution loop over cells of one weight `wt`, height `0` and
default caps, when every share is `q ≥ 1`: every weighted cell gets the height
`q`, and the pool loses `q` for each. -/
theorem vDistribute_equal_q (items : List Item) (remainder ews wt q : Int)
    (hq1 : 1 ≤ q) (hq2 : q ≤ INT_MAX)
    (hdiv : Int.tdiv (remainder * wt) ews = q) :
    ∀ (cells : List VCell) (rem : Int),
      (∀ c ∈ cells, c.wshare > 0 → (c.wshare = wt ∧ c.h = 0 ∧
          (getItem items c.idx).minh = -1 ∧ (getItem items c.idx).maxh = INT_MAX)) →
      weightedCount cells * q ≤ rem →
      vDistribute items remainder ews rem cells
        = (cells.map (fun c => if c.wshare > 0 then { c with h := q } else c),
           rem - weightedCount cells * q) := by
  intro cells
  induction cells with
  | nil => intro rem _ _; simp [vDistribute, weightedCount_nil]
  | cons c rest ih =>
    intro rem hc hr
    have hrest : ∀ c ∈ rest, c.wshare > 0 → (c.wshare = wt ∧ c.h = 0 ∧
          (getItem items c.idx).minh = -1 ∧ (getItem items c.idx).maxh = INT_MAX) :=
      fun a ha => hc a (List.mem_cons_of_mem _ ha)
    have hnn := weightedCount_nonneg rest
    rw [weightedCount_cons] at hr ⊢
    unfold vDistribute
    by_cases hw : c.wshare > 0
    · obtain ⟨hwt, hh, hmin, hmax⟩ := hc c (List.mem_cons_self _ _) hw
      rw [if_pos hw] at hr ⊢
      have e1 : (1 + weightedCount rest) * q = q + weightedCount rest * q := by ring
      rw [e1] at hr ⊢
      have hnw : ¬ c.wshare ≤ 0 := by omega
      rw [if_neg hnw]
      simp only
      have hwq : 0 ≤ weightedCount rest * q := Int.mul_nonneg hnn (by omega)
      have hshare : shareOf remainder c.wshare ews rem = q := by
        rw [hwt]
        unfold shareOf
        simp only
        rw [hdiv, wrapInt32_of_range q (by omega) hq2]
        have hnz : ¬ (q = 0 ∧ rem > 0) := by omega
        rw [if_neg hnz]
        omega
      have hserve : serve (getItem items c.idx).minh (getItem items c.idx).maxh c.h q rem
          = (q, rem - q) := by
        unfold serve
        simp only [hmin, hmax, hh, zero_add, ClampWith_unset _ _ hq2]
        simp
      rw [hshare, hserve]
      simp only
      by_cases hz : rem - q = 0
      · rw [if_pos hz]
        have hw0 : weightedCount rest = 0 := by
          by_contra hne
          have h1 : 1 ≤ weightedCount rest := by omega
          have : 1 * q ≤ weightedCount rest * q := Int.mul_le_mul_of_nonneg_right h1 (by omega)
          omega
        have hmap : rest.map (fun c => if c.wshare > 0 then { c with h := q } else c) = rest := by
          have := equalShareCells_later (q * 1) 1 (by omega) rest 1 (le_refl _)
          rw [equalShareCells_no_weight _ _ rest 1 hw0] at this
          simpa using this.symm
        rw [List.map_cons, if_pos hw, hmap, hw0]
        simp [hz]
      · rw [if_neg hz, ih (rem - q) hrest (by omega), List.map_cons, if_pos hw]
        simp only [Prod.mk.injEq, true_and]
        ring
    · rw [if_neg hw] at hr ⊢
      rw [zero_add] at hr ⊢
      have hnw : c.wshare ≤ 0 := by omega
      rw [if_pos hnw, ih rem hrest hr, List.map_cons, if_neg hw]

theorem vLeftover_zero (items : List Item) (cells : List VCell) :
    vLeftover items 0 cells = cells := by
  cases cells with
  | nil => rfl
  | cons c rest =>
    unfold vLeftover
    rw [if_neg (by omega)]

/-- When the remainder divides evenly, `equalShareCells` sets the height
`R / n` everywhere. -/
theorem equalShareCells_even (R n : Int) (hn : n ≤ R) (hm : R % n = 0) :
    ∀ (cells : List VCell) (rank : Int),
      equalShareCells R n rank cells
        = cells.map (fun c => if c.wshare > 0 then { c with h := R / n } else c) := by
  intro cells
  induction cells with
  | nil => intro rank; rfl
  | cons c rest ih =>
    intro rank
    unfold equalShareCells
    by_cases hc : c.wshare > 0
    · rw [if_pos hc, ih (rank + 1), List.map_cons, if_pos hc]
      unfold equalShare
      rw [if_pos hn, hm]
      simp
    · rw [if_neg hc, ih rank, List.map_cons, if_neg hc]

/-- The second distribution loop after every weighted cell got `R / n`: the
leftover `R % n` goes to the first weighted cell. -/
theorem vLeftover_first (items : List Item) (R n : Int) (hn : n ≤ R) (hm : 0 < R % n)
    (hint : R / n + R % n ≤ INT_MAX) :
    ∀ (cells : List VCell),
      (∀ c ∈ cells, c.wshare > 0 → (getItem items c.idx).maxh = INT_MAX) →
      vLeftover items (R % n)
          (cells.map (fun c => if c.wshare > 0 then { c with h := R / n } else c))
        = equalShareCells R n 0 cells := by
  intro cells
  induction cells with
  | nil => intro _; rfl
  | cons c rest ih =>
    intro hc
    have hrest : ∀ c ∈ rest, c.wshare > 0 → (getItem items c.idx).maxh = INT_MAX :=
      fun a ha => hc a (List.mem_cons_of_mem _ ha)
    rw [List.map_cons]
    unfold vLeftover equalShareCells
    rw [if_pos hm]
    by_cases hw : c.wshare > 0
    · have hmax := hc c (List.mem_cons_self _ _) hw
      rw [if_pos hw, if_pos hw]
      have hroom : roomOf (getItem items c.idx) (R / n) = INT_MAX - R / n := by
        unfold roomOf
        rw [hmax, if_pos (by decide)]
      have hcond : ¬ (c.wshare ≤ 0 ∨ roomOf (getItem items c.idx) (R / n) ≤ 0) := by
        rw [hroom]; omega
      show (if ({ c with h := R / n } : VCell).wshare ≤ 0
          ∨ roomOf (getItem items c.idx) (R / n) ≤ 0 then _ else _) = _
      rw [if_neg hcond]
      dsimp only
      rw [hroom, min_eq_right (by omega), sub_self, vLeftover_zero,
        equalShareCells_later R n hn rest (0 + 1) (by omega)]
      unfold equalShare
      rw [if_pos hn, if_pos rfl]
    · rw [if_neg hw, if_neg hw]
      have hcond : c.wshare ≤ 0 ∨ roomOf (getItem items c.idx) c.h ≤ 0 := Or.inl (by omega)
      rw [if_pos hcond, ih hrest]

/-- The first distribution loop over cells of one weight, height `0` and
default caps, when the remainder is smaller than the number of weighted cells:
the first cells get one unit each until the pool is empty. -/
theorem vDistribute_ones (items : List Item) (R n ews wt : Int) (hn : ¬ n ≤ R)
    (hdiv : Int.tdiv (R * wt) ews = 0) :
    ∀ (cells : List VCell) (rank : Int),
      (∀ c ∈ cells, c.wshare > 0 → (c.wshare = wt ∧ c.h = 0 ∧
          (getItem items c.idx).minh = -1 ∧ (getItem items c.idx).maxh = INT_MAX)) →
      rank < R → R - rank ≤ weightedCount cells →
      vDistribute items R ews (R - rank) cells = (equalShareCells R n rank cells, 0) := by
  intro cells
  induction cells with
  | nil =>
    intro rank _ h1 h2
    rw [weightedCount_nil] at h2
    omega
  | cons c rest ih =>
    intro rank hc h1 h2
    have hrest : ∀ c ∈ rest, c.wshare > 0 → (c.wshare = wt ∧ c.h = 0 ∧
          (getItem items c.idx).minh = -1 ∧ (getItem items c.idx).maxh = INT_MAX) :=
      fun a ha => hc a (List.mem_cons_of_mem _ ha)
    rw [weightedCount_cons] at h2
    unfold vDistribute equalShareCells
    by_cases hw : c.wshare > 0
    · obtain ⟨hwt, hh, hmin, hmax⟩ := hc c (List.mem_cons_self _ _) hw
      rw [if_pos hw] at h2 ⊢
      have hnw : ¬ c.wshare ≤ 0 := by omega
      rw [if_neg hnw]
      simp only
      have hshare : shareOf R c.wshare ews (R - rank) = 1 := by
        rw [hwt]
        unfold shareOf
        simp only
        rw [hdiv, if_pos ⟨rfl, by omega⟩]
        omega
      have hserve : serve (getItem items c.idx).minh (getItem items c.idx).maxh c.h 1 (R - rank)
          = (1, R - rank - 1) := by
        unfold serve
        simp only [hmin, hmax, hh, zero_add, ClampWith_unset _ _ (by decide : (1 : Int) ≤ INT_MAX)]
        simp
      have hes : equalShare R n rank = 1 := by
        unfold equalShare
        rw [if_neg hn, if_pos h1]
      rw [hshare, hserve, hes]
      simp only
      by_cases hz : R - rank - 1 = 0
      · rw [if_pos hz, equalShareCells_past R n hn rest (rank + 1) (by omega)
          (fun a ha hpos => (hrest a ha hpos).2.1)]
        simp [hz]
      · rw [if_neg hz]
        have := ih (rank + 1) hrest (by omega) (by omega)
        rw [show R - (rank + 1) = R - rank - 1 by ring] at this
        rw [this]
    · rw [if_neg hw] at h2 ⊢
      have hnw : c.wshare ≤ 0 := by omega
      rw [if_pos hnw, ih rank hrest h1 (by omega)]

theorem wshare_sum_eq (wt : Int) :
    ∀ (cells : List VCell), (∀ c ∈ cells, c.wshare = 0 ∨ c.wshare = wt) → 0 < wt →
      (cells.map (fun c => c.wshare)).sum = weightedCount cells * wt := by
  intro cells
  induction cells with
  | nil => intro _ _; simp [weightedCount_nil]
  | cons c rest ih =>
    intro h hwt
    rw [List.map_cons, List.sum_cons, weightedCount_cons,
      ih (fun a ha => h a (List.mem_cons_of_mem _ ha)) hwt]
    rcases h c (List.mem_cons_self _ _) with h0 | h1
    · rw [h0, if_neg (by omega)]; ring
    · rw [h1, if_pos hwt]; ring

/-- The block "distribute remainder" of `LayoutVertical` over a column whose
weighted cells all have the weight `wt`, the height `0` and the default caps,
the sum of the weights being a value that an `int` holds: the weighted cells
end with the heights `equalShare`. -/
theorem vDistributeAll_equal (fb : FlowBoxLayout) (items : List Item) (inner_h wt : Int)
    (cells : List VCell) (hrow : fb.fixed_row < 0) (hwt : 0 < wt)
    (hcells : ∀ c ∈ cells, c.wshare = 0 ∨ (c.wshare = wt ∧ c.h = 0 ∧
      (getItem items c.idx).minh = -1 ∧ (getItem items c.idx).maxh = INT_MAX))
    (hfit : columnExtent fb.gap cells ≤ inner_h)
    (hint : inner_h - columnExtent fb.gap cells ≤ INT_MAX)
    (hwsum : weightedCount cells * wt ≤ INT_MAX) :
    vDistributeAll fb items inner_h cells
      = equalShareCells (inner_h - columnExtent fb.gap cells) (weightedCount cells) 0 cells := by
  have hok : ∀ c ∈ cells, c.wshare > 0 → (c.wshare = wt ∧ c.h = 0 ∧
      (getItem items c.idx).minh = -1 ∧ (getItem items c.idx).maxh = INT_MAX) := by
    intro c hc hpos
    rcases hcells c hc with h | h
    · omega
    · exact h
  have hsum := wshare_sum_eq wt cells (fun c hc => by
    rcases hcells c hc with h | h
    · exact Or.inl h
    · exact Or.inr h.1) hwt
  have hnn := weightedCount_nonneg cells
  unfold columnExtent at hfit hint ⊢
  unfold vDistributeAll
  simp only
  have hnf : ¬ fb.fixed_row ≥ 0 := by omega
  have hwnn : 0 ≤ weightedCount cells * wt := Int.mul_nonneg hnn (by omega)
  rw [if_neg hnf, hsum, wrapInt32_of_range _ (by omega) hwsum]
  generalize hR : inner_h - ((cells.map (fun c => c.h)).sum
    + max 0 ((cells.length : Int) - 1) * fb.gap) = R at hfit hint ⊢
  generalize hN : weightedCount cells = n at hnn hwsum hwnn ⊢
  have hR0 : 0 ≤ R := by omega
  rw [max_eq_right hR0]
  by_cases hn0 : n = 0
  · -- no weighted cell
    rw [hn0, zero_mul, if_neg (by omega), equalShareCells_no_weight _ _ cells 0 (by omega)]
  have hn1 : 1 ≤ n := by omega
  have hews : 0 < n * wt := Int.mul_pos (by omega) hwt
  have htd : Int.tdiv (R * wt) (n * wt) = R / n := by
    rw [Int.tdiv_eq_ediv (Int.mul_nonneg hR0 (by omega)) (by omega)]
    exact Int.mul_ediv_mul_of_pos_left R n hwt
  by_cases hRz : R = 0
  · rw [if_neg (by omega), hRz]
    rw [equalShareCells_past 0 n (by omega) cells 0 (le_refl _)
      (fun c hc hpos => (hok c hc hpos).2.1)]
  have hg : fb.fixed_row < 0 ∧ n * wt > 0 ∧ R > 0 := ⟨hrow, hews, by omega⟩
  rw [if_pos hg]
  by_cases hn : n ≤ R
  · -- every cell gets `R / n`, the first one the leftover on top
    have hq1 : 1 ≤ R / n := by
      have := Int.ediv_add_emod R n
      have h2 := Int.emod_lt_of_pos R (by omega : 0 < n)
      by_contra hcon
      have h3 : R / n ≤ 0 := by omega
      have : n * (R / n) ≤ 0 := Int.mul_nonpos_of_nonneg_of_nonpos (by omega) h3
      omega
    have hmod0 := Int.emod_nonneg R (by omega : n ≠ 0)
    have hnq : n * (R / n) + R % n = R := Int.ediv_add_emod R n
    have hqle : R / n ≤ n * (R / n) := by
      have : 1 * (R / n) ≤ n * (R / n) := Int.mul_le_mul_of_nonneg_right hn1 (by omega)
      omega
    have hd := vDistribute_equal_q items R (n * wt) wt (R / n) hq1 (by omega) htd cells R hok
      (by rw [hN]; omega)
    rw [hd, hN]
    dsimp only
    have hpool : R - n * (R / n) = R % n := by omega
    rw [hpool]
    by_cases hm : R % n > 0
    · rw [if_pos hm]
      exact vLeftover_first items R n hn hm (by omega) cells
        (fun c hc hpos => (hok c hc hpos).2.2.2)
    · rw [if_neg hm, equalShareCells_even R n hn (by omega)]
  · -- the first `R` cells get one unit each
    have htd0 : Int.tdiv (R * wt) (n * wt) = 0 := by
      rw [htd]
      exact Int.ediv_eq_zero_of_lt hR0 (by omega)
    have hd := vDistribute_ones items R n (n * wt) wt hn htd0 cells 0 hok (by omega)
      (by rw [hN]; omega)
    rw [sub_zero] at hd
    rw [hd]
    dsimp only
    rw [if_neg (by omega)]

/-- Two shares of one remainder differ by the leftover `R % n` at most, or by
one unit when the leftover is `0`. -/
theorem equalShare_diff (R n r1 r2 : Int) (hn : 1 ≤ n) :
    equalShare R n r1 - equalShare R n r2 ≤ max 1 (R % n) ∧
    (n ≤ R → r1 ≠ 0 → r2 ≠ 0 → equalShare R n r1 = equalShare R n r2) ∧
    (R < n ∨ R % n ≤ 1 → equalShare R n r1 - equalShare R n r2 ≤ 1) := by
  have hmod0 := Int.emod_nonneg R (by omega : n ≠ 0)
  unfold equalShare
  refine ⟨?_, ?_, ?_⟩
  · split_ifs <;> omega
  · intro h1 h2 h3
    rw [if_pos h1, if_pos h1, if_neg h2, if_neg h3]
  · intro h
    split_ifs <;> omega

/-- The column cell of an `Expand` box with the default height caps, without
fixed row: base height `0` and the weight of the item. -/
theorem plannedColumn_expand (probe : FlowBoxLayout → Rect → FlowBoxLayout) (env : Env)
    (fb : FlowBoxLayout) (irc : Rect) (wt : Int) (hrow : fb.fixed_row < 0) (hwt : 0 < wt)
    (c : VCell) (hc : c ∈ plannedColumn probe env fb irc)
    (hit : ExpandBoxDefault wt (getItem fb.items c.idx)) :
    c.wshare = wt ∧ c.h = 0 := by
  unfold plannedColumn at hc
  obtain ⟨j, _, hidx, hcell⟩ := vBuild_cell_origin _ _ _ _ _ 0 c hc
  rw [zero_add] at hidx hcell
  rw [hidx] at hit
  obtain ⟨h1, h2, h3, h4, h5, h6, h7⟩ := hit
  have hcfg := cfg_fields _ _ (getItem_marked env fb.items j).1
  have hv : (getItem (planStart env fb irc).items j).cl.visible = true := by
    cases hv : (getItem (planStart env fb irc).items j).cl.visible with
    | true => rfl
    | false =>
      unfold vItem at hcell
      rw [if_pos hv] at hcell
      cases hcell
  have hcell2 := vItem_fixedExpand (planStart env fb irc) env probe (max 0 irc.GetWidth) wt j
    (getItem (planStart env fb irc).items j) hrow hwt hv
    (planStart_spacer env fb irc j h1)
    (by rw [planStart_is_break]; exact h2)
    (hcfg.2.2.2.2.2.2.2.1.trans h6) (hcfg.2.2.2.2.2.2.2.2.1.trans h7)
    (Or.inr ⟨by rw [show (getItem (planStart env fb irc).items j).fixed
                    = (getItem fb.items j).fixed from hcfg.2.1]; exact h3,
             hcfg.2.2.2.1.trans h4, hcfg.2.2.1.trans h5⟩)
  rw [hcell2] at hcell
  have hw : (getItem (planStart env fb irc).items j).expandingWeight = wt :=
    hcfg.2.2.1.trans h5
  rw [← Option.some.inj hcell]
  dsimp only
  rw [hw, if_pos hwt, if_pos hwt]
  exact ⟨rfl, rfl⟩

/-- C34 (equal weights, equal shares), amended.  In vertical mode without
fixed-row override, when every weighted cell of the column belongs to an
`Expand` box of one common weight `wt` with the default height caps, the base
heights plus gaps do not exceed the inner height, and the remainder `R` and
the sum `n · wt` of the weights are values that an `int` holds (the sum of the
weights does not wrap around): with `n` the number of weighted cells, every
weighted cell ends with the height `equalShare R n rank`, `rank` being the
number of weighted cells before it: `R / n` each and the whole leftover `R % n` on top for the first one when
`n ≤ R`, one unit for each of the first `R` and none for the others when
`R < n`.  The heights of two expanding items differ by the leftover `R % n` at
most (by one unit at most only when `R < n` or `R % n ≤ 1`); all but the first
are equal when `n ≤ R`. -/
theorem C34_equal_weights_shares (probe : FlowBoxLayout → Rect → FlowBoxLayout) (env : Env)
    (fb : FlowBoxLayout) (irc : Rect) (wt : Int)
    (hd : fb.dir = Direction.V) (hrow : fb.fixed_row < 0) (hwt : 0 < wt)
    (hcells : ∀ c ∈ plannedColumn probe env fb irc, c.wshare > 0 →
      ExpandBoxDefault wt (getItem fb.items c.idx))
    (hfit : columnExtent fb.gap (plannedColumn probe env fb irc) ≤ max 0 irc.GetHeight)
    (hint : max 0 irc.GetHeight - columnExtent fb.gap (plannedColumn probe env fb irc)
      ≤ INT_MAX)
    (hwsum : weightedCount (plannedColumn probe env fb irc) * wt ≤ INT_MAX) :
    distributedColumn probe env fb irc
      = equalShareCells
          (max 0 irc.GetHeight - columnExtent fb.gap (plannedColumn probe env fb irc))
          (weightedCount (plannedColumn probe env fb irc)) 0 (plannedColumn probe env fb irc) ∧
    (∀ (k : Nat) (c : VCell), (plannedColumn probe env fb irc)[k]? = some c → c.wshare > 0 →
      (getItem (PreLayoutCalcWith probe env fb irc).items c.idx).cl.cell.GetHeight
        = equalShare
            (max 0 irc.GetHeight - columnExtent fb.gap (plannedColumn probe env fb irc))
            (weightedCount (plannedColumn probe env fb irc))
            (weightedCount ((plannedColumn probe env fb irc).take k))) ∧
    (1 ≤ weightedCount (plannedColumn probe env fb irc) → ∀ r1 r2 : Int,
      equalShare (max 0 irc.GetHeight - columnExtent fb.gap (plannedColumn probe env fb irc))
          (weightedCount (plannedColumn probe env fb irc)) r1
        - equalShare (max 0 irc.GetHeight - columnExtent fb.gap (plannedColumn probe env fb irc))
          (weightedCount (plannedColumn probe env fb irc)) r2
        ≤ max 1 ((max 0 irc.GetHeight - columnExtent fb.gap (plannedColumn probe env fb irc))
            % weightedCount (plannedColumn probe env fb irc)) ∧
      (weightedCount (plannedColumn probe env fb irc)
          ≤ max 0 irc.GetHeight - columnExtent fb.gap (plannedColumn probe env fb irc) →
        r1 ≠ 0 → r2 ≠ 0 →
        equalShare (max 0 irc.GetHeight - columnExtent fb.gap (plannedColumn probe env fb irc))
            (weightedCount (plannedColumn probe env fb irc)) r1
          = equalShare
              (max 0 irc.GetHeight - columnExtent fb.gap (plannedColumn probe env fb irc))
              (weightedCount (plannedColumn probe env fb irc)) r2)) := by
  have hcl := plannedColumn_clamped probe env fb irc hrow
  have hok : ∀ c ∈ plannedColumn probe env fb irc, c.wshare = 0 ∨ (c.wshare = wt ∧ c.h = 0 ∧
      (getItem (plannedColumnItems probe env fb irc) c.idx).minh = -1 ∧
      (getItem (plannedColumnItems probe env fb irc) c.idx).maxh = INT_MAX) := by
    intro c hc
    by_cases hpos : c.wshare > 0
    · right
      have hit := hcells c hc hpos
      obtain ⟨e1, e2⟩ := plannedColumn_expand probe env fb irc wt hrow hwt c hc hit
      have hcfg := cfg_fields _ _ (plannedColumnItems_cfg probe env fb irc c.idx)
      exact ⟨e1, e2, hcfg.2.2.2.2.2.2.2.1.trans hit.2.2.2.2.2.1,
        hcfg.2.2.2.2.2.2.2.2.1.trans hit.2.2.2.2.2.2⟩
    · left
      have := (hcl c hc).2
      omega
  have hD : distributedColumn probe env fb irc
      = equalShareCells
          (max 0 irc.GetHeight - columnExtent fb.gap (plannedColumn probe env fb irc))
          (weightedCount (plannedColumn probe env fb irc)) 0 (plannedColumn probe env fb irc) :=
    vDistributeAll_equal fb _ _ wt _ hrow hwt hok hfit hint hwsum
  refine ⟨hD, ?_, ?_⟩
  · intro k c hk hpos
    have hpos2 : 0 < (plannedColumn probe env fb irc).length :=
      List.length_pos_of_mem (List.getElem?_mem hk)
    have h0 : visibleCount env fb.items ≠ 0 := by
      rw [← plannedColumn_length probe env fb irc]; omega
    have hk2 := equalShareCells_getElem?
      (max 0 irc.GetHeight - columnExtent fb.gap (plannedColumn probe env fb irc))
      (weightedCount (plannedColumn probe env fb irc)) _ 0 k c hk
    rw [if_pos hpos, zero_add, ← hD] at hk2
    have hcell := planned_cell_V probe env fb irc hd h0 k _ hk2
    dsimp only at hcell
    rw [hcell]
    unfold Rect.GetHeight
    dsimp only
    omega
  · intro hn r1 r2
    have h := equalShare_diff
      (max 0 irc.GetHeight - columnExtent fb.gap (plannedColumn probe env fb irc))
      (weightedCount (plannedColumn probe env fb irc)) r1 r2 hn
    exact ⟨h.1, h.2.1⟩

/-- Witness for C34: three `Expand(1)` boxes in a column `200` high, gap `0`:
`R = 200`, `n = 3`, and the first box is `200 / 3 + 200 % 3 = 68` high. -/
theorem C34_equal_weights_shares_witness :
    sampleThreeExpand.dir = Direction.V ∧
    plannedColumn noProbe sampleEnv sampleThreeExpand (RectC 0 0 100 200)
      = [⟨0, 0, 1⟩, ⟨1, 0, 1⟩, ⟨2, 0, 1⟩] ∧
    (getItem (PreLayoutCalcWith noProbe sampleEnv sampleThreeExpand
        (RectC 0 0 100 200)).items 0).cl.cell.GetHeight
      = equalShare
          (max 0 (RectC 0 0 100 200).GetHeight - columnExtent sampleThreeExpand.gap
            (plannedColumn noProbe sampleEnv sampleThreeExpand (RectC 0 0 100 200)))
          (weightedCount (plannedColumn noProbe sampleEnv sampleThreeExpand (RectC 0 0 100 200)))
          (weightedCount ((plannedColumn noProbe sampleEnv sampleThreeExpand
            (RectC 0 0 100 200)).take 0)) ∧
    equalShare 200 3 0 = 68 ∧ equalShare 200 3 1 = 66 ∧ equalShare 200 3 2 = 66 :=
  ⟨rfl, by decide,
   (C34_equal_weights_shares noProbe sampleEnv sampleThreeExpand (RectC 0 0 100 200) 1 rfl
     (by decide) (by decide) (by decide) (by decide) (by decide) (by decide)).2.1 0 ⟨0, 0, 1⟩
     (by decide) (by decide),
   by decide, by decide, by decide⟩

/-- Counterexample for C34: three `Expand(1)` boxes with the default caps in a
vertical container `200` high, gap `0`, no fixed row.  The remainder is `200`;
the first loop gives `66` to each box and the second loop the leftover `2` to
the first one: the cells are `68`, `66` and `66` high, and the first two
differ by two units. -/
theorem C34_equal_weights_shares_counterexample :
    sampleThreeExpand.dir = Direction.V ∧ sampleThreeExpand.fixed_row < 0 ∧
    (∀ it ∈ sampleThreeExpand.items, ExpandBoxDefault 1 it) ∧
    (getItem (PreLayoutCalcWith noProbe sampleEnv sampleThreeExpand
        (RectC 0 0 100 200)).items 0).cl.cell.GetHeight = 68 ∧
    (getItem (PreLayoutCalcWith noProbe sampleEnv sampleThreeExpand
        (RectC 0 0 100 200)).items 1).cl.cell.GetHeight = 66 ∧
    (getItem (PreLayoutCalcWith noProbe sampleEnv sampleThreeExpand
        (RectC 0 0 100 200)).items 2).cl.cell.GetHeight = 66 ∧
    ¬ ((getItem (PreLayoutCalcWith noProbe sampleEnv sampleThreeExpand
        (RectC 0 0 100 200)).items 0).cl.cell.GetHeight
      - (getItem (PreLayoutCalcWith noProbe sampleEnv sampleThreeExpand
        (RectC 0 0 100 200)).items 1).cl.cell.GetHeight ≤ 1) := by
  refine ⟨rfl, by decide, by decide, by decide, by decide, by decide, by decide⟩

/-- C5 (vertical even split): the code does not do what the claim says when the
sum of the weights overflows.  For
`AddExpand(c0, 2^30); AddFixed(c1, 40); AddExpand(c2, 2^30)` in a vertical
container without fixed row, gap `0`, laid out at `100 × 200` (default caps;
the remainder `R = 160` is divisible by `n = 2`): the build loop adds the
weights up in `int exp_weight_sum`, `2^30 + 2^30` wraps around to `-2^31`, the
guard `exp_weight_sum > 0` fails and nothing is distributed.  The cell heights
are `0`, `40`, `0`, not `80`, `40`, `80`, and the used height is `40`.  The
same column with the weights `1` yields `80`, `40`, `80`. -/
theorem C5_even_split_lost_to_overflow :
    (sampleWeightedColumn 1073741824).dir = Direction.V ∧
    (sampleWeightedColumn 1073741824).fixed_row = -1 ∧
    (sampleWeightedColumn 1073741824).gap = 0 ∧
    (sampleWeightedColumn 1073741824).items.map
        (fun it => (it.fixed, it.expandingWeight, it.minh, it.maxh))
      = [(-1, 1073741824, -1, INT_MAX), (40, 0, -1, INT_MAX), (-1, 1073741824, -1, INT_MAX)] ∧
    wrapInt32 (1073741824 + 0 + 1073741824) = -2147483648 ∧
    (sampleWeightedColumn 1073741824).items.map (fun it => it.cl.cell.GetHeight) = [0, 40, 0] ∧
    (sampleWeightedColumn 1073741824).used_h = 40 ∧
    (sampleWeightedColumn 1).items.map (fun it => it.cl.cell.GetHeight) = [80, 40, 80] := by
  refine ⟨by decide, by decide, by decide, by decide, by decide, by decide, by decide,
    by decide⟩

/-- C8 (no negative rectangles): the code does not do what the claim says when
the sum of the weights overflows.  For
`AddExpand(c0, INT_MAX); AddExpand(c1, INT_MAX); AddExpand(c2, 3)` in a
horizontal container with wrap off and gap `0`, laid out at `300 × 100`, every
box reporting the min size `100 × 20`: PASS 2C adds the weights up in
`int total_w`, `INT_MAX + INT_MAX + 3` wraps around to `1`, the share of the
first item is `(int)(300 · INT_MAX / 1) = -300`, and the cell rectangles are
`0 .. -300`, `-300 .. -600` and `-600 .. 300`: the cells and the content
rectangles of the first two boxes have the width `-300`.  The same row with
the weights `1`, `1`, `3` has the cell widths `60`, `60`, `180`. -/
theorem C8_negative_width_on_overflow :
    sampleEnv.GetMinSize 0 = ⟨100, 20⟩ ∧
    (sampleWeightedRow INT_MAX false).dir = Direction.H ∧
    (sampleWeightedRow INT_MAX false).items.map (fun it => it.expandingWeight)
      = [INT_MAX, INT_MAX, 3] ∧
    wrapInt32 (INT_MAX + INT_MAX + 3) = 1 ∧
    shareOf 300 INT_MAX 1 300 = -300 ∧
    (sampleWeightedRow INT_MAX false).items.map (fun it => it.cl.cell)
      = [⟨0, 0, -300, 100⟩, ⟨-300, 0, -600, 100⟩, ⟨-600, 0, 300, 100⟩] ∧
    (sampleWeightedRow INT_MAX false).items.map (fun it => it.cl.cell.GetWidth)
      = [-300, -300, 900] ∧
    (sampleWeightedRow INT_MAX false).items.map (fun it => it.cl.content.GetWidth)
      = [-300, -300, 900] ∧
    ¬ (getItem (sampleWeightedRow INT_MAX false).items 0).cl.cell.nonneg ∧
    ¬ (getItem (sampleWeightedRow INT_MAX false).items 0).cl.content.nonneg ∧
    (sampleWeightedRow 1 false).items.map (fun it => it.cl.cell.GetWidth) = [60, 60, 180] := by
  refine ⟨by decide, by decide, by decide, by decide, by decide, by decide, by decide,
    by decide, ?_, ?_, by decide⟩
  · intro h
    exact absurd h.1 (by decide)
  · intro h
    exact absurd h.1 (by decide)

/-- C32 (remainder conservation, vertical): the code does not do what the claim
says when the sum of the weights overflows.  For
`AddExpand(c0, 2^30); AddFixed(c1, 40); AddExpand(c2, 2^30)` in a vertical
container without fixed row, gap `0`, inner height `200`: the base heights
`0 + 40 + 0` fit the inner height, two cells have a positive weight, and the
room of the weighted cells (`2 · INT_MAX`) exceeds the remainder `160`; but
`int exp_weight_sum` wraps around to `-2^31`, the distribution is skipped, the
column is left as it was built, the heights sum to `40`, and the used height
is `40`, not `200`.  The same column with the weights `1` fills the inner
height. -/
theorem C32_remainder_lost_to_overflow :
    (sampleWeightedColumn 1073741824).fixed_row < 0 ∧
    plannedColumn noProbe sampleEnv (sampleWeightedColumn 1073741824) (RectC 0 0 100 200)
      = [⟨0, 0, 1073741824⟩, ⟨1, 40, 0⟩, ⟨2, 0, 1073741824⟩] ∧
    columnExtent (sampleWeightedColumn 1073741824).gap
        (plannedColumn noProbe sampleEnv (sampleWeightedColumn 1073741824) (RectC 0 0 100 200))
      = 40 ∧
    max 0 (RectC 0 0 100 200).GetHeight = 200 ∧
    totalRoom (sampleWeightedColumn 1073741824).items
        (plannedColumn noProbe sampleEnv (sampleWeightedColumn 1073741824) (RectC 0 0 100 200))
      = 2 * INT_MAX ∧
    distributedColumn noProbe sampleEnv (sampleWeightedColumn 1073741824) (RectC 0 0 100 200)
      = plannedColumn noProbe sampleEnv (sampleWeightedColumn 1073741824) (RectC 0 0 100 200) ∧
    columnExtent (sampleWeightedColumn 1073741824).gap
        (distributedColumn noProbe sampleEnv (sampleWeightedColumn 1073741824)
          (RectC 0 0 100 200)) = 40 ∧
    (PreLayoutCalc 0 sampleEnv (sampleWeightedColumn 1073741824) (RectC 0 0 100 200)).used_h
      = 40 ∧
    (sampleWeightedColumn 1073741824).used_h = 40 ∧
    (sampleWeightedColumn 1).used_h = 200 := by
  refine ⟨by decide, by decide, by decide, by decide, by decide, by decide, by decide,
    by decide, by decide, by decide⟩

/-- C33 (distribution never over-fills): the code does not do what the claim
says when the sum of the weights overflows.  For
`AddExpand(c0, INT_MAX); AddExpand(c1, INT_MAX); AddExpand(c2, 3)` with
`MinMaxWidth(0, 2048)` on the first two items, in a horizontal container with
wrap off, no fixed column and gap `0`, inner width `300`: the row has the base
widths `0`, `0`, `0` and fits; `int total_w` wraps around to `1`; the first two
shares are `-300`, which the min cap `0` turns into the width `0` while the
pool grows to `900`; the third share is `(int)(300 · 3 / 1) = 900`.  The row
ends `0 + 0 + 900 = 900` wide in the inner width `300`, and the used width is
`900`.  The same row with the weights `1`, `1`, `3` ends `60 + 60 + 180 = 300`
wide. -/
theorem C33_row_overfilled_on_overflow :
    (sampleWeightedRow INT_MAX true).fixed_column < 0 ∧
    (sampleWeightedRow INT_MAX true).items.map (fun it => (it.expandingWeight, it.minw, it.maxw))
      = [(INT_MAX, 0, 2048), (INT_MAX, 0, 2048), (3, -1, 2048)] ∧
    (plannedRows noProbe sampleEnv (sampleWeightedRow INT_MAX true) (RectC 0 0 300 100)).map
        (fun R => (R.cells.map (fun c => (c.idx, c.w)), R.gaps))
      = [([(0, 0), (1, 0), (2, 0)], [])] ∧
    (plannedRows noProbe sampleEnv (sampleWeightedRow INT_MAX true) (RectC 0 0 300 100)).map
        (rowSumW (sampleWeightedRow INT_MAX true).gap) = [0] ∧
    (plannedRows noProbe sampleEnv (sampleWeightedRow INT_MAX true) (RectC 0 0 300 100)).map
        (rowTotalWeight (plannedItems noProbe sampleEnv (sampleWeightedRow INT_MAX true)
          (RectC 0 0 300 100))) = [1] ∧
    (distributedRows noProbe sampleEnv (sampleWeightedRow INT_MAX true) (RectC 0 0 300 100)).map
        (fun R => R.cells.map (fun c => (c.idx, c.w)))
      = [[(0, 0), (1, 0), (2, 900)]] ∧
    (distributedRows noProbe sampleEnv (sampleWeightedRow INT_MAX true) (RectC 0 0 300 100)).map
        (rowSumW (sampleWeightedRow INT_MAX true).gap) = [900] ∧
    (PreLayoutCalc 0 sampleEnv (sampleWeightedRow INT_MAX true) (RectC 0 0 300 100)).used_w
      = 900 ∧
    (sampleWeightedRow INT_MAX true).used_w = 900 ∧
    (sampleWeightedRow INT_MAX true).items.map (fun it => it.cl.cell.GetWidth) = [0, 0, 900] ∧
    (sampleWeightedRow 1 true).items.map (fun it => it.cl.cell.GetWidth) = [60, 60, 180] ∧
    (sampleWeightedRow 1 true).used_w = 300 := by
  refine ⟨by decide, by decide, by decide, by decide, by decide, by decide, by decide,
    by decide, by decide, by decide, by decide, by decide⟩

end Upp
